import Mathlib

/-!
# emontx3-continuous: ADC sampler, sample queue and channel topology

Shallow embedding of `src/adc.cpp` (with the constants of `src/cont.h`).

Conventions of the embedding.

* A C array of `n` elements is a `List` of length `n`.  A read outside the
  bounds (`a[i]` with `i ≥ n`) or a write outside the bounds is undefined
  behaviour in C; here it makes the enclosing function return `none`.
* `uint8_t`, `uint16_t`, `uint32_t` values are `Nat`, `int16_t` values are
  `Int`; every arithmetic step that can leave the range of its C type is
  followed by the explicit reduction (`% 256`, `% 65536`, `to_int16`).
* The code between `cli()` and the restore of `SREG` runs atomically, and the
  interrupt handler itself is never interrupted, so every function of the
  module is one atomic state transformer on the module's globals; the
  interleaving of the handler with the main loop is the order in which the
  transformers are applied.
-/

namespace Emontx

/-! ## Constants (`cont.h`) -/

/-- Number of ADC input channels, `#define N_ADC_CHAN 5`. -/
def N_ADC_CHAN : Nat := 5

/-- Size of the ring buffer of ADC readings, `#define N_READINGS 16`. -/
def N_READINGS : Nat := 16

/-- Bit number of `REFS0` in `ADMUX` (AVR device header, ATmega328P). -/
def REFS0 : Nat := 6

/-! ## Data model -/

/-- The C `struct adc_readings_struct`: `int16_t vals[N_ADC_CHAN]`,
`uint32_t t`, `uint8_t set`. -/
structure adc_readings_struct where
  vals : List Int
  t : Nat
  set : Nat
deriving DecidableEq

/-- The two link arrays of the channel topology, `next_adc_chan[N_ADC_CHAN]`
and `prev_adc_chan[N_ADC_CHAN]` (both `uint8_t`). -/
structure chan_links where
  next_adc_chan : List Nat
  prev_adc_chan : List Nat
deriving DecidableEq

/-- The globals of `adc.cpp`, plus the hardware register `ADMUX`. -/
structure adc_state extends chan_links where
  cur_chan : Nat
  max_adc_depth : Nat
  adc_readings : List adc_readings_struct
  adc_offset : adc_readings_struct
  adc_write_index : Nat
  adc_read_index : Nat
  n_overflow : Nat
  ADMUX : Nat
deriving DecidableEq

/-- The constant table `adc_chans[N_ADC_CHAN] = {0, 1, 2, 3, 4}`. -/
def adc_chans : List Nat := [0, 1, 2, 3, 4]

/-- Array write `a[i] = v`; `none` when `i` is outside the array. -/
def arr_set {α : Type} (a : List α) (i : Nat) (v : α) : Option (List α) :=
  if i < a.length then some (a.set i v) else none

/-- Conversion of an integer to `int16_t` (two's complement wraparound). -/
def to_int16 (x : Int) : Int := (x + 32768) % 65536 - 32768

/-- A zero-filled `adc_readings_struct` (static storage is zero-initialised). -/
def zero_reading : adc_readings_struct :=
  { vals := List.replicate N_ADC_CHAN 0, t := 0, set := 0 }

/-- The globals as their initialisers leave them before `init_adc` runs:
`cur_chan = 1`, everything else zero. -/
def static_init : adc_state :=
  { next_adc_chan := List.replicate N_ADC_CHAN 0
    prev_adc_chan := List.replicate N_ADC_CHAN 0
    cur_chan := 1
    max_adc_depth := 0
    adc_readings := List.replicate N_READINGS zero_reading
    adc_offset := zero_reading
    adc_write_index := 0
    adc_read_index := 0
    n_overflow := 0
    ADMUX := 0 }

/-! ## Channel topology (`init_adc_chans`, `disable_adc_chan`) -/

/-- Body of the loop of `init_adc_chans` for index `j`. -/
def init_adc_chans_body (l : chan_links) (j : Nat) : Option chan_links := do
  let nx ← arr_set l.next_adc_chan j ((j + 1) % N_ADC_CHAN)
  let pv ← arr_set l.prev_adc_chan j ((j + N_ADC_CHAN - 1) % N_ADC_CHAN)
  some { next_adc_chan := nx, prev_adc_chan := pv }

/-- The function `init_adc_chans()`: `for (j = 0; j < N_ADC_CHAN; j++)`. -/
def init_adc_chans (l : chan_links) : Option chan_links :=
  (List.range N_ADC_CHAN).foldlM init_adc_chans_body l

/-- The function `disable_adc_chan(chan)`. -/
def disable_adc_chan (chan : Nat) (l : chan_links) : Option chan_links := do
  if chan = 0 then some l else
  let next ← l.next_adc_chan[chan]?
  let prev ← l.prev_adc_chan[chan]?
  if next = 0xff ∨ prev = 0xff then some l else
  let nx ← arr_set l.next_adc_chan prev next
  let pv ← arr_set l.prev_adc_chan next prev
  let nx ← arr_set nx chan 0xff
  let pv ← arr_set pv chan 0xff
  some { next_adc_chan := nx, prev_adc_chan := pv }

/-! ## Offsets and queue depth -/

/-- The function `set_adc_offset(chan, offset)`.  The test `chan >= 0` is
always true for a `uint8_t`; `&&` evaluates `adc_offset.vals[chan]` only when
`chan < N_ADC_CHAN`. -/
def set_adc_offset (chan : Nat) (offset : Int) (s : adc_state) : Option adc_state :=
  if chan < N_ADC_CHAN then do
    let cur ← s.adc_offset.vals[chan]?
    if cur = 0 then
      let vals ← arr_set s.adc_offset.vals chan offset
      some { s with adc_offset := { s.adc_offset with vals := vals } }
    else some s
  else some s

/-- The loop `while (depth > 0x80) depth += N_READINGS;` on a `uint8_t`;
`none` when the fuel runs out before the loop exits. -/
def depth_wrap : Nat → Nat → Option Nat
  | 0, _ => none
  | fuel + 1, depth =>
    if depth > 0x80 then depth_wrap fuel ((depth + N_READINGS) % 256) else some depth

/-- The `uint8_t` difference `adc_write_index - adc_read_index`. -/
def index_diff (w r : Nat) : Nat := (((w : Int) - (r : Int)) % 256).toNat

/-- The function `get_adc_depth()`: the returned depth and the state it
leaves. -/
def get_adc_depth (s : adc_state) : Option (Nat × adc_state) := do
  let depth := index_diff s.adc_write_index s.adc_read_index
  let depth ← depth_wrap 256 depth
  some (depth, s)

/-- The function `reset_overflow()`. -/
def reset_overflow (s : adc_state) : adc_state := { s with n_overflow := 0 }

/-! ## Consumer side: `get_next_adc_reading` -/

/-- One step `datap->vals[j] = adc_readings[cr].vals[j]` of the copy loop. -/
def copy_val (src : List Int) (dst : List Int) (j : Nat) : Option (List Int) := do
  let v ← src[j]?
  arr_set dst j v

/-- The function `get_next_adc_reading(reading)`: the return value, the
caller's `*reading` afterwards, and the state afterwards. -/
def get_next_adc_reading (reading : adc_readings_struct) (s : adc_state) :
    Option (Nat × adc_readings_struct × adc_state) := do
  let cr := s.adc_read_index
  let slot ← s.adc_readings[cr]?
  if slot.set = 0 then some (0, reading, s) else
  let readings := s.adc_readings.set cr { slot with set := 0 }
  let vals ← (List.range N_ADC_CHAN).foldlM (copy_val slot.vals) reading.vals
  let datap := { reading with t := slot.t, vals := vals }
  let cr1 := (cr + 1) % 256
  let cr2 := if cr1 ≥ N_READINGS then 0 else cr1
  let depth ← depth_wrap 256 (index_diff s.adc_write_index cr2)
  let mx := if depth > s.max_adc_depth then depth else s.max_adc_depth
  some (1, datap, { s with adc_readings := readings, adc_read_index := cr2, max_adc_depth := mx })

/-! ## Producer side: `init_adc` and the interrupt handler -/

/-- The part of `init_adc(prescalar)` that touches the modelled state: it
calls `init_adc_chans()` and points `ADMUX` at the channel before `cur_chan`.
The remaining register writes (`ADCSRA`, `ADCSRB`, `DIDR0`) configure the
converter and are not part of the state. -/
def init_adc (_prescalar : Nat) (s : adc_state) : Option adc_state := do
  let l ← init_adc_chans s.tochan_links
  let mux := (((s.cur_chan : Int) - 1 + (N_ADC_CHAN : Int)) % (N_ADC_CHAN : Int)).toNat
  some { s with tochan_links := l, ADMUX := (1 <<< REFS0) ||| mux }

/-- The block of `ISR(ADC_vect)` guarded by `if (ichn == 0)`: stamp the
reading at `cr`, mark it ready, advance, detect overflow, clear the next
slot. -/
def ISR_finalize (micros cr : Nat) (s : adc_state) : Option adc_state := do
  let slot ← s.adc_readings[cr]?
  let readings := s.adc_readings.set cr { slot with t := micros, set := 1 }
  let cr1 := (cr + 1) % 256
  let cr2 := if cr1 = N_READINGS then 0 else cr1
  let nxt ← readings[cr2]?
  let ri := if nxt.set ≠ 0 then
      (if (cr2 + 1) % 256 = N_READINGS then 0 else (cr2 + 1) % 256)
    else s.adc_read_index
  let nov := if nxt.set ≠ 0 then (s.n_overflow + 1) % 65536 else s.n_overflow
  some { s with
    adc_readings := readings.set cr2 { nxt with set := 0 }
    adc_read_index := ri
    n_overflow := nov
    adc_write_index := cr2 }

/-- The interrupt handler `ISR(ADC_vect)`.  `ADCW` is the conversion result
read from the converter and `micros` the value `micros()` returns during this
invocation. -/
def ISR_ADC_vect (ADCW micros : Nat) (s : adc_state) : Option adc_state := do
  let sample : Int := (ADCW : Int)
  let ich := s.cur_chan
  let ichr ← s.prev_adc_chan[ich]?
  let ichn ← s.next_adc_chan[ich]?
  let cr := s.adc_write_index
  let off ← s.adc_offset.vals[ichr]?
  let slot ← s.adc_readings[cr]?
  let vals ← arr_set slot.vals ichr (to_int16 (sample - off))
  let s1 := { s with adc_readings := s.adc_readings.set cr { slot with vals := vals } }
  let s2 ← if ichn = 0 then ISR_finalize micros cr s1 else some s1
  let mux ← adc_chans[ichn]?
  some { s2 with ADMUX := (s2.ADMUX &&& 0xf0) ||| mux, cur_chan := ichn }

/-! ## Definitions used to state the properties of the handler's store -/

/-- The state `init_adc` establishes from the static initialisers. -/
def fresh_state : adc_state :=
  { static_init with
    next_adc_chan := [1, 2, 3, 4, 0]
    prev_adc_chan := [4, 0, 1, 2, 3]
    ADMUX := 64 }

/-- A state of the module with two Samples waiting (slots 15 and 0 are ready)
and slot 1 under assembly, used to instantiate the theorems: read cursor 15,
write cursor 1, the handler about to store channel 1. -/
def demo_state : adc_state :=
  { fresh_state with
    cur_chan := 2
    adc_readings :=
      ((fresh_state.adc_readings.set 15 { vals := [1, 2, 3, 4, 5], t := 7, set := 1 }).set 0
        { vals := [6, 7, 8, 9, 10], t := 8, set := 1 }).set 1
        { vals := [11, 0, 0, 0, 12], t := 0, set := 0 }
    adc_read_index := 15
    adc_write_index := 1 }

/-- The reading the handler leaves in the slot under assembly after its store. -/
def stored_slot (ADCW : Nat) (off : Int) (p : Nat) (slot : adc_readings_struct) :
    adc_readings_struct :=
  { slot with vals := slot.vals.set p (to_int16 ((ADCW : Int) - off)) }

/-- Value of channel `j` in slot `i` of a ring of readings. -/
def chan_val (rd : List adc_readings_struct) (i j : Nat) : Option Int :=
  (rd[i]?).bind (fun r => r.vals[j]?)

/-! ## Definitions used to state the properties of the channel cycle -/

/-- The channels the handler visits when it follows `next_adc_chan` from
channel `c` until the link leads back to channel 0; `none` when a link leaves
the array or channel 0 is not reached within the fuel. -/
def follow_next (l : chan_links) : Nat → Nat → Option (List Nat)
  | 0, _ => none
  | fuel + 1, c =>
    match l.next_adc_chan[c]? with
    | none => none
    | some n => if n = 0 then some [c] else (follow_next l fuel n).map (fun t => c :: t)

/-- The cycle of channels starting at channel 0. -/
def chan_cycle (l : chan_links) : Option (List Nat) := follow_next l N_ADC_CHAN 0

/-- A sequence of `disable_adc_chan` calls. -/
def disable_all (cs : List Nat) (l : chan_links) : Option chan_links :=
  cs.foldlM (fun l c => disable_adc_chan c l) l

/-- Bit `c` of the mask `m`: channel `c` has been removed. -/
def mask_has (m c : Nat) : Bool := (m / 2 ^ c) % 2 = 1

/-- The mask after `disable_adc_chan c`. -/
def mask_add (m c : Nat) : Nat := if c = 0 ∨ mask_has m c then m else m + 2 ^ c

/-- First channel not in the mask among `c+1, c+2, ...` (cyclically). -/
def mask_next (m c : Nat) : Nat :=
  (([1, 2, 3, 4, 5].map (fun k => (c + k) % 5)).find? (fun d => !mask_has m d)).getD 0

/-- First channel not in the mask among `c-1, c-2, ...` (cyclically). -/
def mask_prev (m c : Nat) : Nat :=
  (([1, 2, 3, 4, 5].map (fun k => (c + 5 - k) % 5)).find? (fun d => !mask_has m d)).getD 0

/-- The links of the cycle over the channels outside the mask. -/
def mask_links (m : Nat) : chan_links :=
  { next_adc_chan := (List.range 5).map (fun c => if mask_has m c then 0xff else mask_next m c)
    prev_adc_chan := (List.range 5).map (fun c => if mask_has m c then 0xff else mask_prev m c) }

/-- The properties of a well-formed cycle, for the removed set `m`. -/
def cycle_ok (m : Nat) (l : chan_links) : Prop :=
  (∀ c < 5, mask_has m c = true →
    l.next_adc_chan[c]? = some 0xff ∧ l.prev_adc_chan[c]? = some 0xff) ∧
  (∀ c < 5, mask_has m c = false →
    ∃ n < 5, ∃ p < 5, l.next_adc_chan[c]? = some n ∧ l.prev_adc_chan[c]? = some p ∧
      l.prev_adc_chan[n]? = some c ∧ l.next_adc_chan[p]? = some c) ∧
  chan_cycle l = some ((List.range 5).filter (fun c => !mask_has m c))

instance (m : Nat) (l : chan_links) : Decidable (cycle_ok m l) := by
  unfold cycle_ok
  infer_instance

/-! ## Definitions used to state the properties of the sample queue -/

/-- A Sample as the consumer receives it: its timestamp and channel values. -/
def sample_of (r : adc_readings_struct) : Nat × List Int := (r.t, r.vals)

/-- Slot `i` of a ring of readings. -/
def slot_at (rd : List adc_readings_struct) (i : Nat) : adc_readings_struct :=
  (rd[i]?).getD zero_reading

/-- The reading the handler marks ready: the slot under assembly after the
store, stamped with `micros`. -/
def ready_slot (a m : Nat) (s : adc_state) (p : Nat) : adc_readings_struct :=
  { stored_slot a (s.adc_offset.vals.getD p 0) p (slot_at s.adc_readings s.adc_write_index) with
    t := m, set := 1 }

/-- The handler is about to finish a reading: its test `ichn == 0`. -/
def is_last (s : adc_state) : Bool := s.next_adc_chan[s.cur_chan]? = some 0

/-- Number of slots from the read cursor up to the write cursor. -/
def ring_depth (s : adc_state) : Nat :=
  (s.adc_write_index + N_READINGS - s.adc_read_index) % N_READINGS

/-- The Samples in the slots from the read cursor up to the write cursor,
oldest first. -/
def queue (s : adc_state) : List (Nat × List Int) :=
  (List.range (ring_depth s)).map
    (fun k => sample_of (slot_at s.adc_readings ((s.adc_read_index + k) % N_READINGS)))

/-- Repeated `get_next_adc_reading` calls until one returns 0: the Samples
they deliver, in order; `none` when the fuel runs out first. -/
def pop_all : Nat → adc_readings_struct → adc_state → Option (List (Nat × List Int))
  | 0, _, _ => none
  | fuel + 1, reading, s =>
    match get_next_adc_reading reading s with
    | none => none
    | some (ret, rd, s') =>
      if ret = 0 then some [] else (pop_all fuel rd s').map (fun t => sample_of rd :: t)

/-- The Samples the queue holds: what the consumer receives when it pops
until the queue is empty. -/
def unread (s : adc_state) : Option (List (Nat × List Int)) :=
  pop_all N_READINGS zero_reading s

/-- One action on the module: a conversion-complete interrupt with the values
it reads from the hardware, or a call of the main loop: `get_next_adc_reading`,
`set_adc_offset`, `reset_overflow` or `init_adc_chans`. -/
inductive event where
  | isr (ADCW micros : Nat)
  | pop
  | set_offset (chan : Nat) (offset : Int)
  | reset_ovf
  | init_chans
deriving DecidableEq

/-- A run of the module with its history: the state, the main loop's reading
buffer, the Samples the handler has marked ready (oldest first), the Samples
successful pops have returned (oldest first), and the number of handler
invocations that changed `n_overflow`. -/
structure trace where
  st : adc_state
  reading : adc_readings_struct
  pushed : List (Nat × List Int)
  popped : List (Nat × List Int)
  overflows : Nat
deriving DecidableEq

/-- The run that has just begun in state `s`. -/
def start (s : adc_state) : trace :=
  { st := s, reading := zero_reading, pushed := [], popped := [], overflows := 0 }

/-- One event of a run. -/
def step (tr : trace) : event → Option trace
  | .isr a m =>
    match ISR_ADC_vect a m tr.st with
    | none => none
    | some s' =>
      some { tr with
        st := s'
        pushed :=
          if is_last tr.st then
            tr.pushed ++ [sample_of (slot_at s'.adc_readings tr.st.adc_write_index)]
          else tr.pushed
        overflows :=
          if s'.n_overflow = tr.st.n_overflow then tr.overflows else tr.overflows + 1 }
  | .pop =>
    match get_next_adc_reading tr.reading tr.st with
    | none => none
    | some (ret, rd, s') =>
      some { tr with
        st := s'
        reading := rd
        popped := if ret = 0 then tr.popped else tr.popped ++ [sample_of rd] }
  | .set_offset chan offset =>
    match set_adc_offset chan offset tr.st with
    | none => none
    | some s' => some { tr with st := s' }
  | .reset_ovf => some { tr with st := reset_overflow tr.st }
  | .init_chans =>
    match init_adc_chans tr.st.tochan_links with
    | none => none
    | some l => some { tr with st := { tr.st with tochan_links := l } }

/-- A sequence of events. -/
def run (tr : trace) (evs : List event) : Option trace := evs.foldlM step tr

/-- Slot `i` lies cyclically in `[adc_read_index, adc_write_index)`. -/
def in_window (s : adc_state) (i : Nat) : Prop :=
  (i + N_READINGS - s.adc_read_index) % N_READINGS <
    (s.adc_write_index + N_READINGS - s.adc_read_index) % N_READINGS

/-- Invariant of the queue while the channel cycle is intact: arrays have
their declared sizes, the cursors are in range, and a slot is marked ready
exactly when it lies between the read and the write cursor. -/
structure queue_inv (s : adc_state) : Prop where
  links : s.tochan_links =
    { next_adc_chan := [1, 2, 3, 4, 0], prev_adc_chan := [4, 0, 1, 2, 3] }
  chan : s.cur_chan < N_ADC_CHAN
  off_len : s.adc_offset.vals.length = N_ADC_CHAN
  rd_len : s.adc_readings.length = N_READINGS
  vals_len : ∀ slot ∈ s.adc_readings, slot.vals.length = N_ADC_CHAN
  rlt : s.adc_read_index < N_READINGS
  wlt : s.adc_write_index < N_READINGS
  flags : ∀ i < N_READINGS, ((slot_at s.adc_readings i).set ≠ 0 ↔ in_window s i)

/-- Invariant of a run from the initial state. -/
structure trace_inv (tr : trace) : Prop where
  qi : queue_inv tr.st
  rl : tr.reading.vals.length = N_ADC_CHAN
  fifo : tr.overflows = 0 → tr.pushed = tr.popped ++ queue tr.st

/-- Invariant of a run without pops, after `n` handler invocations: the
handler's channel follows the invocation count, one Sample has been marked
ready for every completed sweep, the queue holds the most recent
`N_READINGS - 1` of them and `n_overflow` counts the others modulo 2^16. -/
structure sweep_inv (tr : trace) (n : Nat) : Prop where
  qi : queue_inv tr.st
  rl : tr.reading.vals.length = N_ADC_CHAN
  np : tr.popped = []
  chan : tr.st.cur_chan = (n + 1) % N_ADC_CHAN
  len : tr.pushed.length = (n + 1) / N_ADC_CHAN
  q : queue tr.st = tr.pushed.drop (tr.pushed.length - (N_READINGS - 1))
  nov : tr.st.n_overflow = (tr.pushed.length - (N_READINGS - 1)) % 65536
  ovf : tr.overflows = tr.pushed.length - (N_READINGS - 1)

/-- The events of a run of handler invocations only, one for each pair
`(ADCW, micros)` of hardware readings. -/
def isr_events (ins : List (Nat × Nat)) : List event :=
  ins.map (fun p => event.isr p.1 p.2)

/-! ## Definitions used to state which channels a Sample was assembled from -/

/-- The channel the handler stores into: `ichr = prev_adc_chan[cur_chan]`. -/
def stored_chan (s : adc_state) : Option Nat := s.prev_adc_chan[s.cur_chan]?

/-- For a run of handler invocations from state `s`: for every Sample marked
ready, the channels the handler stored since the previous Sample was marked
ready.  `cur` lists the channels stored so far for the Sample under
assembly. -/
def sweep_log : adc_state → List Nat → List (Nat × Nat) → Option (List (List Nat))
  | _, _, [] => some []
  | s, cur, (a, m) :: ins =>
    match stored_chan s, ISR_ADC_vect a m s with
    | some p, some s' =>
      if is_last s then (sweep_log s' [] ins).map (fun t => (cur ++ [p]) :: t)
      else sweep_log s' (cur ++ [p]) ins
    | _, _ => none

/-- The log of `n` handler invocations over the intact cycle of all
`N_ADC_CHAN` channels, entered with `cur_chan = c`. -/
def cycle_log : Nat → List Nat → Nat → List (List Nat)
  | _, _, 0 => []
  | c, cur, n + 1 =>
    if c = N_ADC_CHAN - 1 then
      (cur ++ [(c + N_ADC_CHAN - 1) % N_ADC_CHAN]) :: cycle_log ((c + 1) % N_ADC_CHAN) [] n
    else
      cycle_log ((c + 1) % N_ADC_CHAN) (cur ++ [(c + N_ADC_CHAN - 1) % N_ADC_CHAN]) n

/-! # The signal-processing state machine (`src/state.cpp`)

Further conventions.

* `int32_t` values are `Int`; additions to an `int32_t` accumulator wrap as
  the two's-complement instructions of the target do (`to_int32`).
* A `float` is kept as its bit pattern; no floating-point arithmetic is
  modelled.  Where a function computes a `float` the result is supplied by a
  parameter.
* A division by zero is undefined behaviour and makes the function return
  `none`.
* The `Serial.print` calls write to the serial port and touch none of the
  modelled variables; they are left out.
-/

/-! ## Constants (`cont.h`) -/

/-- The ADC clock prescalar, `#define ADC_PRESCALAR 64`. -/
def ADC_PRESCALAR : Nat := 64

/-- One second in microseconds, `#define SECS (1000000)`. -/
def SECS : Nat := 1000000

/-- The stabilisation time, `#define STABILIZE_DURATION (10*SECS)`. -/
def STABILIZE_DURATION : Nat := 10 * SECS

/-- State `STATE_STAB`: stabilise inputs. -/
def STATE_STAB : Nat := 0

/-- State `STATE_SCAN`: scan inputs for signals present. -/
def STATE_SCAN : Nat := 1

/-- State `STATE_ZER1`: wait for the next zero crossing. -/
def STATE_ZER1 : Nat := 2

/-- State `STATE_FREQ`: accumulate mains frequency data. -/
def STATE_FREQ : Nat := 3

/-- State `STATE_CALF`: calculate the mains frequency. -/
def STATE_CALF : Nat := 4

/-- State `STATE_STAT`: accumulate statistics. -/
def STATE_STAT : Nat := 5

/-- State `STATE_CALS`: calculate statistics. -/
def STATE_CALS : Nat := 6

/-- Number of current channels, `#define N_CUR_CHAN (N_ADC_CHAN-1)`. -/
def N_CUR_CHAN : Nat := N_ADC_CHAN - 1

/-- Size of the voltage history ring, `#define N_VHIST_RING 24`. -/
def N_VHIST_RING : Nat := 24

/-! ## Data model -/

/-- Conversion of an integer to `int32_t` (two's complement wraparound). -/
def to_int32 (x : Int) : Int := (x + 2147483648) % 4294967296 - 2147483648

/-- A C `float`, kept as its 32-bit pattern. -/
structure c_float where
  bits : Nat
deriving DecidableEq

/-- The `float` with all bits zero, `+0.0`. -/
def float_zero : c_float := { bits := 0 }

/-- The comparison `f == 0` of a `float`: true for `+0.0` and `-0.0`. -/
def float_is_zero (f : c_float) : Bool := f.bits % 2147483648 = 0

/-- The C `struct reading_stats`. -/
structure reading_stats where
  present : Nat
  n : Nat
  val : Int
  oldval : Int
  wt_sum : Int
  val_sum : Int
  val2_sum : Nat
  val_min : Int
  val_max : Int
  prod_sum : Int
  proddel_sum : Int
  val_rms : c_float
  pow_ac : c_float
  pow_re : c_float
deriving DecidableEq

/-- The globals of `state.cpp` that the functions below use, the
function-local `static` variables (`stab_nreadings` of `stabilize_inputs`,
`scan_nreadings` and `scan_first` of `scan_inputs`, `zc_nreadings` and
`zc_old_time` of `zero_crossing`), and the state of the ADC module. -/
structure sm_state where
  adc : adc_state
  vstats : reading_stats
  istats : List reading_stats
  cosph : List c_float
  sinph : List c_float
  sample_period : Nat
  vmains_period : Nat
  vmains_fprod : c_float
  start_time : Nat
  ncycles : Nat
  vhist_ring : List Int
  vhist_cur : Nat
  vhist_lookback : Nat
  stab_nreadings : Nat
  scan_nreadings : Nat
  scan_first : Nat
  zc_nreadings : Nat
  zc_old_time : Nat
deriving DecidableEq

/-- A `reading_stats` with every field zero. -/
def zero_stats : reading_stats :=
  { present := 0, n := 0, val := 0, oldval := 0, wt_sum := 0, val_sum := 0, val2_sum := 0,
    val_min := 0, val_max := 0, prod_sum := 0, proddel_sum := 0,
    val_rms := float_zero, pow_ac := float_zero, pow_re := float_zero }

/-- The variables as their initialisers leave them, with the ADC module in
state `adc`: `vhist_cur = N_VHIST_RING`, `first = 1` in `scan_inputs`,
everything else zero. -/
def sm_init (adc : adc_state) : sm_state :=
  { adc := adc
    vstats := zero_stats
    istats := List.replicate N_CUR_CHAN zero_stats
    cosph := List.replicate N_CUR_CHAN float_zero
    sinph := List.replicate N_CUR_CHAN float_zero
    sample_period := 0
    vmains_period := 0
    vmains_fprod := float_zero
    start_time := 0
    ncycles := 0
    vhist_ring := List.replicate N_VHIST_RING 0
    vhist_cur := N_VHIST_RING
    vhist_lookback := 0
    stab_nreadings := 0
    scan_nreadings := 0
    scan_first := 1
    zc_nreadings := 0
    zc_old_time := 0 }

/-! ## Utilities (`store_vhist`, `retrieve_vhist`, `init_stats`) -/

/-- The function `store_vhist(val)`. -/
def store_vhist (val : Int) (s : sm_state) : Option sm_state := do
  let cur := (s.vhist_cur + 1) % N_VHIST_RING
  let ring ← arr_set s.vhist_ring cur val
  some { s with vhist_cur := cur, vhist_ring := ring }

/-- The loop `while (cur >= N_VHIST_RING) cur -= N_VHIST_RING;` on a
`uint8_t`; `none` when the fuel runs out before the loop exits. -/
def vhist_wrap : Nat → Nat → Option Nat
  | 0, _ => none
  | fuel + 1, cur =>
    if cur ≥ N_VHIST_RING then vhist_wrap fuel (cur - N_VHIST_RING) else some cur

/-- The function `retrieve_vhist(ilookback)`. -/
def retrieve_vhist (ilookback : Nat) (s : sm_state) : Option Int := do
  let cur0 := (((s.vhist_cur : Int) + (N_VHIST_RING : Int) - (ilookback : Int)) % 256).toNat
  let cur ← vhist_wrap 256 cur0
  s.vhist_ring[cur]?

/-- The function `init_stats(s)`: `memset` to zero, `present` kept. -/
def init_stats (st : reading_stats) : reading_stats :=
  { zero_stats with present := st.present }

/-- A `for (j = 0; j < N_CUR_CHAN; j++)` loop that updates `istats[j]`
with `body j`. -/
def for_istats (body : Nat → reading_stats → Option reading_stats)
    (istats : List reading_stats) : Option (List reading_stats) :=
  (List.range N_CUR_CHAN).foldlM
    (fun l j => do
      let st ← l[j]?
      let st' ← body j st
      arr_set l j st') istats

/-- A sequence of calls of a state function, one for each reading: the values
returned and the final state. -/
def feed (f : adc_readings_struct → sm_state → Option (Nat × sm_state)) :
    List adc_readings_struct → sm_state → Option (List Nat × sm_state)
  | [], s => some ([], s)
  | r :: rs, s =>
    match f r s with
    | none => none
    | some (ret, s') =>
      match feed f rs s' with
      | none => none
      | some (rets, s'') => some (ret :: rets, s'')

/-! ## `STATE_STAB`: `stabilize_inputs` -/

/-- The bound in `stabilize_inputs`,
`(uint16_t) (9615 / N_ADC_CHAN) * (128/ADC_PRESCALAR) * (STABILIZE_DURATION/1000000)`:
the first product is an `unsigned int` (16 bits on the AVR), the second a
`long`. -/
def stab_threshold : Int :=
  to_int32 (((((9615 / N_ADC_CHAN) % 65536) * (128 / ADC_PRESCALAR)) % 65536 : Nat) *
    ((STABILIZE_DURATION / 1000000 : Nat) : Int))

/-- The function `stabilize_inputs(reading, curstate, nextstate)`. -/
def stabilize_inputs (_reading : adc_readings_struct) (curstate nextstate : Nat)
    (s : sm_state) : Option (Nat × sm_state) := do
  let l ← init_adc_chans s.adc.tochan_links
  let s1 := { s with adc := { s.adc with tochan_links := l } }
  let nreadings := (s.stab_nreadings + 1) % 65536
  if (nreadings : Int) < stab_threshold then
    some (curstate, { s1 with stab_nreadings := nreadings })
  else
    some (nextstate, { s1 with stab_nreadings := 0 })

/-! ## `STATE_SCAN`: `scan_inputs` -/

/-- The block `if (first) { ... }` of `scan_inputs`. -/
def scan_first_block (reading : adc_readings_struct) (s : sm_state) : Option sm_state :=
  if s.scan_first ≠ 0 then do
    let istats ← for_istats (fun _ st => some (init_stats st)) s.istats
    some { s with
      vstats := init_stats s.vstats
      istats := istats
      scan_first := 0
      adc := { s.adc with max_adc_depth := 0 }
      start_time := reading.t }
  else some s

/-- The statistics block of `scan_inputs` for one record,
`if (st.present || st.val > 0) { ... }`. -/
def scan_accum (st : reading_stats) : reading_stats :=
  if st.present ≠ 0 ∨ st.val > 0 then
    let val := st.val
    let st1 := if st.n = 0 then { st with val_min := val, val_max := val } else st
    let st2 := if val < st1.val_min then { st1 with val_min := val } else st1
    let st3 := if val > st2.val_max then { st2 with val_max := val } else st2
    { st3 with val_sum := to_int32 (st3.val_sum + val), n := (st3.n + 1) % 65536 }
  else st

/-- The lines of `scan_inputs` from `vstats.val = reading->vals[0]` to the end
of the loop "Compute current stats". -/
def scan_stats_block (reading : adc_readings_struct) (s : sm_state) : Option sm_state := do
  let v ← reading.vals[0]?
  let istats ← for_istats
    (fun j st => do
      let x ← reading.vals[j + 1]?
      some { st with val := x }) s.istats
  let vstats := scan_accum { s.vstats with val := v }
  let istats ← for_istats (fun _ st => some (scan_accum st)) istats
  some { s with vstats := vstats, istats := istats }

/-- The test `st.present || (st.n > 0 && st.val_sum != 0)`. -/
def scan_has_signal (st : reading_stats) : Bool :=
  st.present ≠ 0 ∨ (st.n > 0 ∧ st.val_sum ≠ 0)

/-- The declaration `int16_t mean = st.val_sum / st.n;`. -/
def scan_mean (st : reading_stats) : Option Int :=
  if st.n = 0 then none else some (to_int16 (Int.tdiv st.val_sum (st.n : Int)))

/-- The body of the last loop of `scan_inputs` for channel `j`, on the ADC
state, `istats` and `n_cur_chan`.  `notice` is the table `adc_notice_chan`,
whose initialiser `ADC_NOTICE_CHAN` is not part of the sources. -/
def scan_commit_chan (notice : List Nat)
    (acc : adc_state × List reading_stats × Nat) (j : Nat) :
    Option (adc_state × List reading_stats × Nat) := do
  let flag ← notice[j]?
  if flag = 0 then some acc else
  let st ← acc.2.1[j]?
  if scan_has_signal st then
    let mean ← scan_mean st
    let adc ← set_adc_offset (j + 1) mean acc.1
    let istats ← arr_set acc.2.1 j { st with present := 1, val_sum := 0, n := 0 }
    some (adc, istats, (acc.2.2 + 1) % 256)
  else some acc

/-- The lines of `scan_inputs` after `sample_period` has been set: the
decision on the voltage channel, the loop that commits the current channels,
and the return. -/
def scan_decide (notice : List Nat) (nextstate : Nat) (s : sm_state) :
    Option (Nat × sm_state) :=
  if scan_has_signal s.vstats then do
    let mean ← scan_mean s.vstats
    let adc ← set_adc_offset 0 mean s.adc
    let vstats := { s.vstats with present := 1, val_sum := 0, n := 0 }
    let acc ← (List.range N_CUR_CHAN).foldlM (scan_commit_chan notice) (adc, s.istats, 0)
    let s1 := { s with adc := acc.1, istats := acc.2.1, vstats := vstats }
    if acc.2.2 = 0 then some (STATE_STAB, s1) else
    some (nextstate,
      { s1 with scan_nreadings := 0, scan_first := 1, start_time := 0,
                vstats := init_stats vstats })
  else some (STATE_STAB, s)

/-- The function `scan_inputs(reading, curstate, nextstate)`. -/
def scan_inputs (notice : List Nat) (reading : adc_readings_struct)
    (curstate nextstate : Nat) (s : sm_state) : Option (Nat × sm_state) := do
  let s1 ← scan_first_block reading s
  let s2 ← scan_stats_block reading s1
  let nreadings := (s2.scan_nreadings + 1) % 65536
  let s3 := { s2 with scan_nreadings := nreadings }
  if nreadings < 4000 then some (curstate, s3) else
  scan_decide notice nextstate
    { s3 with sample_period :=
        (((reading.t : Int) - (s3.start_time : Int)) % 4294967296).toNat / nreadings }

/-! ## `STATE_ZER1`: `zero_crossing` -/

/-- The function `zero_crossing(reading, nclear, curstate, nextstate)`. -/
def zero_crossing (reading : adc_readings_struct) (nclear : Nat) (curstate nextstate : Nat)
    (s : sm_state) : Option (Nat × sm_state) := do
  let v ← reading.vals[0]?
  let nreadings := (s.zc_nreadings + 1) % 65536
  let s1 ← store_vhist v
    { s with
      vstats := { s.vstats with oldval := s.vstats.val, val := v }
      zc_nreadings := nreadings }
  if nreadings > nclear ∧ s1.vstats.oldval < 0 ∧ s1.vstats.val ≥ 0 then
    some (nextstate,
      { s1 with
        adc := reset_overflow { s1.adc with max_adc_depth := 0 }
        zc_old_time := reading.t
        zc_nreadings := 0 })
  else some (curstate, s1)

/-! ## `STATE_FREQ` and `STATE_CALF`: `accum_freq`, `calc_freq` -/

/-- The function `accum_freq(reading, curstate, nextstate)`. -/
def accum_freq (reading : adc_readings_struct) (curstate _nextstate : Nat)
    (s : sm_state) : Option (Nat × sm_state) := do
  let s0 := if s.start_time = 0 then { s with start_time := reading.t } else s
  let v ← reading.vals[0]?
  let s1 ← store_vhist v
    { s0 with vstats := { s0.vstats with oldval := s0.vstats.val, val := v } }
  if ¬ (s1.vstats.oldval < 0 ∧ s1.vstats.val ≥ 0) then some (curstate, s1) else
  let s2 := { s1 with ncycles := (s1.ncycles + 1) % 65536 }
  if s2.ncycles < 120 then some (curstate, s2) else
  some (STATE_CALF, s2)

/-- The function `calc_freq(reading, curstate, nextstate)`.  `fcos j sp vp`
and `fsin j sp vp` stand for the `float` values `cos(ph)` and `sin(ph)` the
loop computes for channel `j` from `sample_period = sp` and
`vmains_period = vp`. -/
def calc_freq (fcos fsin : Nat → Nat → Nat → c_float) (reading : adc_readings_struct)
    (_curstate nextstate : Nat) (s : sm_state) : Option (Nat × sm_state) := do
  if s.ncycles = 0 then none else
  let vmains_period :=
    (((reading.t : Int) - (s.start_time : Int)) % 4294967296).toNat / s.ncycles
  let den := (s.sample_period * 4) % 4294967296
  if den = 0 then none else
  let lookback := ((vmains_period + (2 * s.sample_period) % 4294967296) % 4294967296) / den
  let acc ← (List.range N_CUR_CHAN).foldlM
    (fun (acc : List c_float × List c_float) j => do
      let c ← arr_set acc.1 j (fcos j s.sample_period vmains_period)
      let d ← arr_set acc.2 j (fsin j s.sample_period vmains_period)
      some (c, d)) (s.cosph, s.sinph)
  some (nextstate,
    { s with
      vmains_period := vmains_period
      vhist_lookback := lookback % 256
      cosph := acc.1
      sinph := acc.2
      ncycles := 0
      start_time := 0
      adc := { s.adc with max_adc_depth := 0 } })

/-! ## `STATE_STAT`: `accum_stats` -/

/-- The macro `mac16x16_32(a,b,c)` on an `int32_t` accumulator,
`(a) += (int32_t) (b)*(c)` (the definition given in `cont.h`). -/
def mac16x16_32 (a b c : Int) : Int := to_int32 (a + to_int32 (b * c))

/-- The macro `mac16x16_32(a,b,c)` on the `uint32_t` accumulator
`val2_sum`. -/
def mac16x16_32u (a : Nat) (b c : Int) : Nat :=
  (((a : Int) + to_int32 (b * c)) % 4294967296).toNat

/-- The body of the loop "Compute current stats" of `accum_stats` for
channel `j`. -/
def accum_chan (reading : adc_readings_struct) (vval vdel : Int) (j : Nat)
    (st : reading_stats) : Option reading_stats := do
  let val ← reading.vals[j + 1]?
  if st.present ≠ 0 then
    some { st with
      oldval := st.val
      val := val
      val_sum := to_int32 (st.val_sum + val)
      val2_sum := mac16x16_32u st.val2_sum val val
      prod_sum := mac16x16_32 st.prod_sum val vval
      proddel_sum := mac16x16_32 st.proddel_sum val vdel
      n := (st.n + 1) % 65536 }
  else some st

/-- The block "Voltage statistics" of `accum_stats` after the history ring
has been updated: the sums, the sample count and the extremes of `vstats`. -/
def accum_voltage (fprod : c_float) (vval vdel : Int) (vs : reading_stats) : reading_stats :=
  let vs1 := { vs with
    val_sum := to_int32 (vs.val_sum + vval)
    val2_sum := mac16x16_32u vs.val2_sum vval vval }
  let vs2 := if float_is_zero fprod then
      { vs1 with proddel_sum := mac16x16_32 vs1.proddel_sum vval vdel }
    else vs1
  let vs3 := { vs2 with n := (vs2.n + 1) % 65536 }
  let vs4 := if vval > vs3.val_max then { vs3 with val_max := vval } else vs3
  if vval < vs4.val_min then { vs4 with val_min := vval } else vs4

/-- The lines of `accum_stats` up to the end of the loop "Compute current
stats". -/
def accum_stats_block (reading : adc_readings_struct) (s : sm_state) : Option sm_state := do
  let s0 := if s.start_time = 0 then { s with start_time := reading.t, ncycles := 0 } else s
  let vval ← reading.vals[0]?
  let s1 ← store_vhist vval
    { s0 with vstats := { s0.vstats with oldval := s0.vstats.val, val := vval } }
  let vdel ← retrieve_vhist s1.vhist_lookback s1
  let istats ← for_istats (accum_chan reading vval vdel) s1.istats
  some { s1 with vstats := accum_voltage s1.vmains_fprod vval vdel s1.vstats, istats := istats }

/-- The function `accum_stats(reading, tdur, curstate, nextstate)`. -/
def accum_stats (reading : adc_readings_struct) (tdur : Nat) (curstate _nextstate : Nat)
    (s : sm_state) : Option (Nat × sm_state) := do
  let s1 ← accum_stats_block reading s
  if ¬ (s1.vstats.oldval < 0 ∧ s1.vstats.val ≥ 0) then some (curstate, s1) else
  let s2 := { s1 with ncycles := (s1.ncycles + 1) % 65536 }
  if (((reading.t : Int) - (s2.start_time : Int)) % 4294967296).toNat < tdur then
    some (curstate, s2)
  else some (STATE_CALS, s2)

/-! ## Definitions used to state the properties of the state machine -/

/-- The links of the full channel cycle, as `init_adc_chans` writes them. -/
def default_links : chan_links :=
  { next_adc_chan := [1, 2, 3, 4, 0], prev_adc_chan := [4, 0, 1, 2, 3] }

/-- The voltage value of a reading, `reading->vals[0]`. -/
def volt_of (r : adc_readings_struct) : Int := (r.vals[0]?).getD 0

/-- The voltage value of the last reading of a list; `prev` when the list is
empty. -/
def last_volt (prev : Int) (rs : List adc_readings_struct) : Int :=
  rs.foldl (fun _ r => volt_of r) prev

/-- Number of rising zero crossings (previous voltage `< 0`, current one
`≥ 0`) in a list of readings that follows a reading with voltage `prev`. -/
def rising_count : Int → List adc_readings_struct → Nat
  | _, [] => 0
  | prev, r :: rs =>
    (if prev < 0 ∧ volt_of r ≥ 0 then 1 else 0) + rising_count (volt_of r) rs

/-- A reading with voltage value `v`, all other channels 0. -/
def volt_reading (v : Int) : adc_readings_struct :=
  { vals := [v, 0, 0, 0, 0], t := 0, set := 1 }

/-- A voltage signal that alternates between -1 and 1, `k` readings long,
starting with -1. -/
def alternating (k : Nat) : List adc_readings_struct :=
  (List.range k).map (fun i => volt_reading (if i % 2 = 0 then -1 else 1))

/-- Value of channel `c` of a reading, `reading->vals[c]`. -/
def chan_of (c : Nat) (r : adc_readings_struct) : Int := (r.vals[c]?).getD 0

/-- What `scan_inputs` does to the statistics record of channel `c` for one
reading: `val` is set, then the statistics block runs. -/
def scan_chan (c : Nat) (st : reading_stats) (r : adc_readings_struct) : reading_stats :=
  scan_accum { st with val := chan_of c r }

/-- The state after the block `if (first) { ... }` of `scan_inputs` has run
with `first` set. -/
def scan_begin (r : adc_readings_struct) (s : sm_state) : sm_state :=
  { s with
    vstats := init_stats s.vstats
    istats := [init_stats (s.istats.getD 0 zero_stats), init_stats (s.istats.getD 1 zero_stats),
      init_stats (s.istats.getD 2 zero_stats), init_stats (s.istats.getD 3 zero_stats)]
    scan_first := 0
    adc := { s.adc with max_adc_depth := 0 }
    start_time := r.t }

/-- The state after a call of `scan_inputs` with `first` clear, up to and
including the statement `nreadings ++`. -/
def scan_step (s : sm_state) (r : adc_readings_struct) : sm_state :=
  { s with
    vstats := scan_chan 0 s.vstats r
    istats := [scan_chan 1 (s.istats.getD 0 zero_stats) r,
      scan_chan 2 (s.istats.getD 1 zero_stats) r,
      scan_chan 3 (s.istats.getD 2 zero_stats) r,
      scan_chan 4 (s.istats.getD 3 zero_stats) r]
    scan_nreadings := (s.scan_nreadings + 1) % 65536 }

/-- The readings of channel `c` that are `> 0`, in order. -/
def pos_vals (c : Nat) (rs : List adc_readings_struct) : List Int :=
  (rs.map (chan_of c)).filter (fun x => decide (x > 0))

/-- The integer mean of the readings of channel `c` that are `> 0`. -/
def pos_mean (c : Nat) (rs : List adc_readings_struct) : Int :=
  (pos_vals c rs).sum / ((pos_vals c rs).length : Int)

/-- The integer mean of all readings of channel `c`, truncated toward zero. -/
def window_mean (c : Nat) (rs : List adc_readings_struct) : Int :=
  Int.tdiv (rs.map (chan_of c)).sum (rs.length : Int)

/-- The sum of the readings of channel `c` from the first one `> 0` onward. -/
def sum_from_first_pos (c : Nat) (rs : List adc_readings_struct) : Int :=
  ((rs.map (chan_of c)).dropWhile (fun x => decide (x ≤ 0))).sum

/-- Channel `c` has at least one reading `> 0` among `rs`. -/
def has_positive (c : Nat) (rs : List adc_readings_struct) : Prop :=
  ∃ r ∈ rs, chan_of c r > 0

instance has_positive_decidable (c : Nat) (rs : List adc_readings_struct) :
    Decidable (has_positive c rs) := by
  unfold has_positive
  infer_instance

/-- The initial state with `first` of `scan_inputs` cleared and its reading
counter at `k`. -/
def idle_scan (k : Nat) : sm_state :=
  { sm_init fresh_state with scan_first := 0, scan_nreadings := k }

/-- A reading with value `v` on the voltage channel and `i` on the first
current channel. -/
def scan_reading (v i : Int) : adc_readings_struct :=
  { vals := [v, i, 0, 0, 0], t := 0, set := 1 }

/-! ## Definitions used to state the properties of the voltage history and of
the accumulated statistics -/

/-- A sequence of `store_vhist` calls, one for each value, in order. -/
def store_all (xs : List Int) (s : sm_state) : Option sm_state :=
  xs.foldlM (fun t x => store_vhist x t) s

/-- The sum of the readings of channel `c`. -/
def chan_sum (c : Nat) (rs : List adc_readings_struct) : Int :=
  (rs.map (chan_of c)).sum

/-- The sum of the products of the readings of channels `c` and `c2`. -/
def chan_dot (c c2 : Nat) (rs : List adc_readings_struct) : Int :=
  (rs.map (fun r => chan_of c r * chan_of c2 r)).sum

/-- The sum of the products of the readings of channel `c` with the voltage
reading stored `lb` samples earlier.  `past` holds the voltage readings stored
before the first reading of `rs`, newest first. -/
def chan_delayed (c lb : Nat) : List Int → List adc_readings_struct → Int
  | _, [] => 0
  | past, r :: rs =>
    chan_of c r * (chan_of 0 r :: past).getD lb 0 + chan_delayed c lb (chan_of 0 r :: past) rs

/-- The value fits an `int32_t`. -/
def fits_int32 (x : Int) : Prop := -2147483648 ≤ x ∧ x < 2147483648

/-- The value fits a `uint32_t`. -/
def fits_uint32 (x : Int) : Prop := 0 ≤ x ∧ x < 4294967296

/-- What `accum_stats` does to the record of a current channel for one
reading: `x` is the channel's value, `v` the voltage and `d` the delayed
voltage. -/
def stat_step (x v d : Int) (st : reading_stats) : reading_stats :=
  if st.present ≠ 0 then
    { st with
      oldval := st.val
      val := x
      val_sum := to_int32 (st.val_sum + x)
      val2_sum := mac16x16_32u st.val2_sum x x
      prod_sum := mac16x16_32 st.prod_sum x v
      proddel_sum := mac16x16_32 st.proddel_sum x d
      n := (st.n + 1) % 65536 }
  else st

/-- What `accum_stats` does to `vstats` for one reading. -/
def volt_step (fprod : c_float) (v d : Int) (vs : reading_stats) : reading_stats :=
  accum_voltage fprod v d { vs with oldval := vs.val, val := v }

/-- The record of channel `c` after `accum_stats` has processed `rs`. -/
def stat_run (c lb : Nat) : List Int → List adc_readings_struct → reading_stats → reading_stats
  | _, [], st => st
  | past, r :: rs, st =>
    stat_run c lb (chan_of 0 r :: past) rs
      (stat_step (chan_of c r) (chan_of 0 r) ((chan_of 0 r :: past).getD lb 0) st)

/-- The record `vstats` after `accum_stats` has processed `rs`. -/
def volt_run (fprod : c_float) (lb : Nat) :
    List Int → List adc_readings_struct → reading_stats → reading_stats
  | _, [], vs => vs
  | past, r :: rs, vs =>
    volt_run fprod lb (chan_of 0 r :: past) rs
      (volt_step fprod (chan_of 0 r) ((chan_of 0 r :: past).getD lb 0) vs)

/-! # The statistics pass (`calc_stats` in `src/state.cpp`)

Further conventions.

* The `float` arithmetic of the target is a parameter (`float_ops`): the
  functions below say which operation is applied to which operands, in the
  order of the source, and every theorem about them holds for every choice of
  the operations.  The comparison of a `float` with `0` for equality is
  `float_is_zero`.
* The calls `push_report_float`, `push_report_int32`, `push_report_uint32`
  and `push_report_break` are recorded, in order, as a list of `report_call`
  values that `calc_stats` returns with the new state.
* `micros()` and `millis()` are inputs: the values the calls return.
-/

/-! ## Constants (`cont.h`) -/

/-- The voltage report period, `#define REPORT_VRMS_PERIOD (10*SECS)`. -/
def REPORT_VRMS_PERIOD : Nat := 10 * SECS

/-- The power report period, `#define REPORT_POW_PERIOD (30*SECS)`. -/
def REPORT_POW_PERIOD : Nat := 30 * SECS

/-- The energy report period, `#define REPORT_ENERGY_PERIOD (60*SECS)`. -/
def REPORT_ENERGY_PERIOD : Nat := 60 * SECS

/-- The pulse report period, `#define REPORT_PULSE_PERIOD (1*SECS)`. -/
def REPORT_PULSE_PERIOD : Nat := 1 * SECS

/-! ## Data model -/

/-- The `float` operations of the target and the `float` constants of
`cal.h`.  `of_int` converts an integer value to `float`, `to_int` converts a
`float` to an integer (truncation), `lit m e` is the literal `m / 10^e`
(`lit 99 2` is `0.99`), `le a b` is `a <= b`, `lt a b` is `a < b`, `eq a b`
is `a == b`, and `ical` is the table `ical[N_CUR_CHAN] = {ICAL0, ..., ICAL3}`. -/
structure float_ops where
  add : c_float → c_float → c_float
  sub : c_float → c_float → c_float
  mul : c_float → c_float → c_float
  div : c_float → c_float → c_float
  sqrt : c_float → c_float
  fabs : c_float → c_float
  of_int : Int → c_float
  to_int : c_float → Int
  le : c_float → c_float → Bool
  lt : c_float → c_float → Bool
  eq : c_float → c_float → Bool
  lit : Int → Nat → c_float
  ical : List c_float

/-- The constant `RA_PAST`, `(0.99)`. -/
def RA_PAST (ops : float_ops) : c_float := ops.lit 99 2

/-- The constant `RA_CUR`, `(1.0 - RA_PAST)`. -/
def RA_CUR (ops : float_ops) : c_float := ops.sub (ops.lit 1 0) (RA_PAST ops)

/-- One call of a `push_report_...` function: the kind of value and the
arguments. -/
inductive report_call where
  | float (name : String) (value : c_float) (digits retained : Nat)
  | int32 (name : String) (value : Int) (retained : Nat)
  | uint32 (name : String) (value : Nat) (retained : Nat)
  | brk
deriving DecidableEq

/-- The variables of the program that `calc_stats` and the functions it calls
use, on top of those of `sm_state`: the calibration factors `VCAL`, `VCAL2`,
the running averages, the energy counters, the `static` variables of
`calc_stats` (`itot_old`, `t_report_vrms`, `t_report_pow`, `t_report_energy`,
`ncycles_freq`, `accum_freq`), `uptime` and the `static old_millis` of
`update_uptime`, and the pulse counter variables of `pulse.cpp`. -/
structure calc_state extends sm_state where
  VCAL : c_float
  VCAL2 : c_float
  vavg_ra : c_float
  iavg_ra : List c_float
  energy_fracac : Int
  energy_fracre : Int
  energy_active : Int
  energy_reactive : Int
  itot_old : c_float
  t_report_vrms : Nat
  t_report_pow : Nat
  t_report_energy : Nat
  ncycles_freq : Nat
  accum_freq : c_float
  uptime : Nat
  old_millis : Nat
  pulse_count : Nat
  last_pulse_count : Nat
  t_report_pulse : Nat
deriving DecidableEq

/-- The variables as their initialisers leave them, on top of the state `s`
of the other modules, with calibration factors `vcal` and `vcal2`: `itot_old`
is `-999`, everything else zero. -/
def calc_init (ops : float_ops) (vcal vcal2 : c_float) (s : sm_state) : calc_state :=
  { s with
    VCAL := vcal
    VCAL2 := vcal2
    vavg_ra := float_zero
    iavg_ra := List.replicate N_CUR_CHAN float_zero
    energy_fracac := 0
    energy_fracre := 0
    energy_active := 0
    energy_reactive := 0
    itot_old := ops.of_int (-999)
    t_report_vrms := 0
    t_report_pow := 0
    t_report_energy := 0
    ncycles_freq := 0
    accum_freq := float_zero
    uptime := 0
    old_millis := 0
    pulse_count := 0
    last_pulse_count := 0
    t_report_pulse := 0 }

/-- The unsigned 32-bit difference `a - b`. -/
def sub32 (a b : Nat) : Nat := (((a : Int) - (b : Int)) % 4294967296).toNat

/-! ## `update_uptime` and `report_pulse_count` -/

/-- The function `update_uptime()`; `millis` is the value of `millis()`.
`upper` is a `uint16_t`. -/
def update_uptime (millis : Nat) (s : calc_state) : Nat × calc_state :=
  let upper0 := (s.uptime &&& 0xffc00000) % 65536
  let upper := if millis < s.old_millis then (upper0 + 0x00400000) % 65536 else upper0
  let up := upper ||| (millis >>> 10)
  (up, { s with uptime := up, old_millis := millis })

/-- The function `report_pulse_count()` of `pulse.cpp`; `micros` is the value
of `micros()`. -/
def report_pulse_count (micros : Nat) (s : calc_state) : calc_state × List report_call :=
  if s.t_report_pulse = 0 ∨
      (sub32 micros s.t_report_pulse > REPORT_PULSE_PERIOD ∧
        s.pulse_count ≠ s.last_pulse_count) then
    ({ s with t_report_pulse := micros, last_pulse_count := s.pulse_count },
      [report_call.uint32 "pulse" s.pulse_count 0, report_call.brk])
  else (s, [])

/-- The weight of one sample in a window of `n` samples, `1.0 / vstats.n`. -/
def inv_weight (ops : float_ops) (n : Nat) : c_float := ops.div (ops.lit 1 0) (ops.of_int n)

/-- The accumulation duration in seconds for a window of `dt` microseconds,
`1.0e-6*(reading->t - start_time)`. -/
def accum_time_of (ops : float_ops) (dt : Nat) : c_float :=
  ops.mul (ops.lit 1 6) (ops.of_int dt)

/-! ## The voltage calculations -/

/-- The radicand guard `if (x <= 0) x = 0;`. -/
def clamp_zero (ops : float_ops) (x : c_float) : c_float :=
  if ops.le x float_zero then float_zero else x

/-- The update of a running average: `if (ra == 0) ra = avg;` followed by
`ra = RA_PAST * ra + RA_CUR * avg;`. -/
def running_avg (ops : float_ops) (ra avg : c_float) : c_float :=
  ops.add (ops.mul (RA_PAST ops) (if float_is_zero ra then avg else ra))
    (ops.mul (RA_CUR ops) avg)

/-- The value `vrms2` after the guard in the block "MAINS VOLTAGE
CALCULATIONS": `(float) vstats.val2_sum * vcal2 - vavg2`, clamped, where
`vavg2` is the square of the updated running average `vavg_ra`. -/
def voltage_rms2 (ops : float_ops) (invwt : c_float) (s : calc_state) : c_float :=
  let vcal := ops.mul invwt s.VCAL
  let vcal2 := ops.mul vcal s.VCAL
  let vavg := ops.mul (ops.of_int s.vstats.val_sum) vcal
  let ra := running_avg ops s.vavg_ra vavg
  clamp_zero ops (ops.sub (ops.mul (ops.of_int s.vstats.val2_sum) vcal2) (ops.mul ra ra))

/-- The block "MAINS VOLTAGE CALCULATIONS" of `calc_stats`: the new state,
the local `crest_factor`, the report calls and the flag `reported`. -/
def calc_voltage (ops : float_ops) (invwt accum_time : c_float) (s : calc_state) :
    calc_state × c_float × List report_call × Nat :=
  let vcal := ops.mul invwt s.VCAL
  let vavg := ops.mul (ops.of_int s.vstats.val_sum) vcal
  let ra := running_avg ops s.vavg_ra vavg
  let vavg2 := ops.mul ra ra
  let vrms2 := voltage_rms2 ops invwt s
  let vrms := ops.sqrt vrms2
  let amp := ops.div
    (ops.mul (ops.of_int (to_int16 (s.vstats.val_max - s.vstats.val_min))) s.VCAL)
    (ops.lit 2 0)
  let crest := if ops.lt (ops.lit 100 0) vrms then ops.div amp vrms else ops.lit 1 0
  let s1 : calc_state :=
    { s with
      vavg_ra := ra
      vstats := { s.vstats with val_rms := vrms, pow_ac := amp }
      ncycles_freq := (s.ncycles_freq + s.ncycles) % 65536
      accum_freq := ops.add s.accum_freq accum_time }
  if float_is_zero s.vmains_fprod then
    let fprod := ops.div
      (ops.sub (ops.mul (ops.mul (ops.of_int s.vstats.proddel_sum) invwt) s.VCAL2) vavg2)
      vrms2
    ({ s1 with vmains_fprod := fprod }, crest,
      [report_call.float "vdel" fprod 4 0, report_call.brk], 1)
  else (s1, crest, [], 0)

/-! ## The energy counters -/

/-- The statement `frac += (accum_time * pow);` on an `int16_t`: the sum is
formed in `float` and converted back to `int16_t`, which discards its
fraction.  C leaves the conversion of a value outside the range undefined;
here it wraps. -/
def energy_add (ops : float_ops) (frac : Int) (accum_time pow : c_float) : Int :=
  to_int16 (ops.to_int (ops.add (ops.of_int frac) (ops.mul accum_time pow)))

/-- The loop `while (frac > +3600) { frac -= 3600; energy ++; }`; `none`
when the fuel runs out before the loop exits. -/
def carry_up : Nat → Int → Int → Option (Int × Int)
  | 0, _, _ => none
  | fuel + 1, frac, energy =>
    if frac > 3600 then carry_up fuel (to_int16 (frac - 3600)) (to_int32 (energy + 1))
    else some (frac, energy)

/-- The loop `while (frac < -3600) { frac += 3600; energy --; }`; `none`
when the fuel runs out before the loop exits. -/
def carry_down : Nat → Int → Int → Option (Int × Int)
  | 0, _, _ => none
  | fuel + 1, frac, energy =>
    if frac < -3600 then carry_down fuel (to_int16 (frac + 3600)) (to_int32 (energy - 1))
    else some (frac, energy)

/-- Fuel for the carry loops: an `int16_t` leaves each loop after at most 9
passes. -/
def carry_fuel : Nat := 16

/-- The two carry loops of one pair of counters, in the order of the source. -/
def energy_carry (frac energy : Int) : Option (Int × Int) := do
  let up ← carry_up carry_fuel frac energy
  carry_down carry_fuel up.1 up.2

/-- The statement "Detect signed rollover of 32-bit integer" for one
counter. -/
def rollover_reset (old new : Int) : Int :=
  if (old > 0x70000000 ∧ new < 0) ∨ (old < -0x70000000 ∧ new > 0) then 0 else new

/-- The energy statements of the loop body of `calc_stats` for one pair of
counters `(frac, energy)`: the addition of the window's energy, the two carry
loops and the rollover test against the value of the integer counter at the
start of the loop body. -/
def energy_step (ops : float_ops) (accum_time pow : c_float) (acc : Int × Int) :
    Option (Int × Int) := do
  let c ← energy_carry (energy_add ops acc.1 accum_time pow) acc.2
  some (c.1, rollover_reset acc.2 c.2)

/-- The energy statements of the loop body of `calc_stats`, from
`energy_fracac += ...` to the rollover tests.  The statements of the active
pair and those of the reactive pair use disjoint variables; they are grouped
by pair here. -/
def energy_block (ops : float_ops) (accum_time pow_ac pow_re : c_float) (s : calc_state) :
    Option calc_state := do
  let ac ← energy_step ops accum_time pow_ac (s.energy_fracac, s.energy_active)
  let re ← energy_step ops accum_time pow_re (s.energy_fracre, s.energy_reactive)
  some { s with
    energy_fracac := ac.1
    energy_active := ac.2
    energy_fracre := re.1
    energy_reactive := re.2 }

/-! ## The current and power calculations -/

/-- The value `irms2` after the guard for a channel with record `st`,
calibration `ical_j` and running average `ra_old`. -/
def current_rms2 (ops : float_ops) (invwt ical_j ra_old : c_float) (st : reading_stats) :
    c_float :=
  let ical1 := ops.mul ical_j invwt
  let ical2 := ops.mul ical1 ical_j
  let iavg := ops.mul (ops.of_int st.val_sum) ical1
  let ra := running_avg ops ra_old iavg
  clamp_zero ops (ops.sub (ops.mul (ops.of_int st.val2_sum) ical2) (ops.mul ra ra))

/-- The active and reactive power of a channel, `pow_ac` and `pow_re`, from
the channel's record `st`, its updated running average `ra` and the values
of `VCAL`, `vavg_ra` and `vmains_fprod`. -/
def chan_power (ops : float_ops) (invwt ical_j ra cosph_j sinph_j : c_float)
    (vcal vavg_ra fprod : c_float) (st : reading_stats) : c_float × c_float :=
  let ical1 := ops.mul ical_j invwt
  let ivcal := ops.mul ical1 vcal
  let p_offset := ops.mul vavg_ra ra
  let pac0 := ops.sub (ops.mul (ops.of_int st.prod_sum) ivcal) p_offset
  let pre0 := ops.sub (ops.mul (ops.of_int st.proddel_sum) ivcal) p_offset
  let pre1 := ops.sub pre0 (ops.mul fprod pac0)
  (ops.sub (ops.mul cosph_j pac0) (ops.mul sinph_j pre1),
    ops.add (ops.mul sinph_j pac0) (ops.mul cosph_j pre1))

/-- The record of a present channel after the calculations of the loop
body: `val_rms`, `pow_ac` and `pow_re` are set from the channel's record
`st`, its calibration `ical_j`, its running average `ra_old` and its phase
factors. -/
def chan_record (ops : float_ops) (invwt ical_j ra_old cosph_j sinph_j : c_float)
    (vcal vavg_ra fprod : c_float) (st : reading_stats) : reading_stats :=
  let ra := running_avg ops ra_old (ops.mul (ops.of_int st.val_sum) (ops.mul ical_j invwt))
  let pw := chan_power ops invwt ical_j ra cosph_j sinph_j vcal vavg_ra fprod st
  { st with
    val_rms := ops.sqrt (current_rms2 ops invwt ical_j ra_old st)
    pow_ac := pw.1
    pow_re := pw.2 }

/-- The body of the loop "Calculations: current transformer power
measurements" for channel `j`, on the state and the local `itot`. -/
def calc_current (ops : float_ops) (invwt accum_time : c_float)
    (acc : calc_state × c_float) (j : Nat) : Option (calc_state × c_float) := do
  let st ← acc.1.istats[j]?
  if st.present = 0 then some acc else
  let ical_j ← ops.ical[j]?
  let ra_old ← acc.1.iavg_ra[j]?
  let cosph_j ← acc.1.cosph[j]?
  let sinph_j ← acc.1.sinph[j]?
  let ra := running_avg ops ra_old (ops.mul (ops.of_int st.val_sum) (ops.mul ical_j invwt))
  let st1 := chan_record ops invwt ical_j ra_old cosph_j sinph_j acc.1.VCAL acc.1.vavg_ra
    acc.1.vmains_fprod st
  let iavg_ra ← arr_set acc.1.iavg_ra j ra
  let istats ← arr_set acc.1.istats j st1
  let s1 ← energy_block ops accum_time st1.pow_ac st1.pow_re
    { acc.1 with iavg_ra := iavg_ra, istats := istats }
  some (s1, ops.add acc.2 st1.val_rms)

/-! ## The reports -/

/-- The name `base` with its fourth character replaced by `'0'+j`
(`irmnam[3] = '0'+j`). -/
def chan_name (base : String) (j : Nat) : String := base.push (Char.ofNat (48 + j))

/-- The four reports of a present channel in the block "Reporting: current
and power". -/
def report_chan (ops : float_ops) (vrms : c_float) (j : Nat) (st : reading_stats) :
    List report_call :=
  let pap := ops.mul st.val_rms vrms
  let power_factor :=
    if ops.lt (ops.lit 30 0) pap && ops.le st.pow_ac pap then ops.div st.pow_ac pap
    else ops.lit 1 0
  [report_call.float (chan_name "irm" j) st.val_rms 3 0,
    report_call.float (chan_name "pac" j) st.pow_ac 1 0,
    report_call.float (chan_name "pre" j) st.pow_re 1 0,
    report_call.float (chan_name "pow" j) power_factor 4 0]

/-- The body of the loop of the block "Reporting: current and power" for
channel `j`, on the report calls so far and the flag `reported`. -/
def report_power_chan (ops : float_ops) (s : calc_state) (acc : List report_call × Nat)
    (j : Nat) : Option (List report_call × Nat) := do
  let st ← s.istats[j]?
  if st.present = 0 then some acc else
  some (acc.1 ++ report_chan ops s.vstats.val_rms j st, 1)

/-- The test `report_voltage`. -/
def report_voltage (t : Nat) (s : calc_state) : Bool :=
  s.t_report_vrms = 0 ∨ sub32 t s.t_report_vrms > REPORT_VRMS_PERIOD

/-- The test `report_power`. -/
def report_power (ops : float_ops) (t : Nat) (itot : c_float) (s : calc_state) : Bool :=
  ops.eq s.itot_old (ops.of_int (-999)) ∨
    ops.lt (ops.lit 11 1) (ops.fabs (ops.sub itot s.itot_old)) ∨
    sub32 t s.t_report_pow > REPORT_POW_PERIOD

/-- The block "Reporting: voltage (and always report voltage with
current)". -/
def report_voltage_block (ops : float_ops) (t : Nat) (crest : c_float) (s : calc_state) :
    calc_state × List report_call :=
  let vrms := report_call.float "vrms" s.vstats.val_rms 2 0
  let vcrs := report_call.float "vcrs" crest 3 0
  if s.ncycles_freq > 0 ∧ ops.lt float_zero s.accum_freq then
    ({ s with ncycles_freq := 0, accum_freq := float_zero, t_report_vrms := t },
      [vrms, report_call.float "vfrq" (ops.div (ops.of_int s.ncycles_freq) s.accum_freq) 3 0,
        vcrs])
  else ({ s with t_report_vrms := t }, [vrms, vcrs])

/-- The block "Reporting: current and power" on the state, the report calls
so far and the flag `reported`; `itot` is the sum of the RMS currents. -/
def report_power_block (ops : float_ops) (t : Nat) (itot : c_float)
    (x : calc_state × List report_call × Nat) :
    Option (calc_state × List report_call × Nat) := do
  let p ← (List.range N_CUR_CHAN).foldlM (report_power_chan ops x.1) (x.2.1, x.2.2)
  some ({ x.1 with t_report_pow := t, itot_old := itot }, p.1, p.2)

/-- The block "Reporting: total energy usage" on the state, the report calls
so far and the flag `reported`. -/
def report_energy_block (t : Nat) (x : calc_state × List report_call × Nat) :
    calc_state × List report_call × Nat :=
  if x.1.t_report_energy = 0 ∨ sub32 t x.1.t_report_energy > REPORT_ENERGY_PERIOD then
    ({ x.1 with t_report_energy := t },
      x.2.1 ++ [report_call.int32 "enac" x.1.energy_active 1,
        report_call.int32 "enre" x.1.energy_reactive 1], 1)
  else x

/-- The lines of `calc_stats` from "Decide on which items to report" up to
and including the block "Reporting: total energy usage": the new state, the
report calls and the flag `reported`. -/
def calc_report (ops : float_ops) (t : Nat) (crest itot : c_float) (s : calc_state) :
    Option (calc_state × List report_call × Nat) := do
  let rv := report_voltage t s
  let rp := report_power ops t itot s
  let v : calc_state × List report_call × Nat :=
    if rv ∨ rp then
      ((report_voltage_block ops t crest s).1, (report_voltage_block ops t crest s).2, 1)
    else (s, [], 0)
  let p ← (if rp then report_power_block ops t itot v else some v)
  some (report_energy_block t p)

/-- The end of `calc_stats`: "Reset the accumulated statistics" and the
report of the "realtime data processing info" when something was
reported. -/
def calc_finish (micros millis t reported : Nat) (s : calc_state) :
    Option (calc_state × List report_call) := do
  let istats ← for_istats (fun _ st => some (init_stats st)) s.istats
  let s1 : calc_state :=
    { s with start_time := t, ncycles := 0, vstats := init_stats s.vstats, istats := istats }
  if reported ≠ 0 then
    let p := report_pulse_count micros s1
    let u := update_uptime millis p.1
    some ({ u.2 with adc := { u.2.adc with max_adc_depth := 0 } },
      p.2 ++ [report_call.int32 "adcd" (s1.adc.max_adc_depth : Int) 1,
        report_call.int32 "novr" (s1.adc.n_overflow : Int) 1,
        report_call.uint32 "uptm" u.1 1, report_call.brk])
  else some (s1, [])

/-- The function `calc_stats(reading, curstate, nextstate)`: the state
returned, the new values of the variables and the report calls made, in
order. -/
def calc_stats (ops : float_ops) (micros millis : Nat) (reading : adc_readings_struct)
    (_curstate nextstate : Nat) (s : calc_state) :
    Option (Nat × calc_state × List report_call) := do
  let invwt := inv_weight ops s.vstats.n
  let accum_time := accum_time_of ops (sub32 reading.t s.start_time)
  let v := calc_voltage ops invwt accum_time s
  let c ← (List.range N_CUR_CHAN).foldlM (calc_current ops invwt accum_time)
    (v.1, float_zero)
  let r ← calc_report ops reading.t v.2.1 c.2 c.1
  let reported := if v.2.2.2 ≠ 0 ∨ r.2.2 ≠ 0 then 1 else 0
  let f ← calc_finish micros millis reading.t reported r.1
  some (nextstate, f.1, v.2.2.1 ++ r.2.1 ++ f.2)

/-! # The `float` arithmetic of the target

The `float` (and `double`) of the target is the IEEE 754 binary32 format.
The operations below compute the exact result as a fraction and round it to
the nearest binary32 value, ties to even.  They are used to run the
definitions on concrete inputs; the general theorems hold for every
`float_ops`. -/

/-- The number of bits of `n`: the least `k` with `n < 2^k`. -/
def bit_length : Nat → Nat → Nat
  | 0, _ => 0
  | fuel + 1, n => if n = 0 then 0 else bit_length fuel (n / 2) + 1

/-- The bit pattern of a quiet NaN. -/
def f32_nan : c_float := { bits := 0x7fc00000 }

/-- The bit pattern with the sign bit `neg` and the other bits `mag`. -/
def f32_sign (neg : Bool) (mag : Nat) : c_float :=
  { bits := if neg then mag + 0x80000000 else mag }

/-- The value of a bit pattern: the sign and the magnitude as a fraction
`num / den`; an infinity is `1 / 0` and a NaN is `0 / 0`. -/
def f32_unpack (x : c_float) : Bool × Nat × Nat :=
  let neg : Bool := x.bits / 2147483648 % 2 = 1
  let ex := x.bits / 8388608 % 256
  let fr := x.bits % 8388608
  if ex = 255 then (neg, if fr = 0 then 1 else 0, 0)
  else if ex = 0 then (neg, fr, 2 ^ 149)
  else if ex ≥ 150 then (neg, (8388608 + fr) * 2 ^ (ex - 150), 1)
  else (neg, 8388608 + fr, 2 ^ (150 - ex))

/-- The bits below the sign of the binary32 value nearest to the fraction
`num / den` (`num > 0`, `den > 0`), ties to even; the pattern of the infinity
when the result is too large. -/
def f32_round (num den : Nat) : Nat :=
  let l : Int := (bit_length (num + 1) num : Int) - (bit_length (den + 1) den : Int)
  let ge : Bool := if l < 0 then num * 2 ^ (-l).toNat ≥ den else num ≥ den * 2 ^ l.toNat
  let p : Int := if ge then l else l - 1
  let e : Int := max (p - 23) (-149)
  let n2 := if e < 0 then num * 2 ^ (-e).toNat else num
  let d2 := if e < 0 then den else den * 2 ^ e.toNat
  let q := n2 / d2
  let r := n2 % d2
  let q1 := if 2 * r > d2 ∨ (2 * r = d2 ∧ q % 2 = 1) then q + 1 else q
  min ((e + 149).toNat * 8388608 + q1) 0x7f800000

/-- The binary32 value nearest to the signed fraction. -/
def f32_pack (neg : Bool) (num den : Nat) : c_float :=
  if den = 0 then (if num = 0 then f32_nan else f32_sign neg 0x7f800000)
  else if num = 0 then f32_sign neg 0
  else f32_sign neg (f32_round num den)

/-- The sign as a factor. -/
def sign_factor (neg : Bool) : Int := if neg then -1 else 1

/-- The sum `a + b`. -/
def f32_add (a b : c_float) : c_float :=
  let x := f32_unpack a
  let y := f32_unpack b
  if x.2.2 = 0 ∨ y.2.2 = 0 then
    if (x.2.1 = 0 ∧ x.2.2 = 0) ∨ (y.2.1 = 0 ∧ y.2.2 = 0) then f32_nan
    else if x.2.2 = 0 ∧ y.2.2 = 0 then (if x.1 = y.1 then a else f32_nan)
    else if x.2.2 = 0 then a else b
  else
    let n : Int := sign_factor x.1 * (x.2.1 * y.2.2 : Nat) + sign_factor y.1 * (y.2.1 * x.2.2 : Nat)
    if n = 0 then f32_sign (x.1 && y.1) 0
    else f32_pack (decide (n < 0)) n.natAbs (x.2.2 * y.2.2)

/-- The value `-a`. -/
def f32_neg (a : c_float) : c_float :=
  { bits := if a.bits / 2147483648 % 2 = 1 then a.bits % 2147483648
            else a.bits % 2147483648 + 2147483648 }

/-- The difference `a - b`. -/
def f32_sub (a b : c_float) : c_float := f32_add a (f32_neg b)

/-- The product `a * b`. -/
def f32_mul (a b : c_float) : c_float :=
  let x := f32_unpack a
  let y := f32_unpack b
  f32_pack (xor x.1 y.1) (x.2.1 * y.2.1) (x.2.2 * y.2.2)

/-- The quotient `a / b`. -/
def f32_div (a b : c_float) : c_float :=
  let x := f32_unpack a
  let y := f32_unpack b
  f32_pack (xor x.1 y.1) (x.2.1 * y.2.2) (x.2.2 * y.2.1)

/-- The integer square root by bisection on the bits, from bit `k - 1` down. -/
def isqrt_loop : Nat → Nat → Nat → Nat
  | 0, _, r => r
  | k + 1, n, r => isqrt_loop k n (if (r + 2 ^ k) * (r + 2 ^ k) ≤ n then r + 2 ^ k else r)

/-- The integer square root: the greatest `r` with `r * r ≤ n`. -/
def isqrt (n : Nat) : Nat := isqrt_loop (bit_length (n + 1) n / 2 + 1) n 0

/-- The bits of the binary32 value nearest to the square root of the
fraction `num / den` (`num > 0`, `den > 0`). -/
def f32_sqrt_round (num den : Nat) : Nat :=
  let l : Int := (bit_length (num + 1) num : Int) - (bit_length (den + 1) den : Int)
  let ge : Bool := if l < 0 then num * 2 ^ (-l).toNat ≥ den else num ≥ den * 2 ^ l.toNat
  let p : Int := if ge then l else l - 1
  let e : Int := p / 2 - 23
  let n2 := if e < 0 then num * 4 ^ (-e).toNat else num
  let d2 := if e < 0 then den else den * 4 ^ e.toNat
  let q := isqrt (n2 / d2)
  let q1 := if 4 * n2 > (4 * q * q + 4 * q + 1) * d2 then q + 1 else q
  (e + 149).toNat * 8388608 + q1

/-- The square root `sqrt(a)`. -/
def f32_sqrt (a : c_float) : c_float :=
  let x := f32_unpack a
  if x.2.2 = 0 then (if x.2.1 = 0 ∨ x.1 then f32_nan else a)
  else if x.2.1 = 0 then a
  else if x.1 then f32_nan
  else { bits := f32_sqrt_round x.2.1 x.2.2 }

/-- The absolute value `fabs(a)`. -/
def f32_fabs (a : c_float) : c_float := { bits := a.bits % 2147483648 }

/-- The conversion of an integer to `float`. -/
def f32_of_int (i : Int) : c_float := f32_pack (decide (i < 0)) i.natAbs 1

/-- The conversion of a `float` to an integer: the value with its fraction
discarded; `0` for an infinity or a NaN, where C leaves the result
undefined. -/
def f32_to_int (a : c_float) : Int :=
  let x := f32_unpack a
  if x.2.2 = 0 then 0 else sign_factor x.1 * ((x.2.1 / x.2.2 : Nat) : Int)

/-- The value of a bit pattern as a signed fraction for comparisons: `none`
for a NaN, a value above every finite one for an infinity. -/
def f32_value (a : c_float) : Option (Int × Nat) :=
  let x := f32_unpack a
  if x.2.2 = 0 then (if x.2.1 = 0 then none else some (sign_factor x.1 * (2 : Int) ^ 200, 1))
  else some (sign_factor x.1 * (x.2.1 : Int), x.2.2)

/-- The comparison `a < b`. -/
def f32_lt (a b : c_float) : Bool :=
  match f32_value a, f32_value b with
  | some x, some y => decide (x.1 * (y.2 : Int) < y.1 * (x.2 : Int))
  | _, _ => false

/-- The comparison `a <= b`. -/
def f32_le (a b : c_float) : Bool :=
  match f32_value a, f32_value b with
  | some x, some y => decide (x.1 * (y.2 : Int) ≤ y.1 * (x.2 : Int))
  | _, _ => false

/-- The comparison `a == b`. -/
def f32_eq (a b : c_float) : Bool :=
  match f32_value a, f32_value b with
  | some x, some y => decide (x.1 * (y.2 : Int) = y.1 * (x.2 : Int))
  | _, _ => false

/-- The decimal literal `m / 10^e`. -/
def f32_lit (m : Int) (e : Nat) : c_float := f32_pack (decide (m < 0)) m.natAbs (10 ^ e)

/-- The constant `ICAL` of `cal.h`,
`(ICALFUDGE*2000.0*3.3/1024.0)` with `ICALFUDGE` `(1.0/1.000)`. -/
def ICAL : c_float :=
  f32_div (f32_mul (f32_mul (f32_div (f32_lit 1 0) (f32_lit 1 0)) (f32_lit 2000 0)) (f32_lit 33 1))
    (f32_lit 1024 0)

/-- The binary32 operations and the current calibration table
`{ICAL0, ICAL1, ICAL2, ICAL3}` of `cal.h`: `(ICAL/22 *1.00000)` for channels
0 to 2 and `(ICAL/120*1.00000)` for channel 3. -/
def ieee_ops : float_ops :=
  { add := f32_add
    sub := f32_sub
    mul := f32_mul
    div := f32_div
    sqrt := f32_sqrt
    fabs := f32_fabs
    of_int := f32_of_int
    to_int := f32_to_int
    le := f32_le
    lt := f32_lt
    eq := f32_eq
    lit := f32_lit
    ical :=
      [f32_mul (f32_div ICAL (f32_of_int 22)) (f32_lit 1 0),
        f32_mul (f32_div ICAL (f32_of_int 22)) (f32_lit 1 0),
        f32_mul (f32_div ICAL (f32_of_int 22)) (f32_lit 1 0),
        f32_mul (f32_div ICAL (f32_of_int 120)) (f32_lit 1 0)] }

/-! # Definitions used to state the properties of the statistics pass -/

/-- The value fits an `int16_t`. -/
def fits_int16 (x : Int) : Prop := -32768 ≤ x ∧ x ≤ 32767

/-- The number of passes the carry loops make for the fractional sum `f`,
counted positive for the loop that increments the integer counter and
negative for the loop that decrements it: the loops run while the fractional
counter is above `3600` (below `-3600`), so a sum of exactly `3600`, `7200`,
... makes one pass less than it contains multiples of `3600`. -/
def carry_count (f : Int) : Int :=
  if f > 3600 then (f - 1) / 3600 else if f < -3600 then -((-f - 1) / 3600) else 0

/-- The arrays `istats`, `iavg_ra`, `cosph`, `sinph` and `ical` have their
declared length `N_CUR_CHAN`. -/
def calc_wf (ops : float_ops) (s : calc_state) : Prop :=
  s.istats.length = N_CUR_CHAN ∧ s.iavg_ra.length = N_CUR_CHAN ∧
    s.cosph.length = N_CUR_CHAN ∧ s.sinph.length = N_CUR_CHAN ∧
    ops.ical.length = N_CUR_CHAN

/-- The state without what the loop "Calculations: current transformer
power measurements" may write: of the records `istats[j]` only the flag
`present` is kept, of `iavg_ra` only the length, and the four energy
counters are blanked. -/
def calc_frame (s : calc_state) : calc_state :=
  { s with
    istats := s.istats.map init_stats
    iavg_ra := s.iavg_ra.map (fun _ => float_zero)
    energy_fracac := 0
    energy_active := 0
    energy_fracre := 0
    energy_reactive := 0 }

/-- The state without what the report blocks of `calc_stats` may write:
the `static` variables of the report decisions are blanked. -/
def report_frame (s : calc_state) : calc_state :=
  { s with
    ncycles_freq := 0
    accum_freq := float_zero
    t_report_vrms := 0
    t_report_pow := 0
    t_report_energy := 0
    itot_old := float_zero }

/-- The name given in a report call; `none` for a break. -/
def call_name : report_call → Option String
  | report_call.float name _ _ _ => some name
  | report_call.int32 name _ _ => some name
  | report_call.uint32 name _ _ => some name
  | report_call.brk => none

/-- The calls of a list that report under the name `name`. -/
def calls_named (name : String) (l : List report_call) : List report_call :=
  l.filter (fun c => call_name c = some name)

/-- The call reports one of the diagnostics `adcd`, `novr`, `uptm` or the
pulse count. -/
def is_diag (c : report_call) : Bool :=
  call_name c = some "adcd" ∨ call_name c = some "novr" ∨ call_name c = some "uptm" ∨
    call_name c = some "pulse"

/-- The radicand in the words of the specification: the mean of the squares
of the window's calibrated samples minus the square of their mean, not below
zero; the window's sums are in the record `st`, `invwt` is `1 / n` and `cal`
the calibration factor. -/
def window_rms2 (ops : float_ops) (invwt cal : c_float) (st : reading_stats) : c_float :=
  let mean := ops.mul (ops.of_int st.val_sum) (ops.mul invwt cal)
  clamp_zero ops
    (ops.sub (ops.mul (ops.of_int st.val2_sum) (ops.mul (ops.mul invwt cal) cal))
      (ops.mul mean mean))

/-- What the report blocks of `calc_stats` keep true of the state, the
report calls and the flag `reported`, starting from the state `s`: the state
differs from `s` only in the variables of the report decisions, the flag is
1 exactly when calls were made, the calls named `vrms` are `vrms`, and no
call is a diagnostic. -/
def report_ok (s : calc_state) (vrms : List report_call)
    (x : calc_state × List report_call × Nat) : Prop :=
  report_frame x.1 = report_frame s ∧ (x.2.2 = 0 ∧ x.2.1 = [] ∨ x.2.2 = 1 ∧ x.2.1 ≠ []) ∧
    calls_named "vrms" x.2.1 = vrms ∧ ∀ c ∈ x.2.1, is_diag c = false

/-! ## Concrete inputs -/

/-- The record of a window with the two voltage samples 9 and 11. -/
def window_a : reading_stats :=
  { zero_stats with n := 2, val_sum := 20, val2_sum := 202, val_min := 9, val_max := 11 }

/-- The record of a window with the two voltage samples 1 and -1. -/
def window_b : reading_stats :=
  { zero_stats with n := 2, val_sum := 0, val2_sum := 2, val_min := -1, val_max := 1 }

/-- The variables after start-up, with calibration factor 1, no current
channel present, and the window `window_a` accumulated. -/
def state_a : calc_state :=
  { calc_init ieee_ops (f32_lit 1 0) (f32_lit 1 0) (sm_init fresh_state) with vstats := window_a }

/-- The state `state_a` with 3 overflows counted and a queue depth of 5
seen. -/
def state_ovf : calc_state :=
  { state_a with adc := { fresh_state with n_overflow := 3, max_adc_depth := 5 } }

/-- The state `state_a` 41 s after start-up: voltage was last reported at
40 s, power at 5 s, energy at 40 s, and the sum of the currents then was
0. -/
def state_late : calc_state :=
  { state_a with
    start_time := 40000000
    t_report_vrms := 40000000
    t_report_pow := 5000000
    t_report_energy := 40000000
    itot_old := float_zero }

/-- A reading completed at time `t`. -/
def reading_at (t : Nat) : adc_readings_struct := { zero_reading with t := t, set := 1 }

/-! # Definitions used to state the invariants of the queue and of `scan_inputs` -/

/-- The number of slots of the ring that are marked ready. -/
def ready_count (s : adc_state) : Nat :=
  s.adc_readings.countP (fun slot => decide (slot.set ≠ 0))

/-- The history ring after the 24 voltages 1, 2, ..., 24 have been stored
from start-up: `vhist_cur` is 0, slot 0 holds 24 and slot `i` holds `i` for
`i` from 1 to 23. -/
def ring_example : Option sm_state :=
  store_all [1, 2, 3, 4, 5, 6, 7, 8, 9, 10, 11, 12, 13, 14, 15, 16, 17, 18, 19, 20, 21, 22, 23, 24]
    (sm_init fresh_state)

/-- One call of a start-up phase by the main loop: `scan_inputs` or
`stabilize_inputs`, with the reading and the arguments `curstate` and
`nextstate`. -/
inductive phase_call where
  | scan (reading : adc_readings_struct) (curstate nextstate : Nat)
  | stab (reading : adc_readings_struct) (curstate nextstate : Nat)

/-- The reading a call is made with. -/
def phase_reading : phase_call → adc_readings_struct
  | phase_call.scan r _ _ => r
  | phase_call.stab r _ _ => r

/-- The state after one call; the value returned is not used, so that every
order of calls is covered. -/
def phase_step (notice : List Nat) (s : sm_state) : phase_call → Option sm_state
  | phase_call.scan r c n => (scan_inputs notice r c n s).map (fun p => p.2)
  | phase_call.stab r c n => (stabilize_inputs r c n s).map (fun p => p.2)

/-- A sequence of calls of the start-up phases. -/
def phase_run (notice : List Nat) (s : sm_state) (calls : List phase_call) : Option sm_state :=
  calls.foldlM (phase_step notice) s

/-- The state in which a call of `scan_inputs` with reading `r` in state `s`
has executed `nreadings ++`: after the block `if (first)` (when `first` is
set) and the statistics of this reading. -/
def scan_counted (r : adc_readings_struct) (s : sm_state) : sm_state :=
  scan_step (if s.scan_first ≠ 0 then scan_begin r s else s) r

/-- The relation between the sample counts and the reading counter of
`scan_inputs` while `first` is clear: a voltage record marked present has
been counted at most once more than the readings below 4000, and is at 0
once the counter has reached 4000; a current record marked present has been
counted with every reading. -/
def scan_counts (s : sm_state) : Prop :=
  s.scan_nreadings < 65536 ∧
  (s.vstats.present ≠ 0 →
    (s.scan_nreadings < 4000 ∧ s.vstats.n ≤ s.scan_nreadings + 1) ∨
    (4000 ≤ s.scan_nreadings ∧ s.vstats.n = 0)) ∧
  ∀ j < N_CUR_CHAN, (s.istats.getD j zero_stats).present ≠ 0 →
    (s.istats.getD j zero_stats).n = s.scan_nreadings

/-- Invariant of the start-up phases: the arrays have their declared sizes,
`nreadings` of `scan_inputs` is 0 whenever `first` is set, and `scan_counts`
holds whenever `first` is clear. -/
def scan_ok (s : sm_state) : Prop :=
  s.istats.length = N_CUR_CHAN ∧ s.adc.adc_offset.vals.length = N_ADC_CHAN ∧
  s.adc.next_adc_chan.length = N_ADC_CHAN ∧ s.adc.prev_adc_chan.length = N_ADC_CHAN ∧
  (s.scan_first ≠ 0 → s.scan_nreadings = 0) ∧ (s.scan_first = 0 → scan_counts s)

/-- The bit pattern `y` is a finite binary32 value equal to the integer `i`:
its denominator is a power of two `2^s` and its signed numerator is
`i * 2^s`. -/
def f32_whole (y : c_float) (i : Int) : Prop :=
  ∃ s : Nat, (f32_unpack y).2.2 = 2 ^ s ∧
    sign_factor (f32_unpack y).1 * ((f32_unpack y).2.1 : Int) = i * (2 : Int) ^ s

/-! ## Basic facts about the embedded functions -/

set_option maxRecDepth 100000 in
theorem depth_wrap_total : ∀ d < 256, ∃ r, depth_wrap 256 d = some r ∧ r ≤ 0x80 := by
  decide

set_option maxRecDepth 100000 in
theorem depth_wrap_cursors : ∀ w < 16, ∀ r < 16,
    depth_wrap 256 (index_diff w r) = some ((w + 16 - r) % 16) := by
  decide

theorem length_five {α : Type} (l : List α) (h : l.length = 5) :
    ∃ a b c d e, l = [a, b, c, d, e] := by
  match l, h with
  | [a, b, c, d, e], _ => exact ⟨a, b, c, d, e, rfl⟩

theorem init_adc_chans_eq (l : chan_links)
    (hn : l.next_adc_chan.length = N_ADC_CHAN) (hp : l.prev_adc_chan.length = N_ADC_CHAN) :
    init_adc_chans l = some { next_adc_chan := [1, 2, 3, 4, 0], prev_adc_chan := [4, 0, 1, 2, 3] } := by
  obtain ⟨n, p⟩ := l
  obtain ⟨a, b, c, d, e, rfl⟩ := length_five n hn
  obtain ⟨a', b', c', d', e', rfl⟩ := length_five p hp
  rfl

theorem copy_vals_eq (src dst : List Int) (hs : src.length = N_ADC_CHAN)
    (hd : dst.length = N_ADC_CHAN) :
    (List.range N_ADC_CHAN).foldlM (copy_val src) dst = some src := by
  obtain ⟨a, b, c, d, e, rfl⟩ := length_five src hs
  obtain ⟨a', b', c', d', e', rfl⟩ := length_five dst hd
  rfl

theorem index_diff_lt (w r : Nat) : index_diff w r < 256 := by
  unfold index_diff
  omega

theorem ISR_not_last (ADCW micros : Nat) (s : adc_state) (p n : Nat) (off : Int)
    (slot : adc_readings_struct)
    (hprev : s.prev_adc_chan[s.cur_chan]? = some p)
    (hnext : s.next_adc_chan[s.cur_chan]? = some n)
    (hoff : s.adc_offset.vals[p]? = some off)
    (hslot : s.adc_readings[s.adc_write_index]? = some slot)
    (hp : p < slot.vals.length) (hn : n < N_ADC_CHAN) (hn0 : n ≠ 0) :
    ISR_ADC_vect ADCW micros s = some { s with
      adc_readings := s.adc_readings.set s.adc_write_index (stored_slot ADCW off p slot)
      ADMUX := (s.ADMUX &&& 0xf0) ||| n
      cur_chan := n } := by
  have hmux : adc_chans[n]? = some n := by
    simp only [N_ADC_CHAN] at hn
    interval_cases n <;> rfl
  simp [ISR_ADC_vect, hprev, hnext, hoff, hslot, arr_set, hp, hn0, hmux, stored_slot]

theorem ISR_last (ADCW micros : Nat) (s : adc_state) (p : Nat) (off : Int)
    (slot nxt : adc_readings_struct)
    (hprev : s.prev_adc_chan[s.cur_chan]? = some p)
    (hnext : s.next_adc_chan[s.cur_chan]? = some 0)
    (hoff : s.adc_offset.vals[p]? = some off)
    (hslot : s.adc_readings[s.adc_write_index]? = some slot)
    (hp : p < slot.vals.length)
    (hw : s.adc_write_index < N_READINGS)
    (hnxt : s.adc_readings[(s.adc_write_index + 1) % N_READINGS]? = some nxt) :
    ISR_ADC_vect ADCW micros s = some { s with
      adc_readings :=
        (s.adc_readings.set s.adc_write_index
          { stored_slot ADCW off p slot with t := micros, set := 1 }).set
          ((s.adc_write_index + 1) % N_READINGS) { nxt with set := 0 }
      adc_read_index :=
        if nxt.set ≠ 0 then (s.adc_write_index + 2) % N_READINGS else s.adc_read_index
      n_overflow := if nxt.set ≠ 0 then (s.n_overflow + 1) % 65536 else s.n_overflow
      adc_write_index := (s.adc_write_index + 1) % N_READINGS
      ADMUX := (s.ADMUX &&& 0xf0) ||| 0
      cur_chan := 0 } := by
  have hlt : s.adc_write_index < s.adc_readings.length :=
    (List.getElem?_eq_some.mp hslot).1
  have hcr : (if (s.adc_write_index + 1) % 256 = N_READINGS then 0
      else (s.adc_write_index + 1) % 256) = (s.adc_write_index + 1) % N_READINGS := by
    simp only [N_READINGS] at *
    split <;> omega
  have hne : s.adc_write_index ≠ (s.adc_write_index + 1) % N_READINGS := by
    simp only [N_READINGS] at *
    omega
  have hri : (if ((s.adc_write_index + 1) % N_READINGS + 1) % 256 = N_READINGS then 0
      else ((s.adc_write_index + 1) % N_READINGS + 1) % 256)
      = (s.adc_write_index + 2) % N_READINGS := by
    simp only [N_READINGS] at *
    split <;> omega
  simp [ISR_ADC_vect, ISR_finalize, hprev, hnext, hoff, hslot, arr_set, hp, hlt, hcr,
    List.getElem?_set_ne hne, hnxt, hri, stored_slot, adc_chans]

/-! ## The sample queue -/

theorem slot_at_eq {rd : List adc_readings_struct} {i : Nat} (h : i < rd.length) :
    rd[i]? = some (slot_at rd i) := by
  simp [slot_at, List.getElem?_eq_getElem h]

theorem slot_at_mem {rd : List adc_readings_struct} {i : Nat} (h : i < rd.length) :
    slot_at rd i ∈ rd := by
  have : slot_at rd i = rd[i] := by simp [slot_at, List.getElem?_eq_getElem h]
  rw [this]
  exact List.getElem_mem h

theorem slot_at_set_self {rd : List adc_readings_struct} {i : Nat} (a : adc_readings_struct)
    (h : i < rd.length) : slot_at (rd.set i a) i = a := by
  simp [slot_at, h]

theorem slot_at_set_ne {rd : List adc_readings_struct} {i j : Nat} (a : adc_readings_struct)
    (h : i ≠ j) : slot_at (rd.set i a) j = slot_at rd j := by
  simp [slot_at, List.getElem?_set_ne h]

theorem links_lookup (s : adc_state) (h : queue_inv s) :
    ∃ p n, s.prev_adc_chan[s.cur_chan]? = some p ∧ s.next_adc_chan[s.cur_chan]? = some n ∧
      p < N_ADC_CHAN ∧ n < N_ADC_CHAN ∧ n = (s.cur_chan + 1) % N_ADC_CHAN := by
  have hn : s.next_adc_chan = [1, 2, 3, 4, 0] := congrArg chan_links.next_adc_chan h.links
  have hp : s.prev_adc_chan = [4, 0, 1, 2, 3] := congrArg chan_links.prev_adc_chan h.links
  have hc := h.chan
  rw [hn, hp]
  simp only [N_ADC_CHAN] at hc ⊢
  interval_cases s.cur_chan <;> simp

theorem mem_set_cases {α : Type} {l : List α} {i : Nat} {a x : α}
    (h : x ∈ l.set i a) : x = a ∨ x ∈ l := by
  rcases List.mem_or_eq_of_mem_set h with h | h
  · exact Or.inr h
  · exact Or.inl h

theorem ISR_not_last_inv (a m : Nat) (s : adc_state) (h : queue_inv s)
    (hl : is_last s = false) :
    ∃ s', ISR_ADC_vect a m s = some s' ∧ queue_inv s' ∧ queue s' = queue s ∧
      s'.n_overflow = s.n_overflow ∧ s'.adc_offset = s.adc_offset ∧
      s'.adc_read_index = s.adc_read_index ∧ s'.adc_write_index = s.adc_write_index ∧
      s'.cur_chan = (s.cur_chan + 1) % N_ADC_CHAN := by
  obtain ⟨p, n, hprev, hnext, hp, hn, hnc⟩ := links_lookup s h
  have hn0 : n ≠ 0 := by
    intro h0
    simp [is_last, hnext, h0] at hl
  have hwl : s.adc_write_index < s.adc_readings.length := by
    rw [h.rd_len]
    exact h.wlt
  have hpo : p < s.adc_offset.vals.length := by
    rw [h.off_len]
    exact hp
  have hps : p < (slot_at s.adc_readings s.adc_write_index).vals.length := by
    rw [h.vals_len _ (slot_at_mem hwl)]
    exact hp
  refine ⟨_, ISR_not_last a m s p n _ _ hprev hnext (List.getElem?_eq_getElem hpo)
    (slot_at_eq hwl) hps hn hn0, ?_, ?_, rfl, rfl, rfl, rfl, hnc⟩
  · refine ⟨h.links, hn, h.off_len, ?_, ?_, h.rlt, h.wlt, ?_⟩
    · simpa using h.rd_len
    · intro slot hmem
      rcases mem_set_cases hmem with e | e
      · subst e
        simp only [stored_slot, List.length_set]
        exact h.vals_len _ (slot_at_mem hwl)
      · exact h.vals_len _ e
    · intro i hi
      have := h.flags i hi
      by_cases hiw : s.adc_write_index = i
      · subst hiw
        simpa [slot_at_set_self _ hwl, stored_slot, in_window] using this
      · simpa [slot_at_set_ne _ hiw, in_window] using this
  · simp only [queue, ring_depth]
    apply List.map_congr_left
    intro k hk
    have hk' := List.mem_range.mp hk
    have hr := h.rlt
    have hw := h.wlt
    have hne : s.adc_write_index ≠ (s.adc_read_index + k) % N_READINGS := by
      simp only [N_READINGS] at *
      omega
    simp only [slot_at_set_ne _ hne]

/-! ### Arithmetic of the ring cursors -/

theorem ring_succ_ne (w : Nat) : w ≠ (w + 1) % N_READINGS := by
  simp only [N_READINGS]
  omega

theorem ring_full_iff (w r : Nat) (hr : r < N_READINGS) :
    (((w + 1) % N_READINGS + N_READINGS - r) % N_READINGS < (w + N_READINGS - r) % N_READINGS)
      ↔ (w + N_READINGS - r) % N_READINGS = N_READINGS - 1 := by
  simp only [N_READINGS] at *
  omega

theorem push_window_room (w r i : Nat) (hw : w < N_READINGS) (hr : r < N_READINGS)
    (hi : i < N_READINGS) (hd : (w + N_READINGS - r) % N_READINGS < N_READINGS - 1) :
    ((w + 1) % N_READINGS = i →
      ¬ ((i + N_READINGS - r) % N_READINGS <
        ((w + 1) % N_READINGS + N_READINGS - r) % N_READINGS)) ∧
    (w = i →
      (i + N_READINGS - r) % N_READINGS <
        ((w + 1) % N_READINGS + N_READINGS - r) % N_READINGS) ∧
    ((w + 1) % N_READINGS ≠ i → w ≠ i →
      ((i + N_READINGS - r) % N_READINGS <
        ((w + 1) % N_READINGS + N_READINGS - r) % N_READINGS ↔
       (i + N_READINGS - r) % N_READINGS < (w + N_READINGS - r) % N_READINGS)) := by
  simp only [N_READINGS] at *
  refine ⟨?_, ?_, ?_⟩ <;> omega

theorem push_window_full (w r i : Nat) (hw : w < N_READINGS) (hr : r < N_READINGS)
    (hi : i < N_READINGS) (hd : (w + N_READINGS - r) % N_READINGS = N_READINGS - 1) :
    ((w + 1) % N_READINGS = i →
      ¬ ((i + N_READINGS - (w + 2) % N_READINGS) % N_READINGS <
        ((w + 1) % N_READINGS + N_READINGS - (w + 2) % N_READINGS) % N_READINGS)) ∧
    (w = i →
      (i + N_READINGS - (w + 2) % N_READINGS) % N_READINGS <
        ((w + 1) % N_READINGS + N_READINGS - (w + 2) % N_READINGS) % N_READINGS) ∧
    ((w + 1) % N_READINGS ≠ i → w ≠ i →
      ((i + N_READINGS - (w + 2) % N_READINGS) % N_READINGS <
        ((w + 1) % N_READINGS + N_READINGS - (w + 2) % N_READINGS) % N_READINGS ↔
       (i + N_READINGS - r) % N_READINGS < (w + N_READINGS - r) % N_READINGS)) := by
  simp only [N_READINGS] at *
  refine ⟨?_, ?_, ?_⟩ <;> omega

theorem push_index_room (w r k : Nat)
    (hd : (w + N_READINGS - r) % N_READINGS < N_READINGS - 1)
    (hk : k < (w + N_READINGS - r) % N_READINGS) :
    (w + 1) % N_READINGS ≠ (r + k) % N_READINGS ∧ w ≠ (r + k) % N_READINGS := by
  simp only [N_READINGS] at *
  omega

theorem push_depth_room (w r : Nat) (hw : w < N_READINGS) (hr : r < N_READINGS)
    (hd : (w + N_READINGS - r) % N_READINGS < N_READINGS - 1) :
    ((w + 1) % N_READINGS + N_READINGS - r) % N_READINGS =
      (w + N_READINGS - r) % N_READINGS + 1 ∧
    (r + (w + N_READINGS - r) % N_READINGS) % N_READINGS = w := by
  simp only [N_READINGS] at *
  omega

theorem push_index_full (w r k : Nat)
    (hd : (w + N_READINGS - r) % N_READINGS = N_READINGS - 1) (hk : k < 14) :
    (w + 1) % N_READINGS ≠ ((w + 2) % N_READINGS + k) % N_READINGS ∧
    w ≠ ((w + 2) % N_READINGS + k) % N_READINGS ∧
    ((w + 2) % N_READINGS + k) % N_READINGS = (r + (k + 1)) % N_READINGS := by
  simp only [N_READINGS] at *
  omega

theorem push_depth_full (w r : Nat) (hw : w < N_READINGS)
    (hd : (w + N_READINGS - r) % N_READINGS = N_READINGS - 1) :
    ((w + 1) % N_READINGS + N_READINGS - (w + 2) % N_READINGS) % N_READINGS = 14 + 1 ∧
    (w + N_READINGS - r) % N_READINGS = 14 + 1 ∧
    ((w + 2) % N_READINGS + 14) % N_READINGS = w := by
  simp only [N_READINGS] at *
  omega

theorem tail_map_range {α : Type} (f : Nat → α) (n : Nat) :
    (List.map f (List.range (n + 1))).tail = List.map (fun k => f (k + 1)) (List.range n) := by
  rw [List.range_succ_eq_map, List.map_cons, List.tail_cons, List.map_map]
  rfl

/-! ### The handler finishing a reading -/

theorem ISR_last_room (a m : Nat) (s : adc_state) (h : queue_inv s) (p : Nat)
    (hprev : s.prev_adc_chan[s.cur_chan]? = some p) (hp : p < N_ADC_CHAN)
    (hnext : s.next_adc_chan[s.cur_chan]? = some 0)
    (hd : ring_depth s < N_READINGS - 1) :
    ISR_ADC_vect a m s = some { s with
      adc_readings :=
        (s.adc_readings.set s.adc_write_index (ready_slot a m s p)).set
          ((s.adc_write_index + 1) % N_READINGS)
          { slot_at s.adc_readings ((s.adc_write_index + 1) % N_READINGS) with set := 0 }
      adc_write_index := (s.adc_write_index + 1) % N_READINGS
      ADMUX := (s.ADMUX &&& 0xf0) ||| 0
      cur_chan := 0 } := by
  have hwl : s.adc_write_index < s.adc_readings.length := by
    rw [h.rd_len]
    exact h.wlt
  have hw1 : (s.adc_write_index + 1) % N_READINGS < s.adc_readings.length := by
    rw [h.rd_len]
    exact Nat.mod_lt _ (by decide)
  have hpo : p < s.adc_offset.vals.length := by
    rw [h.off_len]
    exact hp
  have hps : p < (slot_at s.adc_readings s.adc_write_index).vals.length := by
    rw [h.vals_len _ (slot_at_mem hwl)]
    exact hp
  have hoff : s.adc_offset.vals[p]? = some (s.adc_offset.vals.getD p 0) := by
    simp [List.getD_eq_getElem?_getD, List.getElem?_eq_getElem hpo]
  have hflag := h.flags ((s.adc_write_index + 1) % N_READINGS) (Nat.mod_lt _ (by decide))
  have hnf : (slot_at s.adc_readings ((s.adc_write_index + 1) % N_READINGS)).set = 0 := by
    by_contra hne
    have h1 := (ring_full_iff _ _ h.rlt).mp (hflag.mp hne)
    have h2 : ring_depth s = N_READINGS - 1 := h1
    omega
  rw [ISR_last a m s p _ _ _ hprev hnext hoff (slot_at_eq hwl) hps h.wlt (slot_at_eq hw1)]
  simp [hnf, ready_slot]

theorem ISR_last_full (a m : Nat) (s : adc_state) (h : queue_inv s) (p : Nat)
    (hprev : s.prev_adc_chan[s.cur_chan]? = some p) (hp : p < N_ADC_CHAN)
    (hnext : s.next_adc_chan[s.cur_chan]? = some 0)
    (hd : ring_depth s = N_READINGS - 1) :
    ISR_ADC_vect a m s = some { s with
      adc_readings :=
        (s.adc_readings.set s.adc_write_index (ready_slot a m s p)).set
          ((s.adc_write_index + 1) % N_READINGS)
          { slot_at s.adc_readings ((s.adc_write_index + 1) % N_READINGS) with set := 0 }
      adc_read_index := (s.adc_write_index + 2) % N_READINGS
      n_overflow := (s.n_overflow + 1) % 65536
      adc_write_index := (s.adc_write_index + 1) % N_READINGS
      ADMUX := (s.ADMUX &&& 0xf0) ||| 0
      cur_chan := 0 } := by
  have hwl : s.adc_write_index < s.adc_readings.length := by
    rw [h.rd_len]
    exact h.wlt
  have hw1 : (s.adc_write_index + 1) % N_READINGS < s.adc_readings.length := by
    rw [h.rd_len]
    exact Nat.mod_lt _ (by decide)
  have hpo : p < s.adc_offset.vals.length := by
    rw [h.off_len]
    exact hp
  have hps : p < (slot_at s.adc_readings s.adc_write_index).vals.length := by
    rw [h.vals_len _ (slot_at_mem hwl)]
    exact hp
  have hoff : s.adc_offset.vals[p]? = some (s.adc_offset.vals.getD p 0) := by
    simp [List.getD_eq_getElem?_getD, List.getElem?_eq_getElem hpo]
  have hflag := h.flags ((s.adc_write_index + 1) % N_READINGS) (Nat.mod_lt _ (by decide))
  have hf : (slot_at s.adc_readings ((s.adc_write_index + 1) % N_READINGS)).set ≠ 0 :=
    hflag.mpr ((ring_full_iff _ _ h.rlt).mpr hd)
  rw [ISR_last a m s p _ _ _ hprev hnext hoff (slot_at_eq hwl) hps h.wlt (slot_at_eq hw1)]
  simp [hf, ready_slot]

theorem ISR_room_inv (a m : Nat) (s : adc_state) (h : queue_inv s)
    (hl : is_last s = true) (hd : ring_depth s < N_READINGS - 1) :
    ∃ s' p, ISR_ADC_vect a m s = some s' ∧ queue_inv s' ∧
      s.prev_adc_chan[s.cur_chan]? = some p ∧
      slot_at s'.adc_readings s.adc_write_index = ready_slot a m s p ∧
      queue s' = queue s ++ [sample_of (ready_slot a m s p)] ∧
      s'.adc_offset = s.adc_offset ∧
      s'.adc_write_index = (s.adc_write_index + 1) % N_READINGS ∧
      s'.cur_chan = 0 ∧
      s'.n_overflow = s.n_overflow ∧ s'.adc_read_index = s.adc_read_index := by
  obtain ⟨p, n, hprev, hnext, hp, hn, hnc⟩ := links_lookup s h
  have hn0 : n = 0 := by
    simp only [is_last, hnext, decide_eq_true_eq] at hl
    exact Option.some.inj hl
  subst hn0
  have hwl : s.adc_write_index < s.adc_readings.length := by
    rw [h.rd_len]
    exact h.wlt
  have hw1 : (s.adc_write_index + 1) % N_READINGS < s.adc_readings.length := by
    rw [h.rd_len]
    exact Nat.mod_lt _ (by decide)
  have hne := ring_succ_ne s.adc_write_index
  have hslot : slot_at ((s.adc_readings.set s.adc_write_index (ready_slot a m s p)).set
      ((s.adc_write_index + 1) % N_READINGS)
      { slot_at s.adc_readings ((s.adc_write_index + 1) % N_READINGS) with set := 0 })
      s.adc_write_index = ready_slot a m s p := by
    rw [slot_at_set_ne _ (Ne.symm hne), slot_at_set_self _ hwl]
  refine ⟨_, p, ISR_last_room a m s h p hprev hp hnext hd, ?_, hprev, hslot, ?_,
    rfl, rfl, rfl, rfl, rfl⟩
  · refine ⟨h.links, (by decide : 0 < N_ADC_CHAN), h.off_len, ?_, ?_, h.rlt,
      Nat.mod_lt _ (by decide), ?_⟩
    · simpa using h.rd_len
    · intro slot hmem
      rcases mem_set_cases hmem with e | e
      · subst e
        show (slot_at s.adc_readings ((s.adc_write_index + 1) % N_READINGS)).vals.length = _
        exact h.vals_len _ (slot_at_mem hw1)
      · rcases mem_set_cases e with e | e
        · subst e
          simp only [ready_slot, stored_slot, List.length_set]
          exact h.vals_len _ (slot_at_mem hwl)
        · exact h.vals_len _ e
    · intro i hi
      obtain ⟨c1, c2, c3⟩ := push_window_room _ _ i h.wlt h.rlt hi hd
      simp only [in_window]
      by_cases hi1 : (s.adc_write_index + 1) % N_READINGS = i
      · rw [← hi1, slot_at_set_self _ (by simpa using hw1)]
        have := c1 hi1
        rw [← hi1] at this
        simp [this]
      · rw [slot_at_set_ne _ hi1]
        by_cases hi2 : s.adc_write_index = i
        · rw [← hi2, slot_at_set_self _ hwl]
          have := c2 hi2
          rw [← hi2] at this
          simp [ready_slot, this]
        · rw [slot_at_set_ne _ hi2, c3 hi1 hi2]
          exact h.flags i hi
  · obtain ⟨d1, d2⟩ := push_depth_room _ _ h.wlt h.rlt hd
    simp only [queue, ring_depth]
    rw [d1, List.range_succ, List.map_append]
    congr 1
    · apply List.map_congr_left
      intro k hk
      obtain ⟨e1, e2⟩ := push_index_room _ _ k hd (List.mem_range.mp hk)
      rw [slot_at_set_ne _ e1, slot_at_set_ne _ e2]
    · simp only [List.map_cons, List.map_nil, d2]
      rw [hslot]

theorem ISR_full_inv (a m : Nat) (s : adc_state) (h : queue_inv s)
    (hl : is_last s = true) (hd : ring_depth s = N_READINGS - 1) :
    ∃ s' p, ISR_ADC_vect a m s = some s' ∧ queue_inv s' ∧
      s.prev_adc_chan[s.cur_chan]? = some p ∧
      slot_at s'.adc_readings s.adc_write_index = ready_slot a m s p ∧
      queue s' = (queue s).tail ++ [sample_of (ready_slot a m s p)] ∧
      s'.adc_offset = s.adc_offset ∧
      s'.adc_write_index = (s.adc_write_index + 1) % N_READINGS ∧
      s'.cur_chan = 0 ∧
      s'.n_overflow = (s.n_overflow + 1) % 65536 ∧
      s'.adc_read_index = (s.adc_write_index + 2) % N_READINGS := by
  obtain ⟨p, n, hprev, hnext, hp, hn, hnc⟩ := links_lookup s h
  have hn0 : n = 0 := by
    simp only [is_last, hnext, decide_eq_true_eq] at hl
    exact Option.some.inj hl
  subst hn0
  have hwl : s.adc_write_index < s.adc_readings.length := by
    rw [h.rd_len]
    exact h.wlt
  have hw1 : (s.adc_write_index + 1) % N_READINGS < s.adc_readings.length := by
    rw [h.rd_len]
    exact Nat.mod_lt _ (by decide)
  have hne := ring_succ_ne s.adc_write_index
  have hslot : slot_at ((s.adc_readings.set s.adc_write_index (ready_slot a m s p)).set
      ((s.adc_write_index + 1) % N_READINGS)
      { slot_at s.adc_readings ((s.adc_write_index + 1) % N_READINGS) with set := 0 })
      s.adc_write_index = ready_slot a m s p := by
    rw [slot_at_set_ne _ (Ne.symm hne), slot_at_set_self _ hwl]
  refine ⟨_, p, ISR_last_full a m s h p hprev hp hnext hd, ?_, hprev, hslot, ?_,
    rfl, rfl, rfl, rfl, rfl⟩
  · refine ⟨h.links, (by decide : 0 < N_ADC_CHAN), h.off_len, ?_, ?_,
      Nat.mod_lt _ (by decide), Nat.mod_lt _ (by decide), ?_⟩
    · simpa using h.rd_len
    · intro slot hmem
      rcases mem_set_cases hmem with e | e
      · subst e
        show (slot_at s.adc_readings ((s.adc_write_index + 1) % N_READINGS)).vals.length = _
        exact h.vals_len _ (slot_at_mem hw1)
      · rcases mem_set_cases e with e | e
        · subst e
          simp only [ready_slot, stored_slot, List.length_set]
          exact h.vals_len _ (slot_at_mem hwl)
        · exact h.vals_len _ e
    · intro i hi
      obtain ⟨c1, c2, c3⟩ := push_window_full _ _ i h.wlt h.rlt hi hd
      simp only [in_window]
      by_cases hi1 : (s.adc_write_index + 1) % N_READINGS = i
      · rw [← hi1, slot_at_set_self _ (by simpa using hw1)]
        have := c1 hi1
        rw [← hi1] at this
        simp [this]
      · rw [slot_at_set_ne _ hi1]
        by_cases hi2 : s.adc_write_index = i
        · rw [← hi2, slot_at_set_self _ hwl]
          have := c2 hi2
          rw [← hi2] at this
          simp [ready_slot, this]
        · rw [slot_at_set_ne _ hi2, c3 hi1 hi2]
          exact h.flags i hi
  · obtain ⟨d1, d2, d3⟩ := push_depth_full _ s.adc_read_index h.wlt hd
    simp only [queue, ring_depth]
    rw [d1, d2, tail_map_range, List.range_succ, List.map_append]
    congr 1
    · apply List.map_congr_left
      intro k hk
      obtain ⟨e1, e2, e3⟩ := push_index_full _ s.adc_read_index k hd (List.mem_range.mp hk)
      rw [slot_at_set_ne _ e1, slot_at_set_ne _ e2, e3]
    · simp only [List.map_cons, List.map_nil, d3]
      rw [hslot]

theorem get_next_not_ready (reading : adc_readings_struct) (s : adc_state)
    (slot : adc_readings_struct)
    (hslot : s.adc_readings[s.adc_read_index]? = some slot) (h0 : slot.set = 0) :
    get_next_adc_reading reading s = some (0, reading, s) := by
  simp [get_next_adc_reading, hslot, h0]

theorem get_next_ready (reading : adc_readings_struct) (s : adc_state)
    (slot : adc_readings_struct)
    (hslot : s.adc_readings[s.adc_read_index]? = some slot)
    (hr : s.adc_read_index < N_READINGS)
    (hsl : slot.vals.length = N_ADC_CHAN) (hrl : reading.vals.length = N_ADC_CHAN)
    (h1 : slot.set ≠ 0) :
    ∃ mx, get_next_adc_reading reading s =
      some (1, { reading with t := slot.t, vals := slot.vals },
        { s with
          adc_readings := s.adc_readings.set s.adc_read_index { slot with set := 0 }
          adc_read_index := (s.adc_read_index + 1) % N_READINGS
          max_adc_depth := mx }) := by
  have hcr : (if (s.adc_read_index + 1) % 256 ≥ N_READINGS then 0
      else (s.adc_read_index + 1) % 256) = (s.adc_read_index + 1) % N_READINGS := by
    simp only [N_READINGS] at *
    split <;> omega
  obtain ⟨d, hd, _⟩ := depth_wrap_total
    (index_diff s.adc_write_index ((s.adc_read_index + 1) % N_READINGS)) (index_diff_lt _ _)
  refine ⟨if d > s.max_adc_depth then d else s.max_adc_depth, ?_⟩
  simp [get_next_adc_reading, hslot, h1, copy_vals_eq _ _ hsl hrl, hcr, hd]

theorem pop_empty_inv (reading : adc_readings_struct) (s : adc_state) (h : queue_inv s)
    (hd : ring_depth s = 0) :
    get_next_adc_reading reading s = some (0, reading, s) ∧ queue s = [] := by
  have hrl : s.adc_read_index < s.adc_readings.length := by
    rw [h.rd_len]
    exact h.rlt
  have hf := h.flags _ h.rlt
  have h0 : (slot_at s.adc_readings s.adc_read_index).set = 0 := by
    by_contra hne
    have := hf.mp hne
    simp only [in_window, ring_depth, N_READINGS] at *
    omega
  refine ⟨get_next_not_ready reading s _ (slot_at_eq hrl) h0, ?_⟩
  simp [queue, hd]

theorem pop_ready_inv (reading : adc_readings_struct) (s : adc_state) (h : queue_inv s)
    (hrdl : reading.vals.length = N_ADC_CHAN) (hd : ring_depth s ≠ 0) :
    ∃ rd s', get_next_adc_reading reading s = some (1, rd, s') ∧ queue_inv s' ∧
      rd.vals.length = N_ADC_CHAN ∧
      queue s = sample_of rd :: queue s' ∧
      sample_of rd = sample_of (slot_at s.adc_readings s.adc_read_index) ∧
      s'.n_overflow = s.n_overflow ∧ s'.adc_write_index = s.adc_write_index ∧
      s'.adc_read_index = (s.adc_read_index + 1) % N_READINGS ∧
      s'.adc_offset = s.adc_offset ∧ s'.cur_chan = s.cur_chan := by
  have hr := h.rlt
  have hw := h.wlt
  have hrl : s.adc_read_index < s.adc_readings.length := by
    rw [h.rd_len]
    exact h.rlt
  have hf := h.flags _ h.rlt
  have h1 : (slot_at s.adc_readings s.adc_read_index).set ≠ 0 := by
    apply hf.mpr
    simp only [in_window, ring_depth, N_READINGS] at *
    omega
  obtain ⟨mx, hmx⟩ := get_next_ready reading s _ (slot_at_eq hrl) hr
    (h.vals_len _ (slot_at_mem hrl)) hrdl h1
  have hvl : (slot_at s.adc_readings s.adc_read_index).vals.length = N_ADC_CHAN :=
    h.vals_len _ (slot_at_mem hrl)
  refine ⟨_, _, hmx, ?_, hvl, ?_, rfl, rfl, rfl, rfl, rfl, rfl⟩
  · refine ⟨h.links, h.chan, h.off_len, ?_, ?_, Nat.mod_lt _ (by decide), h.wlt, ?_⟩
    · simpa using h.rd_len
    · intro slot hmem
      rcases mem_set_cases hmem with e | e
      · subst e
        exact hvl
      · exact h.vals_len _ e
    · intro i hi
      show (slot_at _ i).set ≠ 0 ↔
        (i + N_READINGS - (s.adc_read_index + 1) % N_READINGS) % N_READINGS <
        (s.adc_write_index + N_READINGS - (s.adc_read_index + 1) % N_READINGS) % N_READINGS
      have hfi := h.flags i hi
      simp only [in_window] at hfi
      by_cases hi1 : s.adc_read_index = i
      · subst hi1
        rw [slot_at_set_self _ hrl]
        simp only [ring_depth, N_READINGS] at *
        simp
        omega
      · rw [slot_at_set_ne _ hi1, hfi]
        simp only [ring_depth, N_READINGS] at *
        omega
  · simp only [queue, ring_depth]
    have hd1 : (s.adc_write_index + N_READINGS - s.adc_read_index) % N_READINGS =
        (s.adc_write_index + N_READINGS - (s.adc_read_index + 1) % N_READINGS) % N_READINGS + 1 := by
      simp only [ring_depth, N_READINGS] at *
      omega
    rw [hd1, List.range_succ_eq_map, List.map_cons, List.map_map]
    congr 1
    · rw [Nat.add_zero, Nat.mod_eq_of_lt hr]
      rfl
    apply List.map_congr_left
    intro k hk
    have hk' := List.mem_range.mp hk
    have e1 : s.adc_read_index ≠ ((s.adc_read_index + 1) % N_READINGS + k) % N_READINGS := by
      simp only [ring_depth, N_READINGS] at *
      omega
    have e3 : (s.adc_read_index + (k + 1)) % N_READINGS =
        ((s.adc_read_index + 1) % N_READINGS + k) % N_READINGS := by
      simp only [ring_depth, N_READINGS] at *
      omega
    simp only [Function.comp, Nat.succ_eq_add_one, slot_at_set_ne _ e1, e3]

theorem queue_length (s : adc_state) : (queue s).length = ring_depth s := by
  simp [queue]

theorem ring_depth_lt (s : adc_state) : ring_depth s < N_READINGS :=
  Nat.mod_lt _ (by decide)

theorem pop_all_queue : ∀ (fuel : Nat) (reading : adc_readings_struct) (s : adc_state),
    queue_inv s → reading.vals.length = N_ADC_CHAN → ring_depth s < fuel →
    pop_all fuel reading s = some (queue s) := by
  intro fuel
  induction fuel with
  | zero =>
    intro reading s _ _ hd
    exact absurd hd (Nat.not_lt_zero _)
  | succ f ih =>
    intro reading s h hrl hd
    by_cases h0 : ring_depth s = 0
    · obtain ⟨e1, e2⟩ := pop_empty_inv reading s h h0
      simp [pop_all, e1, e2]
    · obtain ⟨rd, s', e1, hi, hrd, hq, _, _, _, _, _, _⟩ := pop_ready_inv reading s h hrl h0
      have hlen : ring_depth s = ring_depth s' + 1 := by
        rw [← queue_length s, ← queue_length s', hq]
        rfl
      have hd' : ring_depth s' < f := by omega
      simp [pop_all, e1, ih rd s' hi hrd hd', hq]

theorem unread_eq_queue (s : adc_state) (h : queue_inv s) : unread s = some (queue s) :=
  pop_all_queue _ _ s h rfl (ring_depth_lt s)

theorem mod_succ_ne (n : Nat) : (n + 1) % 65536 ≠ n := by
  omega

theorem set_adc_offset_cases (chan : Nat) (v : Int) (s : adc_state)
    (hlen : s.adc_offset.vals.length = N_ADC_CHAN) :
    ∃ s', set_adc_offset chan v s = some s' ∧
      (s' = s ∨ s' = { s with adc_offset := { s.adc_offset with
        vals := s.adc_offset.vals.set chan v } }) := by
  by_cases hc : chan < N_ADC_CHAN
  · have hlt : chan < s.adc_offset.vals.length := by omega
    by_cases h0 : s.adc_offset.vals[chan] = 0
    · exact ⟨_, by simp [set_adc_offset, hc, hlt, h0, arr_set], Or.inr rfl⟩
    · exact ⟨s, by simp [set_adc_offset, hc, hlt, h0], Or.inl rfl⟩
  · exact ⟨s, by simp [set_adc_offset, hc], Or.inl rfl⟩

theorem queue_inv_offset (s : adc_state) (off : adc_readings_struct) (h : queue_inv s)
    (hlen : off.vals.length = N_ADC_CHAN) : queue_inv { s with adc_offset := off } :=
  ⟨h.links, h.chan, hlen, h.rd_len, h.vals_len, h.rlt, h.wlt, h.flags⟩

theorem step_inv (tr : trace) (h : trace_inv tr) (e : event) :
    ∃ tr', step tr e = some tr' ∧ trace_inv tr' := by
  cases e with
  | isr a m =>
    cases hl : is_last tr.st with
    | false =>
      obtain ⟨s', e1, hi, hq, hn, _⟩ := ISR_not_last_inv a m tr.st h.qi hl
      simp only [step, e1, hl]
      refine ⟨_, rfl, ⟨hi, h.rl, ?_⟩⟩
      intro ho
      simp only [hn, if_true] at ho
      simp only [Bool.false_eq_true, if_false, hq]
      exact h.fifo ho
    | true =>
      have hlt := ring_depth_lt tr.st
      by_cases hd : ring_depth tr.st = N_READINGS - 1
      · obtain ⟨s', p, e1, hi, _, hs, _, _, _, _, hn, _⟩ := ISR_full_inv a m tr.st h.qi hl hd
        simp only [step, e1]
        refine ⟨_, rfl, ⟨hi, h.rl, ?_⟩⟩
        intro ho
        have hne : s'.n_overflow ≠ tr.st.n_overflow := by
          rw [hn]
          exact mod_succ_ne _
        simp only [if_neg hne] at ho
        omega
      · have hd' : ring_depth tr.st < N_READINGS - 1 := by
          simp only [N_READINGS] at *
          omega
        obtain ⟨s', p, e1, hi, _, hs, hq, _, _, _, hn, _⟩ := ISR_room_inv a m tr.st h.qi hl hd'
        simp only [step, e1]
        refine ⟨_, rfl, ⟨hi, h.rl, ?_⟩⟩
        intro ho
        simp only [hn, if_true] at ho
        simp only [hl, if_true, hq, hs, h.fifo ho, List.append_assoc]
  | pop =>
    by_cases h0 : ring_depth tr.st = 0
    · obtain ⟨e1, _⟩ := pop_empty_inv tr.reading tr.st h.qi h0
      simp only [step, e1]
      refine ⟨_, rfl, ⟨h.qi, h.rl, ?_⟩⟩
      intro ho
      simp only [if_true]
      exact h.fifo ho
    · obtain ⟨rd, s', e1, hi, hrd, hq, _⟩ := pop_ready_inv tr.reading tr.st h.qi h.rl h0
      simp only [step, e1]
      refine ⟨_, rfl, ⟨hi, hrd, ?_⟩⟩
      intro ho
      have := h.fifo ho
      rw [hq] at this
      simp [this]
  | set_offset chan v =>
    obtain ⟨s', e1, hs⟩ := set_adc_offset_cases chan v tr.st h.qi.off_len
    simp only [step, e1]
    refine ⟨_, rfl, ?_⟩
    rcases hs with rfl | rfl
    · exact h
    · exact ⟨queue_inv_offset _ _ h.qi (by simp [h.qi.off_len]), h.rl, h.fifo⟩
  | reset_ovf =>
    exact ⟨_, rfl, ⟨⟨h.qi.links, h.qi.chan, h.qi.off_len, h.qi.rd_len, h.qi.vals_len,
      h.qi.rlt, h.qi.wlt, h.qi.flags⟩, h.rl, h.fifo⟩⟩
  | init_chans =>
    have e1 : init_adc_chans tr.st.tochan_links = some tr.st.tochan_links := by
      rw [h.qi.links]
      rfl
    simp only [step, e1]
    exact ⟨_, rfl, h⟩

theorem run_inv (evs : List event) : ∀ tr, trace_inv tr →
    ∃ tr', run tr evs = some tr' ∧ trace_inv tr' := by
  induction evs with
  | nil =>
    intro tr h
    exact ⟨tr, rfl, h⟩
  | cons e evs ih =>
    intro tr h
    obtain ⟨t1, e1, h1⟩ := step_inv tr h e
    obtain ⟨t2, e2, h2⟩ := ih t1 h1
    refine ⟨t2, ?_, h2⟩
    simp only [run, List.foldlM_cons, e1]
    exact e2

theorem init_adc_fresh (prescalar : Nat) : init_adc prescalar static_init = some fresh_state := by
  rfl

theorem slot_at_fresh : ∀ i < N_READINGS, slot_at fresh_state.adc_readings i = zero_reading := by
  decide

theorem fresh_inv : queue_inv fresh_state := by
  refine ⟨rfl, by decide, rfl, rfl, by decide, by decide, by decide, ?_⟩
  intro i hi
  rw [slot_at_fresh i hi]
  simp [in_window, zero_reading, fresh_state, static_init]

theorem start_inv : trace_inv (start fresh_state) :=
  ⟨fresh_inv, rfl, fun _ => rfl⟩

/-! ### Runs without pops -/

theorem is_last_iff (s : adc_state) (h : queue_inv s) :
    is_last s = true ↔ s.cur_chan = N_ADC_CHAN - 1 := by
  have hn : s.next_adc_chan = [1, 2, 3, 4, 0] := congrArg chan_links.next_adc_chan h.links
  have hc := h.chan
  simp only [is_last, hn, N_ADC_CHAN] at hc ⊢
  interval_cases s.cur_chan <;> simp

theorem drop_tail_snoc {α : Type} (l : List α) (x : α) (k : Nat) (hk : l.length = k + 15) :
    (l.drop k).tail ++ [x] = (l ++ [x]).drop (k + 1) := by
  rw [List.tail_drop, List.drop_append_of_le_length (by omega)]

theorem sweep_step (tr : trace) (n : Nat) (h : sweep_inv tr n) (a m : Nat) :
    ∃ tr', step tr (event.isr a m) = some tr' ∧ sweep_inv tr' (n + 1) := by
  have hc := h.chan
  have hlen := h.len
  cases hl : is_last tr.st with
  | false =>
    obtain ⟨s', e1, hi, hq, hn, _, _, _, hcc⟩ := ISR_not_last_inv a m tr.st h.qi hl
    have hne : tr.st.cur_chan ≠ N_ADC_CHAN - 1 := by
      intro hx
      rw [(is_last_iff _ h.qi).mpr hx] at hl
      exact Bool.noConfusion hl
    simp only [step, e1, hl]
    refine ⟨_, rfl, ⟨hi, h.rl, h.np, ?_, ?_, ?_, ?_, ?_⟩⟩
    · rw [hcc, hc]
      simp only [N_ADC_CHAN]
      omega
    · simp only [Bool.false_eq_true, if_false, hlen]
      simp only [N_ADC_CHAN] at *
      omega
    · simp only [Bool.false_eq_true, if_false, hq]
      exact h.q
    · simp only [Bool.false_eq_true, if_false, hn]
      exact h.nov
    · simp only [Bool.false_eq_true, if_false, hn, if_true]
      exact h.ovf
  | true =>
    have h4 := (is_last_iff _ h.qi).mp hl
    have hlen' : tr.pushed.length + 1 = (n + 1 + 1) / N_ADC_CHAN := by
      simp only [N_ADC_CHAN] at *
      omega
    have hdq : ring_depth tr.st = (tr.pushed.drop (tr.pushed.length - (N_READINGS - 1))).length := by
      rw [← h.q, queue_length]
    rw [List.length_drop] at hdq
    by_cases hd : ring_depth tr.st = N_READINGS - 1
    · obtain ⟨s', p, e1, hi, _, hs, hq, _, _, hcc, hn, _⟩ := ISR_full_inv a m tr.st h.qi hl hd
      have hne : s'.n_overflow ≠ tr.st.n_overflow := by
        rw [hn]
        exact mod_succ_ne _
      have hge : tr.pushed.length = (tr.pushed.length - (N_READINGS - 1)) + 15 := by
        simp only [N_READINGS] at *
        omega
      simp only [step, e1, hl]
      refine ⟨_, rfl, ⟨hi, h.rl, h.np, ?_, ?_, ?_, ?_, ?_⟩⟩
      · rw [hcc]
        simp only [N_ADC_CHAN] at *
        omega
      · simp only [if_true, List.length_append, List.length_singleton]
        exact hlen'
      · simp only [if_true, List.length_append, List.length_singleton, hq, hs, h.q]
        rw [drop_tail_snoc _ _ _ hge]
        congr 1
        simp only [N_READINGS] at *
        omega
      · simp only [if_true, List.length_append, List.length_singleton, hn, h.nov]
        simp only [N_READINGS] at *
        omega
      · simp only [if_true, List.length_append, List.length_singleton, if_neg hne, h.ovf]
        simp only [N_READINGS] at *
        omega
    · have hlt := ring_depth_lt tr.st
      have hd' : ring_depth tr.st < N_READINGS - 1 := by
        simp only [N_READINGS] at *
        omega
      obtain ⟨s', p, e1, hi, _, hs, hq, _, _, hcc, hn, _⟩ := ISR_room_inv a m tr.st h.qi hl hd'
      have hsmall : tr.pushed.length < N_READINGS - 1 := by
        simp only [N_READINGS] at *
        omega
      have hz : tr.pushed.length - (N_READINGS - 1) = 0 := by omega
      have hz' : tr.pushed.length + 1 - (N_READINGS - 1) = 0 := by omega
      simp only [step, e1, hl]
      refine ⟨_, rfl, ⟨hi, h.rl, h.np, ?_, ?_, ?_, ?_, ?_⟩⟩
      · rw [hcc]
        simp only [N_ADC_CHAN] at *
        omega
      · simp only [if_true, List.length_append, List.length_singleton]
        exact hlen'
      · have hq0 := h.q
        rw [hz, List.drop_zero] at hq0
        simp only [if_true, List.length_append, List.length_singleton, hq, hs, hz',
          List.drop_zero, hq0]
      · simp only [if_true, List.length_append, List.length_singleton, hn, hz', h.nov, hz]
      · simp only [if_true, List.length_append, List.length_singleton, hn, hz', h.ovf, hz]

theorem sweep_run (ins : List (Nat × Nat)) : ∀ tr n, sweep_inv tr n →
    ∃ tr', run tr (isr_events ins) = some tr' ∧ sweep_inv tr' (n + ins.length) := by
  induction ins with
  | nil =>
    intro tr n h
    exact ⟨tr, rfl, h⟩
  | cons x ins ih =>
    intro tr n h
    obtain ⟨t1, e1, h1⟩ := sweep_step tr n h x.1 x.2
    obtain ⟨t2, e2, h2⟩ := ih t1 (n + 1) h1
    refine ⟨t2, ?_, ?_⟩
    · simp only [run, isr_events, List.map_cons, List.foldlM_cons, e1]
      exact e2
    · have : n + (x :: ins).length = n + 1 + ins.length := by
        simp only [List.length_cons]
        omega
      rw [this]
      exact h2

theorem start_sweep_inv : sweep_inv (start fresh_state) 0 :=
  ⟨fresh_inv, rfl, rfl, rfl, rfl, by simp [start, pop_empty_inv zero_reading _ fresh_inv rfl],
    rfl, rfl⟩

theorem sweep_from_start (ins : List (Nat × Nat)) :
    ∃ tr, run (start fresh_state) (isr_events ins) = some tr ∧ sweep_inv tr ins.length := by
  obtain ⟨tr, e, h⟩ := sweep_run ins _ 0 start_sweep_inv
  refine ⟨tr, e, ?_⟩
  rw [Nat.zero_add] at h
  exact h

/-! ### Which channels a Sample is assembled from -/

theorem stored_chan_eq (s : adc_state) (h : queue_inv s) :
    stored_chan s = some ((s.cur_chan + N_ADC_CHAN - 1) % N_ADC_CHAN) := by
  have hp : s.prev_adc_chan = [4, 0, 1, 2, 3] := congrArg chan_links.prev_adc_chan h.links
  have hc := h.chan
  simp only [stored_chan, hp, N_ADC_CHAN] at hc ⊢
  interval_cases s.cur_chan <;> rfl

theorem ISR_inv (a m : Nat) (s : adc_state) (h : queue_inv s) :
    ∃ s', ISR_ADC_vect a m s = some s' ∧ queue_inv s' ∧
      s'.cur_chan = (s.cur_chan + 1) % N_ADC_CHAN := by
  cases hl : is_last s with
  | false =>
    obtain ⟨s', e1, hi, _, _, _, _, _, hc⟩ := ISR_not_last_inv a m s h hl
    exact ⟨s', e1, hi, hc⟩
  | true =>
    have h4 := (is_last_iff _ h).mp hl
    have hc0 : (s.cur_chan + 1) % N_ADC_CHAN = 0 := by
      rw [h4]
      rfl
    have hlt := ring_depth_lt s
    by_cases hd : ring_depth s = N_READINGS - 1
    · obtain ⟨s', p, e1, hi, _, _, _, _, _, hc, _⟩ := ISR_full_inv a m s h hl hd
      exact ⟨s', e1, hi, by rw [hc, hc0]⟩
    · have hd' : ring_depth s < N_READINGS - 1 := by
        simp only [N_READINGS] at *
        omega
      obtain ⟨s', p, e1, hi, _, _, _, _, _, hc, _⟩ := ISR_room_inv a m s h hl hd'
      exact ⟨s', e1, hi, by rw [hc, hc0]⟩

theorem sweep_log_eq (ins : List (Nat × Nat)) : ∀ (s : adc_state) (cur : List Nat),
    queue_inv s → sweep_log s cur ins = some (cycle_log s.cur_chan cur ins.length) := by
  induction ins with
  | nil =>
    intro s cur _
    rfl
  | cons x ins ih =>
    intro s cur h
    obtain ⟨a, m⟩ := x
    obtain ⟨s', e1, hi, hc⟩ := ISR_inv a m s h
    simp only [sweep_log, stored_chan_eq s h, e1, List.length_cons, cycle_log]
    by_cases h4 : s.cur_chan = N_ADC_CHAN - 1
    · rw [(is_last_iff _ h).mpr h4, if_pos rfl, if_pos h4, ih s' [] hi, hc]
      rfl
    · have hl : is_last s = false := by
        cases hx : is_last s with
        | false => rfl
        | true => exact absurd ((is_last_iff _ h).mp hx) h4
      simp only [hl, Bool.false_eq_true, if_false, if_neg h4, ih s' _ hi, hc]

theorem cycle_log_sweep (n : Nat) :
    cycle_log 0 [] (n + 5) = [4, 0, 1, 2, 3] :: cycle_log 0 [] n := by
  rfl

theorem cycle_log_steady : ∀ n, ∀ chans ∈ cycle_log 0 [] n, chans = [4, 0, 1, 2, 3] := by
  intro n
  induction n using Nat.strong_induction_on with
  | _ n ih =>
    by_cases h5 : n < 5
    · interval_cases n <;> simp [cycle_log, N_ADC_CHAN]
    · obtain ⟨k, rfl⟩ : ∃ k, n = k + 5 := ⟨n - 5, by omega⟩
      intro chans hmem
      rw [cycle_log_sweep] at hmem
      rcases List.mem_cons.mp hmem with e | e
      · exact e
      · exact ih k (by omega) chans e

theorem cycle_log_first (n : Nat) :
    cycle_log 1 [] (n + 4) = [0, 1, 2, 3] :: cycle_log 0 [] n := by
  rfl

theorem cycle_log_short : ∀ n < 4, cycle_log 1 [] n = [] := by
  decide

/-! ## Cursor arithmetic, offsets, the store of the handler -/

/-- C4: for cursors in `[0, N_READINGS)`, `get_adc_depth` returns (its loop
exits within the fuel), the value is `(adc_write_index - adc_read_index) mod
N_READINGS`, it lies in `[0, N_READINGS)`, and the state, cursors included, is
unchanged. -/
theorem get_adc_depth_spec (s : adc_state)
    (hw : s.adc_write_index < N_READINGS) (hr : s.adc_read_index < N_READINGS) :
    ∃ d, get_adc_depth s = some (d, s) ∧
      (d : Int) = ((s.adc_write_index : Int) - (s.adc_read_index : Int)) % (N_READINGS : Int) ∧
      d < N_READINGS := by
  refine ⟨(s.adc_write_index + 16 - s.adc_read_index) % 16, ?_, ?_, ?_⟩
  · simp only [get_adc_depth]
    rw [depth_wrap_cursors _ hw _ hr]
    rfl
  · simp only [N_READINGS] at *
    omega
  · simp only [N_READINGS] at *
    omega

/-- C5: with `slot` the reading at the read cursor, `get_next_adc_reading`
returns 0 and leaves the state and the caller's reading untouched when `slot`
is not marked ready; when it is, the call returns 1, the caller's reading gets
the slot's timestamp and channel values, and the state differs only in that
slot's `set` flag (cleared), the read cursor (advanced by one modulo
`N_READINGS`) and `max_adc_depth`. -/
theorem get_next_adc_reading_spec (reading : adc_readings_struct) (s : adc_state)
    (slot : adc_readings_struct)
    (hslot : s.adc_readings[s.adc_read_index]? = some slot)
    (hr : s.adc_read_index < N_READINGS)
    (hsl : slot.vals.length = N_ADC_CHAN) (hrl : reading.vals.length = N_ADC_CHAN) :
    (slot.set = 0 → get_next_adc_reading reading s = some (0, reading, s)) ∧
    (slot.set ≠ 0 → ∃ mx,
      get_next_adc_reading reading s =
        some (1, { reading with t := slot.t, vals := slot.vals },
          { s with
            adc_readings := s.adc_readings.set s.adc_read_index { slot with set := 0 }
            adc_read_index := (s.adc_read_index + 1) % N_READINGS
            max_adc_depth := mx })) :=
  ⟨fun h0 => get_next_not_ready reading s slot hslot h0,
    fun h1 => get_next_ready reading s slot hslot hr hsl hrl h1⟩

/-- C6: `set_adc_offset chan v` returns; it stores `v` as the offset of
`chan` when `chan < N_ADC_CHAN` and that offset is 0, and otherwise leaves the
whole state unchanged; the offsets of the other channels are never changed;
and after `set_adc_offset chan x` with `x ≠ 0` on a channel without offset, a
second call `set_adc_offset chan y` leaves the offset at `x`. -/
theorem set_adc_offset_spec (s : adc_state) (chan : Nat) (v : Int)
    (hlen : s.adc_offset.vals.length = N_ADC_CHAN) :
    ∃ s', set_adc_offset chan v s = some s' ∧
      ((chan < N_ADC_CHAN ∧ s.adc_offset.vals[chan]? = some 0) →
        s'.adc_offset.vals[chan]? = some v) ∧
      (¬ (chan < N_ADC_CHAN ∧ s.adc_offset.vals[chan]? = some 0) → s' = s) ∧
      (∀ j, j ≠ chan → s'.adc_offset.vals[j]? = s.adc_offset.vals[j]?) ∧
      s'.adc_offset.vals.length = N_ADC_CHAN ∧
      (∀ x y : Int, chan < N_ADC_CHAN → s.adc_offset.vals[chan]? = some 0 → x ≠ 0 →
        ∃ s1 s2, set_adc_offset chan x s = some s1 ∧ set_adc_offset chan y s1 = some s2 ∧
          s2.adc_offset.vals[chan]? = some x) := by
  have key : ∀ (t : adc_state) (u : Int), t.adc_offset.vals.length = N_ADC_CHAN →
      ∃ t', set_adc_offset chan u t = some t' ∧
        ((chan < N_ADC_CHAN ∧ t.adc_offset.vals[chan]? = some 0) →
          t'.adc_offset.vals[chan]? = some u) ∧
        (¬ (chan < N_ADC_CHAN ∧ t.adc_offset.vals[chan]? = some 0) → t' = t) ∧
        (∀ j, j ≠ chan → t'.adc_offset.vals[j]? = t.adc_offset.vals[j]?) ∧
        t'.adc_offset.vals.length = N_ADC_CHAN := by
    intro t u ht
    by_cases hc : chan < N_ADC_CHAN
    · have hlt : chan < t.adc_offset.vals.length := by omega
      by_cases h0 : t.adc_offset.vals[chan] = 0
      · refine ⟨{ t with adc_offset := { t.adc_offset with
            vals := t.adc_offset.vals.set chan u } }, ?_, ?_, ?_, ?_, ?_⟩
        · simp [set_adc_offset, hc, hlt, h0, arr_set]
        · intro _
          simp [hlt]
        · intro hneg
          exact absurd ⟨hc, by simp [hlt, h0]⟩ hneg
        · intro j hj
          simp [List.getElem?_set_ne (Ne.symm hj)]
        · simpa using ht
      · refine ⟨t, ?_, ?_, ?_, ?_, ht⟩
        · simp [set_adc_offset, hc, hlt, h0]
        · intro h
          simp [hlt, h0] at h
        · intro _
          rfl
        · intro j _
          rfl
    · refine ⟨t, ?_, ?_, ?_, ?_, ht⟩
      · simp [set_adc_offset, hc]
      · intro h
        exact absurd h.1 hc
      · intro _
        rfl
      · intro j _
        rfl
  obtain ⟨s', h1, h2, h3, h4, h5⟩ := key s v hlen
  refine ⟨s', h1, h2, h3, h4, h5, ?_⟩
  intro x y hc h0 hx
  obtain ⟨s1, e1, a1, _, _, l1⟩ := key s x hlen
  obtain ⟨s2, e2, _, b2, _, _⟩ := key s1 y l1
  refine ⟨s1, s2, e1, e2, ?_⟩
  have hs1 : s1.adc_offset.vals[chan]? = some x := a1 ⟨hc, h0⟩
  have hne : ¬ (chan < N_ADC_CHAN ∧ s1.adc_offset.vals[chan]? = some 0) := by
    rintro ⟨_, h⟩
    rw [hs1] at h
    exact hx (Option.some.inj h)
  rw [b2 hne]
  exact hs1

/-- C10: from any contents of the two link arrays, `init_adc_chans` sets
`next_adc_chan[j] = (j + 1) mod N_ADC_CHAN` and
`prev_adc_chan[j] = (j + N_ADC_CHAN - 1) mod N_ADC_CHAN` for every channel `j`,
the cycle from channel 0 then visits all channels in index order, and a second
call changes nothing. -/
theorem init_adc_chans_spec (l : chan_links)
    (hn : l.next_adc_chan.length = N_ADC_CHAN) (hp : l.prev_adc_chan.length = N_ADC_CHAN) :
    ∃ l', init_adc_chans l = some l' ∧
      (∀ j, j < N_ADC_CHAN →
        l'.next_adc_chan[j]? = some ((j + 1) % N_ADC_CHAN) ∧
        l'.prev_adc_chan[j]? = some ((j + N_ADC_CHAN - 1) % N_ADC_CHAN)) ∧
      chan_cycle l' = some [0, 1, 2, 3, 4] ∧
      init_adc_chans l' = some l' := by
  refine ⟨_, init_adc_chans_eq l hn hp, ?_, ?_, ?_⟩
  · decide
  · decide
  · exact init_adc_chans_eq _ rfl rfl

/-- C8: a handler invocation entered with `cur_chan = c`, whose links
`p = prev_adc_chan[c]` and `n = next_adc_chan[c]` are channels, stores
`to_int16 (ADCW - adc_offset.vals[p])` into channel `p` of the slot at the
write cursor of entry, changes no other channel value of any slot, changes no
offset, and leaves `cur_chan = n`. -/
theorem ISR_store_spec (ADCW micros : Nat) (s : adc_state) (p n : Nat)
    (hprev : s.prev_adc_chan[s.cur_chan]? = some p)
    (hnext : s.next_adc_chan[s.cur_chan]? = some n)
    (hp : p < N_ADC_CHAN) (hn : n < N_ADC_CHAN)
    (hoff : s.adc_offset.vals.length = N_ADC_CHAN)
    (hrd : s.adc_readings.length = N_READINGS)
    (hw : s.adc_write_index < N_READINGS)
    (hvals : ∀ slot ∈ s.adc_readings, slot.vals.length = N_ADC_CHAN) :
    ∃ s' off, ISR_ADC_vect ADCW micros s = some s' ∧
      s.adc_offset.vals[p]? = some off ∧
      chan_val s'.adc_readings s.adc_write_index p = some (to_int16 ((ADCW : Int) - off)) ∧
      (∀ i j, (i ≠ s.adc_write_index ∨ j ≠ p) →
        chan_val s'.adc_readings i j = chan_val s.adc_readings i j) ∧
      s'.adc_offset = s.adc_offset ∧
      s'.cur_chan = n := by
  have hpo : p < s.adc_offset.vals.length := by omega
  have hwl : s.adc_write_index < s.adc_readings.length := by omega
  have hslot : s.adc_readings[s.adc_write_index]? = some s.adc_readings[s.adc_write_index] :=
    List.getElem?_eq_getElem hwl
  have hps : p < (s.adc_readings[s.adc_write_index]).vals.length := by
    rw [hvals _ (List.getElem_mem hwl)]
    exact hp
  have hoffv : s.adc_offset.vals[p]? = some s.adc_offset.vals[p] := List.getElem?_eq_getElem hpo
  by_cases hn0 : n = 0
  · subst hn0
    have hw1 : (s.adc_write_index + 1) % N_READINGS < s.adc_readings.length := by
      simp only [N_READINGS] at *
      omega
    have hne : s.adc_write_index ≠ (s.adc_write_index + 1) % N_READINGS := by
      simp only [N_READINGS] at *
      omega
    refine ⟨_, _, ISR_last ADCW micros s p _ _ _ hprev hnext hoffv hslot hps hw
      (List.getElem?_eq_getElem hw1), hoffv, ?_, ?_, rfl, rfl⟩
    · simp [chan_val, List.getElem?_set_ne hne.symm, hwl, stored_slot, hps]
    · intro i j hij
      simp only [chan_val]
      by_cases h1 : i = (s.adc_write_index + 1) % N_READINGS
      · subst h1
        simp [hw1]
      · rw [List.getElem?_set_ne (Ne.symm h1)]
        by_cases h2 : i = s.adc_write_index
        · subst h2
          have hj : j ≠ p := by
            rcases hij with h | h
            · exact absurd rfl h
            · exact h
          simp [hwl, stored_slot, List.getElem?_set_ne (Ne.symm hj)]
        · rw [List.getElem?_set_ne (Ne.symm h2)]
  · refine ⟨_, _, ISR_not_last ADCW micros s p n _ _ hprev hnext hoffv hslot hps hn hn0,
      hoffv, ?_, ?_, rfl, rfl⟩
    · simp [chan_val, hwl, stored_slot, hps]
    · intro i j hij
      simp only [chan_val]
      by_cases h2 : i = s.adc_write_index
      · subst h2
        have hj : j ≠ p := by
          rcases hij with h | h
          · exact absurd rfl h
          · exact h
        simp [hwl, stored_slot, List.getElem?_set_ne (Ne.symm hj)]
      · rw [List.getElem?_set_ne (Ne.symm h2)]

/-! ### Instances at concrete inputs -/

/-- C4 (witness): write cursor 1 behind read cursor 15, depth 2. -/
theorem get_adc_depth_spec_witness :
    demo_state.adc_write_index < N_READINGS ∧ demo_state.adc_read_index < N_READINGS ∧
    get_adc_depth demo_state = some (2, demo_state) := by
  obtain ⟨d, h1, h2, _⟩ := get_adc_depth_spec demo_state (by decide) (by decide)
  have hd : (d : Int) = 2 := by
    rw [h2]
    decide
  have hd' : d = 2 := by omega
  rw [hd'] at h1
  exact ⟨by decide, by decide, h1⟩

/-- C5 (witness): the slot at the read cursor of `demo_state` is ready. -/
theorem get_next_adc_reading_spec_witness :
    ∃ mx, get_next_adc_reading zero_reading demo_state =
      some (1, { zero_reading with t := 7, vals := [1, 2, 3, 4, 5] },
        { demo_state with
          adc_readings := demo_state.adc_readings.set 15
            { vals := [1, 2, 3, 4, 5], t := 7, set := 0 }
          adc_read_index := 0
          max_adc_depth := mx }) :=
  (get_next_adc_reading_spec zero_reading demo_state
    { vals := [1, 2, 3, 4, 5], t := 7, set := 1 }
    (by decide) (by decide) (by decide) (by decide)).2 (by decide)

/-- C6 (witness): on the initial state, offset 512 for channel 2 and then an
attempt to replace it by 100. -/
theorem set_adc_offset_spec_witness :
    ∃ s1 s2, set_adc_offset 2 512 fresh_state = some s1 ∧
      set_adc_offset 2 100 s1 = some s2 ∧ s2.adc_offset.vals[2]? = some 512 := by
  obtain ⟨_, _, _, _, _, _, h⟩ := set_adc_offset_spec fresh_state 2 512 (by decide)
  exact h 512 100 (by decide) (by decide) (by decide)

/-- C10 (witness): links in which channels 1, 2 and 4 were removed. -/
theorem init_adc_chans_spec_witness :
    ∃ l', init_adc_chans
        { next_adc_chan := [3, 255, 255, 0, 255], prev_adc_chan := [3, 255, 255, 0, 255] }
        = some l' ∧
      l'.next_adc_chan = [1, 2, 3, 4, 0] ∧ l'.prev_adc_chan = [4, 0, 1, 2, 3] := by
  obtain ⟨l', h1, _, _, _⟩ := init_adc_chans_spec
    { next_adc_chan := [3, 255, 255, 0, 255], prev_adc_chan := [3, 255, 255, 0, 255] }
    (by decide) (by decide)
  have h2 := (init_adc_chans_eq
    { next_adc_chan := [3, 255, 255, 0, 255], prev_adc_chan := [3, 255, 255, 0, 255] }
    (by decide) (by decide)).symm.trans h1
  have h3 := Option.some.inj h2
  exact ⟨l', h1, by rw [← h3], by rw [← h3]⟩

/-- C8 (witness): `demo_state` has `cur_chan = 2`, so the handler stores
channel 1 of slot 1 and moves on to channel 3. -/
theorem ISR_store_spec_witness :
    ∃ s', ISR_ADC_vect 700 1000 demo_state = some s' ∧
      chan_val s'.adc_readings 1 1 = some 700 ∧ s'.cur_chan = 3 := by
  obtain ⟨s', off, h1, h2, h3, _, _, h6⟩ := ISR_store_spec 700 1000 demo_state 1 3
    (by decide) (by decide) (by decide) (by decide) (by decide) (by decide) (by decide)
    (by decide)
  have hoff : off = 0 := by
    have : demo_state.adc_offset.vals[1]? = some 0 := by decide
    rw [this] at h2
    exact (Option.some.inj h2).symm
  subst hoff
  exact ⟨s', h1, h3, h6⟩

/-! ## The channel cycle -/

set_option maxRecDepth 100000 in
theorem disable_mask_links : ∀ m < 32, m % 2 = 0 → ∀ c < 5,
    disable_adc_chan c (mask_links m) = some (mask_links (mask_add m c)) := by
  decide

set_option maxRecDepth 100000 in
theorem mask_add_range : ∀ m < 32, m % 2 = 0 → ∀ c < 5,
    mask_add m c < 32 ∧ mask_add m c % 2 = 0 := by
  decide

set_option maxRecDepth 100000 in
theorem mask_has_add : ∀ m < 32, ∀ c < 5, ∀ d < 5,
    mask_has (mask_add m c) d = (mask_has m d || (decide (c ≠ 0) && decide (d = c))) := by
  decide

set_option maxRecDepth 100000 in
theorem mask_links_ok : ∀ m < 32, m % 2 = 0 → cycle_ok m (mask_links m) := by
  decide

theorem disable_all_mask (cs : List Nat) : (∀ c ∈ cs, c < 5) → ∀ m, m < 32 → m % 2 = 0 →
    disable_all cs (mask_links m) = some (mask_links (cs.foldl mask_add m)) ∧
    cs.foldl mask_add m < 32 ∧ cs.foldl mask_add m % 2 = 0 ∧
    ∀ d < 5, mask_has (cs.foldl mask_add m) d =
      (mask_has m d || (decide (d ≠ 0) && decide (d ∈ cs))) := by
  induction cs with
  | nil =>
    intro _ m hm he
    refine ⟨rfl, hm, he, ?_⟩
    intro d _
    simp
  | cons c cs ih =>
    intro hcs m hm he
    have hc : c < 5 := hcs c (List.mem_cons_self _ _)
    have hrest : ∀ x ∈ cs, x < 5 := fun x hx => hcs x (List.mem_cons_of_mem _ hx)
    obtain ⟨hm', he'⟩ := mask_add_range m hm he c hc
    obtain ⟨h1, h2, h3, h4⟩ := ih hrest (mask_add m c) hm' he'
    refine ⟨?_, h2, h3, ?_⟩
    · simp only [disable_all, List.foldlM_cons, disable_mask_links m hm he c hc]
      exact h1
    · intro d hd
      simp only [List.foldl_cons]
      rw [h4 d hd, mask_has_add m hm c hc d hd]
      by_cases hd0 : d = 0
      · subst hd0
        by_cases hc0 : c = 0
        · simp [hc0]
        · have : ¬ (0 = c) := fun h => hc0 h.symm
          simp [this]
      · by_cases hdc : d = c
        · subst hdc
          simp [hd0]
        · simp [hd0, hdc]

/-- C9: `init_adc_chans` followed by any sequence of `disable_adc_chan c`
calls with `c < N_ADC_CHAN` is defined and leaves a single cycle: the links of
channel 0 are never the sentinel, both links of every removed channel (a
`c ≠ 0` that was passed to `disable_adc_chan`) are `0xff`, the links of every
other channel are channels and inverse to each other, and following
`next_adc_chan` from channel 0 visits exactly the channels not removed, in
increasing order, before it returns to 0. -/
theorem disable_adc_chan_cycle (l0 : chan_links)
    (hn : l0.next_adc_chan.length = N_ADC_CHAN) (hp : l0.prev_adc_chan.length = N_ADC_CHAN)
    (cs : List Nat) (hcs : ∀ c ∈ cs, c < N_ADC_CHAN) :
    ∃ l1 l, init_adc_chans l0 = some l1 ∧ disable_all cs l1 = some l ∧
      (l.next_adc_chan[0]? ≠ some 0xff ∧ l.prev_adc_chan[0]? ≠ some 0xff) ∧
      (∀ c < N_ADC_CHAN, (c ≠ 0 ∧ c ∈ cs) →
        l.next_adc_chan[c]? = some 0xff ∧ l.prev_adc_chan[c]? = some 0xff) ∧
      (∀ c < N_ADC_CHAN, ¬ (c ≠ 0 ∧ c ∈ cs) →
        ∃ n < N_ADC_CHAN, ∃ p < N_ADC_CHAN,
          l.next_adc_chan[c]? = some n ∧ l.prev_adc_chan[c]? = some p ∧
          l.prev_adc_chan[n]? = some c ∧ l.next_adc_chan[p]? = some c) ∧
      chan_cycle l =
        some ((List.range N_ADC_CHAN).filter (fun c => decide (c = 0 ∨ c ∉ cs))) := by
  obtain ⟨h1, h2, h3, h4⟩ := disable_all_mask cs hcs 0 (by decide) (by decide)
  obtain ⟨k1, k2, k3⟩ := mask_links_ok _ h2 h3
  have hrem : ∀ d < 5, mask_has (cs.foldl mask_add 0) d = true ↔ (d ≠ 0 ∧ d ∈ cs) := by
    intro d hd
    rw [h4 d hd]
    have : mask_has 0 d = false := by
      interval_cases d <;> rfl
    simp [this]
  have hk2 : ∀ c < 5, ¬ (c ≠ 0 ∧ c ∈ cs) →
      ∃ n < 5, ∃ p < 5,
        (mask_links (cs.foldl mask_add 0)).next_adc_chan[c]? = some n ∧
        (mask_links (cs.foldl mask_add 0)).prev_adc_chan[c]? = some p ∧
        (mask_links (cs.foldl mask_add 0)).prev_adc_chan[n]? = some c ∧
        (mask_links (cs.foldl mask_add 0)).next_adc_chan[p]? = some c := by
    intro c hc hnot
    apply k2 c hc
    cases hmc : mask_has (cs.foldl mask_add 0) c with
    | false => rfl
    | true => exact absurd ((hrem c hc).mp hmc) hnot
  refine ⟨_, _, init_adc_chans_eq l0 hn hp, h1, ?_, ?_, hk2, ?_⟩
  · obtain ⟨n, hn5, p, hp5, e1, e2, _, _⟩ := hk2 0 (by decide) (fun h => h.1 rfl)
    rw [e1, e2]
    constructor
    · intro h
      have := Option.some.inj h
      omega
    · intro h
      have := Option.some.inj h
      omega
  · intro c hc hrm
    exact k1 c hc ((hrem c hc).mpr hrm)
  · rw [k3]
    congr 1
    apply List.filter_congr
    intro d hd
    have hd5 : d < 5 := List.mem_range.mp hd
    have := hrem d hd5
    cases hmc : mask_has (cs.foldl mask_add 0) d with
    | false =>
      have hnot : ¬ (d ≠ 0 ∧ d ∈ cs) := fun h => by
        have := this.mpr h
        rw [hmc] at this
        exact Bool.noConfusion this
      have : d = 0 ∨ d ∉ cs := by
        by_cases h0 : d = 0
        · exact Or.inl h0
        · exact Or.inr (fun hmem => hnot ⟨h0, hmem⟩)
      simp [this]
    | true =>
      obtain ⟨a, b⟩ := this.mp hmc
      simp [a, b]

/-- C9 (witness): channels 2 and 4 are removed, channel 2 twice, and the
removal of channel 0 is refused. -/
theorem disable_adc_chan_cycle_witness :
    ∃ l, (init_adc_chans
        { next_adc_chan := [0, 0, 0, 0, 0], prev_adc_chan := [0, 0, 0, 0, 0] }).bind
        (disable_all [2, 4, 2, 0]) = some l ∧
      l.next_adc_chan = [1, 3, 255, 0, 255] ∧ l.prev_adc_chan = [3, 0, 255, 1, 255] ∧
      chan_cycle l = some [0, 1, 3] := by
  obtain ⟨l1, l, h1, h2, _, _, _, h6⟩ := disable_adc_chan_cycle
    { next_adc_chan := [0, 0, 0, 0, 0], prev_adc_chan := [0, 0, 0, 0, 0] }
    (by decide) (by decide) [2, 4, 2, 0] (by decide)
  have hb : (init_adc_chans
      { next_adc_chan := [0, 0, 0, 0, 0], prev_adc_chan := [0, 0, 0, 0, 0] }).bind
      (disable_all [2, 4, 2, 0]) = some l := by
    rw [h1]
    exact h2
  have hv : (init_adc_chans
      { next_adc_chan := [0, 0, 0, 0, 0], prev_adc_chan := [0, 0, 0, 0, 0] }).bind
      (disable_all [2, 4, 2, 0]) =
      some { next_adc_chan := [1, 3, 255, 0, 255], prev_adc_chan := [3, 0, 255, 1, 255] } := by
    decide
  have hl := Option.some.inj (hv.symm.trans hb)
  refine ⟨l, hb, by rw [← hl], by rw [← hl], ?_⟩
  rw [h6]
  decide

/-! ## Order and overflow of the sample queue -/

/-- C1: in every interleaving of handler invocations and
`get_next_adc_reading` calls (and of the other calls of the main loop) from
the freshly initialised queue, the run is defined, and when no invocation
changed `n_overflow` the Samples returned by the successful pops are an
initial segment, in order and with unchanged timestamp and channel values, of
the Samples the handler marked ready; the Samples still to be popped are
exactly the remaining ones. -/
theorem fifo_order (prescalar : Nat) (evs : List event) :
    ∃ s0 tr, init_adc prescalar static_init = some s0 ∧ run (start s0) evs = some tr ∧
      (tr.overflows = 0 →
        tr.popped <+: tr.pushed ∧
        ∃ rest, unread tr.st = some rest ∧ tr.pushed = tr.popped ++ rest) := by
  obtain ⟨tr, e, h⟩ := run_inv evs _ start_inv
  refine ⟨_, tr, init_adc_fresh prescalar, e, ?_⟩
  intro ho
  have := h.fifo ho
  exact ⟨⟨queue tr.st, this.symm⟩, queue tr.st, unread_eq_queue _ h.qi, this⟩

/-- C1 (witness): one sweep, a pop, a second sweep and two more pops. -/
theorem fifo_order_witness :
    ∃ tr, run (start fresh_state)
        ([event.isr 100 10, event.isr 200 20, event.isr 300 30, event.isr 400 40, event.pop,
          event.isr 500 50, event.isr 110 60, event.isr 210 70, event.isr 310 80,
          event.isr 410 90, event.pop, event.pop]) = some tr ∧
      tr.overflows = 0 ∧
      tr.pushed = [(40, [100, 200, 300, 400, 0]), (90, [110, 210, 310, 410, 500])] ∧
      tr.popped <+: tr.pushed := by
  obtain ⟨s0, tr, h0, h1, h2⟩ := fifo_order 64
    ([event.isr 100 10, event.isr 200 20, event.isr 300 30, event.isr 400 40, event.pop,
      event.isr 500 50, event.isr 110 60, event.isr 210 70, event.isr 310 80,
      event.isr 410 90, event.pop, event.pop])
  have e0 : s0 = fresh_state := (Option.some.inj ((init_adc_fresh 64).symm.trans h0)).symm
  subst e0
  have hov : (run (start fresh_state)
      ([event.isr 100 10, event.isr 200 20, event.isr 300 30, event.isr 400 40, event.pop,
        event.isr 500 50, event.isr 110 60, event.isr 210 70, event.isr 310 80,
        event.isr 410 90, event.pop, event.pop])).map (fun t => (t.overflows, t.pushed)) =
      some (0, [(40, [100, 200, 300, 400, 0]), (90, [110, 210, 310, 410, 500])]) := by
    decide
  rw [h1] at hov
  have hp := Option.some.inj hov
  have ho : tr.overflows = 0 := congrArg Prod.fst hp
  exact ⟨tr, h1, ho, congrArg Prod.snd hp, (h2 ho).1⟩

/-- C2 (counterexample): 84 handler invocations from the initial state
complete 17 sweeps; without any pop they leave `n_overflow = 2`, not 1, and
the queue holds 15 Samples, not 16: the two oldest were dropped. -/
theorem overflow_17_sweeps :
    ∃ s0 tr, init_adc 64 static_init = some s0 ∧
      run (start s0) (isr_events ((List.range 84).map (fun k => (512, k)))) = some tr ∧
      tr.pushed.length = N_READINGS + 1 ∧
      tr.st.n_overflow = 2 ∧
      unread tr.st = some (tr.pushed.drop 2) ∧
      (tr.pushed.drop 2).length = N_READINGS - 1 := by
  obtain ⟨tr, e, h0⟩ := sweep_from_start ((List.range 84).map (fun k => (512, k)))
  have h : sweep_inv tr 84 := by
    rw [List.length_map, List.length_range] at h0
    exact h0
  have hlen : tr.pushed.length = 17 := by
    rw [h.len]
    rfl
  refine ⟨_, tr, init_adc_fresh 64, e, hlen, ?_, ?_, ?_⟩
  · rw [h.nov, hlen]
    rfl
  · rw [unread_eq_queue _ h.qi, h.q, hlen]
    rfl
  · rw [List.length_drop, hlen]
    rfl

/-- C2 (amended): in a run of handler invocations only from the initial
state, once `N_READINGS` = 16 Samples have been marked ready `n_overflow` is 1
and the queue holds exactly the most recent `N_READINGS - 1` = 15 of them;
once 17 have been marked ready `n_overflow` is 2 and the queue still holds
exactly the most recent 15. -/
theorem overflow_after_full_ring (prescalar : Nat) (ins : List (Nat × Nat)) :
    ∃ s0 tr, init_adc prescalar static_init = some s0 ∧
      run (start s0) (isr_events ins) = some tr ∧
      (tr.pushed.length = N_READINGS →
        tr.st.n_overflow = 1 ∧ unread tr.st = some (tr.pushed.drop 1) ∧
        (tr.pushed.drop 1).length = N_READINGS - 1) ∧
      (tr.pushed.length = N_READINGS + 1 →
        tr.st.n_overflow = 2 ∧ unread tr.st = some (tr.pushed.drop 2) ∧
        (tr.pushed.drop 2).length = N_READINGS - 1) := by
  obtain ⟨tr, e, h⟩ := sweep_from_start ins
  refine ⟨_, tr, init_adc_fresh prescalar, e, ?_, ?_⟩
  · intro hlen
    refine ⟨?_, ?_, ?_⟩
    · rw [h.nov, hlen]
      rfl
    · rw [unread_eq_queue _ h.qi, h.q, hlen]
      rfl
    · rw [List.length_drop, hlen]
  · intro hlen
    refine ⟨?_, ?_, ?_⟩
    · rw [h.nov, hlen]
      rfl
    · rw [unread_eq_queue _ h.qi, h.q, hlen]
      rfl
    · rw [List.length_drop, hlen]
      rfl

/-- C3 (counterexample): after 327753 handler invocations without a pop the
queue is full and `n_overflow` is 65535; the next invocation finishes a
reading, finds the following slot ready, and leaves `n_overflow = 0`: the
counter did not increase by 1. -/
theorem overflow_counter_wraps :
    ∃ s0 tr s', init_adc 64 static_init = some s0 ∧
      run (start s0) (isr_events (List.replicate 327753 (0, 0))) = some tr ∧
      is_last tr.st = true ∧
      (slot_at tr.st.adc_readings ((tr.st.adc_write_index + 1) % N_READINGS)).set ≠ 0 ∧
      tr.st.n_overflow = 65535 ∧
      ISR_ADC_vect 0 0 tr.st = some s' ∧
      s'.n_overflow = 0 := by
  obtain ⟨tr, e, h0⟩ := sweep_from_start (List.replicate 327753 (0, 0))
  have h : sweep_inv tr 327753 := by
    rw [List.length_replicate] at h0
    exact h0
  have hlen : tr.pushed.length = 65550 := by
    rw [h.len]
    rfl
  have hl : is_last tr.st = true := by
    rw [is_last_iff _ h.qi, h.chan]
    rfl
  have hn : tr.st.n_overflow = 65535 := by
    rw [h.nov, hlen]
    rfl
  have hd : ring_depth tr.st = N_READINGS - 1 := by
    rw [← queue_length, h.q, List.length_drop, hlen]
    rfl
  obtain ⟨s', p, e1, _, _, _, _, _, _, _, hn', _⟩ := ISR_full_inv 0 0 tr.st h.qi hl hd
  refine ⟨_, tr, s', init_adc_fresh 64, e, hl, ?_, hn, e1, ?_⟩
  · exact (h.qi.flags _ (Nat.mod_lt _ (by decide))).mpr
      ((ring_full_iff _ _ h.qi.rlt).mpr hd)
  · rw [hn', hn]

/-- C3 (amended): in every state reached from the initial state by handler
invocations, pops and the other calls of the main loop, when the handler
finishes a reading and the slot after it is still marked ready, `n_overflow`
increases by 1 modulo 2^16, the read cursor ends one slot beyond the
overwritten slot (wrapping at `N_READINGS`), the oldest unread Sample is the
only one discarded and the others, followed by the new Sample, remain poppable
in capture order; when that slot is not ready, `n_overflow` and the read
cursor are unchanged and the new Sample is appended to the unread ones. -/
theorem overflow_drops_oldest (prescalar : Nat) (evs : List event) (a m : Nat) :
    ∃ s0 tr q, init_adc prescalar static_init = some s0 ∧
      run (start s0) evs = some tr ∧ unread tr.st = some q ∧
      (is_last tr.st = true → ∃ s', ISR_ADC_vect a m tr.st = some s' ∧
        ((slot_at tr.st.adc_readings ((tr.st.adc_write_index + 1) % N_READINGS)).set ≠ 0 →
          s'.n_overflow = (tr.st.n_overflow + 1) % 65536 ∧
          s'.adc_read_index =
            ((tr.st.adc_write_index + 1) % N_READINGS + 1) % N_READINGS ∧
          q ≠ [] ∧
          unread s' =
            some (q.tail ++ [sample_of (slot_at s'.adc_readings tr.st.adc_write_index)])) ∧
        ((slot_at tr.st.adc_readings ((tr.st.adc_write_index + 1) % N_READINGS)).set = 0 →
          s'.n_overflow = tr.st.n_overflow ∧
          s'.adc_read_index = tr.st.adc_read_index ∧
          unread s' =
            some (q ++ [sample_of (slot_at s'.adc_readings tr.st.adc_write_index)]))) := by
  obtain ⟨tr, e, h⟩ := run_inv evs _ start_inv
  refine ⟨_, tr, queue tr.st, init_adc_fresh prescalar, e, unread_eq_queue _ h.qi, ?_⟩
  intro hl
  have hflag := h.qi.flags ((tr.st.adc_write_index + 1) % N_READINGS) (Nat.mod_lt _ (by decide))
  have hfull := ring_full_iff tr.st.adc_write_index tr.st.adc_read_index h.qi.rlt
  have hlt := ring_depth_lt tr.st
  by_cases hd : ring_depth tr.st = N_READINGS - 1
  · obtain ⟨s', p, e1, hi, _, hs, hq, _, _, _, hn, hr⟩ := ISR_full_inv a m tr.st h.qi hl hd
    refine ⟨s', e1, ?_, ?_⟩
    · intro _
      refine ⟨hn, ?_, ?_, ?_⟩
      · rw [hr]
        simp only [N_READINGS]
        omega
      · intro hnil
        have := queue_length tr.st
        rw [hnil, hd] at this
        exact absurd this (by decide)
      · rw [unread_eq_queue _ hi, hq, hs]
    · intro h0
      exact absurd (hflag.mpr (hfull.mpr hd)) (fun hne => hne h0)
  · have hd' : ring_depth tr.st < N_READINGS - 1 := by
      simp only [N_READINGS] at *
      omega
    obtain ⟨s', p, e1, hi, _, hs, hq, _, _, _, hn, hr⟩ := ISR_room_inv a m tr.st h.qi hl hd'
    refine ⟨s', e1, ?_, ?_⟩
    · intro hne
      exact absurd (hfull.mp (hflag.mp hne)) hd
    · intro _
      refine ⟨hn, hr, ?_⟩
      rw [unread_eq_queue _ hi, hq, hs]

/-- C2 (witness): 79 handler invocations complete 16 sweeps; the first
Sample has been dropped and `n_overflow` is 1. -/
theorem overflow_after_full_ring_witness :
    ∃ tr, run (start fresh_state) (isr_events (List.replicate 79 (512, 0))) = some tr ∧
      tr.pushed.length = N_READINGS ∧ tr.st.n_overflow = 1 ∧
      unread tr.st = some (tr.pushed.drop 1) ∧ (tr.pushed.drop 1).length = N_READINGS - 1 := by
  obtain ⟨s0, tr, h0, h1, h2, _⟩ := overflow_after_full_ring 64 (List.replicate 79 (512, 0))
  have e0 : s0 = fresh_state := (Option.some.inj ((init_adc_fresh 64).symm.trans h0)).symm
  subst e0
  obtain ⟨tr', e', h'⟩ := sweep_from_start (List.replicate 79 (512, 0))
  have et : tr' = tr := Option.some.inj (e'.symm.trans h1)
  subst et
  have hlen : tr'.pushed.length = N_READINGS := by
    rw [h'.len, List.length_replicate]
    rfl
  exact ⟨tr', h1, hlen, h2 hlen⟩

/-- C3 (witness): after 78 handler invocations 15 Samples wait and the
handler is about to finish the 16th; that invocation overflows, raises
`n_overflow` from 0 to 1 and drops the oldest Sample only. -/
theorem overflow_drops_oldest_witness :
    ∃ tr q s', run (start fresh_state) (isr_events (List.replicate 78 (512, 0))) = some tr ∧
      unread tr.st = some q ∧ q.length = N_READINGS - 1 ∧ tr.st.n_overflow = 0 ∧
      ISR_ADC_vect 512 0 tr.st = some s' ∧ s'.n_overflow = 1 ∧
      unread s' =
        some (q.tail ++ [sample_of (slot_at s'.adc_readings tr.st.adc_write_index)]) := by
  obtain ⟨s0, tr, q, h0, h1, hq, h2⟩ :=
    overflow_drops_oldest 64 (isr_events (List.replicate 78 (512, 0))) 512 0
  have e0 : s0 = fresh_state := (Option.some.inj ((init_adc_fresh 64).symm.trans h0)).symm
  subst e0
  obtain ⟨tr', e', h0'⟩ := sweep_from_start (List.replicate 78 (512, 0))
  have h' : sweep_inv tr' 78 := by
    rw [List.length_replicate] at h0'
    exact h0'
  have et : tr' = tr := Option.some.inj (e'.symm.trans h1)
  subst et
  have hlen : tr'.pushed.length = 15 := by
    rw [h'.len]
    rfl
  have hl : is_last tr'.st = true := by
    rw [is_last_iff _ h'.qi, h'.chan]
    rfl
  have hd : ring_depth tr'.st = N_READINGS - 1 := by
    rw [← queue_length, h'.q, List.length_drop, hlen]
    rfl
  have hn : tr'.st.n_overflow = 0 := by
    rw [h'.nov, hlen]
    rfl
  have hflag : (slot_at tr'.st.adc_readings
      ((tr'.st.adc_write_index + 1) % N_READINGS)).set ≠ 0 :=
    (h'.qi.flags _ (Nat.mod_lt _ (by decide))).mpr ((ring_full_iff _ _ h'.qi.rlt).mpr hd)
  have hql : q.length = N_READINGS - 1 := by
    have := unread_eq_queue _ h'.qi
    rw [hq] at this
    rw [Option.some.inj this, queue_length, hd]
  obtain ⟨s', e1, hA, _⟩ := h2 hl
  obtain ⟨a1, _, _, a4⟩ := hA hflag
  refine ⟨tr', q, s', h1, hq, hql, hn, e1, ?_, a4⟩
  rw [a1, hn]

/-! ## The channels of a Sample -/

/-- C7 (the code at the failing input): from the initial state the first four
handler invocations store channels 0, 1, 2, 3 and the fourth marks the first
Sample ready; channel 4 of that Sample was stored by no invocation and still
holds the static initial value 0. -/
theorem first_sample_misses_channel :
    ∃ s0 tr, init_adc 64 static_init = some s0 ∧
      run (start s0) (isr_events [(100, 10), (200, 20), (300, 30), (400, 40)]) = some tr ∧
      sweep_log s0 [] [(100, 10), (200, 20), (300, 30), (400, 40)] = some [[0, 1, 2, 3]] ∧
      tr.pushed = [(40, [100, 200, 300, 400, 0])] ∧
      (slot_at tr.st.adc_readings 0).set = 1 ∧
      unread tr.st = some [(40, [100, 200, 300, 400, 0])] := by
  refine ⟨fresh_state, _, init_adc_fresh 64, rfl, ?_, ?_, ?_, ?_⟩ <;> decide

/-- C7 (what holds for the other Samples): in every run of handler
invocations from the initial state the log is defined; its first entry is
`[0, 1, 2, 3]` and every later entry is `[4, 0, 1, 2, 3]`, one store per
channel since the previous Sample was marked ready. -/
theorem later_samples_complete (prescalar : Nat) (ins : List (Nat × Nat)) :
    ∃ s0 log, init_adc prescalar static_init = some s0 ∧
      sweep_log s0 [] ins = some log ∧
      (log = [] ∨ ∃ rest, log = [0, 1, 2, 3] :: rest ∧
        ∀ chans ∈ rest, chans = [4, 0, 1, 2, 3]) := by
  refine ⟨fresh_state, _, init_adc_fresh prescalar, sweep_log_eq ins _ _ fresh_inv, ?_⟩
  show cycle_log 1 [] ins.length = [] ∨ _
  by_cases h4 : ins.length < 4
  · exact Or.inl (cycle_log_short _ h4)
  · obtain ⟨k, hk⟩ : ∃ k, ins.length = k + 4 := ⟨ins.length - 4, by omega⟩
    rw [hk, cycle_log_first]
    exact Or.inr ⟨_, rfl, cycle_log_steady k⟩

/-! ## Removing a channel -/

theorem disable_zero (l : chan_links) : disable_adc_chan 0 l = some l := by
  simp [disable_adc_chan]

theorem disable_removed (l : chan_links) (c n p : Nat)
    (hn : l.next_adc_chan[c]? = some n) (hp : l.prev_adc_chan[c]? = some p)
    (h : n = 0xff ∨ p = 0xff) : disable_adc_chan c l = some l := by
  by_cases hc : c = 0
  · subst hc
    exact disable_zero l
  · simp [disable_adc_chan, hc, hn, hp, h]

theorem disable_enabled (l : chan_links) (c n p : Nat)
    (hln : l.next_adc_chan.length = N_ADC_CHAN) (hlp : l.prev_adc_chan.length = N_ADC_CHAN)
    (hc0 : c ≠ 0) (hc : c < N_ADC_CHAN)
    (hn : l.next_adc_chan[c]? = some n) (hp : l.prev_adc_chan[c]? = some p)
    (hn5 : n < N_ADC_CHAN) (hp5 : p < N_ADC_CHAN) :
    disable_adc_chan c l = some
      { next_adc_chan := (l.next_adc_chan.set p n).set c 0xff
        prev_adc_chan := (l.prev_adc_chan.set n p).set c 0xff } := by
  have hn' : ¬ (n = 255 ∨ p = 255) := by
    simp only [N_ADC_CHAN] at hn5 hp5
    omega
  simp [disable_adc_chan, hc0, hn, hp, hn', arr_set, hln, hlp, hn5, hp5, hc]

set_option maxRecDepth 100000 in
theorem mask_links_next : ∀ m < 32, m % 2 = 0 → ∀ c < 5,
    c = 0 ∨ mask_has m c = true ∨
    ((mask_links m).next_adc_chan[c]? = some ((mask_links m).next_adc_chan.getD c 0) ∧
     (mask_links m).next_adc_chan.getD c 0 < 5 ∧
     (mask_links m).next_adc_chan.getD c 0 ≠ c) := by
  decide

set_option maxRecDepth 100000 in
theorem mask_links_prev : ∀ m < 32, m % 2 = 0 → ∀ c < 5,
    c = 0 ∨ mask_has m c = true ∨
    ((mask_links m).prev_adc_chan[c]? = some ((mask_links m).prev_adc_chan.getD c 0) ∧
     (mask_links m).prev_adc_chan.getD c 0 < 5 ∧
     (mask_links m).prev_adc_chan.getD c 0 ≠ c) := by
  decide

/-- C11: from any contents of the link arrays, `disable_adc_chan 0`, and
`disable_adc_chan c` for a channel `c` one of whose links is `0xff`, return
the links unchanged; for a channel `c ≠ 0` whose neighbours
`n = next_adc_chan[c]` and `p = prev_adc_chan[c]` are channels other than `c`,
the call sets `next_adc_chan[p] = n` and `prev_adc_chan[n] = p`, sets both
links of `c` to `0xff` and changes no other link.  In every state reached by
`init_adc_chans` and `disable_adc_chan` calls the neighbours of a channel
`c ≠ 0` that was not removed are such channels. -/
theorem disable_adc_chan_frame (l : chan_links)
    (hln : l.next_adc_chan.length = N_ADC_CHAN) (hlp : l.prev_adc_chan.length = N_ADC_CHAN) :
    disable_adc_chan 0 l = some l ∧
    (∀ c < N_ADC_CHAN,
      (l.next_adc_chan[c]? = some 0xff ∨ l.prev_adc_chan[c]? = some 0xff) →
      disable_adc_chan c l = some l) ∧
    (∀ c n p, c ≠ 0 → c < N_ADC_CHAN →
      l.next_adc_chan[c]? = some n → l.prev_adc_chan[c]? = some p →
      n < N_ADC_CHAN → p < N_ADC_CHAN → n ≠ c → p ≠ c →
      ∃ l', disable_adc_chan c l = some l' ∧
        l'.next_adc_chan[p]? = some n ∧ l'.prev_adc_chan[n]? = some p ∧
        l'.next_adc_chan[c]? = some 0xff ∧ l'.prev_adc_chan[c]? = some 0xff ∧
        (∀ j, j ≠ p → j ≠ c → l'.next_adc_chan[j]? = l.next_adc_chan[j]?) ∧
        (∀ j, j ≠ n → j ≠ c → l'.prev_adc_chan[j]? = l.prev_adc_chan[j]?)) ∧
    (∀ (l0 : chan_links) (cs : List Nat),
      l0.next_adc_chan.length = N_ADC_CHAN → l0.prev_adc_chan.length = N_ADC_CHAN →
      (∀ c ∈ cs, c < N_ADC_CHAN) →
      (init_adc_chans l0).bind (disable_all cs) = some l →
      ∀ c < N_ADC_CHAN, c ≠ 0 → c ∉ cs →
        ∃ n < N_ADC_CHAN, ∃ p < N_ADC_CHAN, l.next_adc_chan[c]? = some n ∧
          l.prev_adc_chan[c]? = some p ∧ n ≠ c ∧ p ≠ c) := by
  refine ⟨disable_zero l, ?_, ?_, ?_⟩
  · intro c hc h
    have hcn : c < l.next_adc_chan.length := by omega
    have hcp : c < l.prev_adc_chan.length := by omega
    refine disable_removed l c _ _ (List.getElem?_eq_getElem hcn)
      (List.getElem?_eq_getElem hcp) ?_
    rcases h with h | h
    · left
      rw [List.getElem?_eq_getElem hcn] at h
      exact Option.some.inj h
    · right
      rw [List.getElem?_eq_getElem hcp] at h
      exact Option.some.inj h
  · intro c n p hc0 hc hn hp hn5 hp5 hnc hpc
    refine ⟨_, disable_enabled l c n p hln hlp hc0 hc hn hp hn5 hp5, ?_, ?_, ?_, ?_, ?_, ?_⟩
    · show ((l.next_adc_chan.set p n).set c 0xff)[p]? = some n
      rw [List.getElem?_set_ne (Ne.symm hpc), List.getElem?_set_self (by omega)]
    · show ((l.prev_adc_chan.set n p).set c 0xff)[n]? = some p
      rw [List.getElem?_set_ne (Ne.symm hnc), List.getElem?_set_self (by omega)]
    · show ((l.next_adc_chan.set p n).set c 0xff)[c]? = some 0xff
      rw [List.getElem?_set_self (by simp; omega)]
    · show ((l.prev_adc_chan.set n p).set c 0xff)[c]? = some 0xff
      rw [List.getElem?_set_self (by simp; omega)]
    · intro j hjp hjc
      show ((l.next_adc_chan.set p n).set c 0xff)[j]? = _
      rw [List.getElem?_set_ne (Ne.symm hjc), List.getElem?_set_ne (Ne.symm hjp)]
    · intro j hjn hjc
      show ((l.prev_adc_chan.set n p).set c 0xff)[j]? = _
      rw [List.getElem?_set_ne (Ne.symm hjc), List.getElem?_set_ne (Ne.symm hjn)]
  · intro l0 cs h1 h2 hcs hrun c hc hc0 hmem
    obtain ⟨e1, e2, e3, e4⟩ := disable_all_mask cs hcs 0 (by decide) (by decide)
    have hl : l = mask_links (cs.foldl mask_add 0) := by
      rw [init_adc_chans_eq l0 h1 h2] at hrun
      have : disable_all cs (mask_links 0) = some l := hrun
      rw [e1] at this
      exact (Option.some.inj this).symm
    have hm : mask_has (cs.foldl mask_add 0) c = false := by
      rw [e4 c hc]
      have : mask_has 0 c = false := by
        simp only [N_ADC_CHAN] at hc
        interval_cases c <;> rfl
      simp [this, hmem]
    rw [hl]
    rcases mask_links_next _ e2 e3 c hc with h | h | h
    · exact absurd h hc0
    · rw [hm] at h
      exact Bool.noConfusion h
    · rcases mask_links_prev _ e2 e3 c hc with k | k | k
      · exact absurd k hc0
      · rw [hm] at k
        exact Bool.noConfusion k
      · obtain ⟨a1, a2, a3⟩ := h
        obtain ⟨b1, b2, b3⟩ := k
        exact ⟨_, a2, _, b2, a1, b1, a3, b3⟩

/-- C11 (witness): channel 2 is removed from the full cycle. -/
theorem disable_adc_chan_frame_witness :
    disable_adc_chan 2 { next_adc_chan := [1, 2, 3, 4, 0], prev_adc_chan := [4, 0, 1, 2, 3] } =
      some { next_adc_chan := [1, 3, 255, 4, 0], prev_adc_chan := [4, 0, 255, 1, 3] } ∧
    ∃ l', disable_adc_chan 2
        { next_adc_chan := [1, 2, 3, 4, 0], prev_adc_chan := [4, 0, 1, 2, 3] } = some l' ∧
      l'.next_adc_chan[1]? = some 3 ∧ l'.prev_adc_chan[3]? = some 1 := by
  obtain ⟨_, _, h, _⟩ := disable_adc_chan_frame
    { next_adc_chan := [1, 2, 3, 4, 0], prev_adc_chan := [4, 0, 1, 2, 3] } (by decide) (by decide)
  obtain ⟨l', e, a, b, _⟩ := h 2 3 1 (by decide) (by decide) (by decide) (by decide)
    (by decide) (by decide) (by decide) (by decide)
  exact ⟨by decide, l', e, a, b⟩

/-- C12 (the code at the failing input): `init_adc` leaves `cur_chan = 1`;
`disable_adc_chan(1)` then sets both links of channel 1 to `0xff` and leaves
`cur_chan` at the removed channel, so the next handler invocation reads
`ichr = prev_adc_chan[1] = 0xff` and indexes `adc_offset.vals` with it: the
invocation is undefined, whatever the hardware delivers. -/
theorem isr_after_disable_current :
    ∃ s0 l, init_adc 64 static_init = some s0 ∧ s0.cur_chan = 1 ∧
      disable_adc_chan 1 s0.tochan_links = some l ∧
      l.next_adc_chan[1]? = some 0xff ∧ l.prev_adc_chan[1]? = some 0xff ∧
      s0.adc_offset.vals[0xff]? = none ∧
      ∀ a m, ISR_ADC_vect a m { s0 with tochan_links := l } = none := by
  refine ⟨fresh_state, _, init_adc_fresh 64, rfl, rfl, rfl, rfl, rfl, ?_⟩
  intro a m
  rfl

/-! ## Sequences of calls of a state function -/

theorem feed_cons_some (f : adc_readings_struct → sm_state → Option (Nat × sm_state))
    (r : adc_readings_struct) (rs : List adc_readings_struct) (s s' s'' : sm_state)
    (ret : Nat) (rets : List Nat)
    (h1 : f r s = some (ret, s')) (h2 : feed f rs s' = some (rets, s'')) :
    feed f (r :: rs) s = some (ret :: rets, s'') := by
  simp [feed, h1, h2]

theorem feed_append_some (f : adc_readings_struct → sm_state → Option (Nat × sm_state))
    (a : List adc_readings_struct) : ∀ (b : List adc_readings_struct) (s s' s'' : sm_state)
    (ra rb : List Nat),
    feed f a s = some (ra, s') → feed f b s' = some (rb, s'') →
    feed f (a ++ b) s = some (ra ++ rb, s'') := by
  induction a with
  | nil =>
    intro b s s' s'' ra rb h1 h2
    simp only [feed, Option.some.injEq, Prod.mk.injEq] at h1
    obtain ⟨rfl, rfl⟩ := h1
    simpa using h2
  | cons x a ih =>
    intro b s s' s'' ra rb h1 h2
    simp only [feed] at h1
    cases hx : f x s with
    | none => simp [hx] at h1
    | some p =>
      obtain ⟨ret, t⟩ := p
      simp only [hx] at h1
      cases ha : feed f a t with
      | none => simp [ha] at h1
      | some q =>
        obtain ⟨rets, t'⟩ := q
        simp only [ha, Option.some.injEq, Prod.mk.injEq] at h1
        obtain ⟨rfl, rfl⟩ := h1
        have := ih b t t' s'' rets rb ha h2
        simp [feed, hx, this]

theorem list_split_last {α : Type} (l : List α) (n : Nat) (h : l.length = n + 1) :
    ∃ a x, l = a ++ [x] ∧ a.length = n := by
  have hne : l ≠ [] := by
    intro e
    rw [e] at h
    simp at h
  refine ⟨l.dropLast, l.getLast hne, (List.dropLast_append_getLast hne).symm, ?_⟩
  rw [List.length_dropLast, h]
  rfl

/-! ## `stabilize_inputs` -/

theorem stab_threshold_eq : stab_threshold = 38460 := by
  decide

theorem stab_cond (n : Nat) : ((n : Int) < stab_threshold) ↔ n < 38460 := by
  rw [stab_threshold_eq]
  omega

theorem stabilize_step (r : adc_readings_struct) (cur next : Nat) (s : sm_state)
    (hn : s.adc.next_adc_chan.length = N_ADC_CHAN)
    (hp : s.adc.prev_adc_chan.length = N_ADC_CHAN) :
    stabilize_inputs r cur next s =
      some (if (s.stab_nreadings + 1) % 65536 < 38460 then cur else next,
        { s with
          adc := { s.adc with tochan_links := default_links }
          stab_nreadings :=
            if (s.stab_nreadings + 1) % 65536 < 38460 then (s.stab_nreadings + 1) % 65536
            else 0 }) := by
  have hl : init_adc_chans s.adc.tochan_links = some default_links :=
    init_adc_chans_eq _ hn hp
  unfold stabilize_inputs
  rw [hl]
  simp only [Option.bind_eq_bind, Option.some_bind, stab_cond]
  split <;> rfl

theorem stabilize_wait (cur next : Nat) (rs : List adc_readings_struct) :
    ∀ (s : sm_state), s.adc.next_adc_chan.length = N_ADC_CHAN →
      s.adc.prev_adc_chan.length = N_ADC_CHAN →
      s.stab_nreadings + rs.length < 38460 →
      ∃ s', feed (fun r => stabilize_inputs r cur next) rs s =
          some (List.replicate rs.length cur, s') ∧
        s'.stab_nreadings = s.stab_nreadings + rs.length ∧
        s'.adc.next_adc_chan.length = N_ADC_CHAN ∧
        s'.adc.prev_adc_chan.length = N_ADC_CHAN := by
  induction rs with
  | nil =>
    intro s hn hp _
    exact ⟨s, rfl, rfl, hn, hp⟩
  | cons r rs ih =>
    intro s hn hp hlt
    simp only [List.length_cons] at hlt
    have h1 : (s.stab_nreadings + 1) % 65536 < 38460 := by omega
    have e1 := stabilize_step r cur next s hn hp
    rw [if_pos h1, if_pos h1] at e1
    have hmod : (s.stab_nreadings + 1) % 65536 = s.stab_nreadings + 1 := by omega
    obtain ⟨t, ht, hts, htn, htp⟩ : ∃ t, stabilize_inputs r cur next s = some (cur, t) ∧
        t.stab_nreadings = s.stab_nreadings + 1 ∧
        t.adc.next_adc_chan.length = N_ADC_CHAN ∧
        t.adc.prev_adc_chan.length = N_ADC_CHAN := ⟨_, e1, hmod, rfl, rfl⟩
    obtain ⟨s', e2, a, b, c⟩ := ih t htn htp (by omega)
    refine ⟨s', ?_, ?_, b, c⟩
    · exact feed_cons_some _ r rs s t s' cur _ ht e2
    · rw [a, hts]
      simp only [List.length_cons]
      omega

theorem stabilize_last (r : adc_readings_struct) (cur next : Nat) (s : sm_state)
    (hn : s.adc.next_adc_chan.length = N_ADC_CHAN)
    (hp : s.adc.prev_adc_chan.length = N_ADC_CHAN)
    (h : s.stab_nreadings = 38459) :
    ∃ t, stabilize_inputs r cur next s = some (next, t) ∧
      t.stab_nreadings = 0 ∧
      t.adc.next_adc_chan.length = N_ADC_CHAN ∧
      t.adc.prev_adc_chan.length = N_ADC_CHAN := by
  have e1 := stabilize_step r cur next s hn hp
  have h1 : ¬ (s.stab_nreadings + 1) % 65536 < 38460 := by omega
  rw [if_neg h1, if_neg h1] at e1
  exact ⟨_, e1, rfl, rfl, rfl⟩

theorem stabilize_run (cur next : Nat) (s : sm_state) (rs : List adc_readings_struct)
    (hn : s.adc.next_adc_chan.length = N_ADC_CHAN)
    (hp : s.adc.prev_adc_chan.length = N_ADC_CHAN)
    (h0 : s.stab_nreadings = 0) (hlen : rs.length = 38459 + 1) :
    ∃ s', feed (fun r => stabilize_inputs r cur next) rs s =
        some (List.replicate 38459 cur ++ [next], s') ∧
      s'.stab_nreadings = 0 ∧
      s'.adc.next_adc_chan.length = N_ADC_CHAN ∧
      s'.adc.prev_adc_chan.length = N_ADC_CHAN := by
  obtain ⟨a, x, rfl, ha⟩ := list_split_last rs 38459 hlen
  obtain ⟨t, e1, c1, n1, p1⟩ := stabilize_wait cur next a s hn hp (by omega)
  obtain ⟨u, e2, c2, n2, p2⟩ := stabilize_last x cur next t n1 p1 (by omega)
  refine ⟨u, ?_, c2, n2, p2⟩
  rw [ha] at e1
  exact feed_append_some _ a [x] s t u _ [next] e1 (feed_cons_some _ x [] t u u next [] e2 rfl)

/-! ## Claim C13: the length of the stabilisation phase -/

/-- Claim C13.  The bound that `stabilize_inputs` compares its counter with is
`(9615 / N_ADC_CHAN) * (128 / ADC_PRESCALAR) * (STABILIZE_DURATION / 1000000)
= 38460`.  Starting with the counter at 0 (and link arrays of `N_ADC_CHAN`
entries, which `init_adc_chans` rewrites), 38460 calls return `curstate` on
the first 38459 calls and `nextstate` on the last one, which leaves the
counter at 0; a further 38460 calls then behave in the same way. -/
theorem stabilize_inputs_count (cur next : Nat) (s : sm_state)
    (rs rs2 : List adc_readings_struct)
    (hn : s.adc.next_adc_chan.length = N_ADC_CHAN)
    (hp : s.adc.prev_adc_chan.length = N_ADC_CHAN)
    (h0 : s.stab_nreadings = 0)
    (hlen : rs.length = 38460) (hlen2 : rs2.length = 38460) :
    stab_threshold = 38460 ∧
    (9615 / N_ADC_CHAN) * (128 / ADC_PRESCALAR) * (STABILIZE_DURATION / 1000000) = 38460 ∧
    ∃ s' s'',
      feed (fun r => stabilize_inputs r cur next) rs s =
        some (List.replicate 38459 cur ++ [next], s') ∧
      s'.stab_nreadings = 0 ∧
      feed (fun r => stabilize_inputs r cur next) rs2 s' =
        some (List.replicate 38459 cur ++ [next], s'') ∧
      s''.stab_nreadings = 0 := by
  obtain ⟨s', e1, c1, n1, p1⟩ := stabilize_run cur next s rs hn hp h0 hlen
  obtain ⟨s'', e2, c2, _, _⟩ := stabilize_run cur next s' rs2 n1 p1 c1 hlen2
  exact ⟨stab_threshold_eq, by decide, s', s'', e1, c1, e2, c2⟩

/-- Claim C13, instance: two phases of 38460 readings each from the initial
state, with `curstate = STATE_STAB` and `nextstate = STATE_SCAN`. -/
theorem stabilize_inputs_count_witness :
    stab_threshold = 38460 ∧
    (9615 / N_ADC_CHAN) * (128 / ADC_PRESCALAR) * (STABILIZE_DURATION / 1000000) = 38460 ∧
    ∃ s' s'',
      feed (fun r => stabilize_inputs r STATE_STAB STATE_SCAN)
          (List.replicate 38460 zero_reading) (sm_init fresh_state) =
        some (List.replicate 38459 STATE_STAB ++ [STATE_SCAN], s') ∧
      s'.stab_nreadings = 0 ∧
      feed (fun r => stabilize_inputs r STATE_STAB STATE_SCAN)
          (List.replicate 38460 zero_reading) s' =
        some (List.replicate 38459 STATE_STAB ++ [STATE_SCAN], s'') ∧
      s''.stab_nreadings = 0 :=
  stabilize_inputs_count STATE_STAB STATE_SCAN (sm_init fresh_state)
    (List.replicate 38460 zero_reading) (List.replicate 38460 zero_reading)
    rfl rfl rfl (List.length_replicate _ _) (List.length_replicate _ _)

/-! ## The voltage history ring and the zero-crossing states -/

theorem volt_some (x : adc_readings_struct) (h : x.vals.length = N_ADC_CHAN) :
    x.vals[0]? = some (volt_of x) := by
  obtain ⟨a, b, c, d, e, hx⟩ := length_five x.vals h
  simp [volt_of, hx]

theorem volt_of_eq (x : adc_readings_struct) (v : Int) (h : x.vals[0]? = some v) :
    volt_of x = v := by
  simp [volt_of, h]

theorem store_vhist_eq (v : Int) (s : sm_state) (h : s.vhist_ring.length = N_VHIST_RING) :
    store_vhist v s =
      some { s with
        vhist_cur := (s.vhist_cur + 1) % N_VHIST_RING
        vhist_ring := s.vhist_ring.set ((s.vhist_cur + 1) % N_VHIST_RING) v } := by
  have hlt : (s.vhist_cur + 1) % N_VHIST_RING < s.vhist_ring.length := by
    rw [h]
    exact Nat.mod_lt _ (by decide)
  simp [store_vhist, arr_set, hlt]

theorem last_volt_append (prev : Int) (rs : List adc_readings_struct)
    (r : adc_readings_struct) : last_volt prev (rs ++ [r]) = volt_of r := by
  simp [last_volt]

theorem last_volt_cons (prev : Int) (r : adc_readings_struct)
    (rs : List adc_readings_struct) :
    last_volt prev (r :: rs) = last_volt (volt_of r) rs := rfl

theorem rising_count_cons (prev : Int) (r : adc_readings_struct)
    (rs : List adc_readings_struct) :
    rising_count prev (r :: rs) =
      (if prev < 0 ∧ volt_of r ≥ 0 then 1 else 0) + rising_count (volt_of r) rs := rfl

theorem rising_count_append (rs : List adc_readings_struct) :
    ∀ (prev : Int) (r : adc_readings_struct),
      rising_count prev (rs ++ [r]) =
        rising_count prev rs + (if last_volt prev rs < 0 ∧ volt_of r ≥ 0 then 1 else 0) := by
  induction rs with
  | nil =>
    intro prev r
    simp [rising_count, last_volt]
  | cons x rs ih =>
    intro prev r
    rw [List.cons_append, rising_count_cons, ih, rising_count_cons, last_volt_cons,
      Nat.add_assoc]

theorem feed_cons_inv (f : adc_readings_struct → sm_state → Option (Nat × sm_state))
    (r : adc_readings_struct) (rs : List adc_readings_struct) (s s1 : sm_state)
    (rets : List Nat) (h : feed f (r :: rs) s = some (rets, s1)) :
    ∃ ret t rets', f r s = some (ret, t) ∧ feed f rs t = some (rets', s1) ∧
      rets = ret :: rets' := by
  simp only [feed] at h
  cases hx : f r s with
  | none => simp [hx] at h
  | some p =>
    obtain ⟨ret, t⟩ := p
    simp only [hx] at h
    cases ha : feed f rs t with
    | none => simp [ha] at h
    | some q =>
      obtain ⟨rets', t'⟩ := q
      simp only [ha, Option.some.injEq, Prod.mk.injEq] at h
      obtain ⟨rfl, rfl⟩ := h
      exact ⟨ret, t, rets', rfl, ha, rfl⟩

/-! ### `zero_crossing` -/

theorem zero_crossing_eq (r : adc_readings_struct) (nclear cur next : Nat) (s : sm_state)
    (v : Int) (hv : r.vals[0]? = some v) (hr : s.vhist_ring.length = N_VHIST_RING) :
    zero_crossing r nclear cur next s =
      some (if (s.zc_nreadings + 1) % 65536 > nclear ∧ s.vstats.val < 0 ∧ v ≥ 0 then
          (next,
            { s with
              vstats := { s.vstats with oldval := s.vstats.val, val := v }
              vhist_cur := (s.vhist_cur + 1) % N_VHIST_RING
              vhist_ring := s.vhist_ring.set ((s.vhist_cur + 1) % N_VHIST_RING) v
              adc := reset_overflow { s.adc with max_adc_depth := 0 }
              zc_old_time := r.t
              zc_nreadings := 0 })
        else
          (cur,
            { s with
              vstats := { s.vstats with oldval := s.vstats.val, val := v }
              vhist_cur := (s.vhist_cur + 1) % N_VHIST_RING
              vhist_ring := s.vhist_ring.set ((s.vhist_cur + 1) % N_VHIST_RING) v
              zc_nreadings := (s.zc_nreadings + 1) % 65536 })) := by
  unfold zero_crossing
  rw [hv]
  simp only [Option.bind_eq_bind, Option.some_bind]
  rw [store_vhist_eq v
    { s with
      vstats := { s.vstats with oldval := s.vstats.val, val := v }
      zc_nreadings := (s.zc_nreadings + 1) % 65536 } hr]
  simp only [Option.some_bind]
  split <;> rfl

/-- What a call of `zero_crossing` does, in terms of the state before it. -/
theorem zero_crossing_step (r : adc_readings_struct) (nclear cur next : Nat) (s : sm_state)
    (v : Int) (hv : r.vals[0]? = some v) (hr : s.vhist_ring.length = N_VHIST_RING) :
    ∃ s2, zero_crossing r nclear cur next s =
        some (if (s.zc_nreadings + 1) % 65536 > nclear ∧ s.vstats.val < 0 ∧ v ≥ 0
          then next else cur, s2) ∧
      s2.vhist_cur = (s.vhist_cur + 1) % N_VHIST_RING ∧
      s2.vhist_ring = s.vhist_ring.set ((s.vhist_cur + 1) % N_VHIST_RING) v ∧
      s2.vhist_ring.length = N_VHIST_RING ∧
      s2.vstats.val = v ∧ s2.vstats.oldval = s.vstats.val ∧
      ((s.zc_nreadings + 1) % 65536 > nclear ∧ s.vstats.val < 0 ∧ v ≥ 0 →
        s2.zc_nreadings = 0 ∧ s2.adc.max_adc_depth = 0 ∧ s2.adc.n_overflow = 0) ∧
      (¬ ((s.zc_nreadings + 1) % 65536 > nclear ∧ s.vstats.val < 0 ∧ v ≥ 0) →
        s2.zc_nreadings = (s.zc_nreadings + 1) % 65536 ∧ s2.adc = s.adc) := by
  rw [zero_crossing_eq r nclear cur next s v hv hr]
  by_cases hc : (s.zc_nreadings + 1) % 65536 > nclear ∧ s.vstats.val < 0 ∧ v ≥ 0
  · rw [if_pos hc, if_pos hc]
    refine ⟨_, rfl, rfl, rfl, ?_, rfl, rfl, fun _ => ⟨rfl, rfl, rfl⟩, fun h => absurd hc h⟩
    simp [hr]
  · rw [if_neg hc, if_neg hc]
    refine ⟨_, rfl, rfl, rfl, ?_, rfl, rfl, fun h => absurd h hc, fun _ => ⟨rfl, rfl⟩⟩
    simp [hr]

theorem zero_crossing_total (nclear cur next : Nat) (rs : List adc_readings_struct) :
    ∀ (s : sm_state), s.vhist_ring.length = N_VHIST_RING →
      (∀ x ∈ rs, x.vals.length = N_ADC_CHAN) →
      ∃ rets s1, feed (fun x => zero_crossing x nclear cur next) rs s = some (rets, s1) ∧
        s1.vhist_ring.length = N_VHIST_RING ∧
        s1.vstats.val = last_volt s.vstats.val rs := by
  induction rs with
  | nil =>
    intro s hr _
    exact ⟨[], s, rfl, hr, rfl⟩
  | cons r rs ih =>
    intro s hr hv
    obtain ⟨s2, e, _, _, hl, hval, _⟩ := zero_crossing_step r nclear cur next s _
      (volt_some r (hv r (List.mem_cons_self _ _))) hr
    obtain ⟨rets, s1, e1, hl1, hv1⟩ := ih s2 hl (fun x hx => hv x (List.mem_cons_of_mem _ hx))
    refine ⟨_, s1, feed_cons_some _ r rs s s2 s1 _ rets e e1, hl1, ?_⟩
    rw [hv1, hval, last_volt_cons]

theorem zero_crossing_stay (nclear cur next : Nat) (rs : List adc_readings_struct) :
    ∀ (s s1 : sm_state) (rets : List Nat), s.vhist_ring.length = N_VHIST_RING →
      (∀ x ∈ rs, x.vals.length = N_ADC_CHAN) →
      feed (fun x => zero_crossing x nclear cur next) rs s = some (rets, s1) →
      next ∉ rets →
      s1.zc_nreadings = (s.zc_nreadings + rs.length) % 65536 ∨
        (rs = [] ∧ s1 = s) := by
  induction rs with
  | nil =>
    intro s s1 rets _ _ h _
    simp only [feed, Option.some.injEq, Prod.mk.injEq] at h
    exact Or.inr ⟨rfl, h.2.symm⟩
  | cons r rs ih =>
    intro s s1 rets hr hv h hn
    obtain ⟨ret, t, rets', e, e1, rfl⟩ := feed_cons_inv _ r rs s s1 rets h
    obtain ⟨s2, e2, _, _, hl, _, _, _, hstay⟩ := zero_crossing_step r nclear cur next s _
      (volt_some r (hv r (List.mem_cons_self _ _))) hr
    rw [e2] at e
    simp only [Option.some.injEq, Prod.mk.injEq] at e
    obtain ⟨hret, rfl⟩ := e
    have hc : ¬ ((s.zc_nreadings + 1) % 65536 > nclear ∧ s.vstats.val < 0 ∧ volt_of r ≥ 0) := by
      intro hc
      rw [if_pos hc] at hret
      exact hn (by rw [← hret]; exact List.mem_cons_self _ _)
    have hz := (hstay hc).1
    left
    rcases ih s2 s1 rets' hl (fun x hx => hv x (List.mem_cons_of_mem _ hx)) e1
      (fun hm => hn (List.mem_cons_of_mem _ hm)) with h1 | ⟨h1, h2⟩
    · rw [h1, hz]
      simp only [List.length_cons]
      omega
    · rw [h2, hz, h1]
      simp

theorem zero_crossing_neg_run (nclear cur next : Nat) (k : Nat) :
    ∀ (s : sm_state), s.vhist_ring.length = N_VHIST_RING →
      ∃ s1, feed (fun x => zero_crossing x nclear cur next)
          (List.replicate k (volt_reading (-1))) s = some (List.replicate k cur, s1) ∧
        s1.zc_nreadings % 65536 = (s.zc_nreadings + k) % 65536 ∧
        s1.vhist_ring.length = N_VHIST_RING ∧
        (0 < k → s1.vstats.val = -1 ∧ s1.zc_nreadings < 65536) := by
  induction k with
  | zero =>
    intro s hr
    exact ⟨s, rfl, rfl, hr, fun h => absurd h (by decide)⟩
  | succ k ih =>
    intro s hr
    obtain ⟨s2, e, _, _, hl, hval, _, _, hstay⟩ :=
      zero_crossing_step (volt_reading (-1)) nclear cur next s (-1) (by simp [volt_reading]) hr
    have hc : ¬ ((s.zc_nreadings + 1) % 65536 > nclear ∧ s.vstats.val < 0 ∧ (-1 : Int) ≥ 0) := by
      rintro ⟨_, _, h⟩
      exact absurd h (by decide)
    rw [if_neg hc] at e
    obtain ⟨s1, e1, hz, hl1, hk⟩ := ih s2 hl
    refine ⟨s1, ?_, ?_, hl1, fun _ => ?_⟩
    · rw [List.replicate_succ, List.replicate_succ]
      exact feed_cons_some _ _ _ s s2 s1 cur _ e e1
    · rw [hz, (hstay hc).1]
      omega
    · rcases Nat.eq_zero_or_pos k with h0 | h0
      · subst h0
        simp only [feed, List.replicate, Option.some.injEq, Prod.mk.injEq, true_and] at e1
        subst e1
        refine ⟨hval, ?_⟩
        rw [(hstay hc).1]
        omega
      · exact hk h0

/-! ### `accum_freq` -/

theorem vhist_slot_lt (s : sm_state) (h : s.vhist_ring.length = N_VHIST_RING) (c : Nat) :
    (c + 1) % N_VHIST_RING < s.vhist_ring.length := by
  rw [h]
  exact Nat.mod_lt _ (by decide)

theorem accum_freq_eq (r : adc_readings_struct) (cur next : Nat) (s : sm_state)
    (v : Int) (hv : r.vals[0]? = some v) (hr : s.vhist_ring.length = N_VHIST_RING) :
    accum_freq r cur next s =
      some (if s.vstats.val < 0 ∧ v ≥ 0 then
          (if (s.ncycles + 1) % 65536 < 120 then cur else STATE_CALF,
            { s with
              start_time := if s.start_time = 0 then r.t else s.start_time
              vstats := { s.vstats with oldval := s.vstats.val, val := v }
              vhist_cur := (s.vhist_cur + 1) % N_VHIST_RING
              vhist_ring := s.vhist_ring.set ((s.vhist_cur + 1) % N_VHIST_RING) v
              ncycles := (s.ncycles + 1) % 65536 })
        else
          (cur,
            { s with
              start_time := if s.start_time = 0 then r.t else s.start_time
              vstats := { s.vstats with oldval := s.vstats.val, val := v }
              vhist_cur := (s.vhist_cur + 1) % N_VHIST_RING
              vhist_ring := s.vhist_ring.set ((s.vhist_cur + 1) % N_VHIST_RING) v })) := by
  have hlt := vhist_slot_lt s hr s.vhist_cur
  by_cases hc : s.vstats.val < 0 ∧ v ≥ 0 <;>
    by_cases h3 : (s.ncycles + 1) % 65536 < 120 <;>
    by_cases hst : s.start_time = 0 <;>
    simp [accum_freq, store_vhist, arr_set, hv, hlt, hst, hc, h3]

/-- What a call of `accum_freq` does, in terms of the state before it. -/
theorem accum_freq_step (r : adc_readings_struct) (cur next : Nat) (s : sm_state)
    (v : Int) (hv : r.vals[0]? = some v) (hr : s.vhist_ring.length = N_VHIST_RING) :
    ∃ s2, accum_freq r cur next s =
        some (if s.vstats.val < 0 ∧ v ≥ 0 ∧ ¬ (s.ncycles + 1) % 65536 < 120
          then STATE_CALF else cur, s2) ∧
      s2.ncycles = (if s.vstats.val < 0 ∧ v ≥ 0 then (s.ncycles + 1) % 65536 else s.ncycles) ∧
      s2.vhist_cur = (s.vhist_cur + 1) % N_VHIST_RING ∧
      s2.vhist_ring = s.vhist_ring.set ((s.vhist_cur + 1) % N_VHIST_RING) v ∧
      s2.vhist_ring.length = N_VHIST_RING ∧
      s2.vstats.val = v ∧ s2.vstats.oldval = s.vstats.val ∧
      s2.start_time = (if s.start_time = 0 then r.t else s.start_time) := by
  rw [accum_freq_eq r cur next s v hv hr]
  by_cases h1 : s.vstats.val < 0 <;> by_cases h2 : v ≥ 0 <;>
    by_cases h3 : (s.ncycles + 1) % 65536 < 120 <;>
    simp only [h1, h2, h3, and_self, and_true, and_false, true_and, false_and,
      not_true_eq_false, not_false_eq_true, if_true, if_false] <;>
    exact ⟨_, rfl, rfl, rfl, rfl, by simp [hr], rfl, rfl, rfl⟩

theorem accum_freq_run (cur next : Nat) (rs : List adc_readings_struct) :
    ∀ (s : sm_state), s.vhist_ring.length = N_VHIST_RING →
      (∀ x ∈ rs, x.vals.length = N_ADC_CHAN) →
      s.ncycles + rising_count s.vstats.val rs < 120 →
      ∃ s1, feed (fun x => accum_freq x cur next) rs s =
          some (List.replicate rs.length cur, s1) ∧
        s1.ncycles = s.ncycles + rising_count s.vstats.val rs ∧
        s1.vhist_ring.length = N_VHIST_RING ∧
        s1.vstats.val = last_volt s.vstats.val rs := by
  induction rs with
  | nil =>
    intro s hr _ _
    exact ⟨s, rfl, rfl, hr, rfl⟩
  | cons r rs ih =>
    intro s hr hv hc
    rw [rising_count_cons] at hc
    obtain ⟨s2, e, hn, _, _, hl, hval, _, _⟩ := accum_freq_step r cur next s _
      (volt_some r (hv r (List.mem_cons_self _ _))) hr
    have hret : (if s.vstats.val < 0 ∧ volt_of r ≥ 0 ∧ ¬ (s.ncycles + 1) % 65536 < 120
        then STATE_CALF else cur) = cur := by
      rw [if_neg]
      rintro ⟨h1, h2, h3⟩
      rw [if_pos ⟨h1, h2⟩] at hc
      omega
    rw [hret] at e
    have hn2 : s2.ncycles = s.ncycles + (if s.vstats.val < 0 ∧ volt_of r ≥ 0 then 1 else 0) := by
      rw [hn]
      by_cases h : s.vstats.val < 0 ∧ volt_of r ≥ 0
      · rw [if_pos h, if_pos h]
        rw [if_pos h] at hc
        omega
      · rw [if_neg h, if_neg h]
        rfl
    obtain ⟨s1, e1, hn1, hl1, hv1⟩ := ih s2 hl (fun x hx => hv x (List.mem_cons_of_mem _ hx))
      (by rw [hn2, hval]; omega)
    refine ⟨s1, feed_cons_some _ r rs s s2 s1 cur _ e e1, ?_, hl1, ?_⟩
    · rw [hn1, hn2, hval, rising_count_cons]
      omega
    · rw [hv1, hval, last_volt_cons]

/-! ## Claims C17 and C18: waiting for zero crossings -/

/-- Claim C17, as stated, fails when the 16-bit reading counter wraps: after
65535 readings with voltage -1 (no crossing, so every call returns
`curstate`), the reading with voltage 0 is a rising crossing and is the
65536th reading since the state was entered, more than `nclear = 10`, yet
`zero_crossing` returns `curstate`. -/
theorem zero_crossing_counter_wraps :
    ∃ s1 s2,
      feed (fun x => zero_crossing x 10 STATE_ZER1 STATE_FREQ)
          (List.replicate 65535 (volt_reading (-1))) (sm_init fresh_state) =
        some (List.replicate 65535 STATE_ZER1, s1) ∧
      s1.vstats.val = -1 ∧
      zero_crossing (volt_reading 0) 10 STATE_ZER1 STATE_FREQ s1 = some (STATE_ZER1, s2) ∧
      STATE_ZER1 ≠ STATE_FREQ := by
  obtain ⟨s1, e1, hz, hl, hk⟩ :=
    zero_crossing_neg_run 10 STATE_ZER1 STATE_FREQ 65535 (sm_init fresh_state) rfl
  obtain ⟨hval, hlt⟩ := hk (by decide)
  obtain ⟨s2, e2, _⟩ := zero_crossing_step (volt_reading 0) 10 STATE_ZER1 STATE_FREQ s1 0
    (by simp [volt_reading]) hl
  have hz0 : (sm_init fresh_state).zc_nreadings = 0 := rfl
  rw [hz0] at hz
  have hc : ¬ ((s1.zc_nreadings + 1) % 65536 > 10 ∧ s1.vstats.val < 0 ∧ (0 : Int) ≥ 0) := by
    rintro ⟨h, _, _⟩
    omega
  rw [if_neg hc] at e2
  exact ⟨s1, s2, e1, hval, e2, by decide⟩

/-- Claim C17 (with the reading count taken modulo 2^16).  Let `rs` be the
readings consumed since `zero_crossing` was entered with its counter at 0, none
of which made it return `nextstate`.  Then the calls on `rs` return, and the
next call, on a reading with voltage `v`, returns `nextstate` exactly when
`(rs.length + 1) mod 2^16 > nclear` and the previous voltage reading is `< 0`
and `v ≥ 0`, and `curstate` otherwise.  The call stores `v` in the next slot of
the voltage history ring, and when it returns `nextstate` it leaves the
reading counter, `max_adc_depth` and `n_overflow` at 0. -/
theorem zero_crossing_spec (nclear cur next : Nat) (s : sm_state)
    (rs : List adc_readings_struct) (r : adc_readings_struct) (v : Int)
    (hring : s.vhist_ring.length = N_VHIST_RING)
    (h0 : s.zc_nreadings = 0)
    (hvals : ∀ x ∈ rs, x.vals.length = N_ADC_CHAN)
    (hv : r.vals[0]? = some v) :
    ∃ rets s1, feed (fun x => zero_crossing x nclear cur next) rs s = some (rets, s1) ∧
      (next ∉ rets →
        ∃ s2, zero_crossing r nclear cur next s1 =
            some (if (rs.length + 1) % 65536 > nclear ∧ last_volt s.vstats.val rs < 0 ∧ v ≥ 0
              then next else cur, s2) ∧
          s2.vhist_cur = (s1.vhist_cur + 1) % N_VHIST_RING ∧
          s2.vhist_ring = s1.vhist_ring.set ((s1.vhist_cur + 1) % N_VHIST_RING) v ∧
          s2.vstats.val = v ∧
          ((rs.length + 1) % 65536 > nclear ∧ last_volt s.vstats.val rs < 0 ∧ v ≥ 0 →
            s2.zc_nreadings = 0 ∧ s2.adc.max_adc_depth = 0 ∧ s2.adc.n_overflow = 0)) := by
  obtain ⟨rets, s1, e1, hl1, hv1⟩ := zero_crossing_total nclear cur next rs s hring hvals
  refine ⟨rets, s1, e1, fun hn => ?_⟩
  have hz : (s1.zc_nreadings + 1) % 65536 = (rs.length + 1) % 65536 := by
    rcases zero_crossing_stay nclear cur next rs s s1 rets hring hvals e1 hn with h | ⟨h, h2⟩
    · rw [h, h0]
      omega
    · rw [h2, h0, h]
      rfl
  obtain ⟨s2, e2, a, b, _, c, _, d, _⟩ := zero_crossing_step r nclear cur next s1 v hv hl1
  rw [hz, hv1] at e2 d
  exact ⟨s2, e2, a, b, c, d⟩

/-- Claim C17, instance: after one reading with voltage -3 the reading with
voltage 2 makes `zero_crossing` with `nclear = 1` leave the state. -/
theorem zero_crossing_spec_witness :
    ∃ rets s1, feed (fun x => zero_crossing x 1 STATE_ZER1 STATE_FREQ) [volt_reading (-3)]
        (sm_init fresh_state) = some (rets, s1) ∧
      (STATE_FREQ ∉ rets →
        ∃ s2, zero_crossing (volt_reading 2) 1 STATE_ZER1 STATE_FREQ s1 =
            some (if ([volt_reading (-3)].length + 1) % 65536 > 1 ∧
                last_volt (sm_init fresh_state).vstats.val [volt_reading (-3)] < 0 ∧ (2 : Int) ≥ 0
              then STATE_FREQ else STATE_ZER1, s2) ∧
          s2.vhist_cur = (s1.vhist_cur + 1) % N_VHIST_RING ∧
          s2.vhist_ring = s1.vhist_ring.set ((s1.vhist_cur + 1) % N_VHIST_RING) 2 ∧
          s2.vstats.val = 2 ∧
          (([volt_reading (-3)].length + 1) % 65536 > 1 ∧
              last_volt (sm_init fresh_state).vstats.val [volt_reading (-3)] < 0 ∧ (2 : Int) ≥ 0 →
            s2.zc_nreadings = 0 ∧ s2.adc.max_adc_depth = 0 ∧ s2.adc.n_overflow = 0)) :=
  zero_crossing_spec 1 STATE_ZER1 STATE_FREQ (sm_init fresh_state) [volt_reading (-3)]
    (volt_reading 2) 2 rfl rfl (by decide) (by simp [volt_reading])

/-- Claim C18.  Starting with `ncycles = 0`, as long as the readings `rs`
contain fewer than 120 rising zero crossings every call of `accum_freq` on
them returns `curstate` and `ncycles` is the number of rising crossings so
far; the next call returns `STATE_CALF` when its reading is the 120th rising
crossing and `curstate` otherwise, and stores its voltage reading in the next
slot of the voltage history ring. -/
theorem accum_freq_spec (cur next : Nat) (s : sm_state)
    (rs : List adc_readings_struct) (r : adc_readings_struct) (v : Int)
    (hring : s.vhist_ring.length = N_VHIST_RING)
    (h0 : s.ncycles = 0)
    (hvals : ∀ x ∈ rs, x.vals.length = N_ADC_CHAN)
    (hv : r.vals[0]? = some v)
    (hc : rising_count s.vstats.val rs < 120) :
    ∃ s1 s2,
      feed (fun x => accum_freq x cur next) rs s = some (List.replicate rs.length cur, s1) ∧
      s1.ncycles = rising_count s.vstats.val rs ∧
      accum_freq r cur next s1 =
        some (if rising_count s.vstats.val (rs ++ [r]) = 120 then STATE_CALF else cur, s2) ∧
      s2.ncycles = rising_count s.vstats.val (rs ++ [r]) ∧
      s2.vhist_cur = (s1.vhist_cur + 1) % N_VHIST_RING ∧
      s2.vhist_ring = s1.vhist_ring.set ((s1.vhist_cur + 1) % N_VHIST_RING) v := by
  obtain ⟨s1, e1, hn1, hl1, hv1⟩ := accum_freq_run cur next rs s hring hvals (by omega)
  rw [h0, Nat.zero_add] at hn1
  obtain ⟨s2, e2, hn2, a, b, _⟩ := accum_freq_step r cur next s1 v hv hl1
  have hvr : volt_of r = v := volt_of_eq r v hv
  have happ := rising_count_append rs s.vstats.val r
  rw [hvr, ← hv1] at happ
  refine ⟨s1, s2, e1, hn1, ?_, ?_, a, b⟩
  · rw [e2, happ]
    by_cases hx : s1.vstats.val < 0 ∧ v ≥ 0
    · rw [if_pos hx]
      by_cases h3 : (s1.ncycles + 1) % 65536 < 120
      · rw [if_neg (fun h => h.2.2 h3), if_neg (by omega)]
      · rw [if_pos ⟨hx.1, hx.2, h3⟩, if_pos (by omega)]
    · rw [if_neg hx, if_neg (fun h => hx ⟨h.1, h.2.1⟩), if_neg (by omega)]
  · rw [hn2, happ]
    by_cases hx : s1.vstats.val < 0 ∧ v ≥ 0
    · rw [if_pos hx, if_pos hx]
      omega
    · rw [if_neg hx, if_neg hx]
      omega

set_option maxRecDepth 100000 in
/-- Claim C18, instance: 239 readings alternating between -1 and 1 contain
119 rising crossings; the reading with voltage 1 that follows is the 120th. -/
theorem accum_freq_spec_witness :
    ∃ s1 s2,
      feed (fun x => accum_freq x STATE_FREQ STATE_CALF) (alternating 239)
          (sm_init fresh_state) =
        some (List.replicate (alternating 239).length STATE_FREQ, s1) ∧
      s1.ncycles = rising_count (sm_init fresh_state).vstats.val (alternating 239) ∧
      accum_freq (volt_reading 1) STATE_FREQ STATE_CALF s1 =
        some (if rising_count (sm_init fresh_state).vstats.val
            (alternating 239 ++ [volt_reading 1]) = 120 then STATE_CALF else STATE_FREQ, s2) ∧
      s2.ncycles = rising_count (sm_init fresh_state).vstats.val
        (alternating 239 ++ [volt_reading 1]) ∧
      s2.vhist_cur = (s1.vhist_cur + 1) % N_VHIST_RING ∧
      s2.vhist_ring = s1.vhist_ring.set ((s1.vhist_cur + 1) % N_VHIST_RING) 1 :=
  accum_freq_spec STATE_FREQ STATE_CALF (sm_init fresh_state) (alternating 239)
    (volt_reading 1) 1 rfl rfl (by decide) (by simp [volt_reading]) (by decide)

/-! ## Loops over the current channels -/

theorem length_four {α : Type} (l : List α) (h : l.length = 4) :
    ∃ a b c d, l = [a, b, c, d] := by
  match l, h with
  | [a, b, c, d], _ => exact ⟨a, b, c, d, rfl⟩

theorem range_cur_chan : List.range N_CUR_CHAN = [0, 1, 2, 3] := by
  decide

theorem for_istats_eq (body : Nat → reading_stats → Option reading_stats)
    (a b c d a' b' c' d' : reading_stats)
    (h0 : body 0 a = some a') (h1 : body 1 b = some b') (h2 : body 2 c = some c')
    (h3 : body 3 d = some d') :
    for_istats body [a, b, c, d] = some [a', b', c', d'] := by
  simp [for_istats, range_cur_chan, arr_set, h0, h1, h2, h3]

theorem for_istats_pure (f : Nat → reading_stats → reading_stats) (l : List reading_stats)
    (h : l.length = N_CUR_CHAN) :
    for_istats (fun j st => some (f j st)) l =
      some [f 0 (l.getD 0 zero_stats), f 1 (l.getD 1 zero_stats), f 2 (l.getD 2 zero_stats),
        f 3 (l.getD 3 zero_stats)] := by
  obtain ⟨a, b, c, d, rfl⟩ := length_four l h
  exact for_istats_eq _ a b c d _ _ _ _ rfl rfl rfl rfl

/-! ## `calc_freq` -/

theorem calc_freq_fold (f g : Nat → c_float) (c d : List c_float)
    (hc : c.length = N_CUR_CHAN) (hd : d.length = N_CUR_CHAN) :
    (List.range N_CUR_CHAN).foldlM
      (fun (acc : List c_float × List c_float) j => do
        let c ← arr_set acc.1 j (f j)
        let d ← arr_set acc.2 j (g j)
        some (c, d)) (c, d) = some ([f 0, f 1, f 2, f 3], [g 0, g 1, g 2, g 3]) := by
  obtain ⟨c0, c1, c2, c3, rfl⟩ := length_four c hc
  obtain ⟨d0, d1, d2, d3, rfl⟩ := length_four d hd
  simp [range_cur_chan, arr_set]

theorem calc_freq_returns_next (fcos fsin : Nat → Nat → Nat → c_float)
    (r : adc_readings_struct) (cur next : Nat) (s s' : sm_state) (ret : Nat)
    (h : calc_freq fcos fsin r cur next s = some (ret, s')) : ret = next := by
  unfold calc_freq at h
  by_cases h1 : s.ncycles = 0
  · simp [h1] at h
  · by_cases h2 : (s.sample_period * 4) % 4294967296 = 0
    · simp [h1, h2] at h
    · simp only [h1, h2, if_false, Option.bind_eq_bind, Option.bind_eq_some, Option.some.injEq,
        Prod.mk.injEq] at h
      obtain ⟨_, _, h, _⟩ := h
      exact h.symm

theorem calc_freq_eq (fcos fsin : Nat → Nat → Nat → c_float)
    (r : adc_readings_struct) (cur next : Nat) (s : sm_state) (vp L : Nat)
    (hvp : vp = (((r.t : Int) - (s.start_time : Int)) % 4294967296).toNat / s.ncycles)
    (hL : L = (vp + 2 * s.sample_period) / (4 * s.sample_period))
    (hsp : 0 < s.sample_period) (hnc : 0 < s.ncycles)
    (h4 : 4 * s.sample_period < 4294967296)
    (hsum : vp + 2 * s.sample_period < 4294967296)
    (hL256 : L < 256)
    (hcos : s.cosph.length = N_CUR_CHAN) (hsin : s.sinph.length = N_CUR_CHAN) :
    calc_freq fcos fsin r cur next s =
      some (next,
        { s with
          vmains_period := vp
          vhist_lookback := L
          cosph := [fcos 0 s.sample_period vp, fcos 1 s.sample_period vp,
            fcos 2 s.sample_period vp, fcos 3 s.sample_period vp]
          sinph := [fsin 0 s.sample_period vp, fsin 1 s.sample_period vp,
            fsin 2 s.sample_period vp, fsin 3 s.sample_period vp]
          ncycles := 0
          start_time := 0
          adc := { s.adc with max_adc_depth := 0 } }) := by
  have h1 : ¬ s.ncycles = 0 := by omega
  have e4 : (s.sample_period * 4) % 4294967296 = 4 * s.sample_period := by omega
  have h2 : ¬ (s.sample_period * 4) % 4294967296 = 0 := by omega
  have e2 : (2 * s.sample_period) % 4294967296 = 2 * s.sample_period := by omega
  have e3 : (vp + 2 * s.sample_period) % 4294967296 = vp + 2 * s.sample_period :=
    Nat.mod_eq_of_lt hsum
  have e5 : L % 256 = L := Nat.mod_eq_of_lt hL256
  have hfold := calc_freq_fold (fun j => fcos j s.sample_period vp)
    (fun j => fsin j s.sample_period vp) s.cosph s.sinph hcos hsin
  beta_reduce at hfold
  unfold calc_freq
  rw [if_neg h1, if_neg h2, ← hvp, e2, e3, e4, ← hL]
  simp only [e5]
  rw [hfold]
  rfl

theorem quarter_period_bounds (vp sp L : Nat) (hsp : 0 < sp)
    (hL : L = (vp + 2 * sp) / (4 * sp)) :
    4 * sp * L ≤ vp + 2 * sp ∧ vp + 2 * sp < 4 * sp * (L + 1) ∧
      |(4 * (sp : Int) * L) - vp| ≤ 2 * sp := by
  have hpos : 0 < 4 * sp := by omega
  have a : 4 * sp * L ≤ vp + 2 * sp := by
    rw [hL]
    exact Nat.mul_div_le _ _
  have b : vp + 2 * sp < 4 * sp * (L + 1) := by
    rw [hL]
    exact Nat.lt_mul_div_succ _ hpos
  refine ⟨a, b, ?_⟩
  have a' : (4 * (sp : Int) * L) ≤ vp + 2 * sp := by exact_mod_cast a
  have b' : ((vp : Int) + 2 * sp) < 4 * sp * (L + 1) := by exact_mod_cast b
  rw [abs_le]
  constructor <;> nlinarith

/-! ## `accum_stats` -/

set_option maxRecDepth 100000 in
theorem vhist_wrap_total : ∀ c < 256, ∃ r, vhist_wrap 256 c = some r ∧ r < N_VHIST_RING := by
  decide

theorem retrieve_raw (cur lb : Nat) (ring : List Int) (h : ring.length = N_VHIST_RING) :
    ∃ x, (vhist_wrap 256
        (((cur : Int) + (N_VHIST_RING : Int) - (lb : Int)) % 256).toNat).bind
      (fun c => ring[c]?) = some x := by
  have hlt : (((cur : Int) + (N_VHIST_RING : Int) - (lb : Int)) % 256).toNat < 256 := by
    omega
  obtain ⟨c, hc, hc24⟩ := vhist_wrap_total _ hlt
  have hx : c < ring.length := by omega
  refine ⟨ring[c], ?_⟩
  simp [hc, List.getElem?_eq_getElem hx]

theorem accum_voltage_val (f : c_float) (v d : Int) (vs : reading_stats) :
    (accum_voltage f v d vs).val = vs.val ∧ (accum_voltage f v d vs).oldval = vs.oldval := by
  simp only [accum_voltage]
  constructor <;> split_ifs <;> rfl

theorem accum_chan_some (r : adc_readings_struct) (v d : Int) (j : Nat) (st : reading_stats)
    (hr : r.vals.length = N_ADC_CHAN) (hj : j < N_CUR_CHAN) :
    ∃ st', accum_chan r v d j st = some st' := by
  have hlt : j + 1 < r.vals.length := by
    rw [hr]
    exact Nat.succ_lt_succ hj
  by_cases hp : st.present = 0 <;> simp [accum_chan, List.getElem?_eq_getElem hlt, hp]

theorem accum_stats_block_some (r : adc_readings_struct) (s : sm_state)
    (hvals : r.vals.length = N_ADC_CHAN)
    (hring : s.vhist_ring.length = N_VHIST_RING)
    (hist : s.istats.length = N_CUR_CHAN) :
    ∃ s1, accum_stats_block r s = some s1 ∧
      s1.vstats.oldval = s.vstats.val ∧ s1.vstats.val = volt_of r ∧
      s1.start_time = (if s.start_time = 0 then r.t else s.start_time) ∧
      s1.ncycles = (if s.start_time = 0 then 0 else s.ncycles) := by
  obtain ⟨a, b, c, d, hab⟩ := length_four s.istats hist
  have hv := volt_some r hvals
  have hlt := fun cur => vhist_slot_lt s hring cur
  by_cases hst : s.start_time = 0
  all_goals
    obtain ⟨x, hx⟩ := retrieve_raw ((s.vhist_cur + 1) % N_VHIST_RING) s.vhist_lookback
      (s.vhist_ring.set ((s.vhist_cur + 1) % N_VHIST_RING) (volt_of r))
      (by rw [List.length_set]; exact hring)
    obtain ⟨a', ha⟩ := accum_chan_some r (volt_of r) x 0 a hvals (by decide)
    obtain ⟨b', hb⟩ := accum_chan_some r (volt_of r) x 1 b hvals (by decide)
    obtain ⟨c', hc⟩ := accum_chan_some r (volt_of r) x 2 c hvals (by decide)
    obtain ⟨d', hd⟩ := accum_chan_some r (volt_of r) x 3 d hvals (by decide)
    have hf := for_istats_eq (accum_chan r (volt_of r) x) a b c d a' b' c' d' ha hb hc hd
  · refine ⟨{ s with
        start_time := r.t
        ncycles := 0
        vstats := accum_voltage s.vmains_fprod (volt_of r) x
          { s.vstats with oldval := s.vstats.val, val := volt_of r }
        istats := [a', b', c', d']
        vhist_cur := (s.vhist_cur + 1) % N_VHIST_RING
        vhist_ring := s.vhist_ring.set ((s.vhist_cur + 1) % N_VHIST_RING) (volt_of r) }, ?_, ?_⟩
    · simp only [accum_stats_block, hst, if_true, hv, Option.bind_eq_bind, Option.some_bind,
        store_vhist, arr_set, hlt, retrieve_vhist, hx, hab, hf]
    · simp [(accum_voltage_val _ _ _ _).1, (accum_voltage_val _ _ _ _).2, hst]
  · refine ⟨{ s with
        vstats := accum_voltage s.vmains_fprod (volt_of r) x
          { s.vstats with oldval := s.vstats.val, val := volt_of r }
        istats := [a', b', c', d']
        vhist_cur := (s.vhist_cur + 1) % N_VHIST_RING
        vhist_ring := s.vhist_ring.set ((s.vhist_cur + 1) % N_VHIST_RING) (volt_of r) }, ?_, ?_⟩
    · simp only [accum_stats_block, hst, if_false, hv, Option.bind_eq_bind, Option.some_bind,
        store_vhist, arr_set, hlt, if_true, retrieve_vhist, hx, hab, hf]
    · simp [(accum_voltage_val _ _ _ _).1, (accum_voltage_val _ _ _ _).2, hst]

theorem elapsed_mod (T0 T1 : Nat) (h01 : T0 ≤ T1) (hlt : T1 - T0 < 4294967296) :
    ((((T1 % 4294967296 : Nat) : Int) - ((T0 % 4294967296 : Nat) : Int)) % 4294967296).toNat =
      T1 - T0 := by
  omega

theorem accum_stats_ret (r : adc_readings_struct) (tdur cur next : Nat) (s : sm_state)
    (hvals : r.vals.length = N_ADC_CHAN)
    (hring : s.vhist_ring.length = N_VHIST_RING)
    (hist : s.istats.length = N_CUR_CHAN) :
    ∃ s1, accum_stats r tdur cur next s =
      some (if s.vstats.val < 0 ∧ volt_of r ≥ 0 ∧
          tdur ≤ (((r.t : Int) -
            ((if s.start_time = 0 then r.t else s.start_time : Nat) : Int)) % 4294967296).toNat
        then STATE_CALS else cur, s1) := by
  obtain ⟨s1, e, ho, hv, hst, _⟩ := accum_stats_block_some r s hvals hring hist
  unfold accum_stats
  rw [e, ← hst]
  simp only [Option.bind_eq_bind, Option.some_bind, ho, hv]
  refine ⟨if s.vstats.val < 0 ∧ volt_of r ≥ 0 then
    { s1 with ncycles := (s1.ncycles + 1) % 65536 } else s1, ?_⟩
  generalize (((r.t : Int) - (s1.start_time : Int)) % 4294967296).toNat = X
  have hle : (tdur ≤ X) = ¬ (X < tdur) := propext Nat.not_lt.symm
  by_cases h1 : s.vstats.val < 0 <;> by_cases h2 : volt_of r ≥ 0 <;>
    by_cases ht : X < tdur <;>
    simp only [hle, h1, h2, ht, and_self, and_true, and_false, true_and,
      false_and, not_true_eq_false, not_false_eq_true, if_true, if_false]

/-! ## Claims C19 and C20: mains period, and the end of the accumulation window -/

/-- Claim C19.  With `vp = ((reading.t - start_time) mod 2^32) / ncycles` and
`L = (vp + 2*sample_period) / (4*sample_period)`, and provided
`sample_period > 0`, `ncycles > 0`, neither `4*sample_period` nor
`vp + 2*sample_period` overflows 32 bits, `L < 256` (and `cosph`, `sinph` have
`N_CUR_CHAN` entries), `calc_freq` returns `nextstate` and leaves
`vmains_period = vp`, `vhist_lookback = L`, `ncycles = 0`, `start_time = 0`;
`L` is the quarter period in sample periods rounded to nearest:
`4*sample_period*L ≤ vp + 2*sample_period < 4*sample_period*(L+1)` and
`|4*sample_period*L - vp| ≤ 2*sample_period`.  Whenever `calc_freq` returns,
it returns `nextstate`. -/
theorem calc_freq_spec (fcos fsin : Nat → Nat → Nat → c_float)
    (r : adc_readings_struct) (cur next : Nat) (s : sm_state) (vp L : Nat)
    (hvp : vp = (((r.t : Int) - (s.start_time : Int)) % 4294967296).toNat / s.ncycles)
    (hL : L = (vp + 2 * s.sample_period) / (4 * s.sample_period))
    (hsp : 0 < s.sample_period) (hnc : 0 < s.ncycles)
    (h4 : 4 * s.sample_period < 4294967296)
    (hsum : vp + 2 * s.sample_period < 4294967296)
    (hL256 : L < 256)
    (hcos : s.cosph.length = N_CUR_CHAN) (hsin : s.sinph.length = N_CUR_CHAN) :
    ∃ s', calc_freq fcos fsin r cur next s = some (next, s') ∧
      s'.vmains_period = vp ∧ s'.vhist_lookback = L ∧
      4 * s.sample_period * L ≤ vp + 2 * s.sample_period ∧
      vp + 2 * s.sample_period < 4 * s.sample_period * (L + 1) ∧
      |(4 * (s.sample_period : Int) * L) - vp| ≤ 2 * s.sample_period ∧
      s'.ncycles = 0 ∧ s'.start_time = 0 ∧
      (∀ t ret t', calc_freq fcos fsin r cur next t = some (ret, t') → ret = next) := by
  obtain ⟨a, b, c⟩ := quarter_period_bounds vp s.sample_period L hsp hL
  exact ⟨_, calc_freq_eq fcos fsin r cur next s vp L hvp hL hsp hnc h4 hsum hL256 hcos hsin,
    rfl, rfl, a, b, c, rfl, rfl,
    fun t ret t' h => calc_freq_returns_next fcos fsin r cur next t t' ret h⟩

/-- Claim C19, instance: 120 cycles in 2000000 microseconds with a sample
period of 520 microseconds give `vmains_period = 16666` and a lookback of 8
samples. -/
theorem calc_freq_spec_witness :
    ∃ s', calc_freq (fun _ _ _ => float_zero) (fun _ _ _ => float_zero)
        { vals := [0, 0, 0, 0, 0], t := 2001000, set := 1 } STATE_CALF STATE_ZER1
        { sm_init fresh_state with sample_period := 520, ncycles := 120, start_time := 1000 } =
          some (STATE_ZER1, s') ∧
      s'.vmains_period = 16666 ∧ s'.vhist_lookback = 8 ∧
      4 * 520 * 8 ≤ 16666 + 2 * 520 ∧
      16666 + 2 * 520 < 4 * 520 * (8 + 1) ∧
      |(4 * ((520 : Nat) : Int) * (8 : Nat)) - (16666 : Nat)| ≤ 2 * (520 : Nat) ∧
      s'.ncycles = 0 ∧ s'.start_time = 0 ∧
      (∀ t ret t', calc_freq (fun _ _ _ => float_zero) (fun _ _ _ => float_zero)
        { vals := [0, 0, 0, 0, 0], t := 2001000, set := 1 } STATE_CALF STATE_ZER1 t =
          some (ret, t') → ret = STATE_ZER1) :=
  calc_freq_spec (fun _ _ _ => float_zero) (fun _ _ _ => float_zero)
    { vals := [0, 0, 0, 0, 0], t := 2001000, set := 1 } STATE_CALF STATE_ZER1
    { sm_init fresh_state with sample_period := 520, ncycles := 120, start_time := 1000 }
    16666 8 (by decide) (by decide) (by decide) (by decide) (by decide) (by decide) (by decide)
    rfl rfl

set_option maxRecDepth 100000 in
/-- Claim C20, counterexample: `start_time == 0` is the mark "window not
started", so a window whose start is stamped at clock value 0 is started
again.  From the initial state (`start_time` is 0, as `calc_freq` leaves it)
the first reading of the window has `t = 0` and voltage -5: `accum_stats`
sets `start_time = 0` and returns `curstate`.  The next reading, at
`t = 5000` with voltage 5, is a rising crossing and
`(5000 - 0) mod 2^32 = 5000 ≥ tdur = 1000`, but `accum_stats` finds
`start_time == 0`, sets `start_time = 5000`, compares `0 < 1000` and returns
`curstate`, not `STATE_CALS`. -/
theorem accum_stats_restarts_at_zero :
    (accum_stats { vals := [-5, 0, 0, 0, 0], t := 0, set := 1 } 1000 STATE_STAT STATE_CALS
        (sm_init fresh_state)).map (fun q => (q.1, q.2.start_time, q.2.vstats.val)) =
      some (STATE_STAT, 0, -5) ∧
    ((accum_stats { vals := [-5, 0, 0, 0, 0], t := 0, set := 1 } 1000 STATE_STAT STATE_CALS
        (sm_init fresh_state)).bind
      (fun q => accum_stats { vals := [5, 0, 0, 0, 0], t := 5000, set := 1 } 1000
        STATE_STAT STATE_CALS q.2)).map (fun q => (q.1, q.2.start_time)) =
      some (STATE_STAT, 5000) ∧
    ((-5 : Int) < 0 ∧ volt_of { vals := [5, 0, 0, 0, 0], t := 5000, set := 1 } ≥ 0 ∧
      1000 ≤ ((((5000 : Nat) : Int) - ((0 : Nat) : Int)) % 4294967296).toNat) ∧
    STATE_STAT ≠ STATE_CALS := by
  decide

/-- Claim C20, amended.  On a reading with `N_ADC_CHAN` values (history ring
and `istats` of their declared sizes) `accum_stats` returns `STATE_CALS` when
the previous voltage is `< 0`, the current one is `≥ 0` and
`(reading.t - start_time) mod 2^32 ≥ tdur`, where `start_time` is `reading.t`
if it was 0 on entry (the function then starts the window at this reading);
otherwise it returns `curstate`.  If the window started at true time `T0` and
the reading was taken at true time `T1`, with `T0 ≤ T1 < T0 + 2^32`, both
stored modulo 2^32 and the stored start not 0, the elapsed time compared with
`tdur` is `T1 - T0`. -/
theorem accum_stats_spec (r : adc_readings_struct) (tdur cur next : Nat) (s : sm_state)
    (hvals : r.vals.length = N_ADC_CHAN)
    (hring : s.vhist_ring.length = N_VHIST_RING)
    (hist : s.istats.length = N_CUR_CHAN) :
    ∃ s1, accum_stats r tdur cur next s =
        some (if s.vstats.val < 0 ∧ volt_of r ≥ 0 ∧
            tdur ≤ (((r.t : Int) -
              ((if s.start_time = 0 then r.t else s.start_time : Nat) : Int)) % 4294967296).toNat
          then STATE_CALS else cur, s1) ∧
      (∀ T0 T1 : Nat, T0 ≤ T1 → T1 - T0 < 4294967296 →
        s.start_time = T0 % 4294967296 → s.start_time ≠ 0 → r.t = T1 % 4294967296 →
        accum_stats r tdur cur next s =
          some (if s.vstats.val < 0 ∧ volt_of r ≥ 0 ∧ tdur ≤ T1 - T0
            then STATE_CALS else cur, s1)) := by
  obtain ⟨s1, e⟩ := accum_stats_ret r tdur cur next s hvals hring hist
  refine ⟨s1, e, fun T0 T1 h01 hlt hs hs0 ht => ?_⟩
  rw [e, if_neg hs0, hs, ht, elapsed_mod T0 T1 h01 hlt]

/-- Claim C20, amended, instance: the window started at 4294967000 and the clock has
wrapped; the reading at clock value 704 is a rising crossing 1000
microseconds after the start, so with `tdur = 1000` the result is
`STATE_CALS`. -/
theorem accum_stats_spec_witness :
    ∃ s1, accum_stats { vals := [3, 0, 0, 0, 0], t := 704, set := 1 } 1000 STATE_STAT STATE_CALS
        { sm_init fresh_state with
          start_time := 4294967000
          vstats := { zero_stats with val := -2 } } =
        some (if (-2 : Int) < 0 ∧
            volt_of { vals := [3, 0, 0, 0, 0], t := 704, set := 1 } ≥ 0 ∧
            1000 ≤ ((((704 : Nat) : Int) -
              ((if 4294967000 = 0 then 704 else 4294967000 : Nat) : Int)) % 4294967296).toNat
          then STATE_CALS else STATE_STAT, s1) ∧
      (∀ T0 T1 : Nat, T0 ≤ T1 → T1 - T0 < 4294967296 →
        4294967000 = T0 % 4294967296 → 4294967000 ≠ 0 → 704 = T1 % 4294967296 →
        accum_stats { vals := [3, 0, 0, 0, 0], t := 704, set := 1 } 1000 STATE_STAT STATE_CALS
          { sm_init fresh_state with
            start_time := 4294967000
            vstats := { zero_stats with val := -2 } } =
          some (if (-2 : Int) < 0 ∧
              volt_of { vals := [3, 0, 0, 0, 0], t := 704, set := 1 } ≥ 0 ∧ 1000 ≤ T1 - T0
            then STATE_CALS else STATE_STAT, s1)) :=
  accum_stats_spec { vals := [3, 0, 0, 0, 0], t := 704, set := 1 } 1000 STATE_STAT STATE_CALS
    { sm_init fresh_state with
      start_time := 4294967000
      vstats := { zero_stats with val := -2 } } rfl rfl rfl

/-! ## `scan_inputs`: one call -/

theorem scan_first_block_clear (r : adc_readings_struct) (s : sm_state)
    (h : s.scan_first = 0) : scan_first_block r s = some s := by
  simp [scan_first_block, h]

theorem scan_first_block_set (r : adc_readings_struct) (s : sm_state)
    (h : s.scan_first ≠ 0) (hist : s.istats.length = N_CUR_CHAN) :
    scan_first_block r s = some (scan_begin r s) := by
  unfold scan_first_block
  rw [if_pos h, for_istats_pure (fun _ st => init_stats st) s.istats hist]
  rfl

theorem scan_stats_block_eq (r : adc_readings_struct) (s : sm_state)
    (hvals : r.vals.length = N_ADC_CHAN) (hist : s.istats.length = N_CUR_CHAN) :
    scan_stats_block r s =
      some { s with
        vstats := scan_chan 0 s.vstats r
        istats := [scan_chan 1 (s.istats.getD 0 zero_stats) r,
          scan_chan 2 (s.istats.getD 1 zero_stats) r,
          scan_chan 3 (s.istats.getD 2 zero_stats) r,
          scan_chan 4 (s.istats.getD 3 zero_stats) r] } := by
  obtain ⟨v0, v1, v2, v3, v4, hv⟩ := length_five r.vals hvals
  obtain ⟨a, b, c, d, hab⟩ := length_four s.istats hist
  have h1 := for_istats_eq
    (fun j st => do
      let x ← r.vals[j + 1]?
      some { st with val := x }) a b c d
    { a with val := v1 } { b with val := v2 } { c with val := v3 } { d with val := v4 }
    (by simp [hv]) (by simp [hv]) (by simp [hv]) (by simp [hv])
  have h2 := for_istats_pure (fun _ st => scan_accum st)
    [{ a with val := v1 }, { b with val := v2 }, { c with val := v3 }, { d with val := v4 }] rfl
  unfold scan_stats_block
  rw [hab, h1]
  simp only [Option.bind_eq_bind, Option.some_bind, h2, hv, List.getElem?_cons_zero]
  simp [scan_chan, chan_of, hv]

theorem scan_inputs_clear (notice : List Nat) (r : adc_readings_struct) (cur next : Nat)
    (s : sm_state) (hf : s.scan_first = 0)
    (hvals : r.vals.length = N_ADC_CHAN) (hist : s.istats.length = N_CUR_CHAN) :
    scan_inputs notice r cur next s =
      if (s.scan_nreadings + 1) % 65536 < 4000 then some (cur, scan_step s r) else
        scan_decide notice next
          { scan_step s r with sample_period :=
              (((r.t : Int) - (s.start_time : Int)) % 4294967296).toNat /
                ((s.scan_nreadings + 1) % 65536) } := by
  unfold scan_inputs
  rw [scan_first_block_clear r s hf]
  simp only [Option.bind_eq_bind, Option.some_bind]
  rw [scan_stats_block_eq r s hvals hist]
  rfl

theorem scan_inputs_set (notice : List Nat) (r : adc_readings_struct) (cur next : Nat)
    (s : sm_state) (hf : s.scan_first ≠ 0) (hist : s.istats.length = N_CUR_CHAN) :
    scan_inputs notice r cur next s = scan_inputs notice r cur next (scan_begin r s) := by
  unfold scan_inputs
  rw [scan_first_block_set r s hf hist, scan_first_block_clear r (scan_begin r s) rfl]

/-! ## `scan_inputs`: the readings before the decision -/

theorem feed_first_eq (f : adc_readings_struct → sm_state → Option (Nat × sm_state))
    (r : adc_readings_struct) (rs : List adc_readings_struct) (s s' : sm_state)
    (h : f r s = f r s') : feed f (r :: rs) s = feed f (r :: rs) s' := by
  simp only [feed, h]

theorem scan_wait (notice : List Nat) (cur next : Nat) (rs : List adc_readings_struct) :
    ∀ (s : sm_state), s.scan_first = 0 → s.istats.length = N_CUR_CHAN →
      (∀ r ∈ rs, r.vals.length = N_ADC_CHAN) →
      s.scan_nreadings + rs.length < 4000 →
      feed (fun r => scan_inputs notice r cur next) rs s =
        some (List.replicate rs.length cur, rs.foldl scan_step s) := by
  induction rs with
  | nil =>
    intro s _ _ _ _
    rfl
  | cons r rs ih =>
    intro s hf hist hv hn
    simp only [List.length_cons] at hn
    have e := scan_inputs_clear notice r cur next s hf (hv r (List.mem_cons_self _ _)) hist
    rw [if_pos (by omega)] at e
    have hn' : (scan_step s r).scan_nreadings + rs.length < 4000 := by
      show (s.scan_nreadings + 1) % 65536 + rs.length < 4000
      omega
    have e1 := ih (scan_step s r) hf rfl (fun x hx => hv x (List.mem_cons_of_mem _ hx)) hn'
    exact feed_cons_some _ r rs s _ _ cur _ e e1

theorem scan_step_istats (s : sm_state) (r : adc_readings_struct) (j : Nat)
    (hj : j < N_CUR_CHAN) :
    (scan_step s r).istats.getD j zero_stats =
      scan_chan (j + 1) (s.istats.getD j zero_stats) r := by
  have h4 : j < 4 := hj
  interval_cases j <;> rfl

theorem scan_fold_fields (rs : List adc_readings_struct) :
    ∀ (s : sm_state), s.istats.length = N_CUR_CHAN →
      s.scan_nreadings + rs.length < 65536 →
      (rs.foldl scan_step s).scan_first = s.scan_first ∧
      (rs.foldl scan_step s).adc = s.adc ∧
      (rs.foldl scan_step s).start_time = s.start_time ∧
      (rs.foldl scan_step s).istats.length = N_CUR_CHAN ∧
      (rs.foldl scan_step s).scan_nreadings = s.scan_nreadings + rs.length ∧
      (rs.foldl scan_step s).vstats = rs.foldl (scan_chan 0) s.vstats ∧
      ∀ j < N_CUR_CHAN, (rs.foldl scan_step s).istats.getD j zero_stats =
        rs.foldl (scan_chan (j + 1)) (s.istats.getD j zero_stats) := by
  induction rs with
  | nil =>
    intro s hist _
    exact ⟨rfl, rfl, rfl, hist, rfl, rfl, fun _ _ => rfl⟩
  | cons r rs ih =>
    intro s hist hn
    simp only [List.length_cons] at hn
    have hn' : (scan_step s r).scan_nreadings + rs.length < 65536 := by
      show (s.scan_nreadings + 1) % 65536 + rs.length < 65536
      omega
    obtain ⟨a, b, c, d, e, f, g⟩ := ih (scan_step s r) rfl hn'
    simp only [List.foldl_cons, List.length_cons]
    refine ⟨a, b, c, d, ?_, f, fun j hj => ?_⟩
    · rw [e]
      show (s.scan_nreadings + 1) % 65536 + rs.length = s.scan_nreadings + (rs.length + 1)
      omega
    · rw [g j hj, scan_step_istats s r j hj]

/-! ## The statistics a channel gathers during the scan -/

theorem scan_chan_fields (c : Nat) (st : reading_stats) (r : adc_readings_struct) :
    (scan_chan c st r).present = st.present ∧
    (scan_chan c st r).n =
      (if st.present ≠ 0 ∨ chan_of c r > 0 then (st.n + 1) % 65536 else st.n) ∧
    (scan_chan c st r).val_sum =
      (if st.present ≠ 0 ∨ chan_of c r > 0 then to_int32 (st.val_sum + chan_of c r)
        else st.val_sum) := by
  simp only [scan_chan, scan_accum]
  split_ifs <;> exact ⟨rfl, rfl, rfl⟩

theorem to_int32_add (a b : Int) : to_int32 (to_int32 a + b) = to_int32 (a + b) := by
  unfold to_int32
  omega

theorem to_int32_idem (a : Int) : to_int32 (to_int32 a) = to_int32 a := by
  unfold to_int32
  omega

theorem to_int32_small (a : Int) (h0 : -2147483648 ≤ a) (h1 : a < 2147483648) :
    to_int32 a = a := by
  unfold to_int32
  omega

theorem pos_vals_cons (c : Nat) (r : adc_readings_struct) (rs : List adc_readings_struct) :
    pos_vals c (r :: rs) =
      if chan_of c r > 0 then chan_of c r :: pos_vals c rs else pos_vals c rs := by
  simp only [pos_vals, List.map_cons, List.filter_cons, decide_eq_true_eq]

theorem scan_fold_stats (c : Nat) (rs : List adc_readings_struct) :
    ∀ (st : reading_stats), st.present = 0 → st.n < 65536 →
      to_int32 st.val_sum = st.val_sum →
      (rs.foldl (scan_chan c) st).present = 0 ∧
      (rs.foldl (scan_chan c) st).n = (st.n + (pos_vals c rs).length) % 65536 ∧
      (rs.foldl (scan_chan c) st).val_sum = to_int32 (st.val_sum + (pos_vals c rs).sum) := by
  induction rs with
  | nil =>
    intro st hp hn hs
    refine ⟨hp, ?_, ?_⟩
    · simp only [pos_vals, List.map_nil, List.filter_nil, List.length_nil, List.foldl_nil]
      omega
    · simp [pos_vals, hs]
  | cons r rs ih =>
    intro st hp hn hs
    obtain ⟨fp, fn, fs⟩ := scan_chan_fields c st r
    have hn1 : (scan_chan c st r).n < 65536 := by
      rw [fn]
      split_ifs <;> omega
    have hs1 : to_int32 (scan_chan c st r).val_sum = (scan_chan c st r).val_sum := by
      rw [fs]
      split_ifs
      · exact to_int32_idem _
      · exact hs
    obtain ⟨a, b, d⟩ := ih (scan_chan c st r) (by rw [fp, hp]) hn1 hs1
    simp only [List.foldl_cons]
    refine ⟨a, ?_, ?_⟩
    · rw [b, fn, pos_vals_cons]
      by_cases hx : chan_of c r > 0
      · rw [if_pos (Or.inr hx), if_pos hx, List.length_cons]
        omega
      · rw [if_neg (fun h => h.elim (fun h1 => h1 hp) hx), if_neg hx]
    · rw [d, fs, pos_vals_cons]
      by_cases hx : chan_of c r > 0
      · rw [if_pos (Or.inr hx), if_pos hx, List.sum_cons, to_int32_add, add_assoc]
      · rw [if_neg (fun h => h.elim (fun h1 => h1 hp) hx), if_neg hx]

theorem chan_of_le (c : Nat) (r : adc_readings_struct) (h : ∀ x ∈ r.vals, x ≤ 32767) :
    chan_of c r ≤ 32767 := by
  unfold chan_of
  cases hc : r.vals[c]? with
  | none => simp
  | some x =>
    have hx : x ∈ r.vals := List.getElem?_mem hc
    simpa using h x hx

theorem pos_vals_bounds (c : Nat) (rs : List adc_readings_struct)
    (h : ∀ r ∈ rs, ∀ x ∈ r.vals, x ≤ 32767) :
    (pos_vals c rs).length ≤ rs.length ∧
    ((pos_vals c rs).length : Int) ≤ (pos_vals c rs).sum ∧
    (pos_vals c rs).sum ≤ 32767 * ((pos_vals c rs).length : Int) := by
  induction rs with
  | nil => simp [pos_vals]
  | cons r rs ih =>
    obtain ⟨a, b, d⟩ := ih (fun x hx => h x (List.mem_cons_of_mem _ hx))
    have hle := chan_of_le c r (h r (List.mem_cons_self _ _))
    rw [pos_vals_cons]
    by_cases hx : chan_of c r > 0
    · rw [if_pos hx]
      simp only [List.length_cons, List.sum_cons, Nat.cast_add, Nat.cast_one]
      refine ⟨by omega, by omega, by omega⟩
    · rw [if_neg hx]
      simp only [List.length_cons]
      exact ⟨by omega, b, d⟩

theorem scan_fold_fresh (c : Nat) (rs : List adc_readings_struct) (st : reading_stats)
    (hp : st.present = 0) (hlen : rs.length ≤ 4000)
    (hb : ∀ r ∈ rs, ∀ x ∈ r.vals, x ≤ 32767) :
    (rs.foldl (scan_chan c) (init_stats st)).present = 0 ∧
    (rs.foldl (scan_chan c) (init_stats st)).n = (pos_vals c rs).length ∧
    (rs.foldl (scan_chan c) (init_stats st)).val_sum = (pos_vals c rs).sum := by
  obtain ⟨a, b, d⟩ := scan_fold_stats c rs (init_stats st) hp
    (show (0 : Nat) < 65536 by decide) (show to_int32 0 = 0 by decide)
  obtain ⟨h1, h2, h3⟩ := pos_vals_bounds c rs hb
  refine ⟨a, ?_, ?_⟩
  · rw [b]
    show (0 + (pos_vals c rs).length) % 65536 = _
    omega
  · rw [d]
    show to_int32 (0 + (pos_vals c rs).sum) = _
    rw [zero_add]
    apply to_int32_small <;> omega

theorem scan_signal_fresh (F : reading_stats) (l : List Int) (hp : F.present = 0)
    (hn : F.n = l.length) (hs : F.val_sum = l.sum) (hb : (l.length : Int) ≤ l.sum) :
    scan_has_signal F = decide (l ≠ []) := by
  unfold scan_has_signal
  rw [hp, hn, hs]
  cases l with
  | nil => simp
  | cons x l =>
    simp only [List.length_cons, Nat.cast_add, Nat.cast_one, List.sum_cons] at hb
    have h1 : x + l.sum ≠ 0 := by omega
    simp [h1]

theorem scan_mean_fresh (F : reading_stats) (l : List Int)
    (hn : F.n = l.length) (hs : F.val_sum = l.sum) (hne : l ≠ [])
    (hb1 : (l.length : Int) ≤ l.sum) (hb2 : l.sum ≤ 32767 * (l.length : Int)) :
    scan_mean F = some (l.sum / (l.length : Int)) := by
  have hpos : 0 < l.length := List.length_pos.mpr hne
  have hposz : (0 : Int) < (l.length : Int) := by exact_mod_cast hpos
  unfold scan_mean
  rw [if_neg (by omega), hn, hs, Int.tdiv_eq_ediv (by omega) (by omega)]
  have hle : l.sum / (l.length : Int) ≤ 32767 := by
    have := Int.ediv_le_ediv hposz hb2
    rwa [Int.mul_ediv_cancel _ (by omega)] at this
  have hge : 0 ≤ l.sum / (l.length : Int) := Int.ediv_nonneg (by omega) (by omega)
  have : to_int16 (l.sum / (l.length : Int)) = l.sum / (l.length : Int) := by
    unfold to_int16
    omega
  rw [this]

/-! ## `scan_inputs`: the decision -/

theorem set_adc_offset_facts (c : Nat) (m : Int) (adc : adc_state) (hc : c < N_ADC_CHAN)
    (hl : adc.adc_offset.vals.length = N_ADC_CHAN) :
    ∃ adc', set_adc_offset c m adc = some adc' ∧
      adc'.adc_offset.vals.length = N_ADC_CHAN ∧
      (∀ i, i ≠ c → adc'.adc_offset.vals[i]? = adc.adc_offset.vals[i]?) ∧
      (adc.adc_offset.vals[c]? = some 0 → adc'.adc_offset.vals[c]? = some m) := by
  have hlt : c < adc.adc_offset.vals.length := by omega
  unfold set_adc_offset
  rw [if_pos hc, List.getElem?_eq_getElem hlt]
  simp only [Option.bind_eq_bind, Option.some_bind, arr_set, if_pos hlt]
  by_cases h0 : adc.adc_offset.vals[c] = 0
  · rw [if_pos h0]
    refine ⟨_, rfl, ?_, fun i hi => ?_, fun _ => ?_⟩
    · simp [hl]
    · simp [List.getElem?_set, Ne.symm hi]
    · simp [List.getElem?_set, hlt]
  · rw [if_neg h0]
    refine ⟨adc, rfl, hl, fun _ _ => rfl, fun h => ?_⟩
    exact absurd (Option.some.inj h) h0

/-! ## `scan_inputs`: committing the channels -/

theorem scan_commit_chan_facts (notice : List Nat) (acc : adc_state × List reading_stats × Nat)
    (j : Nat) (hj : j < N_CUR_CHAN) (hnot : notice.length = N_CUR_CHAN)
    (hist : acc.2.1.length = N_CUR_CHAN)
    (hoff : acc.1.adc_offset.vals.length = N_ADC_CHAN)
    (hcnt : acc.2.2 + 1 < 256) (m : Int)
    (hm : (decide (notice.getD j 0 ≠ 0) && scan_has_signal (acc.2.1.getD j zero_stats)) = true →
      scan_mean (acc.2.1.getD j zero_stats) = some m) :
    ∃ acc', scan_commit_chan notice acc j = some acc' ∧
      acc'.2.2 = acc.2.2 +
        (if (decide (notice.getD j 0 ≠ 0) && scan_has_signal (acc.2.1.getD j zero_stats)) = true
          then 1 else 0) ∧
      acc'.2.1.length = N_CUR_CHAN ∧
      acc'.1.adc_offset.vals.length = N_ADC_CHAN ∧
      (∀ i, i ≠ j → acc'.2.1.getD i zero_stats = acc.2.1.getD i zero_stats) ∧
      (∀ c, c ≠ j + 1 → acc'.1.adc_offset.vals[c]? = acc.1.adc_offset.vals[c]?) ∧
      ((decide (notice.getD j 0 ≠ 0) && scan_has_signal (acc.2.1.getD j zero_stats)) = true →
        acc.1.adc_offset.vals[j + 1]? = some 0 → acc'.1.adc_offset.vals[j + 1]? = some m) := by
  obtain ⟨adc, ist, cnt⟩ := acc
  simp only at hist hoff hcnt hm ⊢
  have hjn : j < notice.length := by omega
  have hji : j < ist.length := by omega
  have hn : notice[j]? = some (notice.getD j 0) := by
    simp [List.getD_eq_getElem?_getD, List.getElem?_eq_getElem hjn]
  have hi : ist[j]? = some (ist.getD j zero_stats) := by
    simp [List.getD_eq_getElem?_getD, List.getElem?_eq_getElem hji]
  unfold scan_commit_chan
  simp only [hn, hi, Option.bind_eq_bind, Option.some_bind]
  generalize notice.getD j 0 = f at *
  generalize ist.getD j zero_stats = st at *
  by_cases hf : f = 0
  · rw [if_pos hf]
    refine ⟨_, rfl, ?_, hist, hoff, fun _ _ => rfl, fun _ _ => rfl, fun h => ?_⟩
    · simp [hf]
    · simp [hf] at h
  · rw [if_neg hf]
    by_cases hs : scan_has_signal st = true
    · have hP : (decide (f ≠ 0) && scan_has_signal st) = true := by
        simp [hf, hs]
      have hmean := hm hP
      obtain ⟨adc', e, hl', hsame, hset⟩ :=
        set_adc_offset_facts (j + 1) m adc (Nat.succ_lt_succ hj) hoff
      rw [if_pos hs, hmean]
      simp only [Option.some_bind, e, arr_set, if_pos hji]
      refine ⟨_, rfl, ?_, ?_, hl', fun i hi => ?_, hsame, fun _ h0 => hset h0⟩
      · simp only [hP, if_true]
        omega
      · simp [hist]
      · simp [List.getD_eq_getElem?_getD, List.getElem?_set, Ne.symm hi]
    · rw [if_neg hs]
      refine ⟨_, rfl, ?_, hist, hoff, fun _ _ => rfl, fun _ _ => rfl, fun h => ?_⟩
      · simp [hs]
      · simp [hs] at h

theorem commit_fold (notice : List Nat) (P : Nat → Bool) (m : Nat → Int) (js : List Nat) :
    ∀ (acc : adc_state × List reading_stats × Nat),
      js.Nodup → (∀ j ∈ js, j < N_CUR_CHAN) → notice.length = N_CUR_CHAN →
      acc.2.1.length = N_CUR_CHAN → acc.1.adc_offset.vals.length = N_ADC_CHAN →
      acc.2.2 + js.length < 256 →
      (∀ j ∈ js, P j =
        (decide (notice.getD j 0 ≠ 0) && scan_has_signal (acc.2.1.getD j zero_stats))) →
      (∀ j ∈ js, P j = true → scan_mean (acc.2.1.getD j zero_stats) = some (m j)) →
      ∃ acc', js.foldlM (scan_commit_chan notice) acc = some acc' ∧
        acc'.2.2 = acc.2.2 + (js.filter P).length ∧
        acc'.2.1.length = N_CUR_CHAN ∧
        acc'.1.adc_offset.vals.length = N_ADC_CHAN ∧
        (∀ i, i ∉ js → acc'.2.1.getD i zero_stats = acc.2.1.getD i zero_stats) ∧
        (∀ c, (∀ j ∈ js, c ≠ j + 1) →
          acc'.1.adc_offset.vals[c]? = acc.1.adc_offset.vals[c]?) ∧
        (∀ j ∈ js, P j = true → acc.1.adc_offset.vals[j + 1]? = some 0 →
          acc'.1.adc_offset.vals[j + 1]? = some (m j)) := by
  induction js with
  | nil =>
    intro acc _ _ _ hist hoff _ _ _
    exact ⟨acc, rfl, rfl, hist, hoff, fun _ _ => rfl, fun _ _ => rfl,
      fun j hj => absurd hj (List.not_mem_nil j)⟩
  | cons j js ih =>
    intro acc hnd hlt hnot hist hoff hcnt hP hm
    have hjn : j ∉ js := (List.nodup_cons.mp hnd).1
    have hnd' : js.Nodup := (List.nodup_cons.mp hnd).2
    simp only [List.length_cons] at hcnt
    have hPj := hP j (List.mem_cons_self _ _)
    obtain ⟨acc1, e1, c1, l1, o1, i1, s1, m1⟩ :=
      scan_commit_chan_facts notice acc j (hlt j (List.mem_cons_self _ _)) hnot hist hoff
        (by omega) (m j) (fun h => hm j (List.mem_cons_self _ _) (by rw [hPj]; exact h))
    rw [← hPj] at c1 m1
    have hne : ∀ k ∈ js, k ≠ j := fun k hk hkj => hjn (hkj ▸ hk)
    have hc1 : acc1.2.2 + js.length < 256 := by
      rw [c1]
      split_ifs <;> omega
    obtain ⟨acc', e2, c2, l2, o2, i2, s2, m2⟩ := ih acc1 hnd'
      (fun k hk => hlt k (List.mem_cons_of_mem _ hk)) hnot l1 o1 hc1
      (fun k hk => by rw [i1 k (hne k hk)]; exact hP k (List.mem_cons_of_mem _ hk))
      (fun k hk hp => by rw [i1 k (hne k hk)]; exact hm k (List.mem_cons_of_mem _ hk) hp)
    refine ⟨acc', ?_, ?_, l2, o2, fun i hi => ?_, fun c hc => ?_, fun k hk hp h0 => ?_⟩
    · rw [List.foldlM_cons, e1]
      exact e2
    · rw [c2, c1, List.filter_cons]
      split_ifs <;> (try simp only [List.length_cons]) <;> omega
    · rw [i2 i (fun h => hi (List.mem_cons_of_mem _ h)),
        i1 i (fun h => hi (h ▸ List.mem_cons_self _ _))]
    · rw [s2 c (fun k hk => hc k (List.mem_cons_of_mem _ hk)),
        s1 c (hc j (List.mem_cons_self _ _))]
    · rcases List.mem_cons.mp hk with rfl | hk'
      · rw [s2 (k + 1) (fun i hi h => hjn (by
          have : k = i := Nat.succ_injective h
          exact this ▸ hi))]
        exact m1 hp h0
      · have hkj : k + 1 ≠ j + 1 := fun h => hne k hk' (Nat.succ_injective h)
        apply m2 k hk' hp
        rw [s1 (k + 1) hkj]
        exact h0

theorem band_intro (p : Prop) [Decidable p] (b : Bool) (hp : p) (hb : b = true) :
    (decide p && b) = true := by
  simp [hp, hb]

theorem band_elim (p : Prop) [Decidable p] (b : Bool) (h : (decide p && b) = true) :
    p ∧ b = true := by
  simpa using h

theorem scan_decide_facts (notice : List Nat) (next : Nat) (D : sm_state)
    (hnot : notice.length = N_CUR_CHAN) (hist : D.istats.length = N_CUR_CHAN)
    (hoff : D.adc.adc_offset.vals.length = N_ADC_CHAN)
    (mv : Int) (m : Nat → Int)
    (hmv : scan_has_signal D.vstats = true → scan_mean D.vstats = some mv)
    (hm : ∀ j < N_CUR_CHAN, scan_has_signal (D.istats.getD j zero_stats) = true →
      scan_mean (D.istats.getD j zero_stats) = some (m j)) :
    ∃ s', scan_decide notice next D =
        some (if scan_has_signal D.vstats = true ∧
            ∃ j < N_CUR_CHAN, notice.getD j 0 ≠ 0 ∧
              scan_has_signal (D.istats.getD j zero_stats) = true
          then next else STATE_STAB, s') ∧
      (scan_has_signal D.vstats = true →
        (D.adc.adc_offset.vals[0]? = some 0 → s'.adc.adc_offset.vals[0]? = some mv) ∧
        ∀ j < N_CUR_CHAN, notice.getD j 0 ≠ 0 →
          scan_has_signal (D.istats.getD j zero_stats) = true →
          D.adc.adc_offset.vals[j + 1]? = some 0 →
          s'.adc.adc_offset.vals[j + 1]? = some (m j)) ∧
      (¬ (scan_has_signal D.vstats = true ∧
            ∃ j < N_CUR_CHAN, notice.getD j 0 ≠ 0 ∧
              scan_has_signal (D.istats.getD j zero_stats) = true) →
        s'.scan_nreadings = D.scan_nreadings ∧ s'.scan_first = D.scan_first) ∧
      ((scan_has_signal D.vstats = true ∧
            ∃ j < N_CUR_CHAN, notice.getD j 0 ≠ 0 ∧
              scan_has_signal (D.istats.getD j zero_stats) = true) →
        s'.scan_nreadings = 0 ∧ s'.scan_first = 1) := by
  by_cases hv : scan_has_signal D.vstats = true
  · obtain ⟨adc1, e1, l1, same1, set1⟩ :=
      set_adc_offset_facts 0 mv D.adc (by decide) hoff
    obtain ⟨acc', e2, c2, l2, o2, i2, s2, m2⟩ :=
      commit_fold notice
        (fun j => decide (notice.getD j 0 ≠ 0) && scan_has_signal (D.istats.getD j zero_stats))
        m (List.range N_CUR_CHAN) (adc1, D.istats, 0) (List.nodup_range _)
        (fun j hj => List.mem_range.mp hj) hnot hist l1
        (show (0 : Nat) + (List.range N_CUR_CHAN).length < 256 by decide)
        (fun j _ => rfl)
        (fun j hj hp => hm j (List.mem_range.mp hj) (band_elim _ _ hp).2)
    simp only [Nat.zero_add] at c2
    have hoff0 : acc'.1.adc_offset.vals[0]? = adc1.adc_offset.vals[0]? :=
      s2 0 (fun j _ => (Nat.succ_ne_zero j).symm)
    have hoffj : ∀ j < N_CUR_CHAN, notice.getD j 0 ≠ 0 →
        scan_has_signal (D.istats.getD j zero_stats) = true →
        D.adc.adc_offset.vals[j + 1]? = some 0 →
        acc'.1.adc_offset.vals[j + 1]? = some (m j) := by
      intro j hj hn hs h0
      apply m2 j (List.mem_range.mpr hj)
      · exact band_intro _ _ hn hs
      · rw [same1 (j + 1) (Nat.succ_ne_zero j)]
        exact h0
    have hcnt : acc'.2.2 = 0 ↔ ¬ ∃ j < N_CUR_CHAN, notice.getD j 0 ≠ 0 ∧
        scan_has_signal (D.istats.getD j zero_stats) = true := by
      rw [c2, List.length_eq_zero, List.filter_eq_nil_iff]
      constructor
      · rintro h ⟨j, hj, hn, hs⟩
        exact h j (List.mem_range.mpr hj) (band_intro _ _ hn hs)
      · intro h j hj hp
        exact h ⟨j, List.mem_range.mp hj, (band_elim _ _ hp).1, (band_elim _ _ hp).2⟩
    unfold scan_decide
    rw [if_pos hv, hmv hv]
    simp only [Option.bind_eq_bind, Option.some_bind, e1, e2]
    by_cases hc : acc'.2.2 = 0
    · have hno := hcnt.mp hc
      rw [if_pos hc, if_neg (fun h => hno h.2)]
      refine ⟨_, rfl, fun _ => ⟨fun h0 => ?_, hoffj⟩, fun _ => ⟨rfl, rfl⟩,
        fun h => absurd h.2 hno⟩
      show acc'.1.adc_offset.vals[0]? = some mv
      rw [hoff0]
      exact set1 h0
    · have hyes : ∃ j < N_CUR_CHAN, notice.getD j 0 ≠ 0 ∧
          scan_has_signal (D.istats.getD j zero_stats) = true := by
        by_contra hno
        exact hc (hcnt.mpr hno)
      rw [if_neg hc, if_pos ⟨hv, hyes⟩]
      refine ⟨_, rfl, fun _ => ⟨fun h0 => ?_, hoffj⟩, fun h => absurd ⟨hv, hyes⟩ h,
        fun _ => ⟨rfl, rfl⟩⟩
      show acc'.1.adc_offset.vals[0]? = some mv
      rw [hoff0]
      exact set1 h0
  · unfold scan_decide
    rw [if_neg hv, if_neg (fun h => hv h.1)]
    exact ⟨D, rfl, fun h => absurd h hv, fun _ => ⟨rfl, rfl⟩, fun h => absurd h.1 hv⟩

/-! ## `scan_inputs`: a whole scan window -/

theorem scan_run (notice : List Nat) (cur next : Nat) (s : sm_state)
    (rs : List adc_readings_struct)
    (hfirst : s.scan_first ≠ 0) (hn : s.scan_nreadings = 0)
    (hist : s.istats.length = N_CUR_CHAN) (hlen : rs.length = 3999 + 1)
    (hvals : ∀ r ∈ rs, r.vals.length = N_ADC_CHAN) :
    ∃ D, D.vstats = rs.foldl (scan_chan 0) (init_stats s.vstats) ∧
      (∀ j < N_CUR_CHAN, D.istats.getD j zero_stats =
        rs.foldl (scan_chan (j + 1)) (init_stats (s.istats.getD j zero_stats))) ∧
      D.istats.length = N_CUR_CHAN ∧
      D.adc = { s.adc with max_adc_depth := 0 } ∧
      D.scan_first = 0 ∧ D.scan_nreadings = 4000 ∧
      ∀ ret s', scan_decide notice next D = some (ret, s') →
        feed (fun r => scan_inputs notice r cur next) rs s =
          some (List.replicate 3999 cur ++ [ret], s') := by
  obtain ⟨a, x, rfl, ha⟩ := list_split_last rs 3999 hlen
  cases a with
  | nil => simp at ha
  | cons r0 a' =>
    have hb1 : (scan_begin r0 s).istats.length = N_CUR_CHAN := rfl
    have hva : ∀ r ∈ r0 :: a', r.vals.length = N_ADC_CHAN :=
      fun r hr => hvals r (List.mem_append_left _ hr)
    have hvx : x.vals.length = N_ADC_CHAN :=
      hvals x (List.mem_append_right _ (List.mem_singleton_self x))
    have hw := scan_wait notice cur next (r0 :: a') (scan_begin r0 s) rfl hb1 hva
      (by
        show s.scan_nreadings + (r0 :: a').length < 4000
        rw [hn, ha]
        decide)
    rw [ha] at hw
    obtain ⟨f1, _, _, f4, f5, _, _⟩ := scan_fold_fields (r0 :: a') (scan_begin r0 s) hb1
      (by
        show s.scan_nreadings + (r0 :: a').length < 65536
        rw [hn, ha]
        decide)
    have f5' : ((r0 :: a').foldl scan_step (scan_begin r0 s)).scan_nreadings = 3999 := by
      rw [f5, ha]
      show s.scan_nreadings + 3999 = 3999
      rw [hn]
    have hfin := scan_inputs_clear notice x cur next
      ((r0 :: a').foldl scan_step (scan_begin r0 s)) f1 hvx f4
    rw [f5', if_neg (by decide)] at hfin
    obtain ⟨g1, g2, _, g4, g5, g6, g7⟩ :=
      scan_fold_fields ((r0 :: a') ++ [x]) (scan_begin r0 s) hb1
        (by
          show s.scan_nreadings + ((r0 :: a') ++ [x]).length < 65536
          rw [hn, hlen]
          decide)
    have hstep : scan_step ((r0 :: a').foldl scan_step (scan_begin r0 s)) x =
        ((r0 :: a') ++ [x]).foldl scan_step (scan_begin r0 s) := by
      rw [List.foldl_append]
      rfl
    rw [hstep] at hfin
    obtain ⟨D, p, hD, hfin'⟩ : ∃ D p,
        D = { ((r0 :: a') ++ [x]).foldl scan_step (scan_begin r0 s) with sample_period := p } ∧
        scan_inputs notice x cur next ((r0 :: a').foldl scan_step (scan_begin r0 s)) =
          scan_decide notice next D := ⟨_, _, rfl, hfin⟩
    refine ⟨D, ?_, fun j hj => ?_, ?_, ?_, ?_, ?_, fun ret s' hd => ?_⟩
    · rw [hD]
      exact g6
    · rw [hD]
      refine (g7 j hj).trans ?_
      have h4 : j < 4 := hj
      interval_cases j <;> rfl
    · rw [hD]
      exact g4
    · rw [hD]
      exact g2
    · rw [hD]
      exact g1
    · rw [hD]
      show (((r0 :: a') ++ [x]).foldl scan_step (scan_begin r0 s)).scan_nreadings = 4000
      rw [g5, hlen]
      show s.scan_nreadings + 4000 = 4000
      rw [hn]
    · rw [hd] at hfin'
      have e0 : feed (fun r => scan_inputs notice r cur next) (r0 :: a' ++ [x]) s =
          feed (fun r => scan_inputs notice r cur next) (r0 :: a' ++ [x]) (scan_begin r0 s) :=
        feed_first_eq _ r0 (a' ++ [x]) s (scan_begin r0 s)
          (scan_inputs_set notice r0 cur next s hfirst hist)
      rw [e0]
      exact feed_append_some _ (r0 :: a') [x] _ _ s' _ [ret] hw
        (feed_cons_some _ x [] _ s' s' ret [] hfin' rfl)

theorem getD_mem_stats (l : List reading_stats) (j : Nat) (hj : j < l.length) :
    l.getD j zero_stats ∈ l := by
  rw [List.getD_eq_getElem?_getD, List.getElem?_eq_getElem hj]
  exact List.getElem_mem hj

theorem scan_phase (notice : List Nat) (cur next : Nat) (s : sm_state)
    (rs : List adc_readings_struct)
    (hfirst : s.scan_first ≠ 0) (hn : s.scan_nreadings = 0)
    (hpv : s.vstats.present = 0) (hpi : ∀ st ∈ s.istats, st.present = 0)
    (hist : s.istats.length = N_CUR_CHAN) (hnot : notice.length = N_CUR_CHAN)
    (hoff : s.adc.adc_offset.vals.length = N_ADC_CHAN)
    (hlen : rs.length = 4000)
    (hvals : ∀ r ∈ rs, r.vals.length = N_ADC_CHAN ∧ ∀ x ∈ r.vals, x ≤ 32767) :
    ∃ s', feed (fun r => scan_inputs notice r cur next) rs s =
        some (List.replicate 3999 cur ++
          [if pos_vals 0 rs ≠ [] ∧ ∃ j < N_CUR_CHAN, notice.getD j 0 ≠ 0 ∧ pos_vals (j + 1) rs ≠ []
            then next else STATE_STAB], s') ∧
      (pos_vals 0 rs ≠ [] →
        (s.adc.adc_offset.vals[0]? = some 0 →
          s'.adc.adc_offset.vals[0]? = some (pos_mean 0 rs)) ∧
        ∀ j < N_CUR_CHAN, notice.getD j 0 ≠ 0 → pos_vals (j + 1) rs ≠ [] →
          s.adc.adc_offset.vals[j + 1]? = some 0 →
          s'.adc.adc_offset.vals[j + 1]? = some (pos_mean (j + 1) rs)) ∧
      (¬ (pos_vals 0 rs ≠ [] ∧
          ∃ j < N_CUR_CHAN, notice.getD j 0 ≠ 0 ∧ pos_vals (j + 1) rs ≠ []) →
        s'.scan_nreadings = 4000 ∧ s'.scan_first = 0) ∧
      ((pos_vals 0 rs ≠ [] ∧
          ∃ j < N_CUR_CHAN, notice.getD j 0 ≠ 0 ∧ pos_vals (j + 1) rs ≠ []) →
        s'.scan_nreadings = 0 ∧ s'.scan_first = 1) := by
  have hb : ∀ r ∈ rs, ∀ x ∈ r.vals, x ≤ 32767 := fun r hr => (hvals r hr).2
  have hle : rs.length ≤ 4000 := by omega
  obtain ⟨D, dv, di, dl, da, df, dn, hfeed⟩ := scan_run notice cur next s rs hfirst hn hist hlen
    (fun r hr => (hvals r hr).1)
  -- the statistics of the voltage channel
  obtain ⟨vp, vn, vs⟩ := scan_fold_fresh 0 rs s.vstats hpv hle hb
  rw [← dv] at vp vn vs
  obtain ⟨_, vb1, vb2⟩ := pos_vals_bounds 0 rs hb
  have hsv : scan_has_signal D.vstats = decide (pos_vals 0 rs ≠ []) :=
    scan_signal_fresh D.vstats _ vp vn vs vb1
  have hsv' : scan_has_signal D.vstats = true ↔ pos_vals 0 rs ≠ [] := by
    rw [hsv, decide_eq_true_iff]
  -- the statistics of the current channels
  have hsi : ∀ j < N_CUR_CHAN,
      (scan_has_signal (D.istats.getD j zero_stats) = true ↔ pos_vals (j + 1) rs ≠ []) ∧
      (pos_vals (j + 1) rs ≠ [] →
        scan_mean (D.istats.getD j zero_stats) = some (pos_mean (j + 1) rs)) := by
    intro j hj
    have hp0 : (s.istats.getD j zero_stats).present = 0 :=
      hpi _ (getD_mem_stats s.istats j (by omega))
    obtain ⟨ip, inn, is⟩ := scan_fold_fresh (j + 1) rs (s.istats.getD j zero_stats) hp0 hle hb
    rw [← di j hj] at ip inn is
    obtain ⟨_, ib1, ib2⟩ := pos_vals_bounds (j + 1) rs hb
    refine ⟨?_, fun hne => scan_mean_fresh _ _ inn is hne ib1 ib2⟩
    rw [scan_signal_fresh _ _ ip inn is ib1, decide_eq_true_iff]
  have hoffD : D.adc.adc_offset.vals = s.adc.adc_offset.vals := by rw [da]
  obtain ⟨s', e, o, k1, k2⟩ := scan_decide_facts notice next D hnot dl
    (by rw [hoffD]; exact hoff) (pos_mean 0 rs) (fun j => pos_mean (j + 1) rs)
    (fun h => scan_mean_fresh _ _ vn vs (hsv'.mp h) vb1 vb2)
    (fun j hj h => (hsi j hj).2 ((hsi j hj).1.mp h))
  have hiff : (scan_has_signal D.vstats = true ∧
      ∃ j < N_CUR_CHAN, notice.getD j 0 ≠ 0 ∧
        scan_has_signal (D.istats.getD j zero_stats) = true) ↔
      (pos_vals 0 rs ≠ [] ∧
        ∃ j < N_CUR_CHAN, notice.getD j 0 ≠ 0 ∧ pos_vals (j + 1) rs ≠ []) := by
    constructor
    · rintro ⟨h1, j, hj, h2, h3⟩
      exact ⟨hsv'.mp h1, j, hj, h2, (hsi j hj).1.mp h3⟩
    · rintro ⟨h1, j, hj, h2, h3⟩
      exact ⟨hsv'.mpr h1, j, hj, h2, (hsi j hj).1.mpr h3⟩
  rw [hoffD, dn, df] at *
  refine ⟨s', ?_, fun hv => ⟨(o (hsv'.mpr hv)).1, fun j hj h1 h2 h3 =>
      (o (hsv'.mpr hv)).2 j hj h1 ((hsi j hj).1.mpr h2) h3⟩,
    fun h => k1 (fun h' => h (hiff.mp h')), fun h => k2 (hiff.mpr h)⟩
  apply hfeed
  rw [e]
  by_cases hc : pos_vals 0 rs ≠ [] ∧
      ∃ j < N_CUR_CHAN, notice.getD j 0 ≠ 0 ∧ pos_vals (j + 1) rs ≠ []
  · rw [if_pos hc, if_pos (hiff.mpr hc)]
  · rw [if_neg hc, if_neg (fun h => hc (hiff.mp h))]

/-! ## Readings of a channel that are positive -/

theorem pos_vals_ne_nil (c : Nat) (rs : List adc_readings_struct) :
    pos_vals c rs ≠ [] ↔ has_positive c rs := by
  induction rs with
  | nil => simp [pos_vals, has_positive]
  | cons r rs ih =>
    rw [pos_vals_cons]
    by_cases hx : chan_of c r > 0
    · rw [if_pos hx]
      exact ⟨fun _ => ⟨r, List.mem_cons_self _ _, hx⟩, fun _ => List.cons_ne_nil _ _⟩
    · rw [if_neg hx, ih]
      constructor
      · rintro ⟨x, hm, hp⟩
        exact ⟨x, List.mem_cons_of_mem _ hm, hp⟩
      · rintro ⟨x, hm, hp⟩
        rcases List.mem_cons.mp hm with rfl | hm'
        · exact absurd hp hx
        · exact ⟨x, hm', hp⟩

theorem dropWhile_sum_pos (l : List Int) (h0 : ∀ x ∈ l, 0 ≤ x) (h1 : ∃ x ∈ l, x > 0) :
    0 < (l.dropWhile (fun x => decide (x ≤ 0))).sum := by
  induction l with
  | nil =>
    obtain ⟨x, hx, _⟩ := h1
    exact absurd hx (List.not_mem_nil x)
  | cons a l ih =>
    by_cases ha : a ≤ 0
    · rw [List.dropWhile_cons_of_pos (by simpa using ha)]
      apply ih (fun x hx => h0 x (List.mem_cons_of_mem _ hx))
      obtain ⟨x, hx, hp⟩ := h1
      rcases List.mem_cons.mp hx with rfl | hx'
      · omega
      · exact ⟨x, hx', hp⟩
    · rw [List.dropWhile_cons_of_neg (by simpa using ha), List.sum_cons]
      have : 0 ≤ l.sum := List.sum_nonneg (fun x hx => h0 x (List.mem_cons_of_mem _ hx))
      omega

theorem signal_of_nonneg (c : Nat) (rs : List adc_readings_struct)
    (h0 : ∀ r ∈ rs, 0 ≤ chan_of c r) (h1 : has_positive c rs) :
    sum_from_first_pos c rs ≠ 0 := by
  have := dropWhile_sum_pos (rs.map (chan_of c))
    (fun x hx => by
      obtain ⟨r, hr, rfl⟩ := List.mem_map.mp hx
      exact h0 r hr)
    (by
      obtain ⟨r, hr, hp⟩ := h1
      exact ⟨chan_of c r, List.mem_map.mpr ⟨r, hr, rfl⟩, hp⟩)
  unfold sum_from_first_pos
  omega

theorem pos_mean_all (c : Nat) (rs : List adc_readings_struct)
    (h : ∀ r ∈ rs, chan_of c r > 0) : pos_mean c rs = window_mean c rs := by
  have hall : pos_vals c rs = rs.map (chan_of c) := by
    unfold pos_vals
    rw [List.filter_eq_self]
    intro x hx
    obtain ⟨r, hr, rfl⟩ := List.mem_map.mp hx
    simpa using h r hr
  have hsum : 0 ≤ (rs.map (chan_of c)).sum := by
    apply List.sum_nonneg
    intro x hx
    obtain ⟨r, hr, rfl⟩ := List.mem_map.mp hx
    exact le_of_lt (h r hr)
  unfold pos_mean window_mean
  rw [hall, List.length_map, Int.tdiv_eq_ediv hsum (by omega)]

/-! ## A scan window without any signal -/

theorem scan_chan_zero : ∀ c < 5, scan_chan c zero_stats zero_reading = zero_stats := by
  decide

theorem scan_step_idle (k : Nat) :
    scan_step (idle_scan k) zero_reading = idle_scan ((k + 1) % 65536) := by
  show ({ idle_scan k with
    vstats := scan_chan 0 zero_stats zero_reading
    istats := [scan_chan 1 zero_stats zero_reading, scan_chan 2 zero_stats zero_reading,
      scan_chan 3 zero_stats zero_reading, scan_chan 4 zero_stats zero_reading]
    scan_nreadings := (k + 1) % 65536 } : sm_state) = _
  rw [scan_chan_zero 0 (by decide), scan_chan_zero 1 (by decide), scan_chan_zero 2 (by decide),
    scan_chan_zero 3 (by decide), scan_chan_zero 4 (by decide)]
  rfl

theorem scan_fold_idle (k : Nat) : ∀ n, n + k < 65536 →
    (List.replicate k zero_reading).foldl scan_step (idle_scan n) = idle_scan (n + k) := by
  induction k with
  | zero =>
    intro n _
    rfl
  | succ k ih =>
    intro n hn
    rw [List.replicate_succ, List.foldl_cons, scan_step_idle,
      Nat.mod_eq_of_lt (by omega), ih (n + 1) (by omega)]
    congr 1
    omega

theorem scan_idle_phase (notice : List Nat) (cur next : Nat) :
    feed (fun r => scan_inputs notice r cur next) (List.replicate 4000 zero_reading)
        (sm_init fresh_state) =
      some (List.replicate 3999 cur ++ [STATE_STAB], idle_scan 4000) := by
  have e0 : feed (fun r => scan_inputs notice r cur next)
      (zero_reading :: List.replicate 3999 zero_reading) (sm_init fresh_state) =
      feed (fun r => scan_inputs notice r cur next)
        (zero_reading :: List.replicate 3999 zero_reading) (idle_scan 0) :=
    feed_first_eq _ zero_reading _ (sm_init fresh_state) (idle_scan 0)
      (scan_inputs_set notice zero_reading cur next (sm_init fresh_state) (by decide) rfl)
  have hw := scan_wait notice cur next (List.replicate 3999 zero_reading) (idle_scan 0) rfl rfl
    (fun r hr => by rw [List.eq_of_mem_replicate hr]; rfl)
    (by rw [List.length_replicate]; decide)
  rw [List.length_replicate, scan_fold_idle 3999 0 (by decide)] at hw
  have hfin : scan_inputs notice zero_reading cur next (idle_scan (0 + 3999)) =
      some (STATE_STAB, idle_scan 4000) := by
    rw [scan_inputs_clear notice zero_reading cur next (idle_scan (0 + 3999)) rfl rfl rfl,
      if_neg (by decide)]
    rfl
  have happ := feed_append_some _ (List.replicate 3999 zero_reading) [zero_reading] _ _ _ _
    [STATE_STAB] hw (feed_cons_some _ zero_reading [] _ _ _ STATE_STAB [] hfin rfl)
  rw [← List.replicate_succ'] at happ
  exact e0.trans ((List.replicate_succ (a := zero_reading) (n := 3999)) ▸ happ)

/-! ## Two concrete scan windows -/

theorem pos_vals_replicate (c : Nat) (k : Nat) (r : adc_readings_struct) :
    pos_vals c (List.replicate k r) =
      if chan_of c r > 0 then List.replicate k (chan_of c r) else [] := by
  induction k with
  | zero => simp [pos_vals]
  | succ k ih =>
    rw [List.replicate_succ, pos_vals_cons, ih]
    split_ifs <;> simp [List.replicate_succ]

theorem sum_replicate_int (k : Nat) (a : Int) : (List.replicate k a).sum = k * a := by
  induction k with
  | zero => simp
  | succ k ih =>
    rw [List.replicate_succ, List.sum_cons, ih]
    push_cast
    ring

theorem mean_example_pos (k : Nat) (hk : 0 < k) :
    pos_mean 0 (scan_reading 0 7 :: List.replicate k (scan_reading 1000 7)) = 1000 := by
  unfold pos_mean
  rw [pos_vals_cons, if_neg (by decide), pos_vals_replicate, if_pos (by decide),
    sum_replicate_int, List.length_replicate]
  have h1 : chan_of 0 (scan_reading 1000 7) = 1000 := by decide
  rw [h1]
  exact Int.mul_ediv_cancel_left _ (by omega)

theorem mean_example_window (k : Nat) :
    window_mean 0 (scan_reading 0 7 :: List.replicate k (scan_reading 1000 7)) =
      Int.tdiv ((k : Int) * 1000) ((k : Int) + 1) := by
  unfold window_mean
  rw [List.map_cons, List.map_replicate, List.sum_cons, sum_replicate_int, List.length_cons,
    List.length_replicate]
  have h0 : chan_of 0 (scan_reading 0 7) = 0 := by decide
  have h1 : chan_of 0 (scan_reading 1000 7) = 1000 := by decide
  rw [h0, h1, zero_add]
  rfl

/-! ## Claims C14, C15 and C16: the scan for inputs -/

/-- The result of a scan window for arbitrary 16-bit readings.  From a fresh
start (`first` set, reading counter 0, no channel marked present)
`scan_inputs` returns `curstate` for the first 3999 readings and on the 4000th
returns `nextstate` if the voltage channel and at least one noticed current
channel have a reading `> 0`, and `STATE_STAB` in every other case. -/
theorem scan_result_positive (notice : List Nat) (cur next : Nat) (s : sm_state)
    (rs : List adc_readings_struct)
    (hfirst : s.scan_first ≠ 0) (hn : s.scan_nreadings = 0)
    (hpv : s.vstats.present = 0) (hpi : ∀ st ∈ s.istats, st.present = 0)
    (hist : s.istats.length = N_CUR_CHAN) (hnot : notice.length = N_CUR_CHAN)
    (hoff : s.adc.adc_offset.vals.length = N_ADC_CHAN)
    (hlen : rs.length = 4000)
    (hvals : ∀ r ∈ rs, r.vals.length = N_ADC_CHAN ∧ ∀ x ∈ r.vals, x ≤ 32767) :
    ∃ s', feed (fun r => scan_inputs notice r cur next) rs s =
      some (List.replicate 3999 cur ++
        [if has_positive 0 rs ∧
            ∃ j < N_CUR_CHAN, notice.getD j 0 ≠ 0 ∧ has_positive (j + 1) rs
          then next else STATE_STAB], s') := by
  obtain ⟨s', e, _⟩ :=
    scan_phase notice cur next s rs hfirst hn hpv hpi hist hnot hoff hlen hvals
  refine ⟨s', ?_⟩
  rw [e]
  have hiff : (pos_vals 0 rs ≠ [] ∧
      ∃ j < N_CUR_CHAN, notice.getD j 0 ≠ 0 ∧ pos_vals (j + 1) rs ≠ []) ↔
      (has_positive 0 rs ∧
        ∃ j < N_CUR_CHAN, notice.getD j 0 ≠ 0 ∧ has_positive (j + 1) rs) := by
    constructor
    · rintro ⟨h1, j, hj, h2, h3⟩
      exact ⟨(pos_vals_ne_nil 0 rs).mp h1, j, hj, h2, (pos_vals_ne_nil (j + 1) rs).mp h3⟩
    · rintro ⟨h1, j, hj, h2, h3⟩
      exact ⟨(pos_vals_ne_nil 0 rs).mpr h1, j, hj, h2, (pos_vals_ne_nil (j + 1) rs).mpr h3⟩
  by_cases hc : has_positive 0 rs ∧
      ∃ j < N_CUR_CHAN, notice.getD j 0 ≠ 0 ∧ has_positive (j + 1) rs
  · rw [if_pos hc, if_pos (hiff.mpr hc)]
  · rw [if_neg hc, if_neg (fun h => hc (hiff.mp h))]

theorem chan_of_nonneg (c : Nat) (r : adc_readings_struct) (h : ∀ x ∈ r.vals, 0 ≤ x) :
    0 ≤ chan_of c r := by
  unfold chan_of
  cases hc : r.vals[c]? with
  | none => simp
  | some x =>
    have hx : x ∈ r.vals := List.getElem?_mem hc
    simpa using h x hx

/-- Claim C14.  The readings of a scan from a fresh start are the values the
sampler stores, `ADCW - adc_offset` with the 10-bit `ADCW` and with the
offsets still 0 (an offset is written only when its channel is marked
present), so no reading is negative.  From a fresh start (`first` set, reading
counter 0, no channel marked present) `scan_inputs` returns `curstate` for
the first 3999 readings, and on the 4000th it returns `nextstate` if the
voltage channel shows signal and at least one noticed current channel shows
signal, and `STATE_STAB` in every other case; a channel shows signal when at
least one of its readings is `> 0` and the sum of its readings from the first
positive one onward is not 0.  With every current channel constantly zero the
result is `STATE_STAB`, and so it is when the voltage channel shows no
signal. -/
theorem scan_inputs_result (notice : List Nat) (cur next : Nat) (s : sm_state)
    (rs : List adc_readings_struct)
    (hfirst : s.scan_first ≠ 0) (hn : s.scan_nreadings = 0)
    (hpv : s.vstats.present = 0) (hpi : ∀ st ∈ s.istats, st.present = 0)
    (hist : s.istats.length = N_CUR_CHAN) (hnot : notice.length = N_CUR_CHAN)
    (hoff : s.adc.adc_offset.vals.length = N_ADC_CHAN)
    (hlen : rs.length = 4000)
    (hvals : ∀ r ∈ rs, r.vals.length = N_ADC_CHAN ∧ ∀ x ∈ r.vals, 0 ≤ x ∧ x ≤ 32767) :
    ∃ s', feed (fun r => scan_inputs notice r cur next) rs s =
        some (List.replicate 3999 cur ++
          [if (has_positive 0 rs ∧ sum_from_first_pos 0 rs ≠ 0) ∧
              ∃ j < N_CUR_CHAN, notice.getD j 0 ≠ 0 ∧
                (has_positive (j + 1) rs ∧ sum_from_first_pos (j + 1) rs ≠ 0)
            then next else STATE_STAB], s') ∧
      ((∀ j < N_CUR_CHAN, ∀ r ∈ rs, chan_of (j + 1) r = 0) →
        feed (fun r => scan_inputs notice r cur next) rs s =
          some (List.replicate 3999 cur ++ [STATE_STAB], s')) ∧
      (¬ (has_positive 0 rs ∧ sum_from_first_pos 0 rs ≠ 0) →
        feed (fun r => scan_inputs notice r cur next) rs s =
          some (List.replicate 3999 cur ++ [STATE_STAB], s')) := by
  obtain ⟨s', e⟩ := scan_result_positive notice cur next s rs hfirst hn hpv hpi hist hnot hoff
    hlen (fun r hr => ⟨(hvals r hr).1, fun x hx => ((hvals r hr).2 x hx).2⟩)
  have hsig : ∀ c, has_positive c rs ↔ (has_positive c rs ∧ sum_from_first_pos c rs ≠ 0) :=
    fun c => ⟨fun h => ⟨h, signal_of_nonneg c rs
      (fun r hr => chan_of_nonneg c r (fun x hx => ((hvals r hr).2 x hx).1)) h⟩, fun h => h.1⟩
  have hiff : (has_positive 0 rs ∧
        ∃ j < N_CUR_CHAN, notice.getD j 0 ≠ 0 ∧ has_positive (j + 1) rs) ↔
      ((has_positive 0 rs ∧ sum_from_first_pos 0 rs ≠ 0) ∧
        ∃ j < N_CUR_CHAN, notice.getD j 0 ≠ 0 ∧
          (has_positive (j + 1) rs ∧ sum_from_first_pos (j + 1) rs ≠ 0)) := by
    constructor
    · rintro ⟨h1, j, hj, h2, h3⟩
      exact ⟨(hsig 0).mp h1, j, hj, h2, (hsig (j + 1)).mp h3⟩
    · rintro ⟨h1, j, hj, h2, h3⟩
      exact ⟨h1.1, j, hj, h2, h3.1⟩
  have e2 : feed (fun r => scan_inputs notice r cur next) rs s =
      some (List.replicate 3999 cur ++
        [if (has_positive 0 rs ∧ sum_from_first_pos 0 rs ≠ 0) ∧
            ∃ j < N_CUR_CHAN, notice.getD j 0 ≠ 0 ∧
              (has_positive (j + 1) rs ∧ sum_from_first_pos (j + 1) rs ≠ 0)
          then next else STATE_STAB], s') := by
    rw [e]
    by_cases hc : has_positive 0 rs ∧
        ∃ j < N_CUR_CHAN, notice.getD j 0 ≠ 0 ∧ has_positive (j + 1) rs
    · rw [if_pos hc, if_pos (hiff.mp hc)]
    · rw [if_neg hc, if_neg (fun h => hc (hiff.mpr h))]
  refine ⟨s', e2, fun hz => ?_, fun hv => ?_⟩
  · rw [e2, if_neg]
    rintro ⟨_, j, hj, _, ⟨r, hr, hp⟩, _⟩
    rw [hz j hj r hr] at hp
    exact absurd hp (by decide)
  · rw [e2, if_neg (fun h => hv h.1)]

/-- Claim C14, instance: 4000 readings with 512 on the voltage channel and 300
on the first current channel, from the initial state, all channels noticed. -/
theorem scan_inputs_result_witness :
    ∃ s', feed (fun r => scan_inputs [1, 1, 1, 1] r STATE_SCAN STATE_ZER1)
          (List.replicate 4000 (scan_reading 512 300)) (sm_init fresh_state) =
        some (List.replicate 3999 STATE_SCAN ++
          [if (has_positive 0 (List.replicate 4000 (scan_reading 512 300)) ∧
                sum_from_first_pos 0 (List.replicate 4000 (scan_reading 512 300)) ≠ 0) ∧
              ∃ j < N_CUR_CHAN, [1, 1, 1, 1].getD j 0 ≠ 0 ∧
                (has_positive (j + 1) (List.replicate 4000 (scan_reading 512 300)) ∧
                  sum_from_first_pos (j + 1) (List.replicate 4000 (scan_reading 512 300)) ≠ 0)
            then STATE_ZER1 else STATE_STAB], s') ∧
      ((∀ j < N_CUR_CHAN, ∀ r ∈ List.replicate 4000 (scan_reading 512 300),
          chan_of (j + 1) r = 0) →
        feed (fun r => scan_inputs [1, 1, 1, 1] r STATE_SCAN STATE_ZER1)
            (List.replicate 4000 (scan_reading 512 300)) (sm_init fresh_state) =
          some (List.replicate 3999 STATE_SCAN ++ [STATE_STAB], s')) ∧
      (¬ (has_positive 0 (List.replicate 4000 (scan_reading 512 300)) ∧
          sum_from_first_pos 0 (List.replicate 4000 (scan_reading 512 300)) ≠ 0) →
        feed (fun r => scan_inputs [1, 1, 1, 1] r STATE_SCAN STATE_ZER1)
            (List.replicate 4000 (scan_reading 512 300)) (sm_init fresh_state) =
          some (List.replicate 3999 STATE_SCAN ++ [STATE_STAB], s')) :=
  scan_inputs_result [1, 1, 1, 1] STATE_SCAN STATE_ZER1 (sm_init fresh_state)
    (List.replicate 4000 (scan_reading 512 300))
    (by decide) rfl rfl (by decide) rfl rfl rfl (List.length_replicate _ _)
    (fun r hr => by rw [List.eq_of_mem_replicate hr]; decide)

/-- Claim C15 fails: a scan window of 4000 all-zero readings from the initial
state ends with `STATE_STAB` and leaves the reading counter of `scan_inputs`
at 4000 and `first` at 0.  On re-entry the very first reading (600 on the
voltage channel, 500 on the first current channel) makes `scan_inputs` decide
at once: it returns `nextstate`, not `curstate`, and commits the offsets 600
and 500 taken from that single reading. -/
theorem scan_reentry_decides_early :
    feed (fun r => scan_inputs [1, 1, 1, 1] r STATE_SCAN STATE_ZER1)
        (List.replicate 4000 zero_reading) (sm_init fresh_state) =
      some (List.replicate 3999 STATE_SCAN ++ [STATE_STAB], idle_scan 4000) ∧
    (idle_scan 4000).scan_nreadings = 4000 ∧ (idle_scan 4000).scan_first = 0 ∧
    ∃ s2, scan_inputs [1, 1, 1, 1] (scan_reading 600 500) STATE_SCAN STATE_ZER1
        (idle_scan 4000) = some (STATE_ZER1, s2) ∧
      s2.adc.adc_offset.vals = [600, 500, 0, 0, 0] ∧
      STATE_ZER1 ≠ STATE_SCAN := by
  refine ⟨scan_idle_phase [1, 1, 1, 1] STATE_SCAN STATE_ZER1, rfl, rfl,
    { idle_scan 0 with
      scan_first := 1
      vstats := { zero_stats with present := 1 }
      istats := [{ zero_stats with present := 1, val := 500, val_min := 500, val_max := 500 },
        zero_stats, zero_stats, zero_stats]
      adc := { fresh_state with
        adc_offset := { zero_reading with vals := [600, 500, 0, 0, 0] } } }, ?_, rfl, ?_⟩
  · decide
  · decide

/-- Claim C16, as stated, fails when a present channel has readings that are
not `> 0`: with one voltage reading of 0 followed by 3999 readings of 1000 the
mean over the window is 3999000 / 4000 = 999, but the offset committed for
channel 0 is 1000, the mean of the 3999 positive readings. -/
theorem scan_offset_skips_zero_readings :
    ∃ s', feed (fun r => scan_inputs [1, 1, 1, 1] r STATE_SCAN STATE_ZER1)
        (scan_reading 0 7 :: List.replicate 3999 (scan_reading 1000 7))
        (sm_init fresh_state) =
        some (List.replicate 3999 STATE_SCAN ++ [STATE_ZER1], s') ∧
      s'.adc.adc_offset.vals[0]? = some 1000 ∧
      window_mean 0 (scan_reading 0 7 :: List.replicate 3999 (scan_reading 1000 7)) = 999 := by
  obtain ⟨s', e, o, _⟩ := scan_phase [1, 1, 1, 1] STATE_SCAN STATE_ZER1 (sm_init fresh_state)
    (scan_reading 0 7 :: List.replicate 3999 (scan_reading 1000 7))
    (by decide) rfl rfl (by decide) rfl rfl rfl
    (by rw [List.length_cons, List.length_replicate])
    (fun r hr => by
      rcases List.mem_cons.mp hr with rfl | hr
      · decide
      · rw [List.eq_of_mem_replicate hr]
        decide)
  have h0 : pos_vals 0 (scan_reading 0 7 :: List.replicate 3999 (scan_reading 1000 7)) ≠ [] := by
    rw [pos_vals_cons, if_neg (by decide), pos_vals_replicate, if_pos (by decide)]
    exact List.cons_ne_nil _ _
  have h1 : pos_vals (0 + 1)
      (scan_reading 0 7 :: List.replicate 3999 (scan_reading 1000 7)) ≠ [] := by
    rw [pos_vals_cons, if_pos (by decide)]
    exact List.cons_ne_nil _ _
  rw [if_pos ⟨h0, 0, by decide, by decide, h1⟩] at e
  have hoff := (o h0).1 (by decide)
  rw [mean_example_pos 3999 (by decide)] at hoff
  refine ⟨s', e, hoff, ?_⟩
  rw [mean_example_window 3999]
  decide

/-- Claim C16 (mean of the readings `> 0`).  When a scan window of 4000
readings from a fresh start is over, for every channel found present (it has a
reading `> 0`; a current channel must also be noticed) whose offset was 0
before, the offset committed is the integer mean of the channel's readings
that are `> 0`: the sum of those readings divided by their count.  The
voltage statistics go to channel 0 and current channel `j` to channel `j+1`.
For a channel whose readings are all `> 0` this is the mean over the window. -/
theorem scan_offsets (notice : List Nat) (cur next : Nat) (s : sm_state)
    (rs : List adc_readings_struct)
    (hfirst : s.scan_first ≠ 0) (hn : s.scan_nreadings = 0)
    (hpv : s.vstats.present = 0) (hpi : ∀ st ∈ s.istats, st.present = 0)
    (hist : s.istats.length = N_CUR_CHAN) (hnot : notice.length = N_CUR_CHAN)
    (hoff : s.adc.adc_offset.vals.length = N_ADC_CHAN)
    (hlen : rs.length = 4000)
    (hvals : ∀ r ∈ rs, r.vals.length = N_ADC_CHAN ∧ ∀ x ∈ r.vals, x ≤ 32767) :
    ∃ rets s', feed (fun r => scan_inputs notice r cur next) rs s = some (rets, s') ∧
      (has_positive 0 rs →
        (s.adc.adc_offset.vals[0]? = some 0 →
          s'.adc.adc_offset.vals[0]? = some (pos_mean 0 rs)) ∧
        ∀ j < N_CUR_CHAN, notice.getD j 0 ≠ 0 → has_positive (j + 1) rs →
          s.adc.adc_offset.vals[j + 1]? = some 0 →
          s'.adc.adc_offset.vals[j + 1]? = some (pos_mean (j + 1) rs)) ∧
      (∀ c, (∀ r ∈ rs, chan_of c r > 0) → pos_mean c rs = window_mean c rs) := by
  obtain ⟨s', e, o, _⟩ :=
    scan_phase notice cur next s rs hfirst hn hpv hpi hist hnot hoff hlen hvals
  refine ⟨_, s', e, fun hv => ?_, fun c hc => pos_mean_all c rs hc⟩
  obtain ⟨o0, oj⟩ := o ((pos_vals_ne_nil 0 rs).mpr hv)
  exact ⟨o0, fun j hj h1 h2 h3 => oj j hj h1 ((pos_vals_ne_nil (j + 1) rs).mpr h2) h3⟩

/-- Claim C16, instance: 4000 readings with 512 on the voltage channel and 300
on the first current channel, from the initial state, all channels noticed. -/
theorem scan_offsets_witness :
    ∃ rets s', feed (fun r => scan_inputs [1, 1, 1, 1] r STATE_SCAN STATE_ZER1)
        (List.replicate 4000 (scan_reading 512 300)) (sm_init fresh_state) = some (rets, s') ∧
      (has_positive 0 (List.replicate 4000 (scan_reading 512 300)) →
        ((sm_init fresh_state).adc.adc_offset.vals[0]? = some 0 →
          s'.adc.adc_offset.vals[0]? =
            some (pos_mean 0 (List.replicate 4000 (scan_reading 512 300)))) ∧
        ∀ j < N_CUR_CHAN, [1, 1, 1, 1].getD j 0 ≠ 0 →
          has_positive (j + 1) (List.replicate 4000 (scan_reading 512 300)) →
          (sm_init fresh_state).adc.adc_offset.vals[j + 1]? = some 0 →
          s'.adc.adc_offset.vals[j + 1]? =
            some (pos_mean (j + 1) (List.replicate 4000 (scan_reading 512 300)))) ∧
      (∀ c, (∀ r ∈ List.replicate 4000 (scan_reading 512 300), chan_of c r > 0) →
        pos_mean c (List.replicate 4000 (scan_reading 512 300)) =
          window_mean c (List.replicate 4000 (scan_reading 512 300))) :=
  scan_offsets [1, 1, 1, 1] STATE_SCAN STATE_ZER1 (sm_init fresh_state)
    (List.replicate 4000 (scan_reading 512 300))
    (by decide) rfl rfl (by decide) rfl rfl rfl (List.length_replicate _ _)
    (fun r hr => by rw [List.eq_of_mem_replicate hr]; decide)

/-! ## The voltage history ring -/

set_option maxRecDepth 100000 in
theorem vhist_wrap_mod : ∀ c < 256, vhist_wrap 256 c = some (c % N_VHIST_RING) := by
  decide

theorem retrieve_vhist_eq (k : Nat) (s : sm_state) (hcur : s.vhist_cur ≤ N_VHIST_RING)
    (hk : k < N_VHIST_RING) :
    retrieve_vhist k s =
      s.vhist_ring[(s.vhist_cur + N_VHIST_RING - k) % N_VHIST_RING]? := by
  have h24 : N_VHIST_RING = 24 := rfl
  have e : (((s.vhist_cur : Int) + (N_VHIST_RING : Int) - (k : Int)) % 256).toNat =
      s.vhist_cur + N_VHIST_RING - k := by
    rw [h24] at hcur hk ⊢
    omega
  have hlt : s.vhist_cur + N_VHIST_RING - k < 256 := by
    rw [h24] at hcur hk ⊢
    omega
  simp only [retrieve_vhist, e, vhist_wrap_mod _ hlt, Option.bind_eq_bind, Option.some_bind]

theorem store_all_snoc (xs : List Int) (x : Int) (s : sm_state) :
    store_all (xs ++ [x]) s = (store_all xs s).bind (store_vhist x) := by
  unfold store_all
  rw [List.foldlM_append]
  cases h : List.foldlM (fun t x => store_vhist x t) s xs with
  | none => rfl
  | some t =>
    simp only [Option.bind_eq_bind, Option.some_bind, List.foldlM_cons, List.foldlM_nil]
    cases store_vhist x t <;> rfl

theorem ring_index_step (c k : Nat) (hk0 : 0 < k) (hk : k < 24) :
    ((c + 1) % 24 + 24 - k) % 24 = (c + 24 - (k - 1)) % 24 ∧
      ((c + 1) % 24 + 24 - k) % 24 ≠ (c + 1) % 24 := by
  omega

theorem store_all_inv (xs : List Int) (s : sm_state)
    (hring : s.vhist_ring.length = N_VHIST_RING) :
    ∃ s', store_all xs s = some s' ∧
      s'.vhist_ring.length = N_VHIST_RING ∧
      (xs ≠ [] → s'.vhist_cur < N_VHIST_RING) ∧
      ∀ k < N_VHIST_RING, k < xs.length →
        s'.vhist_ring[(s'.vhist_cur + N_VHIST_RING - k) % N_VHIST_RING]? =
          some (xs.reverse.getD k 0) := by
  induction xs using List.reverseRecOn with
  | nil =>
    exact ⟨s, rfl, hring, fun h => absurd rfl h, fun k _ hk => absurd hk (Nat.not_lt_zero k)⟩
  | append_singleton xs x ih =>
    obtain ⟨t, e, hl, _, hv⟩ := ih
    have hst := store_vhist_eq x t hl
    refine ⟨{ t with
        vhist_cur := (t.vhist_cur + 1) % N_VHIST_RING
        vhist_ring := t.vhist_ring.set ((t.vhist_cur + 1) % N_VHIST_RING) x }, ?_, ?_,
      fun _ => Nat.mod_lt _ (show 0 < N_VHIST_RING by decide), fun k hk hkl => ?_⟩
    · rw [store_all_snoc, e]
      exact hst
    · show (t.vhist_ring.set _ x).length = N_VHIST_RING
      rw [List.length_set]
      exact hl
    · show (t.vhist_ring.set ((t.vhist_cur + 1) % N_VHIST_RING) x)[
        ((t.vhist_cur + 1) % N_VHIST_RING + N_VHIST_RING - k) % N_VHIST_RING]? = _
      have hpos : (t.vhist_cur + 1) % N_VHIST_RING < t.vhist_ring.length := by
        rw [hl]
        exact Nat.mod_lt _ (by decide)
      rw [List.reverse_append, List.reverse_singleton, List.singleton_append]
      rcases Nat.eq_zero_or_pos k with rfl | hk0
      · have e0 : ((t.vhist_cur + 1) % N_VHIST_RING + N_VHIST_RING - 0) % N_VHIST_RING =
            (t.vhist_cur + 1) % N_VHIST_RING := by
          have h24 : N_VHIST_RING = 24 := rfl
          rw [h24]
          omega
        rw [e0, List.getElem?_set_self hpos]
        rfl
      · obtain ⟨e1, e2⟩ := ring_index_step t.vhist_cur k hk0 hk
        have hk1 : k - 1 < xs.length := by
          simp only [List.length_append, List.length_singleton] at hkl
          omega
        have hprev := hv (k - 1) (by omega) hk1
        have hget : (x :: xs.reverse).getD k 0 = xs.reverse.getD (k - 1) 0 := by
          obtain ⟨j, rfl⟩ : ∃ j, k = j + 1 := ⟨k - 1, by omega⟩
          rfl
        rw [hget, ← hprev]
        show (t.vhist_ring.set ((t.vhist_cur + 1) % 24) x)[
          ((t.vhist_cur + 1) % 24 + 24 - k) % 24]? = t.vhist_ring[(t.vhist_cur + 24 - (k - 1)) % 24]?
        rw [List.getElem?_set_ne (Ne.symm e2), e1]

/-! ## `accum_stats`: the sums of a window -/

theorem retrieve_after_store (x : Int) (s : sm_state) (k : Nat)
    (hring : s.vhist_ring.length = N_VHIST_RING) (hk : k < N_VHIST_RING) (past : List Int)
    (hpast : ∀ i < N_VHIST_RING, retrieve_vhist i s = some (past.getD i 0))
    (hcur : s.vhist_cur ≤ N_VHIST_RING) :
    retrieve_vhist k
      { s with
        vhist_cur := (s.vhist_cur + 1) % N_VHIST_RING
        vhist_ring := s.vhist_ring.set ((s.vhist_cur + 1) % N_VHIST_RING) x } =
      some ((x :: past).getD k 0) := by
  have hpos : (s.vhist_cur + 1) % N_VHIST_RING < s.vhist_ring.length := by
    rw [hring]
    exact Nat.mod_lt _ (by decide)
  rw [retrieve_vhist_eq k _ (le_of_lt (Nat.mod_lt _ (show 0 < N_VHIST_RING by decide))) hk]
  show (s.vhist_ring.set ((s.vhist_cur + 1) % 24) x)[((s.vhist_cur + 1) % 24 + 24 - k) % 24]? = _
  rcases Nat.eq_zero_or_pos k with rfl | hk0
  · have e0 : ((s.vhist_cur + 1) % 24 + 24 - 0) % 24 = (s.vhist_cur + 1) % 24 := by omega
    have hpos' : (s.vhist_cur + 1) % 24 < s.vhist_ring.length := hpos
    rw [e0, List.getElem?_set_self hpos']
    rfl
  · obtain ⟨e1, e2⟩ := ring_index_step s.vhist_cur k hk0 hk
    have hprev := hpast (k - 1) (lt_of_le_of_lt (Nat.sub_le k 1) hk)
    rw [retrieve_vhist_eq (k - 1) s hcur (lt_of_le_of_lt (Nat.sub_le k 1) hk)] at hprev
    have hget : (x :: past).getD k 0 = past.getD (k - 1) 0 := by
      obtain ⟨j, rfl⟩ : ∃ j, k = j + 1 := ⟨k - 1, by omega⟩
      rfl
    rw [hget, ← hprev, List.getElem?_set_ne (Ne.symm e2), e1]
    rfl

theorem chan_some (c : Nat) (r : adc_readings_struct) (h : r.vals.length = N_ADC_CHAN)
    (hc : c < N_ADC_CHAN) : r.vals[c]? = some (chan_of c r) := by
  have hlt : c < r.vals.length := by omega
  simp [chan_of, List.getElem?_eq_getElem hlt]

theorem accum_chan_eq (r : adc_readings_struct) (v d : Int) (j : Nat) (st : reading_stats)
    (h : r.vals.length = N_ADC_CHAN) (hj : j < N_CUR_CHAN) :
    accum_chan r v d j st = some (stat_step (chan_of (j + 1) r) v d st) := by
  unfold accum_chan stat_step
  rw [chan_some (j + 1) r h (Nat.succ_lt_succ hj)]
  simp only [Option.bind_eq_bind, Option.some_bind]
  split <;> rfl

theorem accum_stats_block_eq (r : adc_readings_struct) (s : sm_state) (past : List Int)
    (hvals : r.vals.length = N_ADC_CHAN)
    (hring : s.vhist_ring.length = N_VHIST_RING)
    (hist : s.istats.length = N_CUR_CHAN)
    (hcur : s.vhist_cur ≤ N_VHIST_RING) (hlb : s.vhist_lookback < N_VHIST_RING)
    (hpast : ∀ i < N_VHIST_RING, retrieve_vhist i s = some (past.getD i 0)) :
    accum_stats_block r s =
      some { s with
        start_time := if s.start_time = 0 then r.t else s.start_time
        ncycles := if s.start_time = 0 then 0 else s.ncycles
        vstats := volt_step s.vmains_fprod (chan_of 0 r)
          ((chan_of 0 r :: past).getD s.vhist_lookback 0) s.vstats
        istats := [
          stat_step (chan_of 1 r) (chan_of 0 r)
            ((chan_of 0 r :: past).getD s.vhist_lookback 0) (s.istats.getD 0 zero_stats),
          stat_step (chan_of 2 r) (chan_of 0 r)
            ((chan_of 0 r :: past).getD s.vhist_lookback 0) (s.istats.getD 1 zero_stats),
          stat_step (chan_of 3 r) (chan_of 0 r)
            ((chan_of 0 r :: past).getD s.vhist_lookback 0) (s.istats.getD 2 zero_stats),
          stat_step (chan_of 4 r) (chan_of 0 r)
            ((chan_of 0 r :: past).getD s.vhist_lookback 0) (s.istats.getD 3 zero_stats)]
        vhist_cur := (s.vhist_cur + 1) % N_VHIST_RING
        vhist_ring := s.vhist_ring.set ((s.vhist_cur + 1) % N_VHIST_RING) (chan_of 0 r) } := by
  obtain ⟨a, b, c, d, hab⟩ := length_four s.istats hist
  have hv := chan_some 0 r hvals (by decide)
  have hlt := fun cur => vhist_slot_lt s hring cur
  have hret := retrieve_after_store (chan_of 0 r) s s.vhist_lookback hring hlb past hpast hcur
  have hf := for_istats_eq
    (accum_chan r (chan_of 0 r) ((chan_of 0 r :: past).getD s.vhist_lookback 0)) a b c d _ _ _ _
    (accum_chan_eq r _ _ 0 a hvals (by decide)) (accum_chan_eq r _ _ 1 b hvals (by decide))
    (accum_chan_eq r _ _ 2 c hvals (by decide)) (accum_chan_eq r _ _ 3 d hvals (by decide))
  have hist' : s.istats.getD 0 zero_stats = a ∧ s.istats.getD 1 zero_stats = b ∧
      s.istats.getD 2 zero_stats = c ∧ s.istats.getD 3 zero_stats = d := by
    rw [hab]
    exact ⟨rfl, rfl, rfl, rfl⟩
  obtain ⟨ha, hb, hc, hd⟩ := hist'
  rw [ha, hb, hc, hd]
  by_cases hst : s.start_time = 0
  · simp only [accum_stats_block, hst, if_true, Option.bind_eq_bind, Option.bind_eq_some]
    refine ⟨_, hv, _, store_vhist_eq _ _ hring, _, hret, _, ?_, rfl⟩
    rw [← hf]
    exact congrArg _ hab
  · simp only [accum_stats_block, hst, if_false, Option.bind_eq_bind, Option.bind_eq_some]
    refine ⟨_, hv, _, store_vhist_eq _ _ hring, _, hret, _, ?_, rfl⟩
    rw [← hf]
    exact congrArg _ hab

theorem retrieve_vhist_congr (k : Nat) (s t : sm_state) (h1 : s.vhist_cur = t.vhist_cur)
    (h2 : s.vhist_ring = t.vhist_ring) : retrieve_vhist k s = retrieve_vhist k t := by
  unfold retrieve_vhist
  rw [h1, h2]

theorem accum_stats_step (r : adc_readings_struct) (tdur cur next : Nat) (s : sm_state)
    (past : List Int)
    (hvals : r.vals.length = N_ADC_CHAN)
    (hring : s.vhist_ring.length = N_VHIST_RING)
    (hist : s.istats.length = N_CUR_CHAN)
    (hcur : s.vhist_cur ≤ N_VHIST_RING) (hlb : s.vhist_lookback < N_VHIST_RING)
    (hpast : ∀ i < N_VHIST_RING, retrieve_vhist i s = some (past.getD i 0)) :
    ∃ ret s2, accum_stats r tdur cur next s = some (ret, s2) ∧
      s2.vstats = volt_step s.vmains_fprod (chan_of 0 r)
        ((chan_of 0 r :: past).getD s.vhist_lookback 0) s.vstats ∧
      (∀ j < N_CUR_CHAN, s2.istats.getD j zero_stats =
        stat_step (chan_of (j + 1) r) (chan_of 0 r)
          ((chan_of 0 r :: past).getD s.vhist_lookback 0) (s.istats.getD j zero_stats)) ∧
      s2.istats.length = N_CUR_CHAN ∧
      s2.vhist_ring.length = N_VHIST_RING ∧ s2.vhist_cur ≤ N_VHIST_RING ∧
      s2.vhist_lookback = s.vhist_lookback ∧ s2.vmains_fprod = s.vmains_fprod ∧
      (∀ i < N_VHIST_RING, retrieve_vhist i s2 = some ((chan_of 0 r :: past).getD i 0)) := by
  have e := accum_stats_block_eq r s past hvals hring hist hcur hlb hpast
  have hagree := fun i hi =>
    retrieve_after_store (chan_of 0 r) s i hring hi past hpast hcur
  have hlen : (s.vhist_ring.set ((s.vhist_cur + 1) % N_VHIST_RING) (chan_of 0 r)).length =
      N_VHIST_RING := by
    rw [List.length_set]
    exact hring
  have hc2 : (s.vhist_cur + 1) % N_VHIST_RING ≤ N_VHIST_RING :=
    le_of_lt (Nat.mod_lt _ (by decide))
  have hj : ∀ j < N_CUR_CHAN,
      [stat_step (chan_of 1 r) (chan_of 0 r)
          ((chan_of 0 r :: past).getD s.vhist_lookback 0) (s.istats.getD 0 zero_stats),
        stat_step (chan_of 2 r) (chan_of 0 r)
          ((chan_of 0 r :: past).getD s.vhist_lookback 0) (s.istats.getD 1 zero_stats),
        stat_step (chan_of 3 r) (chan_of 0 r)
          ((chan_of 0 r :: past).getD s.vhist_lookback 0) (s.istats.getD 2 zero_stats),
        stat_step (chan_of 4 r) (chan_of 0 r)
          ((chan_of 0 r :: past).getD s.vhist_lookback 0)
          (s.istats.getD 3 zero_stats)].getD j zero_stats =
      stat_step (chan_of (j + 1) r) (chan_of 0 r)
        ((chan_of 0 r :: past).getD s.vhist_lookback 0) (s.istats.getD j zero_stats) := by
    intro j hj
    have h4 : j < 4 := hj
    interval_cases j <;> rfl
  unfold accum_stats
  rw [e]
  simp only [Option.bind_eq_bind, Option.some_bind]
  split_ifs <;>
    exact ⟨_, _, rfl, rfl, hj, rfl, hlen, hc2, rfl, rfl,
      fun i hi => (retrieve_vhist_congr i _ _ rfl rfl).trans (hagree i hi)⟩

theorem accum_run (tdur cur next : Nat) (rs : List adc_readings_struct) :
    ∀ (s : sm_state) (past : List Int),
      (∀ r ∈ rs, r.vals.length = N_ADC_CHAN) →
      s.vhist_ring.length = N_VHIST_RING → s.istats.length = N_CUR_CHAN →
      s.vhist_cur ≤ N_VHIST_RING → s.vhist_lookback < N_VHIST_RING →
      (∀ i < N_VHIST_RING, retrieve_vhist i s = some (past.getD i 0)) →
      ∃ rets s', feed (fun r => accum_stats r tdur cur next) rs s = some (rets, s') ∧
        s'.vstats = volt_run s.vmains_fprod s.vhist_lookback past rs s.vstats ∧
        ∀ j < N_CUR_CHAN, s'.istats.getD j zero_stats =
          stat_run (j + 1) s.vhist_lookback past rs (s.istats.getD j zero_stats) := by
  induction rs with
  | nil =>
    intro s past _ _ _ _ _ _
    exact ⟨[], s, rfl, rfl, fun _ _ => rfl⟩
  | cons r rs ih =>
    intro s past hv hring hist hcur hlb hpast
    obtain ⟨ret, s2, e, v2, i2, l2, r2, c2, lb2, f2, p2⟩ :=
      accum_stats_step r tdur cur next s past (hv r (List.mem_cons_self _ _)) hring hist hcur
        hlb hpast
    obtain ⟨rets, s', e', v', i'⟩ := ih s2 (chan_of 0 r :: past)
      (fun x hx => hv x (List.mem_cons_of_mem _ hx)) r2 l2 c2 (by rw [lb2]; exact hlb) p2
    refine ⟨ret :: rets, s', feed_cons_some _ r rs s s2 s' ret rets e e', ?_, fun j hj => ?_⟩
    · rw [v', v2, f2, lb2]
      rfl
    · rw [i' j hj, i2 j hj, lb2]
      rfl

/-! ## The sums as functions of the readings -/

theorem mac32_acc (a b c S : Int) :
    to_int32 (mac16x16_32 a b c + S) = to_int32 (a + (b * c + S)) := by
  unfold mac16x16_32 to_int32
  generalize b * c = p
  omega

theorem mac32_idem (a b c : Int) : to_int32 (mac16x16_32 a b c) = mac16x16_32 a b c := by
  unfold mac16x16_32
  exact to_int32_idem _

theorem macu_acc (a : Nat) (b c S : Int) :
    (((mac16x16_32u a b c : Nat) : Int) + S) % 4294967296 =
      ((a : Int) + (b * c + S)) % 4294967296 := by
  unfold mac16x16_32u to_int32
  generalize b * c = p
  omega

theorem macu_lt (a : Nat) (b c : Int) : mac16x16_32u a b c < 4294967296 := by
  unfold mac16x16_32u
  omega

theorem chan_sum_cons (c : Nat) (r : adc_readings_struct) (rs : List adc_readings_struct) :
    chan_sum c (r :: rs) = chan_of c r + chan_sum c rs := by
  simp [chan_sum]

theorem chan_dot_cons (c c2 : Nat) (r : adc_readings_struct) (rs : List adc_readings_struct) :
    chan_dot c c2 (r :: rs) = chan_of c r * chan_of c2 r + chan_dot c c2 rs := by
  simp [chan_dot]

theorem stat_step_absent (x v d : Int) (st : reading_stats) (h : st.present = 0) :
    stat_step x v d st = st := by
  unfold stat_step
  rw [if_neg (not_not_intro h)]

theorem stat_run_absent (c lb : Nat) (rs : List adc_readings_struct) :
    ∀ (past : List Int) (st : reading_stats), st.present = 0 →
      stat_run c lb past rs st = st := by
  induction rs with
  | nil =>
    intro _ _ _
    rfl
  | cons r rs ih =>
    intro past st h
    show stat_run c lb _ rs (stat_step _ _ _ st) = st
    rw [stat_step_absent _ _ _ st h]
    exact ih _ st h

theorem stat_step_present (x v d : Int) (st : reading_stats) (h : st.present ≠ 0) :
    stat_step x v d st =
      { st with
        oldval := st.val
        val := x
        val_sum := to_int32 (st.val_sum + x)
        val2_sum := mac16x16_32u st.val2_sum x x
        prod_sum := mac16x16_32 st.prod_sum x v
        proddel_sum := mac16x16_32 st.proddel_sum x d
        n := (st.n + 1) % 65536 } := by
  unfold stat_step
  rw [if_pos h]

theorem stat_run_present (c lb : Nat) (rs : List adc_readings_struct) :
    ∀ (past : List Int) (st : reading_stats), st.present ≠ 0 → st.n < 65536 →
      to_int32 st.val_sum = st.val_sum → to_int32 st.prod_sum = st.prod_sum →
      to_int32 st.proddel_sum = st.proddel_sum → st.val2_sum < 4294967296 →
      (stat_run c lb past rs st).present = st.present ∧
      (stat_run c lb past rs st).n = (st.n + rs.length) % 65536 ∧
      (stat_run c lb past rs st).val_sum = to_int32 (st.val_sum + chan_sum c rs) ∧
      (((stat_run c lb past rs st).val2_sum : Nat) : Int) =
        ((st.val2_sum : Int) + chan_dot c c rs) % 4294967296 ∧
      (stat_run c lb past rs st).prod_sum = to_int32 (st.prod_sum + chan_dot c 0 rs) ∧
      (stat_run c lb past rs st).proddel_sum =
        to_int32 (st.proddel_sum + chan_delayed c lb past rs) := by
  induction rs with
  | nil =>
    intro past st _ hn hs hp hd h2
    refine ⟨rfl, ?_, ?_, ?_, ?_, ?_⟩
    · show st.n = (st.n + 0) % 65536
      omega
    · show st.val_sum = to_int32 (st.val_sum + 0)
      rw [add_zero, hs]
    · show (st.val2_sum : Int) = ((st.val2_sum : Int) + 0) % 4294967296
      omega
    · show st.prod_sum = to_int32 (st.prod_sum + 0)
      rw [add_zero, hp]
    · show st.proddel_sum = to_int32 (st.proddel_sum + 0)
      rw [add_zero, hd]
  | cons r rs ih =>
    intro past st hpres hn hs hp hd h2
    have e := stat_step_present (chan_of c r) (chan_of 0 r)
      ((chan_of 0 r :: past).getD lb 0) st hpres
    obtain ⟨a1, a2, a3, a4, a5, a6⟩ := ih (chan_of 0 r :: past)
      (stat_step (chan_of c r) (chan_of 0 r) ((chan_of 0 r :: past).getD lb 0) st)
      (by rw [e]; exact hpres)
      (by rw [e]; exact Nat.mod_lt _ (by decide))
      (by rw [e]; exact to_int32_idem _)
      (by rw [e]; exact mac32_idem _ _ _)
      (by rw [e]; exact mac32_idem _ _ _)
      (by rw [e]; exact macu_lt _ _ _)
    have f1 : (stat_step (chan_of c r) (chan_of 0 r)
        ((chan_of 0 r :: past).getD lb 0) st).present = st.present := by rw [e]
    have f2 : (stat_step (chan_of c r) (chan_of 0 r)
        ((chan_of 0 r :: past).getD lb 0) st).n = (st.n + 1) % 65536 := by rw [e]
    have f3 : (stat_step (chan_of c r) (chan_of 0 r)
        ((chan_of 0 r :: past).getD lb 0) st).val_sum =
        to_int32 (st.val_sum + chan_of c r) := by rw [e]
    have f4 : (stat_step (chan_of c r) (chan_of 0 r)
        ((chan_of 0 r :: past).getD lb 0) st).val2_sum =
        mac16x16_32u st.val2_sum (chan_of c r) (chan_of c r) := by rw [e]
    have f5 : (stat_step (chan_of c r) (chan_of 0 r)
        ((chan_of 0 r :: past).getD lb 0) st).prod_sum =
        mac16x16_32 st.prod_sum (chan_of c r) (chan_of 0 r) := by rw [e]
    have f6 : (stat_step (chan_of c r) (chan_of 0 r)
        ((chan_of 0 r :: past).getD lb 0) st).proddel_sum =
        mac16x16_32 st.proddel_sum (chan_of c r) ((chan_of 0 r :: past).getD lb 0) := by rw [e]
    refine ⟨?_, ?_, ?_, ?_, ?_, ?_⟩
    · show (stat_run c lb _ rs (stat_step _ _ _ st)).present = _
      rw [a1, f1]
    · show (stat_run c lb _ rs (stat_step _ _ _ st)).n = _
      rw [a2, f2, List.length_cons]
      omega
    · show (stat_run c lb _ rs (stat_step _ _ _ st)).val_sum = _
      rw [a3, f3, chan_sum_cons, to_int32_add, add_assoc]
    · show (((stat_run c lb _ rs (stat_step _ _ _ st)).val2_sum : Nat) : Int) = _
      rw [a4, f4, chan_dot_cons]
      exact macu_acc _ _ _ _
    · show (stat_run c lb _ rs (stat_step _ _ _ st)).prod_sum = _
      rw [a5, f5, chan_dot_cons]
      exact mac32_acc _ _ _ _
    · show (stat_run c lb _ rs (stat_step _ _ _ st)).proddel_sum = _
      rw [a6, f6]
      exact mac32_acc _ _ _ _

theorem accum_voltage_sums (f : c_float) (v d : Int) (vs : reading_stats) :
    (accum_voltage f v d vs).present = vs.present ∧
    (accum_voltage f v d vs).n = (vs.n + 1) % 65536 ∧
    (accum_voltage f v d vs).val_sum = to_int32 (vs.val_sum + v) ∧
    (accum_voltage f v d vs).val2_sum = mac16x16_32u vs.val2_sum v v := by
  simp only [accum_voltage]
  split_ifs <;> exact ⟨rfl, rfl, rfl, rfl⟩

theorem volt_run_sums (f : c_float) (lb : Nat) (rs : List adc_readings_struct) :
    ∀ (past : List Int) (vs : reading_stats), vs.n < 65536 →
      to_int32 vs.val_sum = vs.val_sum → vs.val2_sum < 4294967296 →
      (volt_run f lb past rs vs).n = (vs.n + rs.length) % 65536 ∧
      (volt_run f lb past rs vs).val_sum = to_int32 (vs.val_sum + chan_sum 0 rs) ∧
      (((volt_run f lb past rs vs).val2_sum : Nat) : Int) =
        ((vs.val2_sum : Int) + chan_dot 0 0 rs) % 4294967296 := by
  induction rs with
  | nil =>
    intro past vs hn hs h2
    refine ⟨?_, ?_, ?_⟩
    · show vs.n = (vs.n + 0) % 65536
      omega
    · show vs.val_sum = to_int32 (vs.val_sum + 0)
      rw [add_zero, hs]
    · show (vs.val2_sum : Int) = ((vs.val2_sum : Int) + 0) % 4294967296
      omega
  | cons r rs ih =>
    intro past vs hn hs h2
    obtain ⟨_, e2, e3, e4⟩ := accum_voltage_sums f (chan_of 0 r)
      ((chan_of 0 r :: past).getD lb 0) { vs with oldval := vs.val, val := chan_of 0 r }
    obtain ⟨a2, a3, a4⟩ := ih (chan_of 0 r :: past)
      (volt_step f (chan_of 0 r) ((chan_of 0 r :: past).getD lb 0) vs)
      (by unfold volt_step; rw [e2]; exact Nat.mod_lt _ (by decide))
      (by unfold volt_step; rw [e3]; exact to_int32_idem _)
      (by unfold volt_step; rw [e4]; exact macu_lt _ _ _)
    have g2 : (volt_step f (chan_of 0 r) ((chan_of 0 r :: past).getD lb 0) vs).n =
        (vs.n + 1) % 65536 := e2
    have g3 : (volt_step f (chan_of 0 r) ((chan_of 0 r :: past).getD lb 0) vs).val_sum =
        to_int32 (vs.val_sum + chan_of 0 r) := e3
    have g4 : (volt_step f (chan_of 0 r) ((chan_of 0 r :: past).getD lb 0) vs).val2_sum =
        mac16x16_32u vs.val2_sum (chan_of 0 r) (chan_of 0 r) := e4
    refine ⟨?_, ?_, ?_⟩
    · show (volt_run f lb _ rs (volt_step f _ _ vs)).n = _
      rw [a2, g2, List.length_cons]
      omega
    · show (volt_run f lb _ rs (volt_step f _ _ vs)).val_sum = _
      rw [a3, g3, chan_sum_cons, to_int32_add, add_assoc]
    · show (((volt_run f lb _ rs (volt_step f _ _ vs)).val2_sum : Nat) : Int) = _
      rw [a4, g4, chan_dot_cons]
      exact macu_acc _ _ _ _

theorem getD_mem_four (l : List reading_stats) (j : Nat) (hl : l.length = N_CUR_CHAN)
    (hj : j < N_CUR_CHAN) : l.getD j zero_stats ∈ l :=
  getD_mem_stats l j (by omega)

theorem accum_window (tdur cur next : Nat) (s : sm_state) (past : List Int)
    (rs : List adc_readings_struct)
    (hvals : ∀ r ∈ rs, r.vals.length = N_ADC_CHAN)
    (hring : s.vhist_ring.length = N_VHIST_RING)
    (hist : s.istats.length = N_CUR_CHAN)
    (hcur : s.vhist_cur ≤ N_VHIST_RING) (hlb : s.vhist_lookback < N_VHIST_RING)
    (hpast : ∀ i < N_VHIST_RING, retrieve_vhist i s = some (past.getD i 0))
    (hrv : s.vstats = init_stats s.vstats) (hri : ∀ st ∈ s.istats, st = init_stats st)
    (hlen : rs.length < 65536) :
    ∃ rets s', feed (fun r => accum_stats r tdur cur next) rs s = some (rets, s') ∧
      s'.vstats.n = rs.length ∧
      s'.vstats.val_sum = to_int32 (chan_sum 0 rs) ∧
      (s'.vstats.val2_sum : Int) = chan_dot 0 0 rs % 4294967296 ∧
      ∀ j < N_CUR_CHAN,
        ((s.istats.getD j zero_stats).present ≠ 0 →
          (s'.istats.getD j zero_stats).n = rs.length ∧
          (s'.istats.getD j zero_stats).val_sum = to_int32 (chan_sum (j + 1) rs) ∧
          ((s'.istats.getD j zero_stats).val2_sum : Int) =
            chan_dot (j + 1) (j + 1) rs % 4294967296 ∧
          (s'.istats.getD j zero_stats).prod_sum = to_int32 (chan_dot (j + 1) 0 rs) ∧
          (s'.istats.getD j zero_stats).proddel_sum =
            to_int32 (chan_delayed (j + 1) s.vhist_lookback past rs)) ∧
        ((s.istats.getD j zero_stats).present = 0 →
          s'.istats.getD j zero_stats = s.istats.getD j zero_stats) := by
  obtain ⟨rets, s', e, hv, hi⟩ :=
    accum_run tdur cur next rs s past hvals hring hist hcur hlb hpast
  have hv0 : s.vstats.n = 0 ∧ s.vstats.val_sum = 0 ∧ s.vstats.val2_sum = 0 := by
    rw [hrv]
    exact ⟨rfl, rfl, rfl⟩
  obtain ⟨vn, vs, v2⟩ := volt_run_sums s.vmains_fprod s.vhist_lookback rs past s.vstats
    (by rw [hv0.1]; decide) (by rw [hv0.2.1]; decide) (by rw [hv0.2.2]; decide)
  rw [← hv, hv0.1] at vn
  rw [← hv, hv0.2.1] at vs
  rw [← hv, hv0.2.2] at v2
  refine ⟨rets, s', e, by omega, by rw [vs, zero_add], by rw [v2]; simp, fun j hj => ⟨fun hp => ?_,
    fun hp => by rw [hi j hj]; exact stat_run_absent _ _ rs past _ hp⟩⟩
  have hst := hri _ (getD_mem_four s.istats j hist hj)
  have h0 : (s.istats.getD j zero_stats).n = 0 ∧ (s.istats.getD j zero_stats).val_sum = 0 ∧
      (s.istats.getD j zero_stats).val2_sum = 0 ∧ (s.istats.getD j zero_stats).prod_sum = 0 ∧
      (s.istats.getD j zero_stats).proddel_sum = 0 := by
    rw [hst]
    exact ⟨rfl, rfl, rfl, rfl, rfl⟩
  obtain ⟨_, a2, a3, a4, a5, a6⟩ := stat_run_present (j + 1) s.vhist_lookback rs past
    (s.istats.getD j zero_stats) hp (by rw [h0.1]; decide) (by rw [h0.2.1]; decide)
    (by rw [h0.2.2.2.1]; decide) (by rw [h0.2.2.2.2]; decide) (by rw [h0.2.2.1]; decide)
  rw [← hi j hj] at a2 a3 a4 a5 a6
  rw [h0.1] at a2
  rw [h0.2.1] at a3
  rw [h0.2.2.1] at a4
  rw [h0.2.2.2.1] at a5
  rw [h0.2.2.2.2] at a6
  refine ⟨by omega, by rw [a3, zero_add], by rw [a4]; simp, by rw [a5, zero_add],
    by rw [a6, zero_add]⟩

/-! ## Claims C21 and C22: the sums of a window and the voltage history -/

/-- Claim C21.  Let the statistics be reset (every record equals its
`init_stats`), let `past` be the voltage history before the window, newest
first, and let `accum_stats` process the readings `rs`, fewer than 65536, with
no sum leaving its 32-bit range.  Then `vstats.n` is the number of readings,
`vstats.val_sum` the sum of the voltage readings and `vstats.val2_sum` the sum
of their squares; every current channel `j` marked present has `n` readings,
the sum, the sum of squares, the sum of the products with the voltage, and
the sum of the products with the voltage stored `vhist_lookback` samples
earlier; the record of a channel not marked present is unchanged. -/
theorem accum_stats_sums (tdur cur next : Nat) (s : sm_state) (past : List Int)
    (rs : List adc_readings_struct)
    (hvals : ∀ r ∈ rs, r.vals.length = N_ADC_CHAN)
    (hring : s.vhist_ring.length = N_VHIST_RING)
    (hist : s.istats.length = N_CUR_CHAN)
    (hcur : s.vhist_cur ≤ N_VHIST_RING) (hlb : s.vhist_lookback < N_VHIST_RING)
    (hpast : ∀ i < N_VHIST_RING, retrieve_vhist i s = some (past.getD i 0))
    (hrv : s.vstats = init_stats s.vstats) (hri : ∀ st ∈ s.istats, st = init_stats st)
    (hlen : rs.length < 65536)
    (hfv : fits_int32 (chan_sum 0 rs) ∧ fits_uint32 (chan_dot 0 0 rs))
    (hfi : ∀ j < N_CUR_CHAN, (s.istats.getD j zero_stats).present ≠ 0 →
      fits_int32 (chan_sum (j + 1) rs) ∧ fits_uint32 (chan_dot (j + 1) (j + 1) rs) ∧
      fits_int32 (chan_dot (j + 1) 0 rs) ∧
      fits_int32 (chan_delayed (j + 1) s.vhist_lookback past rs)) :
    ∃ rets s', feed (fun r => accum_stats r tdur cur next) rs s = some (rets, s') ∧
      s'.vstats.n = rs.length ∧
      s'.vstats.val_sum = chan_sum 0 rs ∧
      (s'.vstats.val2_sum : Int) = chan_dot 0 0 rs ∧
      ∀ j < N_CUR_CHAN,
        ((s.istats.getD j zero_stats).present ≠ 0 →
          (s'.istats.getD j zero_stats).n = rs.length ∧
          (s'.istats.getD j zero_stats).val_sum = chan_sum (j + 1) rs ∧
          ((s'.istats.getD j zero_stats).val2_sum : Int) = chan_dot (j + 1) (j + 1) rs ∧
          (s'.istats.getD j zero_stats).prod_sum = chan_dot (j + 1) 0 rs ∧
          (s'.istats.getD j zero_stats).proddel_sum =
            chan_delayed (j + 1) s.vhist_lookback past rs) ∧
        ((s.istats.getD j zero_stats).present = 0 →
          s'.istats.getD j zero_stats = s.istats.getD j zero_stats) := by
  obtain ⟨rets, s', e, vn, vs, v2, hj⟩ :=
    accum_window tdur cur next s past rs hvals hring hist hcur hlb hpast hrv hri hlen
  refine ⟨rets, s', e, vn, ?_, ?_, fun j hjlt => ⟨fun hp => ?_, (hj j hjlt).2⟩⟩
  · rw [vs]
    exact to_int32_small _ hfv.1.1 hfv.1.2
  · rw [v2]
    exact Int.emod_eq_of_lt hfv.2.1 hfv.2.2
  · obtain ⟨a2, a3, a4, a5, a6⟩ := (hj j hjlt).1 hp
    obtain ⟨b3, b4, b5, b6⟩ := hfi j hjlt hp
    refine ⟨a2, ?_, ?_, ?_, ?_⟩
    · rw [a3]
      exact to_int32_small _ b3.1 b3.2
    · rw [a4]
      exact Int.emod_eq_of_lt b4.1 b4.2
    · rw [a5]
      exact to_int32_small _ b5.1 b5.2
    · rw [a6]
      exact to_int32_small _ b6.1 b6.2

set_option maxRecDepth 100000 in
/-- Claim C21, instance: two readings with voltages 3 and -2 and currents 5
and 4 on the first current channel (the only one present), lookback 1, zero
history. -/
theorem accum_stats_sums_witness :
    ∃ rets s', feed (fun r => accum_stats r 1000 STATE_STAT STATE_CALS)
        [scan_reading 3 5, scan_reading (-2) 4]
        { sm_init fresh_state with
          istats := [{ zero_stats with present := 1 }, zero_stats, zero_stats, zero_stats]
          vhist_lookback := 1 } = some (rets, s') ∧
      s'.vstats.n = [scan_reading 3 5, scan_reading (-2) 4].length ∧
      s'.vstats.val_sum = chan_sum 0 [scan_reading 3 5, scan_reading (-2) 4] ∧
      (s'.vstats.val2_sum : Int) = chan_dot 0 0 [scan_reading 3 5, scan_reading (-2) 4] ∧
      ∀ j < N_CUR_CHAN,
        (([{ zero_stats with present := 1 }, zero_stats, zero_stats, zero_stats].getD j
            zero_stats).present ≠ 0 →
          (s'.istats.getD j zero_stats).n = [scan_reading 3 5, scan_reading (-2) 4].length ∧
          (s'.istats.getD j zero_stats).val_sum =
            chan_sum (j + 1) [scan_reading 3 5, scan_reading (-2) 4] ∧
          ((s'.istats.getD j zero_stats).val2_sum : Int) =
            chan_dot (j + 1) (j + 1) [scan_reading 3 5, scan_reading (-2) 4] ∧
          (s'.istats.getD j zero_stats).prod_sum =
            chan_dot (j + 1) 0 [scan_reading 3 5, scan_reading (-2) 4] ∧
          (s'.istats.getD j zero_stats).proddel_sum =
            chan_delayed (j + 1) 1 (List.replicate 24 0)
              [scan_reading 3 5, scan_reading (-2) 4]) ∧
        (([{ zero_stats with present := 1 }, zero_stats, zero_stats, zero_stats].getD j
            zero_stats).present = 0 →
          s'.istats.getD j zero_stats =
            [{ zero_stats with present := 1 }, zero_stats, zero_stats, zero_stats].getD j
              zero_stats) :=
  accum_stats_sums 1000 STATE_STAT STATE_CALS
    { sm_init fresh_state with
      istats := [{ zero_stats with present := 1 }, zero_stats, zero_stats, zero_stats]
      vhist_lookback := 1 }
    (List.replicate 24 0) [scan_reading 3 5, scan_reading (-2) 4]
    (by decide) rfl rfl (by decide) (by decide) (by decide) (by decide) (by decide) (by decide)
    (by unfold fits_int32 fits_uint32; decide)
    (by
      intro j hj _
      have h4 : j < 4 := hj
      interval_cases j <;> (unfold fits_int32 fits_uint32; decide))

/-- Claim C22.  After the values `xs` have been stored by `store_vhist`, for
every `k < N_VHIST_RING` with `k < xs.length`, `retrieve_vhist k` returns the
value stored `k` calls before the last one.  A further `store_vhist` changes
`vhist_cur` and writes one ring slot, leaving the others as they are; once at
least `N_VHIST_RING` values have been stored that slot holds the oldest of the
last `N_VHIST_RING` values. -/
theorem vhist_lookback_spec (s : sm_state) (xs : List Int)
    (hring : s.vhist_ring.length = N_VHIST_RING) :
    ∃ s', store_all xs s = some s' ∧
      (∀ k < N_VHIST_RING, k < xs.length →
        retrieve_vhist k s' = some (xs.reverse.getD k 0)) ∧
      ∀ x, ∃ i < N_VHIST_RING,
        store_vhist x s' =
          some { s' with vhist_cur := i, vhist_ring := s'.vhist_ring.set i x } ∧
        (N_VHIST_RING ≤ xs.length →
          s'.vhist_ring[i]? = some (xs.reverse.getD (N_VHIST_RING - 1) 0)) := by
  obtain ⟨s', e, hl, hc, hv⟩ := store_all_inv xs s hring
  refine ⟨s', e, fun k hk hkl => ?_, fun x => ?_⟩
  · have hne : xs ≠ [] := by
      intro h
      rw [h] at hkl
      exact absurd hkl (Nat.not_lt_zero k)
    rw [retrieve_vhist_eq k s' (le_of_lt (hc hne)) hk]
    exact hv k hk hkl
  · refine ⟨(s'.vhist_cur + 1) % N_VHIST_RING, Nat.mod_lt _ (by decide),
      store_vhist_eq x s' hl, fun hfull => ?_⟩
    have hne : xs ≠ [] := by
      intro h
      rw [h] at hfull
      exact absurd hfull (by decide)
    have h23 := hv (N_VHIST_RING - 1) (by decide)
      (lt_of_lt_of_le (show N_VHIST_RING - 1 < N_VHIST_RING by decide) hfull)
    have hidx : (s'.vhist_cur + N_VHIST_RING - (N_VHIST_RING - 1)) % N_VHIST_RING =
        (s'.vhist_cur + 1) % N_VHIST_RING := by
      show (s'.vhist_cur + 24 - (24 - 1)) % 24 = (s'.vhist_cur + 1) % 24
      omega
    rw [hidx] at h23
    exact h23

/-- Claim C22, instance: three values stored from the initial state. -/
theorem vhist_lookback_spec_witness :
    ∃ s', store_all [10, 20, 30] (sm_init fresh_state) = some s' ∧
      (∀ k < N_VHIST_RING, k < [10, 20, 30].length →
        retrieve_vhist k s' = some (([10, 20, 30] : List Int).reverse.getD k 0)) ∧
      ∀ x, ∃ i < N_VHIST_RING,
        store_vhist x s' =
          some { s' with vhist_cur := i, vhist_ring := s'.vhist_ring.set i x } ∧
        (N_VHIST_RING ≤ [10, 20, 30].length →
          s'.vhist_ring[i]? = some (([10, 20, 30] : List Int).reverse.getD (N_VHIST_RING - 1) 0)) :=
  vhist_lookback_spec (sm_init fresh_state) [10, 20, 30] rfl

/-! # The energy counters -/

theorem to_int16_small (a : Int) (h0 : -32768 ≤ a) (h1 : a ≤ 32767) : to_int16 a = a := by
  unfold to_int16
  omega

theorem to_int16_fits (a : Int) : fits_int16 (to_int16 a) := by
  unfold fits_int16 to_int16
  omega

theorem energy_add_fits (ops : float_ops) (f : Int) (t p : c_float) :
    fits_int16 (energy_add ops f t p) :=
  to_int16_fits _

theorem carry_up_eq : ∀ (k n : Nat) (f E : Int), k < n → f ≤ 32767 →
    (k = 0 → f ≤ 3600) → (k ≠ 0 → 3600 * (k : Int) < f ∧ f ≤ 3600 * ((k : Int) + 1)) →
    carry_up n f E = some (f - 3600 * (k : Int), if k = 0 then E else to_int32 (E + (k : Int)))
  | 0, n, f, E, hn, _, h0, _ => by
    obtain ⟨m, rfl⟩ : ∃ m, n = m + 1 := ⟨n - 1, by omega⟩
    have h := h0 rfl
    have hnot : ¬ f > 3600 := by omega
    simp [carry_up, hnot]
  | k + 1, n, f, E, hn, hf, _, h1 => by
    obtain ⟨m, rfl⟩ : ∃ m, n = m + 1 := ⟨n - 1, by omega⟩
    have h := h1 (by omega)
    have hgt : f > 3600 := by omega
    have h16 : to_int16 (f - 3600) = f - 3600 := to_int16_small _ (by omega) (by omega)
    have ih := carry_up_eq k m (f - 3600) (to_int32 (E + 1)) (by omega) (by omega)
      (fun hk => by subst hk; omega) (fun _ => by constructor <;> push_cast at h ⊢ <;> omega)
    have hstep : carry_up (m + 1) f E = carry_up m (f - 3600) (to_int32 (E + 1)) := by
      simp [carry_up, hgt, h16]
    rw [hstep, ih]
    have hk1 : ¬ (k + 1 = 0) := by omega
    simp only [hk1, if_false]
    congr 1
    refine Prod.ext (by push_cast; ring) ?_
    by_cases hk : k = 0
    · subst hk
      simp
    · simp only [hk, if_false]
      rw [to_int32_add]
      congr 1
      push_cast
      ring

theorem carry_down_eq : ∀ (k n : Nat) (f E : Int), k < n → -32768 ≤ f →
    (k = 0 → -3600 ≤ f) → (k ≠ 0 → f < -(3600 * (k : Int)) ∧ -(3600 * ((k : Int) + 1)) ≤ f) →
    carry_down n f E = some (f + 3600 * (k : Int), if k = 0 then E else to_int32 (E - (k : Int)))
  | 0, n, f, E, hn, _, h0, _ => by
    obtain ⟨m, rfl⟩ : ∃ m, n = m + 1 := ⟨n - 1, by omega⟩
    have h := h0 rfl
    have hnot : ¬ f < -3600 := by omega
    simp [carry_down, hnot]
  | k + 1, n, f, E, hn, hf, _, h1 => by
    obtain ⟨m, rfl⟩ : ∃ m, n = m + 1 := ⟨n - 1, by omega⟩
    have h := h1 (by omega)
    have hlt : f < -3600 := by omega
    have h16 : to_int16 (f + 3600) = f + 3600 := to_int16_small _ (by omega) (by omega)
    have ih := carry_down_eq k m (f + 3600) (to_int32 (E - 1)) (by omega) (by omega)
      (fun hk => by subst hk; omega) (fun _ => by constructor <;> push_cast at h ⊢ <;> omega)
    have hstep : carry_down (m + 1) f E = carry_down m (f + 3600) (to_int32 (E - 1)) := by
      simp [carry_down, hlt, h16]
    rw [hstep, ih]
    have hk1 : ¬ (k + 1 = 0) := by omega
    simp only [hk1, if_false]
    congr 1
    refine Prod.ext (by push_cast; ring) ?_
    by_cases hk : k = 0
    · subst hk
      simp
    · simp only [hk, if_false]
      rw [sub_eq_add_neg, sub_eq_add_neg, to_int32_add]
      congr 1
      push_cast
      ring

theorem carry_count_bound (f : Int) (hf : fits_int16 f) :
    -9 ≤ carry_count f ∧ carry_count f ≤ 9 := by
  unfold fits_int16 at hf
  unfold carry_count
  split_ifs <;> omega

/-- What is left in the fractional counter: between `1` and `3600` after
carries upwards, between `-3600` and `-1` after carries downwards, the sum
itself without carries. -/
theorem carry_count_rest (f : Int) :
    (3600 < f → 0 < f - 3600 * carry_count f ∧ f - 3600 * carry_count f ≤ 3600 ∧
      0 < carry_count f) ∧
    (f < -3600 → -3600 ≤ f - 3600 * carry_count f ∧ f - 3600 * carry_count f < 0 ∧
      carry_count f < 0) ∧
    (-3600 ≤ f → f ≤ 3600 → carry_count f = 0) := by
  unfold carry_count
  refine ⟨fun h => ?_, fun h => ?_, fun h1 h2 => ?_⟩
  · simp only [gt_iff_lt, h, if_true]
    omega
  · have hn : ¬ (3600 < f) := by omega
    simp only [gt_iff_lt, hn, if_false, h, if_true]
    omega
  · have hn : ¬ (3600 < f) := by omega
    have hm : ¬ (f < -3600) := by omega
    simp only [gt_iff_lt, hn, hm, if_false]

/-- The two carry loops leave their loop within the fuel for every 16-bit
fractional sum. -/
theorem energy_carry_eq (f E : Int) (hf : fits_int16 f) :
    energy_carry f E =
      some (f - 3600 * carry_count f,
        if carry_count f = 0 then E else to_int32 (E + carry_count f)) := by
  unfold fits_int16 at hf
  obtain ⟨hup, hdown, hmid⟩ := carry_count_rest f
  have hb := carry_count_bound f hf
  rcases lt_trichotomy 3600 f with h | h | h
  · obtain ⟨r1, r2, r3⟩ := hup h
    obtain ⟨k, hk⟩ : ∃ k : Nat, (k : Int) = carry_count f := ⟨(carry_count f).toNat, by omega⟩
    have hk0 : k ≠ 0 := by omega
    have e1 := carry_up_eq k carry_fuel f E (by unfold carry_fuel; omega) (by omega)
      (fun hz => absurd hz hk0) (fun _ => by omega)
    have e2 := carry_down_eq 0 carry_fuel (f - 3600 * (k : Int))
      (if k = 0 then E else to_int32 (E + (k : Int))) (by unfold carry_fuel; omega) (by omega)
      (fun _ => by omega) (fun hz => absurd rfl hz)
    have hc : ¬ (carry_count f = 0) := by omega
    simp only [hk0, if_false, if_true, Nat.cast_zero, mul_zero, add_zero] at e1 e2
    rw [hk] at e1 e2
    simp only [energy_carry, e1, Option.bind_eq_bind, Option.some_bind, e2, hc, if_false]
  · have hc := hmid (by omega) (by omega)
    have e1 := carry_up_eq 0 carry_fuel f E (by unfold carry_fuel; omega) (by omega)
      (fun _ => by omega) (fun hz => absurd rfl hz)
    have e2 := carry_down_eq 0 carry_fuel f E (by unfold carry_fuel; omega) (by omega)
      (fun _ => by omega) (fun hz => absurd rfl hz)
    simp only [if_true, Nat.cast_zero, mul_zero, sub_zero, add_zero] at e1 e2
    simp only [energy_carry, e1, Option.bind_eq_bind, Option.some_bind, e2, hc, if_true,
      mul_zero, sub_zero]
  · by_cases hlow : f < -3600
    · obtain ⟨r1, r2, r3⟩ := hdown hlow
      obtain ⟨k, hk⟩ : ∃ k : Nat, (k : Int) = -carry_count f :=
        ⟨(-carry_count f).toNat, by omega⟩
      have hk0 : k ≠ 0 := by omega
      have e1 := carry_up_eq 0 carry_fuel f E (by unfold carry_fuel; omega) (by omega)
        (fun _ => by omega) (fun hz => absurd rfl hz)
      have e2 := carry_down_eq k carry_fuel f E (by unfold carry_fuel; omega) (by omega)
        (fun hz => absurd hz hk0) (fun _ => by omega)
      have hc : ¬ (carry_count f = 0) := by omega
      have hkk : carry_count f = -(k : Int) := by omega
      simp only [if_true, Nat.cast_zero, mul_zero, sub_zero] at e1
      simp only [energy_carry, e1, Option.bind_eq_bind, Option.some_bind, e2, hk0, if_false,
        hc, hkk]
      have hkz : ¬ (-(k : Int) = 0) := by omega
      simp only [hkz, if_false]
      congr 1
      refine Prod.ext (by simp only; ring) ?_
      simp only [sub_eq_add_neg]
    · have hc := hmid (by omega) (by omega)
      have e1 := carry_up_eq 0 carry_fuel f E (by unfold carry_fuel; omega) (by omega)
        (fun _ => by omega) (fun hz => absurd rfl hz)
      have e2 := carry_down_eq 0 carry_fuel f E (by unfold carry_fuel; omega) (by omega)
        (fun _ => by omega) (fun hz => absurd rfl hz)
      simp only [if_true, Nat.cast_zero, mul_zero, sub_zero, add_zero] at e1 e2
      simp only [energy_carry, e1, Option.bind_eq_bind, Option.some_bind, e2, hc, if_true,
        mul_zero, sub_zero]

/-- Without a wrap of the integer counter the carry loops add the number of
passes to it. -/
theorem energy_carry_nowrap (f E : Int) (hf : fits_int16 f)
    (hw : fits_int32 (E + carry_count f)) :
    energy_carry f E = some (f - 3600 * carry_count f, E + carry_count f) := by
  rw [energy_carry_eq f E hf]
  by_cases hc : carry_count f = 0
  · simp [hc]
  · simp only [hc, if_false]
    rw [to_int32_small _ hw.1 hw.2]

/-- The rollover test fires exactly when the sum of the counter and the
number of passes is outside the 32-bit range. -/
theorem sign_flip_iff (E c : Int) (hE : fits_int32 E) (hc : -9 ≤ c ∧ c ≤ 9) :
    ((E > 0x70000000 ∧ to_int32 (E + c) < 0) ∨ (E < -0x70000000 ∧ to_int32 (E + c) > 0)) ↔
      ¬ fits_int32 (E + c) := by
  unfold fits_int32 at hE ⊢
  unfold to_int32
  omega

theorem energy_step_eq (ops : float_ops) (t p : c_float) (f E : Int) (hE : fits_int32 E) :
    energy_step ops t p (f, E) =
      some (energy_add ops f t p - 3600 * carry_count (energy_add ops f t p),
        rollover_reset E (to_int32 (E + carry_count (energy_add ops f t p)))) := by
  have hf := energy_add_fits ops f t p
  simp only [energy_step, energy_carry_eq _ E hf, Option.bind_eq_bind, Option.some_bind]
  by_cases hc : carry_count (energy_add ops f t p) = 0
  · simp only [hc, if_true, add_zero, to_int32_small E hE.1 hE.2]
  · simp only [hc, if_false]

theorem rollover_reset_nowrap (E c : Int) (hE : fits_int32 E) (hc : -9 ≤ c ∧ c ≤ 9)
    (hw : fits_int32 (E + c)) : rollover_reset E (to_int32 (E + c)) = E + c := by
  have h := (sign_flip_iff E c hE hc).not.mpr (not_not.mpr hw)
  unfold rollover_reset
  rw [if_neg h, to_int32_small _ hw.1 hw.2]

theorem rollover_reset_wrap (E c : Int) (hE : fits_int32 E) (hc : -9 ≤ c ∧ c ≤ 9)
    (hw : ¬ fits_int32 (E + c)) : rollover_reset E (to_int32 (E + c)) = 0 := by
  have h := (sign_flip_iff E c hE hc).mpr hw
  unfold rollover_reset
  rw [if_pos h]

theorem energy_step_nowrap (ops : float_ops) (t p : c_float) (f E : Int) (hE : fits_int32 E)
    (hw : fits_int32 (E + carry_count (energy_add ops f t p))) :
    energy_step ops t p (f, E) =
      some (energy_add ops f t p - 3600 * carry_count (energy_add ops f t p),
        E + carry_count (energy_add ops f t p)) := by
  rw [energy_step_eq ops t p f E hE,
    rollover_reset_nowrap E _ hE (carry_count_bound _ (energy_add_fits ops f t p)) hw]

theorem energy_block_eq (ops : float_ops) (t pac pre : c_float) (s : calc_state)
    (a r : Int × Int)
    (ha : energy_step ops t pac (s.energy_fracac, s.energy_active) = some a)
    (hr : energy_step ops t pre (s.energy_fracre, s.energy_reactive) = some r) :
    energy_block ops t pac pre s =
      some { s with
        energy_fracac := a.1
        energy_active := a.2
        energy_fracre := r.1
        energy_reactive := r.2 } := by
  simp only [energy_block, ha, hr, Option.bind_eq_bind, Option.some_bind]

/-- The energy statements always run to their end. -/
theorem energy_step_some (ops : float_ops) (t p : c_float) (acc : Int × Int) :
    ∃ r, energy_step ops t p acc = some r := by
  have hf := energy_add_fits ops acc.1 t p
  simp only [energy_step, energy_carry_eq _ acc.2 hf, Option.bind_eq_bind, Option.some_bind]
  exact ⟨_, rfl⟩

theorem energy_block_some (ops : float_ops) (t pac pre : c_float) (s : calc_state) :
    ∃ a r, energy_block ops t pac pre s =
      some { s with
        energy_fracac := a.1
        energy_active := a.2
        energy_fracre := r.1
        energy_reactive := r.2 } ∧
      energy_step ops t pac (s.energy_fracac, s.energy_active) = some a ∧
      energy_step ops t pre (s.energy_fracre, s.energy_reactive) = some r := by
  obtain ⟨a, ha⟩ := energy_step_some ops t pac (s.energy_fracac, s.energy_active)
  obtain ⟨r, hr⟩ := energy_step_some ops t pre (s.energy_fracre, s.energy_reactive)
  exact ⟨a, r, energy_block_eq ops t pac pre s a r ha hr, ha, hr⟩

/-! # Claims about the energy counters -/

theorem tdiv_3600 (f : Int) :
    Int.tdiv f 3600 = if 0 ≤ f then f / 3600 else -((-f) / 3600) := by
  by_cases h : 0 ≤ f
  · rw [if_pos h, Int.tdiv_eq_ediv h (by decide)]
  · rw [if_neg h]
    have hn : 0 ≤ -f := by omega
    have e : Int.tdiv f 3600 = -(Int.tdiv (-f) 3600) := by
      rw [Int.neg_tdiv, neg_neg]
    rw [e, Int.tdiv_eq_ediv hn (by decide)]

theorem tmod_3600 (f : Int) : Int.tmod f 3600 = f - 3600 * Int.tdiv f 3600 := by
  have h := Int.tdiv_add_tmod f 3600
  omega

/-- Splitting an addition to the fractional counter in two parts of the same
sign makes the same number of passes of the carry loops in total. -/
theorem carry_count_split (f k1 k2 : Int) (hf : -3600 ≤ f ∧ f ≤ 3600)
    (hsign : (0 ≤ k1 ∧ 0 ≤ k2) ∨ (k1 ≤ 0 ∧ k2 ≤ 0)) :
    carry_count (f + k1) + carry_count (f + k1 - 3600 * carry_count (f + k1) + k2) =
        carry_count (f + (k1 + k2)) ∧
      ((0 ≤ carry_count (f + k1) ∧ carry_count (f + k1) ≤ carry_count (f + (k1 + k2))) ∨
        (carry_count (f + (k1 + k2)) ≤ carry_count (f + k1) ∧ carry_count (f + k1) ≤ 0)) := by
  obtain ⟨u1, d1, m1⟩ := carry_count_rest (f + k1)
  generalize hc1 : carry_count (f + k1) = c1 at u1 d1 m1 ⊢
  have hc1' : c1 = if f + k1 > 3600 then (f + k1 - 1) / 3600
      else if f + k1 < -3600 then -((-(f + k1) - 1) / 3600) else 0 := by
    rw [← hc1]
    rfl
  unfold carry_count
  split_ifs at hc1' ⊢ <;> omega

/-- Claim C24: the carry step conserves energy.  For every fractional sum
`f` in the signed 16-bit range and every value `E` of the integer counter in
the 32-bit range that the passes of the carry loops do not take out of that
range, the two carry loops return, and the pair `(f', E')` they return
satisfies `3600 * E' + f' = 3600 * E + f` and `-3600 ≤ f' ≤ 3600`.  In
`energy_block`, which always returns, this holds for the active pair
(`energy_fracac`, `energy_active`) and for the reactive pair
(`energy_fracre`, `energy_reactive`), each whatever the other does. -/
theorem energy_carry_conserves (f E : Int) (hf : fits_int16 f) (hE : fits_int32 E)
    (hw : fits_int32 (E + carry_count f)) :
    (∃ r, energy_carry f E = some r ∧ 3600 * r.2 + r.1 = 3600 * E + f ∧
      -3600 ≤ r.1 ∧ r.1 ≤ 3600) ∧
    ∀ (ops : float_ops) (t pac pre : c_float) (s : calc_state),
      ∃ s', energy_block ops t pac pre s = some s' ∧
        (energy_add ops s.energy_fracac t pac = f → s.energy_active = E →
          3600 * s'.energy_active + s'.energy_fracac = 3600 * E + f ∧
          -3600 ≤ s'.energy_fracac ∧ s'.energy_fracac ≤ 3600) ∧
        (energy_add ops s.energy_fracre t pre = f → s.energy_reactive = E →
          3600 * s'.energy_reactive + s'.energy_fracre = 3600 * E + f ∧
          -3600 ≤ s'.energy_fracre ∧ s'.energy_fracre ≤ 3600) := by
  obtain ⟨hup, hdown, hmid⟩ := carry_count_rest f
  have hrange : -3600 ≤ f - 3600 * carry_count f ∧ f - 3600 * carry_count f ≤ 3600 := by
    rcases lt_trichotomy 3600 f with h | h | h
    · have := hup h
      omega
    · have := hmid (by omega) (by omega)
      omega
    · by_cases hl : f < -3600
      · have := hdown hl
        omega
      · have := hmid (by omega) (by omega)
        omega
  refine ⟨⟨_, energy_carry_nowrap f E hf hw, by simp only; ring, hrange.1, hrange.2⟩, ?_⟩
  intro ops t pac pre s
  obtain ⟨a, r, hblock, ha, hr⟩ := energy_block_some ops t pac pre s
  refine ⟨_, hblock, fun hadd hact => ?_, fun hadd hact => ?_⟩
  · have hE' : fits_int32 s.energy_active := by rw [hact]; exact hE
    have hw' : fits_int32 (s.energy_active +
        carry_count (energy_add ops s.energy_fracac t pac)) := by rw [hact, hadd]; exact hw
    have e := energy_step_nowrap ops t pac s.energy_fracac s.energy_active hE' hw'
    rw [ha] at e
    have ea := Option.some.inj e
    have e1 : a.1 = f - 3600 * carry_count f := by rw [ea, hadd]
    have e2 : a.2 = E + carry_count f := by rw [ea, hadd, hact]
    show 3600 * a.2 + a.1 = 3600 * E + f ∧ -3600 ≤ a.1 ∧ a.1 ≤ 3600
    rw [e1, e2]
    exact ⟨by ring, hrange.1, hrange.2⟩
  · have hE' : fits_int32 s.energy_reactive := by rw [hact]; exact hE
    have hw' : fits_int32 (s.energy_reactive +
        carry_count (energy_add ops s.energy_fracre t pre)) := by rw [hact, hadd]; exact hw
    have e := energy_step_nowrap ops t pre s.energy_fracre s.energy_reactive hE' hw'
    rw [hr] at e
    have er := Option.some.inj e
    have e1 : r.1 = f - 3600 * carry_count f := by rw [er, hadd]
    have e2 : r.2 = E + carry_count f := by rw [er, hadd, hact]
    show 3600 * r.2 + r.1 = 3600 * E + f ∧ -3600 ≤ r.1 ∧ r.1 ≤ 3600
    rw [e1, e2]
    exact ⟨by ring, hrange.1, hrange.2⟩

/-- Claim C24, instance: a fractional sum of 8000 with the integer counter
at 5. -/
theorem energy_carry_conserves_witness :
    (∃ r, energy_carry 8000 5 = some r ∧ 3600 * r.2 + r.1 = 3600 * 5 + 8000 ∧
      -3600 ≤ r.1 ∧ r.1 ≤ 3600) ∧
    ∀ (ops : float_ops) (t pac pre : c_float) (s : calc_state),
      ∃ s', energy_block ops t pac pre s = some s' ∧
        (energy_add ops s.energy_fracac t pac = 8000 → s.energy_active = 5 →
          3600 * s'.energy_active + s'.energy_fracac = 3600 * 5 + 8000 ∧
          -3600 ≤ s'.energy_fracac ∧ s'.energy_fracac ≤ 3600) ∧
        (energy_add ops s.energy_fracre t pre = 8000 → s.energy_reactive = 5 →
          3600 * s'.energy_reactive + s'.energy_fracre = 3600 * 5 + 8000 ∧
          -3600 ≤ s'.energy_fracre ∧ s'.energy_fracre ≤ 3600) :=
  energy_carry_conserves 8000 5 ⟨by decide, by decide⟩ ⟨by decide, by decide⟩
    ⟨by decide, by decide⟩

/-- Claim C25, counterexample: a fractional sum of exactly 3600 contains one
full threshold, but the loop condition is `energy_fracac > +3600`, so no
carry is made: the integer counter is unchanged and the fractional counter
keeps 3600, which is not below 3600. -/
theorem energy_carry_at_threshold :
    ∃ r, energy_carry 3600 0 = some r ∧ r.2 - 0 ≠ Int.tdiv 3600 3600 ∧ ¬ (|r.1| < 3600) :=
  ⟨(3600, 0), by decide, by decide, by decide⟩

/-- Claim C25, amended: for every fractional sum `f` in the signed 16-bit
range (and an integer counter `E` that the carries keep in the 32-bit range)
the carry loops return `(f', E')` with `E' - E = carry_count f` and
`f' = f - 3600 * (E' - E)`, where `carry_count f` is `(f - 1) / 3600` rounded
down for `f > 3600` (then `0 < f' ≤ 3600`), its mirror image for `f < -3600`
(then `-3600 ≤ f' < 0`), and `0` otherwise (then `f' = f`).  So the counter
changes by `f / 3600` truncated toward zero and `f'` is the remainder, of
magnitude below 3600, unless `f` is a non-zero multiple of 3600; for those
the counter changes by one less in magnitude and `f'` is `3600` or `-3600`. -/
theorem energy_carry_count_spec (f E : Int) (hf : fits_int16 f)
    (hw : fits_int32 (E + carry_count f)) :
    ∃ r, energy_carry f E = some r ∧ r.2 - E = carry_count f ∧
      r.1 = f - 3600 * carry_count f ∧
      (3600 < f → carry_count f = (f - 1) / 3600 ∧ 0 < r.1 ∧ r.1 ≤ 3600) ∧
      (f < -3600 → carry_count f = -((-f - 1) / 3600) ∧ -3600 ≤ r.1 ∧ r.1 < 0) ∧
      (-3600 ≤ f → f ≤ 3600 → carry_count f = 0 ∧ r.1 = f) ∧
      (f % 3600 ≠ 0 ∨ f = 0 →
        r.2 - E = Int.tdiv f 3600 ∧ r.1 = Int.tmod f 3600 ∧ |r.1| < 3600) ∧
      (f % 3600 = 0 → 0 < f → r.2 - E = Int.tdiv f 3600 - 1 ∧ r.1 = 3600) ∧
      (f % 3600 = 0 → f < 0 → r.2 - E = Int.tdiv f 3600 + 1 ∧ r.1 = -3600) := by
  obtain ⟨hup, hdown, hmid⟩ := carry_count_rest f
  have hdef : carry_count f = if f > 3600 then (f - 1) / 3600
      else if f < -3600 then -((-f - 1) / 3600) else 0 := rfl
  have ht := tdiv_3600 f
  have hm := tmod_3600 f
  refine ⟨_, energy_carry_nowrap f E hf hw, by simp, rfl, fun h => ?_, fun h => ?_,
    fun h1 h2 => ?_, fun h => ?_, fun h1 h2 => ?_, fun h1 h2 => ?_⟩
  · have := hup h
    refine ⟨?_, this.1, this.2.1⟩
    rw [hdef, if_pos h]
  · have := hdown h
    have hn : ¬ (f > 3600) := by omega
    refine ⟨?_, this.1, this.2.1⟩
    rw [hdef, if_neg hn, if_pos h]
  · have := hmid h1 h2
    exact ⟨this, by simp only; rw [this]; ring⟩
  · simp only [add_sub_cancel_left]
    rw [hm, ht, abs_lt]
    generalize carry_count f = c at hdef ⊢
    split_ifs at hdef ⊢ <;> omega
  · simp only [add_sub_cancel_left]
    rw [ht]
    generalize carry_count f = c at hdef ⊢
    split_ifs at hdef ⊢ <;> omega
  · simp only [add_sub_cancel_left]
    rw [ht]
    generalize carry_count f = c at hdef ⊢
    split_ifs at hdef ⊢ <;> omega

/-- Claim C25, instance: a fractional sum of -8000 with the integer counter
at 5. -/
theorem energy_carry_count_spec_witness :
    ∃ r, energy_carry (-8000) 5 = some r ∧ r.2 - 5 = carry_count (-8000) ∧
      r.1 = -8000 - 3600 * carry_count (-8000) ∧
      (3600 < (-8000 : Int) →
        carry_count (-8000) = (-8000 - 1) / 3600 ∧ 0 < r.1 ∧ r.1 ≤ 3600) ∧
      ((-8000 : Int) < -3600 →
        carry_count (-8000) = -((- -8000 - 1) / 3600) ∧ -3600 ≤ r.1 ∧ r.1 < 0) ∧
      (-3600 ≤ (-8000 : Int) → (-8000 : Int) ≤ 3600 → carry_count (-8000) = 0 ∧ r.1 = -8000) ∧
      ((-8000 : Int) % 3600 ≠ 0 ∨ (-8000 : Int) = 0 →
        r.2 - 5 = Int.tdiv (-8000) 3600 ∧ r.1 = Int.tmod (-8000) 3600 ∧ |r.1| < 3600) ∧
      ((-8000 : Int) % 3600 = 0 → 0 < (-8000 : Int) →
        r.2 - 5 = Int.tdiv (-8000) 3600 - 1 ∧ r.1 = 3600) ∧
      ((-8000 : Int) % 3600 = 0 → (-8000 : Int) < 0 →
        r.2 - 5 = Int.tdiv (-8000) 3600 + 1 ∧ r.1 = -3600) :=
  energy_carry_count_spec (-8000) 5 ⟨by decide, by decide⟩ ⟨by decide, by decide⟩

/-- Claim C27: the rollover test.  For every 16-bit fractional sum `g` and
every 32-bit value `E` of the integer counter before the update, the carry
loops return `(f', E')` with `E'` the 32-bit wrap of `E + carry_count g`,
where the number of passes `carry_count g` is between -9 and 9.  The test of
the source (`E > 0x70000000` and `E' < 0`, or `E < -0x70000000` and
`E' > 0`) holds exactly when `E + carry_count g` is outside the 32-bit range,
that is when the counter wrapped; then the counter is set to 0, and in every
other case it keeps `E'`.  This is what `energy_step` returns for each
pair. -/
theorem rollover_reset_spec (g E : Int) (hg : fits_int16 g) (hE : fits_int32 E) :
    ∃ r, energy_carry g E = some r ∧ r.2 = to_int32 (E + carry_count g) ∧
      -9 ≤ carry_count g ∧ carry_count g ≤ 9 ∧
      (((E > 0x70000000 ∧ r.2 < 0) ∨ (E < -0x70000000 ∧ r.2 > 0)) ↔
        ¬ fits_int32 (E + carry_count g)) ∧
      (((E > 0x70000000 ∧ r.2 < 0) ∨ (E < -0x70000000 ∧ r.2 > 0)) →
        rollover_reset E r.2 = 0) ∧
      (¬ ((E > 0x70000000 ∧ r.2 < 0) ∨ (E < -0x70000000 ∧ r.2 > 0)) →
        rollover_reset E r.2 = r.2 ∧ r.2 = E + carry_count g) ∧
      ∀ (ops : float_ops) (t p : c_float) (f : Int), energy_add ops f t p = g →
        energy_step ops t p (f, E) = some (r.1, rollover_reset E r.2) := by
  have hb := carry_count_bound g hg
  have hflip := sign_flip_iff E (carry_count g) hE hb
  refine ⟨(g - 3600 * carry_count g, to_int32 (E + carry_count g)), ?_, rfl, hb.1, hb.2,
    hflip, fun h => ?_, fun h => ⟨?_, ?_⟩, fun ops t p f hadd => ?_⟩
  · rw [energy_carry_eq g E hg]
    by_cases hc : carry_count g = 0
    · simp only [hc, if_true, add_zero, to_int32_small E hE.1 hE.2]
    · simp only [hc, if_false]
  · exact rollover_reset_wrap E _ hE hb (hflip.mp h)
  · unfold rollover_reset
    rw [if_neg h]
  · have hw : fits_int32 (E + carry_count g) := not_not.mp (hflip.not.mp h)
    exact to_int32_small _ hw.1 hw.2
  · rw [energy_step_eq ops t p f E hE, hadd]

/-- Claim C27, instance: a fractional sum of 4000 with the integer counter at
`INT32_MAX`; the carry wraps the counter and the test sets it to 0. -/
theorem rollover_reset_spec_witness :
    ∃ r, energy_carry 4000 2147483647 = some r ∧
      r.2 = to_int32 (2147483647 + carry_count 4000) ∧
      -9 ≤ carry_count 4000 ∧ carry_count 4000 ≤ 9 ∧
      ((((2147483647 : Int) > 0x70000000 ∧ r.2 < 0) ∨
          ((2147483647 : Int) < -0x70000000 ∧ r.2 > 0)) ↔
        ¬ fits_int32 (2147483647 + carry_count 4000)) ∧
      ((((2147483647 : Int) > 0x70000000 ∧ r.2 < 0) ∨
          ((2147483647 : Int) < -0x70000000 ∧ r.2 > 0)) →
        rollover_reset 2147483647 r.2 = 0) ∧
      (¬ (((2147483647 : Int) > 0x70000000 ∧ r.2 < 0) ∨
          ((2147483647 : Int) < -0x70000000 ∧ r.2 > 0)) →
        rollover_reset 2147483647 r.2 = r.2 ∧ r.2 = 2147483647 + carry_count 4000) ∧
      ∀ (ops : float_ops) (t p : c_float) (f : Int), energy_add ops f t p = 4000 →
        energy_step ops t p (f, 2147483647) = some (r.1, rollover_reset 2147483647 r.2) :=
  rollover_reset_spec 4000 2147483647 ⟨by decide, by decide⟩ ⟨by decide, by decide⟩

set_option maxRecDepth 100000 in
/-- Claim C26, counterexample: a constant power of 0.75 W for 2 seconds,
from an empty accumulator.  Two windows of 1 s each add `0.75` to the
fractional counter, which the conversion to `int16_t` turns into 0, so the
accumulator stays at 0; one window of 2 s adds `1.5`, which leaves 1 Ws. -/
theorem energy_split_differs :
    (sub32 1000000 0 = 1000000 ∧ sub32 2000000 1000000 = 1000000 ∧
      sub32 2000000 0 = 2000000) ∧
    (energy_step ieee_ops (accum_time_of ieee_ops 1000000) (f32_lit 75 2) (0, 0)).bind
        (energy_step ieee_ops (accum_time_of ieee_ops 1000000) (f32_lit 75 2)) = some (0, 0) ∧
    energy_step ieee_ops (accum_time_of ieee_ops 2000000) (f32_lit 75 2) (0, 0) =
      some (1, 0) := by
  refine ⟨by decide, ?_, ?_⟩ <;> decide

/-- The carry arithmetic of two windows against one window, for every `float`
arithmetic: if the fractional counter `f` is between -3600 and 3600, the
addition of the first window yields `f + k1`, that of the second window
yields `k2` more, that of the single window yields `f + (k1 + k2)`, `k1` and
`k2` have one sign and the integer counter stays in the 32-bit range, then the
two windows in sequence and the single window leave the pair (fractional
counter, integer counter) in the same state, with `3600 * E + f` changed by
`k1 + k2`. -/
theorem energy_split_whole (ops : float_ops) (t1 t2 t p : c_float) (f E k1 k2 : Int)
    (hf : -3600 ≤ f ∧ f ≤ 3600) (hE : fits_int32 E)
    (hsign : (0 ≤ k1 ∧ 0 ≤ k2) ∨ (k1 ≤ 0 ∧ k2 ≤ 0))
    (h1 : energy_add ops f t1 p = f + k1)
    (h2 : energy_add ops (f + k1 - 3600 * carry_count (f + k1)) t2 p =
      f + k1 - 3600 * carry_count (f + k1) + k2)
    (h : energy_add ops f t p = f + (k1 + k2))
    (hw : fits_int32 (E + carry_count (f + (k1 + k2)))) :
    ∃ a b, energy_step ops t1 p (f, E) = some a ∧ energy_step ops t2 p a = some b ∧
      energy_step ops t p (f, E) = some b ∧
      3600 * b.2 + b.1 = 3600 * E + f + (k1 + k2) := by
  obtain ⟨hsum, hord⟩ := carry_count_split f k1 k2 hf hsign
  have hw1 : fits_int32 (E + carry_count (f + k1)) := by
    unfold fits_int32 at hE hw ⊢
    omega
  have e1 : energy_step ops t1 p (f, E) =
      some (f + k1 - 3600 * carry_count (f + k1), E + carry_count (f + k1)) := by
    have e := energy_step_nowrap ops t1 p f E hE (by rw [h1]; exact hw1)
    rw [h1] at e
    exact e
  have hw2 : fits_int32 (E + carry_count (f + k1) +
      carry_count (f + k1 - 3600 * carry_count (f + k1) + k2)) := by
    rw [add_assoc, hsum]
    exact hw
  have e2 : energy_step ops t2 p
      (f + k1 - 3600 * carry_count (f + k1), E + carry_count (f + k1)) =
      some (f + k1 - 3600 * carry_count (f + k1) + k2 -
          3600 * carry_count (f + k1 - 3600 * carry_count (f + k1) + k2),
        E + carry_count (f + k1) +
          carry_count (f + k1 - 3600 * carry_count (f + k1) + k2)) := by
    have e := energy_step_nowrap ops t2 p _ _ hw1 (by rw [h2]; exact hw2)
    rw [h2] at e
    exact e
  have e3 : energy_step ops t p (f, E) =
      some (f + (k1 + k2) - 3600 * carry_count (f + (k1 + k2)),
        E + carry_count (f + (k1 + k2))) := by
    have e := energy_step_nowrap ops t p f E hE (by rw [h]; exact hw)
    rw [h] at e
    exact e
  refine ⟨_, _, e1, e2, ?_, ?_⟩
  · rw [e3]
    congr 1
    refine Prod.ext ?_ ?_
    · simp only
      rw [← hsum]
      ring
    · simp only
      rw [← hsum]
      ring
  · simp only
    ring

/-! # The statistics pass -/

theorem foldlM_inv {α β : Type} (f : β → α → Option β) (P : β → Prop) :
    ∀ (l : List α), (∀ a ∈ l, ∀ b, P b → ∃ b', f b a = some b' ∧ P b') →
      ∀ b, P b → ∃ r, l.foldlM f b = some r ∧ P r
  | [], _, b, hb => ⟨b, rfl, hb⟩
  | a :: l, h, b, hb => by
    obtain ⟨b', hf, hb'⟩ := h a (List.mem_cons_self a l) b hb
    obtain ⟨r, hr, hP⟩ :=
      foldlM_inv f P l (fun x hx => h x (List.mem_cons_of_mem a hx)) b' hb'
    refine ⟨r, ?_, hP⟩
    rw [List.foldlM_cons, hf]
    exact hr

theorem map_set_same {α β : Type} (f : α → β) :
    ∀ (l : List α) (j : Nat) (x st : α), l[j]? = some st → f x = f st →
      (l.set j x).map f = l.map f
  | [], _, _, _, h, _ => by simp at h
  | a :: l, 0, x, st, h, hf => by
    simp only [List.getElem?_cons_zero, Option.some.injEq] at h
    subst h
    simp [hf]
  | a :: l, j + 1, x, st, h, hf => by
    simp only [List.getElem?_cons_succ] at h
    simp [map_set_same f l j x st h hf]

theorem getElem_some_of_length {α : Type} (l : List α) (j n : Nat) (h : l.length = n)
    (hj : j < n) : ∃ x, l[j]? = some x :=
  ⟨l[j], List.getElem?_eq_getElem (by omega)⟩

theorem arr_set_some {α : Type} (l : List α) (j : Nat) (x st : α) (h : l[j]? = some st) :
    arr_set l j x = some (l.set j x) := by
  have hlt : j < l.length := by
    by_contra hn
    rw [List.getElem?_eq_none (by omega)] at h
    exact Option.noConfusion h
  unfold arr_set
  rw [if_pos hlt]

/-! ## The voltage block -/

theorem calc_voltage_eq (ops : float_ops) (invwt t : c_float) (s : calc_state) :
    ∃ ra amp nf af fp crest calls flag,
      calc_voltage ops invwt t s =
        ({ s with
          vavg_ra := ra
          vstats := { s.vstats with
            val_rms := ops.sqrt (voltage_rms2 ops invwt s), pow_ac := amp }
          ncycles_freq := nf
          accum_freq := af
          vmains_fprod := fp }, crest, calls, flag) ∧
      (calls = [] ∧ flag = 0 ∨
        calls = [report_call.float "vdel" fp 4 0, report_call.brk] ∧ flag = 1) := by
  unfold calc_voltage
  split_ifs
  · exact ⟨_, _, _, _, _, _, _, _, rfl, Or.inr ⟨rfl, rfl⟩⟩
  · exact ⟨_, _, _, _, _, _, _, _, rfl, Or.inl ⟨rfl, rfl⟩⟩

/-! ## The current loop -/

theorem calc_wf_frame (ops : float_ops) (a b : calc_state) (h : calc_frame a = calc_frame b)
    (hb : calc_wf ops b) : calc_wf ops a := by
  obtain ⟨h1, h2, h3, h4, h5⟩ := hb
  have e1 : a.istats.map init_stats = b.istats.map init_stats :=
    congrArg (fun x : calc_state => x.istats) h
  have e2 : a.iavg_ra.map (fun _ => float_zero) = b.iavg_ra.map (fun _ => float_zero) :=
    congrArg (fun x : calc_state => x.iavg_ra) h
  have e3 : a.cosph = b.cosph := by
    have := congrArg (fun x : calc_state => x.cosph) h
    exact this
  have e4 : a.sinph = b.sinph := by
    have := congrArg (fun x : calc_state => x.sinph) h
    exact this
  have l1 := congrArg List.length e1
  have l2 := congrArg List.length e2
  simp only [List.length_map] at l1 l2
  exact ⟨l1.trans h1, l2.trans h2, by rw [e3]; exact h3, by rw [e4]; exact h4, h5⟩

theorem calc_current_absent (ops : float_ops) (invwt t : c_float) (acc : calc_state × c_float)
    (j : Nat) (st : reading_stats) (hst : acc.1.istats[j]? = some st) (hp : st.present = 0) :
    calc_current ops invwt t acc j = some acc := by
  simp only [calc_current, hst, Option.bind_eq_bind, Option.some_bind, hp, if_true]

theorem calc_current_present (ops : float_ops) (invwt t : c_float)
    (acc : calc_state × c_float) (j : Nat) (st : reading_stats)
    (ical_j ra_old cosph_j sinph_j : c_float)
    (hst : acc.1.istats[j]? = some st) (hp : st.present ≠ 0)
    (hical : ops.ical[j]? = some ical_j) (hra : acc.1.iavg_ra[j]? = some ra_old)
    (hcos : acc.1.cosph[j]? = some cosph_j) (hsin : acc.1.sinph[j]? = some sinph_j) :
    calc_current ops invwt t acc j =
      (energy_block ops t
        (chan_record ops invwt ical_j ra_old cosph_j sinph_j acc.1.VCAL acc.1.vavg_ra
          acc.1.vmains_fprod st).pow_ac
        (chan_record ops invwt ical_j ra_old cosph_j sinph_j acc.1.VCAL acc.1.vavg_ra
          acc.1.vmains_fprod st).pow_re
        { acc.1 with
          iavg_ra := acc.1.iavg_ra.set j
            (running_avg ops ra_old (ops.mul (ops.of_int st.val_sum) (ops.mul ical_j invwt)))
          istats := acc.1.istats.set j
            (chan_record ops invwt ical_j ra_old cosph_j sinph_j acc.1.VCAL acc.1.vavg_ra
              acc.1.vmains_fprod st) }).bind
        (fun s1 => some (s1, ops.add acc.2
          (chan_record ops invwt ical_j ra_old cosph_j sinph_j acc.1.VCAL acc.1.vavg_ra
            acc.1.vmains_fprod st).val_rms)) := by
  simp only [calc_current, hst, hical, hra, hcos, hsin, Option.bind_eq_bind,
    Option.some_bind, hp, if_false, arr_set_some _ j _ _ hra, arr_set_some _ j _ _ hst]

theorem calc_current_frame (ops : float_ops) (invwt t : c_float) (acc : calc_state × c_float)
    (j : Nat) (hj : j < N_CUR_CHAN) (hwf : calc_wf ops acc.1) :
    ∃ acc', calc_current ops invwt t acc j = some acc' ∧
      calc_frame acc'.1 = calc_frame acc.1 := by
  obtain ⟨h1, h2, h3, h4, h5⟩ := hwf
  obtain ⟨st, hst⟩ := getElem_some_of_length _ j _ h1 hj
  obtain ⟨ra_old, hra⟩ := getElem_some_of_length _ j _ h2 hj
  obtain ⟨cosph_j, hcos⟩ := getElem_some_of_length _ j _ h3 hj
  obtain ⟨sinph_j, hsin⟩ := getElem_some_of_length _ j _ h4 hj
  obtain ⟨ical_j, hical⟩ := getElem_some_of_length _ j _ h5 hj
  by_cases hp : st.present = 0
  · exact ⟨acc, calc_current_absent ops invwt t acc j st hst hp, rfl⟩
  · rw [calc_current_present ops invwt t acc j st ical_j ra_old cosph_j sinph_j hst hp hical
      hra hcos hsin]
    obtain ⟨a, r, hblock, -, -⟩ := energy_block_some ops t
      (chan_record ops invwt ical_j ra_old cosph_j sinph_j acc.1.VCAL acc.1.vavg_ra
        acc.1.vmains_fprod st).pow_ac
      (chan_record ops invwt ical_j ra_old cosph_j sinph_j acc.1.VCAL acc.1.vavg_ra
        acc.1.vmains_fprod st).pow_re
      { acc.1 with
        iavg_ra := acc.1.iavg_ra.set j
          (running_avg ops ra_old (ops.mul (ops.of_int st.val_sum) (ops.mul ical_j invwt)))
        istats := acc.1.istats.set j
          (chan_record ops invwt ical_j ra_old cosph_j sinph_j acc.1.VCAL acc.1.vavg_ra
            acc.1.vmains_fprod st) }
    rw [hblock]
    refine ⟨_, rfl, ?_⟩
    have hA := map_set_same init_stats acc.1.istats j
      (chan_record ops invwt ical_j ra_old cosph_j sinph_j acc.1.VCAL acc.1.vavg_ra
        acc.1.vmains_fprod st) st hst rfl
    have hB := map_set_same (fun _ : c_float => float_zero) acc.1.iavg_ra j
      (running_avg ops ra_old (ops.mul (ops.of_int st.val_sum) (ops.mul ical_j invwt)))
      ra_old hra rfl
    simp only [calc_frame, hA, hB]

theorem calc_current_fold (ops : float_ops) (invwt t : c_float) (v : calc_state)
    (itot : c_float) (hwf : calc_wf ops v) :
    ∃ c, (List.range N_CUR_CHAN).foldlM (calc_current ops invwt t) (v, itot) = some c ∧
      calc_frame c.1 = calc_frame v :=
  foldlM_inv (calc_current ops invwt t) (fun acc => calc_frame acc.1 = calc_frame v)
    (List.range N_CUR_CHAN)
    (fun j hj b hb => by
      obtain ⟨b', e, hf⟩ := calc_current_frame ops invwt t b j (List.mem_range.mp hj)
        (calc_wf_frame ops _ _ hb hwf)
      exact ⟨b', e, hf.trans hb⟩)
    (v, itot) rfl

/-! ## The report blocks -/

theorem cur_chan_cases (j : Nat) (hj : j < N_CUR_CHAN) : j = 0 ∨ j = 1 ∨ j = 2 ∨ j = 3 := by
  have : N_CUR_CHAN = 4 := rfl
  omega

theorem calls_named_append (n : String) (a b : List report_call) :
    calls_named n (a ++ b) = calls_named n a ++ calls_named n b := by
  unfold calls_named
  exact List.filter_append _ _

theorem report_chan_names (ops : float_ops) (vrms : c_float) (j : Nat) (st : reading_stats)
    (hj : j < N_CUR_CHAN) :
    calls_named "vrms" (report_chan ops vrms j st) = [] ∧
      (∀ c ∈ report_chan ops vrms j st, is_diag c = false) ∧
      report_chan ops vrms j st ≠ [] := by
  rcases cur_chan_cases j hj with h | h | h | h <;> subst h <;>
    refine ⟨rfl, fun c hc => ?_, List.cons_ne_nil _ _⟩ <;>
    simp only [report_chan, List.mem_cons, List.mem_singleton, List.not_mem_nil, or_false]
      at hc <;>
    rcases hc with h | h | h | h <;> subst h <;> rfl

theorem report_voltage_block_eq (ops : float_ops) (t : Nat) (crest : c_float) (s : calc_state) :
    ∃ s' calls, report_voltage_block ops t crest s = (s', calls) ∧
      report_frame s' = report_frame s ∧
      calls_named "vrms" calls = [report_call.float "vrms" s.vstats.val_rms 2 0] ∧
      (∀ c ∈ calls, is_diag c = false) ∧ calls ≠ [] := by
  unfold report_voltage_block
  split_ifs
  · refine ⟨_, _, rfl, rfl, rfl, fun c hc => ?_, List.cons_ne_nil _ _⟩
    simp only [List.mem_cons, List.mem_singleton, List.not_mem_nil, or_false] at hc
    rcases hc with h | h | h <;> subst h <;> rfl
  · refine ⟨_, _, rfl, rfl, rfl, fun c hc => ?_, List.cons_ne_nil _ _⟩
    simp only [List.mem_cons, List.mem_singleton, List.not_mem_nil, or_false] at hc
    rcases hc with h | h <;> subst h <;> rfl

/-- What a list of report calls and the flag `reported` have to do with the
list `base` and the flag `flag` they started from: calls were appended, none
of them a voltage report or a diagnostic, and the flag was set if the list
grew. -/
theorem report_power_chan_step (ops : float_ops) (s : calc_state)
    (base : List report_call) (flag : Nat) (acc : List report_call × Nat) (j : Nat)
    (hj : j < N_CUR_CHAN) (hlen : s.istats.length = N_CUR_CHAN)
    (hacc : ∃ extra, acc.1 = base ++ extra ∧ calls_named "vrms" extra = [] ∧
      (∀ c ∈ extra, is_diag c = false) ∧ (extra = [] ∧ acc.2 = flag ∨ extra ≠ [] ∧ acc.2 = 1)) :
    ∃ acc', report_power_chan ops s acc j = some acc' ∧
      ∃ extra, acc'.1 = base ++ extra ∧ calls_named "vrms" extra = [] ∧
        (∀ c ∈ extra, is_diag c = false) ∧
        (extra = [] ∧ acc'.2 = flag ∨ extra ≠ [] ∧ acc'.2 = 1) := by
  obtain ⟨st, hst⟩ := getElem_some_of_length _ j _ hlen hj
  obtain ⟨extra, h1, h2, h3, h4⟩ := hacc
  by_cases hp : st.present = 0
  · refine ⟨acc, ?_, extra, h1, h2, h3, h4⟩
    simp only [report_power_chan, hst, Option.bind_eq_bind, Option.some_bind, hp, if_true]
  · obtain ⟨n1, n2, n3⟩ := report_chan_names ops s.vstats.val_rms j st hj
    refine ⟨(acc.1 ++ report_chan ops s.vstats.val_rms j st, 1), ?_,
      extra ++ report_chan ops s.vstats.val_rms j st, ?_, ?_, ?_, Or.inr ⟨?_, rfl⟩⟩
    · simp only [report_power_chan, hst, Option.bind_eq_bind, Option.some_bind, hp, if_false]
    · simp only [h1, List.append_assoc]
    · rw [calls_named_append, h2, n1]
      rfl
    · intro c hc
      rcases List.mem_append.mp hc with h | h
      · exact h3 c h
      · exact n2 c h
    · intro h
      exact n3 (List.append_eq_nil.mp h).2

theorem report_power_fold (ops : float_ops) (s : calc_state) (base : List report_call)
    (flag : Nat) (hlen : s.istats.length = N_CUR_CHAN) :
    ∃ p, (List.range N_CUR_CHAN).foldlM (report_power_chan ops s) (base, flag) = some p ∧
      ∃ extra, p.1 = base ++ extra ∧ calls_named "vrms" extra = [] ∧
        (∀ c ∈ extra, is_diag c = false) ∧ (extra = [] ∧ p.2 = flag ∨ extra ≠ [] ∧ p.2 = 1) :=
  foldlM_inv (report_power_chan ops s)
    (fun acc => ∃ extra, acc.1 = base ++ extra ∧ calls_named "vrms" extra = [] ∧
      (∀ c ∈ extra, is_diag c = false) ∧ (extra = [] ∧ acc.2 = flag ∨ extra ≠ [] ∧ acc.2 = 1))
    (List.range N_CUR_CHAN)
    (fun j hj b hb => report_power_chan_step ops s base flag b j (List.mem_range.mp hj) hlen hb)
    (base, flag) ⟨[], (List.append_nil base).symm, rfl, fun _ h => absurd h (List.not_mem_nil _),
      Or.inl ⟨rfl, rfl⟩⟩

theorem report_voltage_ok (ops : float_ops) (t : Nat) (crest itot : c_float)
    (s : calc_state) :
    report_ok s
      (if report_voltage t s = true ∨ report_power ops t itot s = true then
        [report_call.float "vrms" s.vstats.val_rms 2 0] else [])
      (if report_voltage t s = true ∨ report_power ops t itot s = true then
        ((report_voltage_block ops t crest s).1, (report_voltage_block ops t crest s).2, 1)
      else (s, [], 0)) := by
  by_cases hv : report_voltage t s = true ∨ report_power ops t itot s = true
  · obtain ⟨s', calls, e, hfr, hn, hd, hne⟩ := report_voltage_block_eq ops t crest s
    rw [if_pos hv, if_pos hv, e]
    exact ⟨hfr, Or.inr ⟨rfl, hne⟩, hn, hd⟩
  · rw [if_neg hv, if_neg hv]
    exact ⟨rfl, Or.inl ⟨rfl, rfl⟩, rfl, fun _ h => absurd h (List.not_mem_nil _)⟩

theorem report_frame_istats (a b : calc_state) (h : report_frame a = report_frame b) :
    a.istats = b.istats := by
  have := congrArg (fun x : calc_state => x.istats) h
  exact this

theorem report_power_ok (ops : float_ops) (t : Nat) (itot : c_float) (s : calc_state)
    (vrms : List report_call) (x : calc_state × List report_call × Nat)
    (hlen : s.istats.length = N_CUR_CHAN) (hx : report_ok s vrms x) :
    ∃ p, report_power_block ops t itot x = some p ∧ report_ok s vrms p := by
  obtain ⟨hfr, hflag, hname, hdiag⟩ := hx
  have hlen' : x.1.istats.length = N_CUR_CHAN := by
    rw [report_frame_istats _ _ hfr]
    exact hlen
  obtain ⟨p, hfold, extra, h1, h2, h3, h4⟩ := report_power_fold ops x.1 x.2.1 x.2.2 hlen'
  refine ⟨({ x.1 with t_report_pow := t, itot_old := itot }, p.1, p.2), ?_, ?_, ?_, ?_, ?_⟩
  · simp only [report_power_block, hfold, Option.bind_eq_bind, Option.some_bind]
  · exact hfr
  · rcases h4 with ⟨he, hf⟩ | ⟨he, hf⟩
    · subst he
      rw [List.append_nil] at h1
      simp only [h1, hf]
      exact hflag
    · refine Or.inr ⟨hf, ?_⟩
      simp only [h1]
      intro h
      exact he (List.append_eq_nil.mp h).2
  · simp only [h1]
    rw [calls_named_append, hname, h2, List.append_nil]
  · intro c hc
    simp only [h1] at hc
    rcases List.mem_append.mp hc with h | h
    · exact hdiag c h
    · exact h3 c h

theorem report_energy_ok (t : Nat) (s : calc_state) (vrms : List report_call)
    (x : calc_state × List report_call × Nat) (hx : report_ok s vrms x) :
    report_ok s vrms (report_energy_block t x) := by
  obtain ⟨hfr, hflag, hname, hdiag⟩ := hx
  unfold report_energy_block
  split_ifs
  · refine ⟨hfr, Or.inr ⟨rfl, ?_⟩, ?_, ?_⟩
    · intro h
      exact List.cons_ne_nil _ _ (List.append_eq_nil.mp h).2
    · simp only
      rw [calls_named_append, hname]
      exact List.append_nil _
    · intro c hc
      rcases List.mem_append.mp hc with h | h
      · exact hdiag c h
      · simp only [List.mem_cons, List.mem_singleton, List.not_mem_nil, or_false] at h
        rcases h with h | h <;> subst h <;> rfl
  · exact ⟨hfr, hflag, hname, hdiag⟩

theorem calc_report_eq (ops : float_ops) (t : Nat) (crest itot : c_float) (s : calc_state)
    (hlen : s.istats.length = N_CUR_CHAN) :
    ∃ r, calc_report ops t crest itot s = some r ∧
      report_ok s
        (if report_voltage t s = true ∨ report_power ops t itot s = true then
          [report_call.float "vrms" s.vstats.val_rms 2 0] else []) r := by
  have hv := report_voltage_ok ops t crest itot s
  by_cases hp : report_power ops t itot s = true
  · obtain ⟨p, e, hok⟩ := report_power_ok ops t itot s _ _ hlen hv
    refine ⟨report_energy_block t p, ?_, report_energy_ok t s _ p hok⟩
    simp only [calc_report, Bool.decide_eq_true, hp, if_true, or_true, Option.bind_eq_bind]
    simp only [hp, if_true, or_true] at e
    rw [e]
    rfl
  · refine ⟨report_energy_block t _, ?_, report_energy_ok t s _ _ hv⟩
    simp only [calc_report, Bool.decide_eq_true, hp, Bool.false_eq_true, if_false, or_false,
      Option.bind_eq_bind, Option.some_bind]

/-! ## The reset and the diagnostics -/

theorem map_init_four (l : List reading_stats) (h : l.length = N_CUR_CHAN) :
    [init_stats (l.getD 0 zero_stats), init_stats (l.getD 1 zero_stats),
      init_stats (l.getD 2 zero_stats), init_stats (l.getD 3 zero_stats)] =
      l.map init_stats := by
  obtain ⟨a, b, c, d, rfl⟩ := length_four l h
  rfl

theorem report_pulse_count_eq (micros : Nat) (s : calc_state) :
    ∃ tp lp calls, report_pulse_count micros s =
        ({ s with t_report_pulse := tp, last_pulse_count := lp }, calls) ∧
      ((s.t_report_pulse = 0 ∨ (sub32 micros s.t_report_pulse > REPORT_PULSE_PERIOD ∧
          s.pulse_count ≠ s.last_pulse_count)) →
        calls = [report_call.uint32 "pulse" s.pulse_count 0, report_call.brk]) ∧
      (¬ (s.t_report_pulse = 0 ∨ (sub32 micros s.t_report_pulse > REPORT_PULSE_PERIOD ∧
          s.pulse_count ≠ s.last_pulse_count)) → calls = []) := by
  unfold report_pulse_count
  split_ifs with h
  · exact ⟨_, _, _, rfl, fun _ => rfl, fun hn => absurd h hn⟩
  · exact ⟨s.t_report_pulse, s.last_pulse_count, [], rfl, fun hp => absurd hp h, fun _ => rfl⟩

theorem calc_finish_eq (micros millis t reported : Nat) (s : calc_state)
    (hlen : s.istats.length = N_CUR_CHAN) :
    ∃ f, calc_finish micros millis t reported s = some f ∧
      f.1.vstats = init_stats s.vstats ∧ f.1.istats = s.istats.map init_stats ∧
      f.1.start_time = t ∧ f.1.ncycles = 0 ∧
      (reported = 0 → f.2 = [] ∧ f.1.adc = s.adc) ∧
      (reported ≠ 0 → ∃ pulse u,
        ((s.t_report_pulse = 0 ∨ (sub32 micros s.t_report_pulse > REPORT_PULSE_PERIOD ∧
            s.pulse_count ≠ s.last_pulse_count)) →
          pulse = [report_call.uint32 "pulse" s.pulse_count 0, report_call.brk]) ∧
        (¬ (s.t_report_pulse = 0 ∨ (sub32 micros s.t_report_pulse > REPORT_PULSE_PERIOD ∧
            s.pulse_count ≠ s.last_pulse_count)) → pulse = []) ∧
        f.2 = pulse ++ [report_call.int32 "adcd" (s.adc.max_adc_depth : Int) 1,
          report_call.int32 "novr" (s.adc.n_overflow : Int) 1,
          report_call.uint32 "uptm" u 1, report_call.brk] ∧
        f.1.adc = { s.adc with max_adc_depth := 0 }) := by
  have hfor := for_istats_pure (fun _ st => init_stats st) s.istats hlen
  rw [map_init_four s.istats hlen] at hfor
  by_cases hr : reported = 0
  · refine ⟨({ s with
        start_time := t
        ncycles := 0
        vstats := init_stats s.vstats
        istats := s.istats.map init_stats }, []), ?_, rfl, rfl, rfl, rfl,
      fun _ => ⟨rfl, rfl⟩, fun h => absurd hr h⟩
    simp only [calc_finish, hfor, Option.bind_eq_bind, Option.some_bind, hr, ne_eq,
      not_true_eq_false, if_false]
  · obtain ⟨tp, lp, calls, hpulse, hc1, hc2⟩ := report_pulse_count_eq micros
      { s with
        start_time := t
        ncycles := 0
        vstats := init_stats s.vstats
        istats := s.istats.map init_stats }
    simp only [calc_finish, hfor, Option.bind_eq_bind, Option.some_bind, hr, ne_eq,
      not_false_eq_true, if_true, hpulse]
    exact ⟨_, rfl, rfl, rfl, rfl, rfl, fun h => h.elim,
      fun _ => ⟨calls, _, hc1, hc2, rfl, rfl⟩⟩

/-! ## The whole pass -/

theorem calc_frame_report (a b c : calc_state) (h1 : report_frame a = report_frame b)
    (h2 : calc_frame b = calc_frame c) :
    a.vstats = c.vstats ∧ a.adc = c.adc ∧ a.istats.map init_stats = c.istats.map init_stats ∧
      a.pulse_count = c.pulse_count ∧ a.last_pulse_count = c.last_pulse_count ∧
      a.t_report_pulse = c.t_report_pulse := by
  have e1 : a.vstats = b.vstats := by
    have := congrArg (fun x : calc_state => x.vstats) h1
    exact this
  have e2 : b.vstats = c.vstats := by
    have := congrArg (fun x : calc_state => x.vstats) h2
    exact this
  have e3 : a.adc = b.adc := by
    have := congrArg (fun x : calc_state => x.adc) h1
    exact this
  have e4 : b.adc = c.adc := by
    have := congrArg (fun x : calc_state => x.adc) h2
    exact this
  have e5 : a.istats = b.istats := report_frame_istats a b h1
  have e6 : b.istats.map init_stats = c.istats.map init_stats :=
    congrArg (fun x : calc_state => x.istats) h2
  have e7 : a.pulse_count = b.pulse_count := by
    have := congrArg (fun x : calc_state => x.pulse_count) h1
    exact this
  have e8 : b.pulse_count = c.pulse_count := by
    have := congrArg (fun x : calc_state => x.pulse_count) h2
    exact this
  have e9 : a.last_pulse_count = b.last_pulse_count := by
    have := congrArg (fun x : calc_state => x.last_pulse_count) h1
    exact this
  have e10 : b.last_pulse_count = c.last_pulse_count := by
    have := congrArg (fun x : calc_state => x.last_pulse_count) h2
    exact this
  have e11 : a.t_report_pulse = b.t_report_pulse := by
    have := congrArg (fun x : calc_state => x.t_report_pulse) h1
    exact this
  have e12 : b.t_report_pulse = c.t_report_pulse := by
    have := congrArg (fun x : calc_state => x.t_report_pulse) h2
    exact this
  exact ⟨e1.trans e2, e3.trans e4, by rw [e5]; exact e6, e7.trans e8, e9.trans e10,
    e11.trans e12⟩

theorem calc_frame_decide (ops : float_ops) (t : Nat) (itot : c_float) (a b : calc_state)
    (h : calc_frame a = calc_frame b) :
    report_voltage t a = report_voltage t b ∧
      report_power ops t itot a = report_power ops t itot b := by
  have e1 : a.t_report_vrms = b.t_report_vrms := by
    have := congrArg (fun x : calc_state => x.t_report_vrms) h
    exact this
  have e2 : a.t_report_pow = b.t_report_pow := by
    have := congrArg (fun x : calc_state => x.t_report_pow) h
    exact this
  have e3 : a.itot_old = b.itot_old := by
    have := congrArg (fun x : calc_state => x.itot_old) h
    exact this
  unfold report_voltage report_power
  rw [e1, e2, e3]
  exact ⟨rfl, rfl⟩

/-- The pass always returns; its parts. -/
theorem calc_stats_eq (ops : float_ops) (micros millis : Nat) (reading : adc_readings_struct)
    (curstate nextstate : Nat) (s : calc_state) (hwf : calc_wf ops s) :
    ∃ v c rep fin,
      calc_voltage ops (inv_weight ops s.vstats.n)
        (accum_time_of ops (sub32 reading.t s.start_time)) s = v ∧
      (List.range N_CUR_CHAN).foldlM
        (calc_current ops (inv_weight ops s.vstats.n)
          (accum_time_of ops (sub32 reading.t s.start_time))) (v.1, float_zero) = some c ∧
      calc_frame c.1 = calc_frame v.1 ∧
      calc_report ops reading.t v.2.1 c.2 c.1 = some rep ∧
      report_ok c.1
        (if report_voltage reading.t c.1 = true ∨ report_power ops reading.t c.2 c.1 = true then
          [report_call.float "vrms" c.1.vstats.val_rms 2 0] else []) rep ∧
      calc_finish micros millis reading.t (if v.2.2.2 ≠ 0 ∨ rep.2.2 ≠ 0 then 1 else 0) rep.1 =
        some fin ∧
      calc_stats ops micros millis reading curstate nextstate s =
        some (nextstate, fin.1, v.2.2.1 ++ rep.2.1 ++ fin.2) := by
  obtain ⟨ra, amp, nf, af, fp, crest, calls, flag, hv, hvc⟩ :=
    calc_voltage_eq ops (inv_weight ops s.vstats.n)
      (accum_time_of ops (sub32 reading.t s.start_time)) s
  have hwfv : calc_wf ops (calc_voltage ops (inv_weight ops s.vstats.n)
      (accum_time_of ops (sub32 reading.t s.start_time)) s).1 := by
    rw [hv]
    exact hwf
  obtain ⟨c, hfold, hframe⟩ := calc_current_fold ops
    (inv_weight ops s.vstats.n)
    (accum_time_of ops (sub32 reading.t s.start_time)) _ float_zero hwfv
  have hwfc := calc_wf_frame ops _ _ hframe hwfv
  obtain ⟨rep, hrep, hok⟩ := calc_report_eq ops reading.t
    (calc_voltage ops (inv_weight ops s.vstats.n)
      (accum_time_of ops (sub32 reading.t s.start_time)) s).2.1 c.2 c.1 hwfc.1
  have hlenr : rep.1.istats.length = N_CUR_CHAN := by
    rw [report_frame_istats _ _ hok.1]
    exact hwfc.1
  obtain ⟨fin, hfin, -⟩ := calc_finish_eq micros millis reading.t
    (if (calc_voltage ops (inv_weight ops s.vstats.n)
      (accum_time_of ops (sub32 reading.t s.start_time)) s).2.2.2 ≠ 0 ∨ rep.2.2 ≠ 0
      then 1 else 0) rep.1 hlenr
  refine ⟨_, c, rep, fin, rfl, hfold, hframe, hrep, hok, hfin, ?_⟩
  unfold calc_stats
  simp only [Option.bind_eq_bind]
  rw [hfold]
  simp only [Option.some_bind]
  rw [hrep]
  simp only [Option.some_bind]
  rw [hfin]
  rfl

theorem calls_named_pulse (name : String) (pulse : List report_call) (v : Nat)
    (h : pulse = [] ∨ pulse = [report_call.uint32 "pulse" v 0, report_call.brk])
    (hn : name ≠ "pulse") : calls_named name pulse = [] := by
  rcases h with h | h
  · rw [h]
    rfl
  · rw [h]
    have h1 : ¬ (some "pulse" = some name) := fun e => hn (Option.some.inj e).symm
    simp only [calls_named, List.filter, call_name, h1, decide_False]
    rfl

/-- The parts of one pass: the pass returns; the report calls are the
quantities followed by the diagnostics; the statistics are reset; a voltage
report is among the calls exactly when `report_voltage` or `report_power`
holds, and it carries the square root of `voltage_rms2`; the diagnostics are
there exactly when a quantity was reported. -/
theorem calc_stats_parts (ops : float_ops) (micros millis : Nat)
    (reading : adc_readings_struct) (curstate nextstate : Nat) (s : calc_state)
    (hwf : calc_wf ops s) :
    ∃ s' quantities diag c,
      calc_stats ops micros millis reading curstate nextstate s =
        some (nextstate, s', quantities ++ diag) ∧
      (List.range N_CUR_CHAN).foldlM
        (calc_current ops (inv_weight ops s.vstats.n)
          (accum_time_of ops (sub32 reading.t s.start_time)))
        ((calc_voltage ops (inv_weight ops s.vstats.n)
          (accum_time_of ops (sub32 reading.t s.start_time)) s).1, float_zero) = some c ∧
      s'.vstats = init_stats s.vstats ∧ s'.istats = s.istats.map init_stats ∧
      s'.start_time = reading.t ∧ s'.ncycles = 0 ∧
      (∀ x ∈ quantities, is_diag x = false) ∧
      calls_named "vrms" (quantities ++ diag) =
        (if report_voltage reading.t s = true ∨ report_power ops reading.t c.2 s = true then
          [report_call.float "vrms"
            (ops.sqrt (voltage_rms2 ops (inv_weight ops s.vstats.n) s)) 2 0]
        else []) ∧
      (quantities = [] → diag = [] ∧ s'.adc = s.adc) ∧
      (quantities ≠ [] → ∃ pulse u,
        ((s.t_report_pulse = 0 ∨ (sub32 micros s.t_report_pulse > REPORT_PULSE_PERIOD ∧
            s.pulse_count ≠ s.last_pulse_count)) →
          pulse = [report_call.uint32 "pulse" s.pulse_count 0, report_call.brk]) ∧
        (¬ (s.t_report_pulse = 0 ∨ (sub32 micros s.t_report_pulse > REPORT_PULSE_PERIOD ∧
            s.pulse_count ≠ s.last_pulse_count)) → pulse = []) ∧
        diag = pulse ++ [report_call.int32 "adcd" (s.adc.max_adc_depth : Int) 1,
          report_call.int32 "novr" (s.adc.n_overflow : Int) 1,
          report_call.uint32 "uptm" u 1, report_call.brk] ∧
        s'.adc = { s.adc with max_adc_depth := 0 }) := by
  obtain ⟨v, c, rep, fin, hv, hfold, hframe, hrep, hok, hfin, hcalc⟩ :=
    calc_stats_eq ops micros millis reading curstate nextstate s hwf
  obtain ⟨ra, amp, nf, af, fp, crest, calls, flag, hv', hvc⟩ :=
    calc_voltage_eq ops (inv_weight ops s.vstats.n)
      (accum_time_of ops (sub32 reading.t s.start_time)) s
  rw [hv'] at hv
  subst hv
  obtain ⟨hfr, hflag, hname, hdiag⟩ := hok
  obtain ⟨g1, g2, g3, g4, g5, g6⟩ := calc_frame_report rep.1 c.1 _ hfr hframe
  obtain ⟨d1, d2⟩ := calc_frame_decide ops reading.t c.2 c.1 _ hframe
  have hcv : c.1.vstats.val_rms = ops.sqrt (voltage_rms2 ops (inv_weight ops s.vstats.n) s) := by
    have := congrArg (fun x : calc_state => x.vstats.val_rms) hframe
    exact this
  have hlenr : rep.1.istats.length = N_CUR_CHAN := by
    have := congrArg List.length g3
    simp only [List.length_map] at this
    rw [this]
    exact hwf.1
  obtain ⟨f, hf, f1, f2, f3, f4, f5, f6⟩ := calc_finish_eq micros millis reading.t
    (if flag ≠ 0 ∨ rep.2.2 ≠ 0 then 1 else 0) rep.1 hlenr
  have hff : fin = f := Option.some.inj (hfin.symm.trans hf)
  subst hff
  have hq : ∀ x ∈ calls ++ rep.2.1, is_diag x = false := by
    intro x hx
    rcases List.mem_append.mp hx with h | h
    · rcases hvc with ⟨hc, -⟩ | ⟨hc, -⟩
      · rw [hc] at h
        exact absurd h (List.not_mem_nil _)
      · rw [hc] at h
        simp only [List.mem_cons, List.mem_singleton, List.not_mem_nil, or_false] at h
        rcases h with h | h <;> subst h <;> rfl
    · exact hdiag x h
  have hvn : calls_named "vrms" calls = [] := by
    rcases hvc with ⟨hc, -⟩ | ⟨hc, -⟩ <;> rw [hc] <;> rfl
  have hrepflag : (if flag ≠ 0 ∨ rep.2.2 ≠ 0 then 1 else 0) = 0 ↔ calls ++ rep.2.1 = [] := by
    rcases hvc with ⟨hc, hfl⟩ | ⟨hc, hfl⟩ <;> rcases hflag with ⟨r1, r2⟩ | ⟨r1, r2⟩ <;>
      simp [hc, hfl, r1, r2]
  refine ⟨fin.1, calls ++ rep.2.1, fin.2, c, ?_, ?_, ?_, ?_, f3, f4, hq, ?_, ?_, ?_⟩
  · rw [hcalc]
  · rw [hv']
    exact hfold
  · rw [f1, g1]
    rfl
  · rw [f2, g3]
  · by_cases hrep0 : (if flag ≠ 0 ∨ rep.2.2 ≠ 0 then 1 else 0) = 0
    · have hfin2 := (f5 hrep0).1
      rw [hfin2, List.append_nil, calls_named_append, hvn, List.nil_append, hname, d1, d2, hcv]
      rfl
    · obtain ⟨pulse, u, p1, p2, p3, -⟩ := f6 hrep0
      have hp : pulse = [] ∨
          pulse = [report_call.uint32 "pulse" rep.1.pulse_count 0, report_call.brk] := by
        by_cases hc : rep.1.t_report_pulse = 0 ∨
            (sub32 micros rep.1.t_report_pulse > REPORT_PULSE_PERIOD ∧
              rep.1.pulse_count ≠ rep.1.last_pulse_count)
        · exact Or.inr (p1 hc)
        · exact Or.inl (p2 hc)
      rw [p3, calls_named_append, calls_named_append, calls_named_append, hvn, hname,
        calls_named_pulse "vrms" pulse _ hp (by decide), d1, d2, hcv]
      have hd : calls_named "vrms"
          [report_call.int32 "adcd" (rep.1.adc.max_adc_depth : Int) 1,
            report_call.int32 "novr" (rep.1.adc.n_overflow : Int) 1,
            report_call.uint32 "uptm" u 1, report_call.brk] = [] := rfl
      rw [hd]
      simp only [List.nil_append, List.append_nil]
      rfl
  · intro hq0
    have := f5 (hrepflag.mpr hq0)
    exact ⟨this.1, this.2.trans g2⟩
  · intro hq0
    have hne : ¬ ((if flag ≠ 0 ∨ rep.2.2 ≠ 0 then 1 else 0) = 0) := fun h => hq0 (hrepflag.mp h)
    obtain ⟨pulse, u, p1, p2, p3, p4⟩ := f6 hne
    rw [g4, g5, g6] at p1 p2
    rw [g2] at p3 p4
    exact ⟨pulse, u, p1, p2, p3, p4⟩

/-! # Claims about the statistics pass -/

/-- Claim C23: `init_stats` sets every field of a record to zero except
`present`, which it keeps.  `calc_stats` returns `nextstate`, and when it
returns the voltage record and every current record are the result of
`init_stats` on the records it was called with, `start_time` is the
timestamp of the reading and `ncycles` is 0. -/
theorem calc_stats_resets (ops : float_ops) (micros millis : Nat)
    (reading : adc_readings_struct) (curstate nextstate : Nat) (s : calc_state)
    (hwf : calc_wf ops s) :
    (∀ st : reading_stats, init_stats st =
      { present := st.present, n := 0, val := 0, oldval := 0, wt_sum := 0, val_sum := 0,
        val2_sum := 0, val_min := 0, val_max := 0, prod_sum := 0, proddel_sum := 0,
        val_rms := float_zero, pow_ac := float_zero, pow_re := float_zero }) ∧
    ∃ s' calls, calc_stats ops micros millis reading curstate nextstate s =
        some (nextstate, s', calls) ∧
      s'.vstats = init_stats s.vstats ∧ s'.istats = s.istats.map init_stats ∧
      s'.start_time = reading.t ∧ s'.ncycles = 0 := by
  obtain ⟨s', q, d, c, h1, -, h3, h4, h5, h6, -⟩ :=
    calc_stats_parts ops micros millis reading curstate nextstate s hwf
  exact ⟨fun _ => rfl, s', q ++ d, h1, h3, h4, h5, h6⟩

/-- Claim C23, instance: the pass on `state_a` for a reading at 1 s. -/
theorem calc_stats_resets_witness :
    (∀ st : reading_stats, init_stats st =
      { present := st.present, n := 0, val := 0, oldval := 0, wt_sum := 0, val_sum := 0,
        val2_sum := 0, val_min := 0, val_max := 0, prod_sum := 0, proddel_sum := 0,
        val_rms := float_zero, pow_ac := float_zero, pow_re := float_zero }) ∧
    ∃ s' calls, calc_stats ieee_ops 1000100 1000 (reading_at 1000000) STATE_CALS STATE_STAT
        state_a = some (STATE_STAT, s', calls) ∧
      s'.vstats = init_stats state_a.vstats ∧ s'.istats = state_a.istats.map init_stats ∧
      s'.start_time = (reading_at 1000000).t ∧ s'.ncycles = 0 :=
  calc_stats_resets ieee_ops 1000100 1000 (reading_at 1000000) STATE_CALS STATE_STAT state_a
    ⟨rfl, rfl, rfl, rfl, rfl⟩

set_option maxRecDepth 100000 in
/-- Claim C28, counterexample: two passes from start-up with calibration
factor 1.  The first window holds the samples 9 and 11 (mean 10), the
second the samples 1 and -1, for which the mean of the squares minus the
square of the mean is 1 and its root is 1.  The second pass subtracts the
square of the running average, `0.99 * 10 + 0.01 * 0`, so the radicand is
negative and the RMS voltage it reports is 0. -/
theorem rms_uses_running_average :
    ((calc_stats ieee_ops 1000100 1000 (reading_at 1000000) STATE_CALS STATE_STAT
        state_a).bind
      (fun r => calc_stats ieee_ops 12000100 12000 (reading_at 12000000) STATE_CALS STATE_STAT
        { r.2.1 with vstats := window_b })).map (fun r => calls_named "vrms" r.2.2) =
      some [report_call.float "vrms" float_zero 2 0] ∧
    ieee_ops.sqrt (window_rms2 ieee_ops (inv_weight ieee_ops window_b.n) (f32_lit 1 0)
      window_b) = f32_lit 1 0 ∧
    f32_lit 1 0 ≠ float_zero := by
  refine ⟨?_, ?_, ?_⟩ <;> decide

/-- Claim C28, amended: the RMS voltage of a pass is the square root of
`voltage_rms2`: the mean of the squares of the window's calibrated samples
minus the square of the running average `vavg_ra` of the window means (the
new value `0.99 * vavg_ra + 0.01 * mean`, with `vavg_ra` first set to the
window mean when it is 0, as in the first window), replaced by 0 when it is
not positive.  The block "MAINS VOLTAGE CALCULATIONS" stores that root in
`vstats.val_rms`; every `vrms` report of the pass carries it, a pass in
which `report_voltage` holds makes exactly one such report, and when
`calc_stats` returns the stored value has been reset to 0.  The loop body of
a present current channel stores the root of `current_rms2`, the same
expression with the channel's calibration `ical[j]` and running average
`iavg_ra[j]`, in `istats[j].val_rms`. -/
theorem calc_stats_rms (ops : float_ops) (micros millis : Nat)
    (reading : adc_readings_struct) (curstate nextstate : Nat) (s : calc_state)
    (hwf : calc_wf ops s) :
    (∃ s' calls, calc_stats ops micros millis reading curstate nextstate s =
        some (nextstate, s', calls) ∧
      (∀ x ∈ calls_named "vrms" calls, x = report_call.float "vrms"
        (ops.sqrt (voltage_rms2 ops (inv_weight ops s.vstats.n) s)) 2 0) ∧
      (report_voltage reading.t s = true → calls_named "vrms" calls =
        [report_call.float "vrms"
          (ops.sqrt (voltage_rms2 ops (inv_weight ops s.vstats.n) s)) 2 0]) ∧
      s'.vstats.val_rms = float_zero) ∧
    (∀ invwt t, (calc_voltage ops invwt t s).1.vstats.val_rms =
      ops.sqrt (voltage_rms2 ops invwt s)) ∧
    (∀ invwt, voltage_rms2 ops invwt s =
      clamp_zero ops
        (ops.sub
          (ops.mul (ops.of_int s.vstats.val2_sum) (ops.mul (ops.mul invwt s.VCAL) s.VCAL))
          (ops.mul
            (running_avg ops s.vavg_ra
              (ops.mul (ops.of_int s.vstats.val_sum) (ops.mul invwt s.VCAL)))
            (running_avg ops s.vavg_ra
              (ops.mul (ops.of_int s.vstats.val_sum) (ops.mul invwt s.VCAL)))))) ∧
    (∀ ra avg, running_avg ops ra avg =
      ops.add (ops.mul (RA_PAST ops) (if float_is_zero ra then avg else ra))
        (ops.mul (RA_CUR ops) avg)) ∧
    (∀ x, clamp_zero ops x = if ops.le x float_zero then float_zero else x) ∧
    ∀ (invwt t : c_float) (acc : calc_state × c_float) (j : Nat) (st : reading_stats)
      (ical_j ra_old cosph_j sinph_j : c_float),
      acc.1.istats[j]? = some st → st.present ≠ 0 → ops.ical[j]? = some ical_j →
      acc.1.iavg_ra[j]? = some ra_old → acc.1.cosph[j]? = some cosph_j →
      acc.1.sinph[j]? = some sinph_j →
      ∃ acc' st', calc_current ops invwt t acc j = some acc' ∧
        acc'.1.istats[j]? = some st' ∧
        st'.val_rms = ops.sqrt (current_rms2 ops invwt ical_j ra_old st) ∧
        current_rms2 ops invwt ical_j ra_old st =
          clamp_zero ops
            (ops.sub
              (ops.mul (ops.of_int st.val2_sum) (ops.mul (ops.mul ical_j invwt) ical_j))
              (ops.mul
                (running_avg ops ra_old
                  (ops.mul (ops.of_int st.val_sum) (ops.mul ical_j invwt)))
                (running_avg ops ra_old
                  (ops.mul (ops.of_int st.val_sum) (ops.mul ical_j invwt))))) := by
  obtain ⟨s', q, d, c, h1, -, h3, -, -, -, -, h8, -⟩ :=
    calc_stats_parts ops micros millis reading curstate nextstate s hwf
  refine ⟨⟨s', q ++ d, h1, ?_, ?_, ?_⟩, fun invwt t => ?_, fun _ => rfl, fun _ _ => rfl,
    fun _ => rfl, ?_⟩
  · intro x hx
    rw [h8] at hx
    split_ifs at hx
    · exact List.mem_singleton.mp hx
    · exact absurd hx (List.not_mem_nil _)
  · intro hrv
    rw [h8, if_pos (Or.inl hrv)]
  · rw [h3]
    rfl
  · obtain ⟨ra, amp, nf, af, fp, crest, calls, flag, hv, -⟩ := calc_voltage_eq ops invwt t s
    rw [hv]
  · intro invwt t acc j st ical_j ra_old cosph_j sinph_j hst hp hical hra hcos hsin
    obtain ⟨a, r, hblock, -, -⟩ := energy_block_some ops t
      (chan_record ops invwt ical_j ra_old cosph_j sinph_j acc.1.VCAL acc.1.vavg_ra
        acc.1.vmains_fprod st).pow_ac
      (chan_record ops invwt ical_j ra_old cosph_j sinph_j acc.1.VCAL acc.1.vavg_ra
        acc.1.vmains_fprod st).pow_re
      { acc.1 with
        iavg_ra := acc.1.iavg_ra.set j
          (running_avg ops ra_old (ops.mul (ops.of_int st.val_sum) (ops.mul ical_j invwt)))
        istats := acc.1.istats.set j
          (chan_record ops invwt ical_j ra_old cosph_j sinph_j acc.1.VCAL acc.1.vavg_ra
            acc.1.vmains_fprod st) }
    rw [calc_current_present ops invwt t acc j st ical_j ra_old cosph_j sinph_j hst hp hical
      hra hcos hsin, hblock]
    have hlt : j < acc.1.istats.length := by
      by_contra hn
      rw [List.getElem?_eq_none (by omega)] at hst
      exact Option.noConfusion hst
    exact ⟨_, _, rfl, List.getElem?_set_self hlt, rfl, rfl⟩

/-- Claim C28, instance: the pass on `state_a` for a reading at 1 s. -/
theorem calc_stats_rms_witness :
    (∃ s' calls, calc_stats ieee_ops 1000100 1000 (reading_at 1000000) STATE_CALS STATE_STAT
        state_a = some (STATE_STAT, s', calls) ∧
      (∀ x ∈ calls_named "vrms" calls, x = report_call.float "vrms"
        (ieee_ops.sqrt (voltage_rms2 ieee_ops (inv_weight ieee_ops state_a.vstats.n) state_a))
        2 0) ∧
      (report_voltage (reading_at 1000000).t state_a = true → calls_named "vrms" calls =
        [report_call.float "vrms"
          (ieee_ops.sqrt
            (voltage_rms2 ieee_ops (inv_weight ieee_ops state_a.vstats.n) state_a)) 2 0]) ∧
      s'.vstats.val_rms = float_zero) ∧
    (∀ invwt t, (calc_voltage ieee_ops invwt t state_a).1.vstats.val_rms =
      ieee_ops.sqrt (voltage_rms2 ieee_ops invwt state_a)) ∧
    (∀ invwt, voltage_rms2 ieee_ops invwt state_a =
      clamp_zero ieee_ops
        (ieee_ops.sub
          (ieee_ops.mul (ieee_ops.of_int state_a.vstats.val2_sum)
            (ieee_ops.mul (ieee_ops.mul invwt state_a.VCAL) state_a.VCAL))
          (ieee_ops.mul
            (running_avg ieee_ops state_a.vavg_ra
              (ieee_ops.mul (ieee_ops.of_int state_a.vstats.val_sum)
                (ieee_ops.mul invwt state_a.VCAL)))
            (running_avg ieee_ops state_a.vavg_ra
              (ieee_ops.mul (ieee_ops.of_int state_a.vstats.val_sum)
                (ieee_ops.mul invwt state_a.VCAL)))))) ∧
    (∀ ra avg, running_avg ieee_ops ra avg =
      ieee_ops.add (ieee_ops.mul (RA_PAST ieee_ops) (if float_is_zero ra then avg else ra))
        (ieee_ops.mul (RA_CUR ieee_ops) avg)) ∧
    (∀ x, clamp_zero ieee_ops x = if ieee_ops.le x float_zero then float_zero else x) ∧
    ∀ (invwt t : c_float) (acc : calc_state × c_float) (j : Nat) (st : reading_stats)
      (ical_j ra_old cosph_j sinph_j : c_float),
      acc.1.istats[j]? = some st → st.present ≠ 0 → ieee_ops.ical[j]? = some ical_j →
      acc.1.iavg_ra[j]? = some ra_old → acc.1.cosph[j]? = some cosph_j →
      acc.1.sinph[j]? = some sinph_j →
      ∃ acc' st', calc_current ieee_ops invwt t acc j = some acc' ∧
        acc'.1.istats[j]? = some st' ∧
        st'.val_rms = ieee_ops.sqrt (current_rms2 ieee_ops invwt ical_j ra_old st) ∧
        current_rms2 ieee_ops invwt ical_j ra_old st =
          clamp_zero ieee_ops
            (ieee_ops.sub
              (ieee_ops.mul (ieee_ops.of_int st.val2_sum)
                (ieee_ops.mul (ieee_ops.mul ical_j invwt) ical_j))
              (ieee_ops.mul
                (running_avg ieee_ops ra_old
                  (ieee_ops.mul (ieee_ops.of_int st.val_sum) (ieee_ops.mul ical_j invwt)))
                (running_avg ieee_ops ra_old
                  (ieee_ops.mul (ieee_ops.of_int st.val_sum)
                    (ieee_ops.mul ical_j invwt))))) :=
  calc_stats_rms ieee_ops 1000100 1000 (reading_at 1000000) STATE_CALS STATE_STAT state_a
    ⟨rfl, rfl, rfl, rfl, rfl⟩

set_option maxRecDepth 100000 in
/-- Claim C29, counterexample: a pass that reports (it is the first pass, so
voltage, power and energy are all due) with 3 overflows counted and a
maximum queue depth of 5.  The pass emits `adcd` with 5 and `novr` with 3 and
returns with `max_adc_depth` 0, but `n_overflow` is still 3. -/
theorem overflow_count_survives_report :
    (calc_stats ieee_ops 1000100 1000 (reading_at 1000000) STATE_CALS STATE_STAT
        state_ovf).map
      (fun r => (calls_named "adcd" r.2.2, calls_named "novr" r.2.2,
        r.2.1.adc.max_adc_depth, r.2.1.adc.n_overflow)) =
      some ([report_call.int32 "adcd" 5 1], [report_call.int32 "novr" 3 1], 0, 3) := by
  decide

/-- Claim C29, amended: the report calls of a pass are the quantities
(none of them a diagnostic) followed by the diagnostics.  If at least one
quantity is reported, the diagnostics are the pulse count (only when
`report_pulse_count` finds it due), then `adcd` with `max_adc_depth`, `novr`
with `n_overflow`, `uptm` with the uptime and a break, and the pass returns
with `max_adc_depth` 0 and `n_overflow` unchanged: `calc_stats` does not
reset the overflow counter.  If no quantity is reported, no diagnostic is
emitted and the ADC variables, both counters among them, are unchanged. -/
theorem calc_stats_diagnostics (ops : float_ops) (micros millis : Nat)
    (reading : adc_readings_struct) (curstate nextstate : Nat) (s : calc_state)
    (hwf : calc_wf ops s) :
    ∃ s' quantities diag,
      calc_stats ops micros millis reading curstate nextstate s =
        some (nextstate, s', quantities ++ diag) ∧
      (∀ x ∈ quantities, is_diag x = false) ∧
      (quantities = [] → diag = [] ∧ s'.adc = s.adc) ∧
      (quantities ≠ [] →
        (∃ pulse u,
          ((s.t_report_pulse = 0 ∨ (sub32 micros s.t_report_pulse > REPORT_PULSE_PERIOD ∧
              s.pulse_count ≠ s.last_pulse_count)) →
            pulse = [report_call.uint32 "pulse" s.pulse_count 0, report_call.brk]) ∧
          (¬ (s.t_report_pulse = 0 ∨ (sub32 micros s.t_report_pulse > REPORT_PULSE_PERIOD ∧
              s.pulse_count ≠ s.last_pulse_count)) → pulse = []) ∧
          diag = pulse ++ [report_call.int32 "adcd" (s.adc.max_adc_depth : Int) 1,
            report_call.int32 "novr" (s.adc.n_overflow : Int) 1,
            report_call.uint32 "uptm" u 1, report_call.brk]) ∧
        s'.adc = { s.adc with max_adc_depth := 0 } ∧
        s'.adc.max_adc_depth = 0 ∧ s'.adc.n_overflow = s.adc.n_overflow) := by
  obtain ⟨s', q, d, c, h1, -, -, -, -, -, h7, -, h9, h10⟩ :=
    calc_stats_parts ops micros millis reading curstate nextstate s hwf
  refine ⟨s', q, d, h1, h7, h9, fun hq => ?_⟩
  obtain ⟨pulse, u, p1, p2, p3, p4⟩ := h10 hq
  refine ⟨⟨pulse, u, p1, p2, p3⟩, p4, ?_, ?_⟩
  · rw [p4]
  · rw [p4]

/-- Claim C29, instance: the pass on `state_ovf` for a reading at 1 s. -/
theorem calc_stats_diagnostics_witness :
    ∃ s' quantities diag,
      calc_stats ieee_ops 1000100 1000 (reading_at 1000000) STATE_CALS STATE_STAT state_ovf =
        some (STATE_STAT, s', quantities ++ diag) ∧
      (∀ x ∈ quantities, is_diag x = false) ∧
      (quantities = [] → diag = [] ∧ s'.adc = state_ovf.adc) ∧
      (quantities ≠ [] →
        (∃ pulse u,
          ((state_ovf.t_report_pulse = 0 ∨
              (sub32 1000100 state_ovf.t_report_pulse > REPORT_PULSE_PERIOD ∧
                state_ovf.pulse_count ≠ state_ovf.last_pulse_count)) →
            pulse = [report_call.uint32 "pulse" state_ovf.pulse_count 0, report_call.brk]) ∧
          (¬ (state_ovf.t_report_pulse = 0 ∨
              (sub32 1000100 state_ovf.t_report_pulse > REPORT_PULSE_PERIOD ∧
                state_ovf.pulse_count ≠ state_ovf.last_pulse_count)) → pulse = []) ∧
          diag = pulse ++ [report_call.int32 "adcd" (state_ovf.adc.max_adc_depth : Int) 1,
            report_call.int32 "novr" (state_ovf.adc.n_overflow : Int) 1,
            report_call.uint32 "uptm" u 1, report_call.brk]) ∧
        s'.adc = { state_ovf.adc with max_adc_depth := 0 } ∧
        s'.adc.max_adc_depth = 0 ∧ s'.adc.n_overflow = state_ovf.adc.n_overflow) :=
  calc_stats_diagnostics ieee_ops 1000100 1000 (reading_at 1000000) STATE_CALS STATE_STAT
    state_ovf ⟨rfl, rfl, rfl, rfl, rfl⟩

set_option maxRecDepth 100000 in
/-- Claim C30, counterexample: a pass 1 s after the last voltage report (the
voltage period of 10 s has not elapsed and a voltage report was made before)
but 36 s after the last power report.  The power report is due, and the
voltage report is emitted with it. -/
theorem vrms_reported_with_power :
    state_late.t_report_vrms ≠ 0 ∧
    ¬ (sub32 (reading_at 41000000).t state_late.t_report_vrms > REPORT_VRMS_PERIOD) ∧
    (calc_stats ieee_ops 41000100 41000 (reading_at 41000000) STATE_CALS STATE_STAT
        state_late).map (fun r => (calls_named "vrms" r.2.2).length) = some 1 := by
  refine ⟨?_, ?_, ?_⟩ <;> decide

/-- Claim C30, amended: `calc_stats` emits the voltage report `vrms` in a
pass if and only if the voltage report is due on its own period (no voltage
report yet, or more than `REPORT_VRMS_PERIOD` microseconds, modulo 2^32,
since the last one) or the power report is due (`itot_old` is still `-999`,
or the sum `itot` of the RMS currents computed in this pass differs from
`itot_old` by more than 1.1, or more than `REPORT_POW_PERIOD` microseconds
have elapsed since the last power report): voltage is always reported with
power.  Whether energy is reported plays no part. -/
theorem vrms_report_decision (ops : float_ops) (micros millis : Nat)
    (reading : adc_readings_struct) (curstate nextstate : Nat) (s : calc_state)
    (hwf : calc_wf ops s) :
    ∃ s' calls c,
      calc_stats ops micros millis reading curstate nextstate s =
        some (nextstate, s', calls) ∧
      (List.range N_CUR_CHAN).foldlM
        (calc_current ops (inv_weight ops s.vstats.n)
          (accum_time_of ops (sub32 reading.t s.start_time)))
        ((calc_voltage ops (inv_weight ops s.vstats.n)
          (accum_time_of ops (sub32 reading.t s.start_time)) s).1, float_zero) = some c ∧
      (calls_named "vrms" calls ≠ [] ↔
        (report_voltage reading.t s = true ∨ report_power ops reading.t c.2 s = true)) ∧
      (report_voltage reading.t s = true ↔
        (s.t_report_vrms = 0 ∨ sub32 reading.t s.t_report_vrms > REPORT_VRMS_PERIOD)) ∧
      (report_power ops reading.t c.2 s = true ↔
        (ops.eq s.itot_old (ops.of_int (-999)) = true ∨
          ops.lt (ops.lit 11 1) (ops.fabs (ops.sub c.2 s.itot_old)) = true ∨
          sub32 reading.t s.t_report_pow > REPORT_POW_PERIOD)) := by
  obtain ⟨s', q, d, c, h1, h2, -, -, -, -, -, h8, -⟩ :=
    calc_stats_parts ops micros millis reading curstate nextstate s hwf
  refine ⟨s', q ++ d, c, h1, h2, ?_, ?_, ?_⟩
  · rw [h8]
    split_ifs with h
    · exact ⟨fun _ => h, fun _ => List.cons_ne_nil _ _⟩
    · exact ⟨fun hne => absurd rfl hne, fun hh => absurd hh h⟩
  · simp [report_voltage]
  · simp [report_power]

/-- Claim C30, instance: the pass on `state_late` for a reading at 41 s. -/
theorem vrms_report_decision_witness :
    ∃ s' calls c,
      calc_stats ieee_ops 41000100 41000 (reading_at 41000000) STATE_CALS STATE_STAT
        state_late = some (STATE_STAT, s', calls) ∧
      (List.range N_CUR_CHAN).foldlM
        (calc_current ieee_ops (inv_weight ieee_ops state_late.vstats.n)
          (accum_time_of ieee_ops (sub32 (reading_at 41000000).t state_late.start_time)))
        ((calc_voltage ieee_ops (inv_weight ieee_ops state_late.vstats.n)
          (accum_time_of ieee_ops (sub32 (reading_at 41000000).t state_late.start_time))
          state_late).1, float_zero) = some c ∧
      (calls_named "vrms" calls ≠ [] ↔
        (report_voltage (reading_at 41000000).t state_late = true ∨
          report_power ieee_ops (reading_at 41000000).t c.2 state_late = true)) ∧
      (report_voltage (reading_at 41000000).t state_late = true ↔
        (state_late.t_report_vrms = 0 ∨
          sub32 (reading_at 41000000).t state_late.t_report_vrms > REPORT_VRMS_PERIOD)) ∧
      (report_power ieee_ops (reading_at 41000000).t c.2 state_late = true ↔
        (ieee_ops.eq state_late.itot_old (ieee_ops.of_int (-999)) = true ∨
          ieee_ops.lt (ieee_ops.lit 11 1)
            (ieee_ops.fabs (ieee_ops.sub c.2 state_late.itot_old)) = true ∨
          sub32 (reading_at 41000000).t state_late.t_report_pow > REPORT_POW_PERIOD)) :=
  vrms_report_decision ieee_ops 41000100 41000 (reading_at 41000000) STATE_CALS STATE_STAT
    state_late ⟨rfl, rfl, rfl, rfl, rfl⟩

/-! # The queue invariant in terms of the ready flags -/

set_option maxRecDepth 100000 in
theorem window_count : ∀ r < 16, ∀ w < 16,
    (List.range 16).countP (fun i => decide ((i + 16 - r) % 16 < (w + 16 - r) % 16)) =
      (w + 16 - r) % 16 := by
  decide

theorem list_eq_map_slot (l : List adc_readings_struct) :
    l = (List.range l.length).map (slot_at l) := by
  apply List.ext_getElem?
  intro i
  by_cases h : i < l.length
  · simp [slot_at, h, List.getElem?_eq_getElem h]
  · have hr : (List.range l.length)[i]? = none :=
      List.getElem?_eq_none (by rw [List.length_range]; exact Nat.le_of_not_lt h)
    rw [List.getElem?_eq_none (Nat.le_of_not_lt h), List.getElem?_map, hr]
    rfl

theorem ready_count_eq (s : adc_state) (h : queue_inv s) : ready_count s = ring_depth s := by
  have hl := list_eq_map_slot s.adc_readings
  rw [h.rd_len] at hl
  unfold ready_count
  rw [hl, List.countP_map]
  have hc : (List.range N_READINGS).countP
      ((fun slot : adc_readings_struct => decide (slot.set ≠ 0)) ∘
        slot_at s.adc_readings) =
      (List.range N_READINGS).countP
        (fun i => decide ((i + 16 - s.adc_read_index) % 16 <
          (s.adc_write_index + 16 - s.adc_read_index) % 16)) := by
    apply List.countP_congr
    intro i hi
    have hi' : i < N_READINGS := List.mem_range.mp hi
    have hf := h.flags i hi'
    simp only [Function.comp_apply, decide_eq_true_eq]
    exact hf
  rw [hc]
  exact window_count _ h.rlt _ h.wlt

theorem cursors_equal_iff (r w : Nat) (hr : r < 16) (hw : w < 16) :
    (w + 16 - r) % 16 = 0 ↔ r = w := by
  omega

/-- What the queue invariant says about the cursors, the ready flags, the
depth and the next pop. -/
theorem queue_inv_facts (s : adc_state) (h : queue_inv s) :
    s.adc_read_index < N_READINGS ∧ s.adc_write_index < N_READINGS ∧
      (slot_at s.adc_readings s.adc_write_index).set = 0 ∧
      (∀ i < N_READINGS, (slot_at s.adc_readings i).set ≠ 0 ↔ in_window s i) ∧
      (∃ d, get_adc_depth s = some (d, s) ∧ ready_count s = d ∧ d ≤ N_READINGS - 1) ∧
      ∀ reading : adc_readings_struct, reading.vals.length = N_ADC_CHAN →
        ∃ ret rd s', get_next_adc_reading reading s = some (ret, rd, s') ∧
          (ret = 0 ↔ s.adc_read_index = s.adc_write_index) := by
  refine ⟨h.rlt, h.wlt, ?_, h.flags, ⟨ring_depth s, ?_, ready_count_eq s h, ?_⟩, ?_⟩
  · have hf := h.flags _ h.wlt
    by_contra hne
    exact absurd (hf.mp hne) (lt_irrefl _)
  · simp only [get_adc_depth]
    rw [depth_wrap_cursors _ h.wlt _ h.rlt]
    rfl
  · have := ring_depth_lt s
    have h16 : N_READINGS = 16 := rfl
    omega
  · intro reading hrl
    have hiff := cursors_equal_iff s.adc_read_index s.adc_write_index h.rlt h.wlt
    by_cases hd : ring_depth s = 0
    · obtain ⟨e, -⟩ := pop_empty_inv reading s h hd
      exact ⟨0, reading, s, e, fun _ => hiff.mp hd, fun _ => rfl⟩
    · obtain ⟨rd, s', e, -⟩ := pop_ready_inv reading s h hrl hd
      refine ⟨1, rd, s', e, fun h1 => absurd h1 (by decide), fun heq => absurd (hiff.mpr heq) hd⟩

/-- Claim C31: in every state reached from the state `init_adc` leaves by
interrupts (the channel cycle stays intact) and calls of the main loop
(`get_next_adc_reading` and the others of `event`), both cursors are below
`N_READINGS`, the slot at the write cursor is not marked ready, a slot is
marked ready if and only if it lies cyclically in
`[adc_read_index, adc_write_index)`, the number of slots marked ready is the
value `get_adc_depth()` returns and is at most `N_READINGS - 1`, and
`get_next_adc_reading` returns 0 exactly when the two cursors are equal. -/
theorem queue_cursor_invariant (evs : List event) :
    ∃ tr, run (start fresh_state) evs = some tr ∧
      tr.st.adc_read_index < N_READINGS ∧ tr.st.adc_write_index < N_READINGS ∧
      (slot_at tr.st.adc_readings tr.st.adc_write_index).set = 0 ∧
      (∀ i < N_READINGS, (slot_at tr.st.adc_readings i).set ≠ 0 ↔ in_window tr.st i) ∧
      (∃ d, get_adc_depth tr.st = some (d, tr.st) ∧ ready_count tr.st = d ∧
        d ≤ N_READINGS - 1) ∧
      ∀ reading : adc_readings_struct, reading.vals.length = N_ADC_CHAN →
        ∃ ret rd s', get_next_adc_reading reading tr.st = some (ret, rd, s') ∧
          (ret = 0 ↔ tr.st.adc_read_index = tr.st.adc_write_index) := by
  obtain ⟨tr, hrun, hinv⟩ := run_inv evs (start fresh_state) start_inv
  exact ⟨tr, hrun, queue_inv_facts tr.st hinv.qi⟩

/-! # Claims about `update_uptime` and `retrieve_vhist` -/

theorem mask_low_bits : ∀ i < 16, Nat.testBit 0xffc00000 i = false := by
  decide

theorem upper_part_zero (u : Nat) : (u &&& 0xffc00000) % 65536 = 0 := by
  have h16 : (65536 : Nat) = 2 ^ 16 := by decide
  rw [h16]
  apply Nat.eq_of_testBit_eq
  intro i
  rw [Nat.testBit_mod_two_pow, Nat.testBit_and, Nat.zero_testBit]
  by_cases h : i < 16
  · rw [mask_low_bits i h]
    simp
  · simp [h]

theorem update_uptime_value (millis : Nat) (s : calc_state) :
    update_uptime millis s =
      (millis >>> 10, { s with uptime := millis >>> 10, old_millis := millis }) := by
  have hz := upper_part_zero s.uptime
  have hu : (if millis < s.old_millis then ((s.uptime &&& 0xffc00000) % 65536 + 0x00400000) % 65536
      else (s.uptime &&& 0xffc00000) % 65536) = 0 := by
    rw [hz]
    split <;> rfl
  simp only [update_uptime, hu, Nat.zero_or]

set_option maxRecDepth 100000 in
/-- Claim C33 (code): `upper` is declared `uint16_t`, so the bits 22 and
above of `uptime` never reach it: `update_uptime` returns `millis() >> 10`
whatever `uptime` and the previous `millis()` value were.  After a call at
`millis() = 4294967295` (uptime 4194303) a call at `millis() = 5000`, which
is smaller, returns 4: the rollover is not counted and the uptime restarts
from near zero. -/
theorem update_uptime_loses_rollover :
    (∀ (millis : Nat) (s : calc_state), (update_uptime millis s).1 = millis >>> 10) ∧
    (update_uptime 4294967295 state_a).1 = 4194303 ∧
    (update_uptime 4294967295 state_a).2.old_millis = 4294967295 ∧
    (update_uptime 5000 (update_uptime 4294967295 state_a).2).1 = 4 := by
  refine ⟨fun millis s => ?_, ?_, ?_, ?_⟩
  · rw [update_uptime_value]
  · decide
  · decide
  · decide

theorem vhist_index_cases (c k : Nat) (hc : c ≤ 24) (hk : k < 256) :
    (((c : Int) + (24 : Int) - (k : Int)) % 256).toNat < 256 ∧
    (k ≤ c + 24 → (((c : Int) + (24 : Int) - (k : Int)) % 256).toNat = c + 24 - k ∧
      (c + 24 - k % 24) % 24 = (c + 24 - k) % 24) ∧
    (c + 24 < k → (((c : Int) + (24 : Int) - (k : Int)) % 256).toNat = c + 24 + 256 - k) := by
  omega

set_option maxRecDepth 100000 in
/-- Claim C34, counterexample: with the 24 voltages 1, ..., 24 stored from
start-up (`vhist_cur` is 0), `retrieve_vhist(25)` computes the `uint8_t`
value `0 + 24 - 25 = 255`, reduces it to 15 and returns slot 15, which holds
15; `25 mod 24` is 1 and `retrieve_vhist(1)` returns slot 23, which holds
23. -/
theorem retrieve_vhist_beyond_ring :
    ring_example.map (fun s => s.vhist_cur) = some 0 ∧
    ring_example.bind (retrieve_vhist 25) = some 15 ∧
    ring_example.bind (retrieve_vhist (25 % N_VHIST_RING)) = some 23 := by
  refine ⟨?_, ?_, ?_⟩ <;> decide

/-- Claim C34, amended: for every 8-bit lookback `k` and every ring state
(`vhist_cur ≤ N_VHIST_RING`, the ring of its declared size) `retrieve_vhist`
returns (its loop leaves within the fuel) the value of a slot `i` with
`i < N_VHIST_RING`.  For `k ≤ vhist_cur + N_VHIST_RING` the slot is
`(vhist_cur + N_VHIST_RING - k) mod N_VHIST_RING` and the value is the one
`retrieve_vhist(k mod N_VHIST_RING)` returns.  For larger `k` the `uint8_t`
variable `cur` wraps modulo 256 first, and the slot is
`(vhist_cur + N_VHIST_RING + 256 - k) mod N_VHIST_RING`. -/
theorem retrieve_vhist_wrap (k : Nat) (s : sm_state) (hk : k < 256)
    (hcur : s.vhist_cur ≤ N_VHIST_RING) (hring : s.vhist_ring.length = N_VHIST_RING) :
    ∃ i v, i < N_VHIST_RING ∧ retrieve_vhist k s = some v ∧ s.vhist_ring[i]? = some v ∧
      (k ≤ s.vhist_cur + N_VHIST_RING →
        i = (s.vhist_cur + N_VHIST_RING - k) % N_VHIST_RING ∧
        retrieve_vhist (k % N_VHIST_RING) s = some v) ∧
      (s.vhist_cur + N_VHIST_RING < k →
        i = (s.vhist_cur + N_VHIST_RING + 256 - k) % N_VHIST_RING) := by
  have h24 : N_VHIST_RING = 24 := rfl
  rw [h24] at hcur
  obtain ⟨hlt, hle, hgt⟩ := vhist_index_cases s.vhist_cur k hcur hk
  have hi : (((s.vhist_cur : Int) + (24 : Int) - (k : Int)) % 256).toNat % N_VHIST_RING <
      s.vhist_ring.length := by
    rw [hring]
    exact Nat.mod_lt _ (by decide)
  have hret : retrieve_vhist k s =
      s.vhist_ring[(((s.vhist_cur : Int) + (24 : Int) - (k : Int)) % 256).toNat %
        N_VHIST_RING]? := by
    have hw := vhist_wrap_mod _ hlt
    simp only [retrieve_vhist, Option.bind_eq_bind]
    have hcast : ((N_VHIST_RING : Nat) : Int) = 24 := rfl
    rw [hcast, hw]
    rfl
  refine ⟨_, _, Nat.mod_lt _ (by decide), ?_, List.getElem?_eq_getElem hi, ?_, ?_⟩
  · rw [hret]
    exact List.getElem?_eq_getElem hi
  · intro hkle
    rw [h24] at hkle
    obtain ⟨e1, e2⟩ := hle hkle
    refine ⟨congrArg (fun x => x % N_VHIST_RING) e1, ?_⟩
    have hk24 : k % N_VHIST_RING < N_VHIST_RING := Nat.mod_lt _ (by decide)
    rw [retrieve_vhist_eq (k % N_VHIST_RING) s (by rw [h24]; exact hcur) hk24]
    have hidx : (s.vhist_cur + N_VHIST_RING - k % N_VHIST_RING) % N_VHIST_RING =
        (((s.vhist_cur : Int) + (24 : Int) - (k : Int)) % 256).toNat % N_VHIST_RING := by
      rw [e1]
      exact e2
    rw [hidx]
    exact List.getElem?_eq_getElem hi
  · intro hkgt
    rw [h24] at hkgt
    exact congrArg (fun x => x % N_VHIST_RING) (hgt hkgt)

set_option maxRecDepth 100000 in
/-- Claim C34, instance: lookback 30 on the start-up state (`vhist_cur` is
24). -/
theorem retrieve_vhist_wrap_witness :
    ∃ i v, i < N_VHIST_RING ∧ retrieve_vhist 30 (sm_init fresh_state) = some v ∧
      (sm_init fresh_state).vhist_ring[i]? = some v ∧
      (30 ≤ (sm_init fresh_state).vhist_cur + N_VHIST_RING →
        i = ((sm_init fresh_state).vhist_cur + N_VHIST_RING - 30) % N_VHIST_RING ∧
        retrieve_vhist (30 % N_VHIST_RING) (sm_init fresh_state) = some v) ∧
      ((sm_init fresh_state).vhist_cur + N_VHIST_RING < 30 →
        i = ((sm_init fresh_state).vhist_cur + N_VHIST_RING + 256 - 30) % N_VHIST_RING) :=
  retrieve_vhist_wrap 30 (sm_init fresh_state) (by decide) (by decide) (by decide)

/-! # The sample counts of `scan_inputs` -/

theorem foldlM_preserve {α β : Type} (f : β → α → Option β) (Q : β → Prop)
    (h : ∀ a b b', f b a = some b' → Q b → Q b') :
    ∀ (l : List α) (b r : β), l.foldlM f b = some r → Q b → Q r
  | [], b, r, e, hb => by
    simp only [List.foldlM_nil] at e
    have := Option.some.inj e
    subst this
    exact hb
  | a :: l, b, r, e, hb => by
    rw [List.foldlM_cons] at e
    cases hf : f b a with
    | none =>
      rw [hf] at e
      exact Option.noConfusion e
    | some b' =>
      rw [hf] at e
      exact foldlM_preserve f Q h l b' r e (h a b b' hf hb)

theorem scan_mean_none_iff (st : reading_stats) : scan_mean st = none ↔ st.n = 0 := by
  unfold scan_mean
  split_ifs with h
  · exact ⟨fun _ => h, fun _ => rfl⟩
  · exact ⟨fun e => e.elim, fun e => absurd e h⟩

theorem scan_mean_some (st : reading_stats) (h : 1 ≤ st.n) :
    scan_mean st = some (to_int16 (Int.tdiv st.val_sum (st.n : Int))) := by
  unfold scan_mean
  rw [if_neg (by omega)]

theorem signal_count_pos (st : reading_stats) (hs : scan_has_signal st = true)
    (hp : st.present ≠ 0 → 1 ≤ st.n) : 1 ≤ st.n := by
  by_cases h : st.present ≠ 0
  · exact hp h
  · simp only [scan_has_signal, h, false_or, decide_eq_true_eq] at hs
    omega

theorem signal_of_present (st : reading_stats) (h : st.present ≠ 0) :
    scan_has_signal st = true := by
  simp [scan_has_signal, h]

theorem present_of_no_signal (st : reading_stats) (h : ¬ scan_has_signal st = true) :
    st.present = 0 := by
  by_contra hp
  exact h (signal_of_present st hp)

/-- The counts after one more reading has been counted. -/
theorem scan_step_counts (t : sm_state) (r : adc_readings_struct) (hc : scan_counts t) :
    ((scan_step t r).scan_nreadings < 4000 → scan_counts (scan_step t r)) ∧
    (4000 ≤ (scan_step t r).scan_nreadings →
      (scan_step t r).scan_nreadings < 65536 ∧
      ((scan_step t r).vstats.present ≠ 0 → 1 ≤ (scan_step t r).vstats.n) ∧
      ∀ j < N_CUR_CHAN, ((scan_step t r).istats.getD j zero_stats).present ≠ 0 →
        ((scan_step t r).istats.getD j zero_stats).n = (scan_step t r).scan_nreadings) := by
  obtain ⟨hlt, hv, hj⟩ := hc
  obtain ⟨pv, nv, -⟩ := scan_chan_fields 0 t.vstats r
  have eN : (scan_step t r).scan_nreadings = (t.scan_nreadings + 1) % 65536 := rfl
  have eV : (scan_step t r).vstats = scan_chan 0 t.vstats r := rfl
  have hcur : ∀ j < N_CUR_CHAN, ((scan_step t r).istats.getD j zero_stats).present ≠ 0 →
      ((scan_step t r).istats.getD j zero_stats).n = (scan_step t r).scan_nreadings := by
    intro j hjlt hp
    rw [scan_step_istats t r j hjlt] at hp ⊢
    obtain ⟨pj, nj, -⟩ := scan_chan_fields (j + 1) (t.istats.getD j zero_stats) r
    rw [pj] at hp
    rw [nj, if_pos (Or.inl hp), hj j hjlt hp, eN]
  refine ⟨fun h4 => ⟨by omega, fun hp => ?_, fun j hjlt hp => hcur j hjlt hp⟩,
    fun h4 => ⟨by omega, fun hp => ?_, fun j hjlt hp => hcur j hjlt hp⟩⟩
  · rw [eV, pv] at hp
    rw [eN] at h4
    rw [eV, eN, nv, if_pos (Or.inl hp)]
    rcases hv hp with ⟨a, b⟩ | ⟨a, b⟩
    · exact Or.inl ⟨h4, by omega⟩
    · exact Or.inl ⟨h4, by omega⟩
  · rw [eV, pv] at hp
    rw [eN] at h4
    rw [eV, nv, if_pos (Or.inl hp)]
    rcases hv hp with ⟨a, b⟩ | ⟨a, b⟩ <;> omega

/-- The state after the block `if (first)`. -/
theorem scan_begin_counts (t : sm_state) (r : adc_readings_struct)
    (hn : t.scan_nreadings = 0) :
    (scan_begin r t).scan_first = 0 ∧ scan_counts (scan_begin r t) ∧
      (scan_begin r t).istats.length = N_CUR_CHAN ∧
      (scan_begin r t).adc.adc_offset = t.adc.adc_offset ∧
      (scan_begin r t).adc.tochan_links = t.adc.tochan_links := by
  refine ⟨rfl, ⟨?_, fun _ => Or.inl ⟨?_, ?_⟩, fun j hj _ => ?_⟩, rfl, rfl, rfl⟩
  · show t.scan_nreadings < 65536
    omega
  · show t.scan_nreadings < 4000
    omega
  · show (init_stats t.vstats).n ≤ t.scan_nreadings + 1
    exact Nat.zero_le _
  · show _ = t.scan_nreadings
    rw [hn]
    rcases cur_chan_cases j hj with h | h | h | h <;> subst h <;> rfl

theorem set_adc_offset_links (c : Nat) (m : Int) (adc adc' : adc_state)
    (hl : adc.adc_offset.vals.length = N_ADC_CHAN)
    (h : set_adc_offset c m adc = some adc') :
    adc'.tochan_links = adc.tochan_links ∧ adc'.adc_offset.vals.length = N_ADC_CHAN := by
  obtain ⟨s', e, hs⟩ := set_adc_offset_cases c m adc hl
  rw [h] at e
  have := Option.some.inj e
  subst this
  rcases hs with hs | hs
  · rw [hs]
    exact ⟨rfl, hl⟩
  · rw [hs]
    refine ⟨rfl, ?_⟩
    show (adc.adc_offset.vals.set c m).length = N_ADC_CHAN
    rw [List.length_set]
    exact hl

theorem scan_commit_chan_links (notice : List Nat) (L : chan_links) (j : Nat)
    (acc acc' : adc_state × List reading_stats × Nat)
    (h : scan_commit_chan notice acc j = some acc')
    (hq : acc.1.tochan_links = L ∧ acc.1.adc_offset.vals.length = N_ADC_CHAN) :
    acc'.1.tochan_links = L ∧ acc'.1.adc_offset.vals.length = N_ADC_CHAN := by
  unfold scan_commit_chan at h
  simp only [Option.bind_eq_bind, Option.bind_eq_some] at h
  obtain ⟨flag, -, h⟩ := h
  split_ifs at h with hf
  · have := Option.some.inj h
    subst this
    exact hq
  · simp only [Option.bind_eq_some] at h
    obtain ⟨st, -, h⟩ := h
    split_ifs at h with hs
    · simp only [Option.bind_eq_some] at h
      obtain ⟨mean, -, adc', hset, ist, -, h⟩ := h
      have := Option.some.inj h
      subst this
      obtain ⟨a, b⟩ := set_adc_offset_links (j + 1) mean acc.1 adc' hq.2 hset
      exact ⟨a.trans hq.1, b⟩
    · have := Option.some.inj h
      subst this
      exact hq

theorem commit_fold_skip (notice : List Nat) (acc : adc_state × List reading_stats × Nat)
    (hnot : notice.length = N_CUR_CHAN) (hist : acc.2.1.length = N_CUR_CHAN) :
    ∀ (js : List Nat), (∀ j ∈ js, j < N_CUR_CHAN) →
      (∀ j ∈ js, ¬ (notice.getD j 0 ≠ 0 ∧
        scan_has_signal (acc.2.1.getD j zero_stats) = true)) →
      js.foldlM (scan_commit_chan notice) acc = some acc
  | [], _, _ => rfl
  | j :: js, hlt, hskip => by
    have hj : j < N_CUR_CHAN := hlt j (List.mem_cons_self j js)
    have hjn : j < notice.length := by omega
    have hji : j < acc.2.1.length := by omega
    have hn : notice[j]? = some (notice.getD j 0) := by
      simp [List.getD_eq_getElem?_getD, List.getElem?_eq_getElem hjn]
    have hi : acc.2.1[j]? = some (acc.2.1.getD j zero_stats) := by
      simp [List.getD_eq_getElem?_getD, List.getElem?_eq_getElem hji]
    have hs := hskip j (List.mem_cons_self j js)
    have hstep : scan_commit_chan notice acc j = some acc := by
      unfold scan_commit_chan
      simp only [hn, hi, Option.bind_eq_bind, Option.some_bind]
      generalize notice.getD j 0 = f at *
      generalize acc.2.1.getD j zero_stats = st at *
      by_cases hf : f = 0
      · rw [if_pos hf]
      · rw [if_neg hf]
        have hns : ¬ scan_has_signal st = true := fun h => hs ⟨hf, h⟩
        rw [if_neg hns]
    rw [List.foldlM_cons, hstep]
    exact commit_fold_skip notice acc hnot hist js
      (fun i hi => hlt i (List.mem_cons_of_mem j hi))
      (fun i hi => hskip i (List.mem_cons_of_mem j hi))

/-- The decision of `scan_inputs` returns and leaves a state that satisfies
`scan_ok`, when the records that are used have a positive count. -/
theorem scan_decide_ok (notice : List Nat) (next : Nat) (D : sm_state)
    (hnot : notice.length = N_CUR_CHAN) (hist : D.istats.length = N_CUR_CHAN)
    (hoff : D.adc.adc_offset.vals.length = N_ADC_CHAN)
    (hnx : D.adc.next_adc_chan.length = N_ADC_CHAN)
    (hpv : D.adc.prev_adc_chan.length = N_ADC_CHAN)
    (hf : D.scan_first = 0) (h4 : 4000 ≤ D.scan_nreadings) (hlt : D.scan_nreadings < 65536)
    (hv : scan_has_signal D.vstats = true → 1 ≤ D.vstats.n)
    (hj : ∀ j < N_CUR_CHAN, (D.istats.getD j zero_stats).present ≠ 0 →
      (D.istats.getD j zero_stats).n = D.scan_nreadings)
    (hjs : ∀ j < N_CUR_CHAN, scan_has_signal (D.istats.getD j zero_stats) = true →
      1 ≤ (D.istats.getD j zero_stats).n) :
    ∃ ret s', scan_decide notice next D = some (ret, s') ∧ scan_ok s' := by
  by_cases hsig : scan_has_signal D.vstats = true
  · have hmv := scan_mean_some D.vstats (hv hsig)
    obtain ⟨adc1, e1, l1, -, -⟩ :=
      set_adc_offset_facts 0 (to_int16 (Int.tdiv D.vstats.val_sum (D.vstats.n : Int))) D.adc
        (by decide) hoff
    have k1 := (set_adc_offset_links 0 _ D.adc adc1 hoff e1).1
    by_cases hany : ∃ j < N_CUR_CHAN, notice.getD j 0 ≠ 0 ∧
        scan_has_signal (D.istats.getD j zero_stats) = true
    · obtain ⟨acc', e2, c2, l2, o2, -, -, -⟩ :=
        commit_fold notice
          (fun j => decide (notice.getD j 0 ≠ 0) && scan_has_signal (D.istats.getD j zero_stats))
          (fun j => to_int16 (Int.tdiv (D.istats.getD j zero_stats).val_sum
            ((D.istats.getD j zero_stats).n : Int)))
          (List.range N_CUR_CHAN) (adc1, D.istats, 0) (List.nodup_range _)
          (fun j hj => List.mem_range.mp hj) hnot hist l1
          (show (0 : Nat) + (List.range N_CUR_CHAN).length < 256 by decide)
          (fun j _ => rfl)
          (fun j hj hp => scan_mean_some _ (hjs j (List.mem_range.mp hj) (band_elim _ _ hp).2))
      simp only [Nat.zero_add] at c2
      have k2 := foldlM_preserve (scan_commit_chan notice)
        (fun acc => acc.1.tochan_links = D.adc.tochan_links ∧
          acc.1.adc_offset.vals.length = N_ADC_CHAN)
        (fun j b b' h hq => scan_commit_chan_links notice D.adc.tochan_links j b b' h hq)
        (List.range N_CUR_CHAN) (adc1, D.istats, 0) acc' e2 ⟨k1, l1⟩
      have hc : acc'.2.2 ≠ 0 := by
        rw [c2]
        intro h0
        rw [List.length_eq_zero, List.filter_eq_nil_iff] at h0
        obtain ⟨j, hjlt, hn, hs⟩ := hany
        exact h0 j (List.mem_range.mpr hjlt) (band_intro _ _ hn hs)
      unfold scan_decide
      rw [if_pos hsig, hmv]
      simp only [Option.bind_eq_bind, Option.some_bind, e1, e2]
      rw [if_neg hc]
      refine ⟨_, _, rfl, l2, o2, ?_, ?_, fun _ => rfl, fun h => absurd h (Nat.succ_ne_zero 0)⟩
      · show acc'.1.tochan_links.next_adc_chan.length = N_ADC_CHAN
        rw [k2.1]
        exact hnx
      · show acc'.1.tochan_links.prev_adc_chan.length = N_ADC_CHAN
        rw [k2.1]
        exact hpv
    · have e2 := commit_fold_skip notice (adc1, D.istats, 0) hnot hist (List.range N_CUR_CHAN)
        (fun j hj => List.mem_range.mp hj)
        (fun j hj h => hany ⟨j, List.mem_range.mp hj, h.1, h.2⟩)
      unfold scan_decide
      rw [if_pos hsig, hmv]
      simp only [Option.bind_eq_bind, Option.some_bind, e1, e2]
      rw [if_pos trivial]
      refine ⟨_, _, rfl, hist, l1, ?_, ?_, fun h => absurd hf h, fun _ => ⟨hlt, ?_, hj⟩⟩
      · show adc1.tochan_links.next_adc_chan.length = N_ADC_CHAN
        rw [k1]
        exact hnx
      · show adc1.tochan_links.prev_adc_chan.length = N_ADC_CHAN
        rw [k1]
        exact hpv
      · exact fun _ => Or.inr ⟨h4, rfl⟩
  · unfold scan_decide
    rw [if_neg hsig]
    refine ⟨_, _, rfl, hist, hoff, hnx, hpv, fun h => absurd hf h, fun _ => ⟨hlt, fun hp => ?_, hj⟩⟩
    exact absurd (signal_of_present _ hp) hsig

/-- A call of `scan_inputs` with `first` clear. -/
theorem scan_clear_ok (notice : List Nat) (r : adc_readings_struct) (cur next : Nat)
    (u : sm_state) (hnot : notice.length = N_CUR_CHAN) (hr : r.vals.length = N_ADC_CHAN)
    (hist : u.istats.length = N_CUR_CHAN)
    (hoff : u.adc.adc_offset.vals.length = N_ADC_CHAN)
    (hnx : u.adc.next_adc_chan.length = N_ADC_CHAN)
    (hpv : u.adc.prev_adc_chan.length = N_ADC_CHAN)
    (hf : u.scan_first = 0) (hc : scan_counts u) :
    (∃ ret t', scan_inputs notice r cur next u = some (ret, t') ∧ scan_ok t') ∧
    (4000 ≤ (scan_step u r).scan_nreadings →
      (scan_has_signal (scan_step u r).vstats = true → 1 ≤ (scan_step u r).vstats.n) ∧
      ∀ j < N_CUR_CHAN, scan_has_signal ((scan_step u r).istats.getD j zero_stats) = true →
        1 ≤ ((scan_step u r).istats.getD j zero_stats).n) := by
  obtain ⟨hsmall, hbig⟩ := scan_step_counts u r hc
  have hdec : 4000 ≤ (scan_step u r).scan_nreadings →
      (scan_has_signal (scan_step u r).vstats = true → 1 ≤ (scan_step u r).vstats.n) ∧
      ∀ j < N_CUR_CHAN, scan_has_signal ((scan_step u r).istats.getD j zero_stats) = true →
        1 ≤ ((scan_step u r).istats.getD j zero_stats).n := by
    intro h4
    obtain ⟨-, hv, hj⟩ := hbig h4
    refine ⟨fun hs => signal_count_pos _ hs hv, fun j hjlt hs => signal_count_pos _ hs ?_⟩
    intro hp
    rw [hj j hjlt hp]
    omega
  refine ⟨?_, hdec⟩
  rw [scan_inputs_clear notice r cur next u hf hr hist]
  by_cases h4 : (u.scan_nreadings + 1) % 65536 < 4000
  · rw [if_pos h4]
    exact ⟨_, _, rfl, rfl, hoff, hnx, hpv, fun h => absurd hf h, fun _ => hsmall h4⟩
  · rw [if_neg h4]
    have h4' : 4000 ≤ (scan_step u r).scan_nreadings := Nat.le_of_not_lt h4
    obtain ⟨hlt, -, hj⟩ := hbig h4'
    exact scan_decide_ok notice next _ hnot rfl hoff hnx hpv hf h4' hlt (hdec h4').1 hj
      (hdec h4').2

/-- A call of `scan_inputs` in a state that satisfies `scan_ok`: the call
returns, the state it leaves satisfies `scan_ok`, and when this call reaches
the decision every record with a signal has a positive count. -/
theorem scan_call_ok (notice : List Nat) (r : adc_readings_struct) (cur next : Nat)
    (t : sm_state) (hnot : notice.length = N_CUR_CHAN) (hr : r.vals.length = N_ADC_CHAN)
    (hok : scan_ok t) :
    (∃ ret t', scan_inputs notice r cur next t = some (ret, t') ∧ scan_ok t') ∧
    (4000 ≤ (scan_counted r t).scan_nreadings →
      (scan_has_signal (scan_counted r t).vstats = true → 1 ≤ (scan_counted r t).vstats.n) ∧
      ∀ j < N_CUR_CHAN,
        scan_has_signal ((scan_counted r t).istats.getD j zero_stats) = true →
        1 ≤ ((scan_counted r t).istats.getD j zero_stats).n) := by
  obtain ⟨hist, hoff, hnx, hpv, hset, hclear⟩ := hok
  by_cases hf : t.scan_first = 0
  · have e : scan_counted r t = scan_step t r := by
      unfold scan_counted
      rw [if_neg (fun h => h hf)]
    rw [e]
    exact scan_clear_ok notice r cur next t hnot hr hist hoff hnx hpv hf (hclear hf)
  · have e : scan_counted r t = scan_step (scan_begin r t) r := by
      unfold scan_counted
      rw [if_pos hf]
    obtain ⟨b1, b2, b3, b4, b5⟩ := scan_begin_counts t r (hset hf)
    rw [e, scan_inputs_set notice r cur next t hf hist]
    exact scan_clear_ok notice r cur next (scan_begin r t) hnot hr b3 hoff hnx hpv b1 b2

/-- A call of `stabilize_inputs` keeps `scan_ok`. -/
theorem stab_call_ok (r : adc_readings_struct) (cur next : Nat) (t : sm_state)
    (hok : scan_ok t) :
    ∃ ret t', stabilize_inputs r cur next t = some (ret, t') ∧ scan_ok t' := by
  obtain ⟨hist, hoff, hnx, hpv, hset, hclear⟩ := hok
  rw [stabilize_step r cur next t hnx hpv]
  exact ⟨_, _, rfl, hist, hoff, rfl, rfl, hset, hclear⟩

theorem phase_step_ok (notice : List Nat) (hnot : notice.length = N_CUR_CHAN)
    (c : phase_call) (hc : (phase_reading c).vals.length = N_ADC_CHAN) (t : sm_state)
    (hok : scan_ok t) : ∃ t', phase_step notice t c = some t' ∧ scan_ok t' := by
  cases c with
  | scan r cur next =>
    obtain ⟨ret, t', e, h⟩ := (scan_call_ok notice r cur next t hnot hc hok).1
    refine ⟨t', ?_, h⟩
    show (scan_inputs notice r cur next t).map (fun p => p.2) = some t'
    rw [e]
    rfl
  | stab r cur next =>
    obtain ⟨ret, t', e, h⟩ := stab_call_ok r cur next t hok
    refine ⟨t', ?_, h⟩
    show (stabilize_inputs r cur next t).map (fun p => p.2) = some t'
    rw [e]
    rfl

theorem phase_run_ok (notice : List Nat) (hnot : notice.length = N_CUR_CHAN)
    (calls : List phase_call)
    (hvals : ∀ c ∈ calls, (phase_reading c).vals.length = N_ADC_CHAN) (s : sm_state)
    (hok : scan_ok s) : ∃ t, phase_run notice s calls = some t ∧ scan_ok t :=
  foldlM_inv (phase_step notice) scan_ok calls
    (fun c hc t ht => phase_step_ok notice hnot c (hvals c hc) t ht) s hok

/-! # Claim C32: the divisions of `scan_inputs` -/

/-- Claim C32: `scan_mean` is the division `val_sum / n` of `scan_inputs` and
fails exactly when `n` is 0. Start in any state in which the statics of
`scan_inputs` have their initial values (`first` set, `nreadings` 0, as at
program start and after every successful scan), whatever the `present` flags
and the counts of the records are, and let the main loop make any sequence of
calls of `scan_inputs` and `stabilize_inputs`, which includes a return to
`STATE_STAB` that leaves `first` clear and `nreadings` at 4000 or above. All
these calls return, and so does every further call of `scan_inputs`; when
that call reaches the decision (`nreadings` is no longer below 4000 after
`nreadings ++`), the voltage record has `n` at least 1 if its mean is taken
(`present` set or `val_sum` not 0 with `n > 0`), and so has every current
record whose mean is taken. -/
theorem scan_mean_divisor (notice : List Nat) (s : sm_state) (calls : List phase_call)
    (r : adc_readings_struct) (cur next : Nat)
    (hfirst : s.scan_first ≠ 0) (hn : s.scan_nreadings = 0)
    (hnot : notice.length = N_CUR_CHAN) (hist : s.istats.length = N_CUR_CHAN)
    (hoff : s.adc.adc_offset.vals.length = N_ADC_CHAN)
    (hnx : s.adc.next_adc_chan.length = N_ADC_CHAN)
    (hpv : s.adc.prev_adc_chan.length = N_ADC_CHAN)
    (hvals : ∀ c ∈ calls, (phase_reading c).vals.length = N_ADC_CHAN)
    (hr : r.vals.length = N_ADC_CHAN) :
    (∀ st : reading_stats, scan_mean st = none ↔ st.n = 0) ∧
    ∃ t, phase_run notice s calls = some t ∧
      (∃ ret t', scan_inputs notice r cur next t = some (ret, t')) ∧
      (4000 ≤ (scan_counted r t).scan_nreadings →
        (scan_has_signal (scan_counted r t).vstats = true →
          1 ≤ (scan_counted r t).vstats.n) ∧
        ∀ j < N_CUR_CHAN, notice.getD j 0 ≠ 0 →
          scan_has_signal ((scan_counted r t).istats.getD j zero_stats) = true →
          1 ≤ ((scan_counted r t).istats.getD j zero_stats).n) := by
  obtain ⟨t, hrun, hok⟩ := phase_run_ok notice hnot calls hvals s
    ⟨hist, hoff, hnx, hpv, fun _ => hn, fun h => absurd h hfirst⟩
  obtain ⟨⟨ret, t', hcall, -⟩, hdec⟩ := scan_call_ok notice r cur next t hnot hr hok
  exact ⟨scan_mean_none_iff, t, hrun, ⟨ret, t', hcall⟩,
    fun h4 => ⟨(hdec h4).1, fun j hj _ hs => (hdec h4).2 j hj hs⟩⟩

/-- Claim C32, instance: from the initial state, all channels noticed, 3999
calls of `scan_inputs` with 512 on the voltage channel and 300 on the first
current channel, followed by one more such call. -/
theorem scan_mean_divisor_witness :
    (∀ st : reading_stats, scan_mean st = none ↔ st.n = 0) ∧
    ∃ t, phase_run [1, 1, 1, 1] (sm_init fresh_state)
        (List.replicate 3999 (phase_call.scan (scan_reading 512 300) STATE_SCAN STATE_ZER1)) =
          some t ∧
      (∃ ret t', scan_inputs [1, 1, 1, 1] (scan_reading 512 300) STATE_SCAN STATE_ZER1 t =
        some (ret, t')) ∧
      (4000 ≤ (scan_counted (scan_reading 512 300) t).scan_nreadings →
        (scan_has_signal (scan_counted (scan_reading 512 300) t).vstats = true →
          1 ≤ (scan_counted (scan_reading 512 300) t).vstats.n) ∧
        ∀ j < N_CUR_CHAN, [1, 1, 1, 1].getD j 0 ≠ 0 →
          scan_has_signal
            ((scan_counted (scan_reading 512 300) t).istats.getD j zero_stats) = true →
          1 ≤ ((scan_counted (scan_reading 512 300) t).istats.getD j zero_stats).n) :=
  scan_mean_divisor [1, 1, 1, 1] (sm_init fresh_state)
    (List.replicate 3999 (phase_call.scan (scan_reading 512 300) STATE_SCAN STATE_ZER1))
    (scan_reading 512 300) STATE_SCAN STATE_ZER1
    (by decide) rfl rfl rfl rfl rfl rfl
    (fun c hc => by rw [List.eq_of_mem_replicate hc]; rfl) rfl

/-! # Whole numbers in the binary32 arithmetic -/

theorem bit_length_spec : ∀ (fuel n : Nat), n < fuel → 0 < n →
    2 ^ (bit_length fuel n - 1) ≤ n ∧ n < 2 ^ bit_length fuel n ∧ 1 ≤ bit_length fuel n
  | 0, n, h, _ => absurd h (Nat.not_lt_zero n)
  | fuel + 1, n, h, hn => by
    unfold bit_length
    rw [if_neg (by omega)]
    by_cases h2 : n / 2 = 0
    · have hb : bit_length fuel (n / 2) = 0 := by
        rw [h2]
        cases fuel with
        | zero => rfl
        | succ k =>
          unfold bit_length
          rw [if_pos rfl]
      rw [hb]
      have h1 : n = 1 := by omega
      subst h1
      decide
    · obtain ⟨a, b, c⟩ := bit_length_spec fuel (n / 2) (by omega) (by omega)
      generalize bit_length fuel (n / 2) = L at a b c
      obtain ⟨k, rfl⟩ : ∃ k, L = k + 1 := ⟨L - 1, by omega⟩
      have e1 : 2 ^ (k + 1) = 2 ^ k * 2 := pow_succ 2 k
      have e2 : 2 ^ (k + 1 + 1) = 2 ^ k * 2 * 2 := by rw [pow_succ, pow_succ]
      have e3 : k + 1 + 1 - 1 = k + 1 := rfl
      have e4 : k + 1 - 1 = k := rfl
      rw [e4] at a
      rw [e1] at b
      rw [e3, e2, e1]
      refine ⟨by omega, by omega, by omega⟩

theorem pow_between_unique (n L K : Nat) (hL : 1 ≤ L) (hK : 1 ≤ K)
    (h1 : 2 ^ (L - 1) ≤ n) (h2 : n < 2 ^ L) (h3 : 2 ^ (K - 1) ≤ n) (h4 : n < 2 ^ K) :
    L = K := by
  by_contra hne
  rcases Nat.lt_or_gt_of_ne hne with h | h
  · have : 2 ^ L ≤ 2 ^ (K - 1) := Nat.pow_le_pow_right (by decide) (by omega)
    omega
  · have : 2 ^ K ≤ 2 ^ (L - 1) := Nat.pow_le_pow_right (by decide) (by omega)
    omega

theorem bit_length_eq (n L : Nat) (hL : 1 ≤ L) (h1 : 2 ^ (L - 1) ≤ n) (h2 : n < 2 ^ L) :
    bit_length (n + 1) n = L := by
  have hn : 0 < n := Nat.lt_of_lt_of_le (Nat.two_pow_pos _) h1
  obtain ⟨a, b, c⟩ := bit_length_spec (n + 1) n (Nat.lt_succ_self n) hn
  exact pow_between_unique n _ L c hL a b h1 h2

theorem bit_length_exists (n : Nat) (hn : 0 < n) :
    ∃ L, 1 ≤ L ∧ 2 ^ (L - 1) ≤ n ∧ n < 2 ^ L :=
  ⟨bit_length (n + 1) n, (bit_length_spec (n + 1) n (Nat.lt_succ_self n) hn).2.2,
    (bit_length_spec (n + 1) n (Nat.lt_succ_self n) hn).1,
    (bit_length_spec (n + 1) n (Nat.lt_succ_self n) hn).2.1⟩

theorem f32_round_whole (m j L : Nat) (hL : 1 ≤ L) (hL24 : L ≤ 24)
    (h1 : 2 ^ (L - 1) ≤ m) (h2 : m < 2 ^ L) :
    f32_round (m * 2 ^ j) (2 ^ j) = (L + 125) * 8388608 + m * 2 ^ (24 - L) := by
  have hj : 0 < 2 ^ j := Nat.two_pow_pos j
  have hb1 : bit_length (m * 2 ^ j + 1) (m * 2 ^ j) = L + j := by
    apply bit_length_eq _ _ (by omega)
    · have : L + j - 1 = (L - 1) + j := by omega
      rw [this, pow_add]
      exact Nat.mul_le_mul_right _ h1
    · rw [pow_add]
      exact Nat.mul_lt_mul_of_pos_right h2 hj
  have hb2 : bit_length (2 ^ j + 1) (2 ^ j) = j + 1 := by
    apply bit_length_eq _ _ (by omega)
    · exact le_refl _
    · exact Nat.pow_lt_pow_right (by decide) (Nat.lt_succ_self j)
  have hl : ((L + j : Nat) : Int) - ((j + 1 : Nat) : Int) = (L : Int) - 1 := by
    push_cast
    ring
  have hneg : ¬ ((L : Int) - 1 < 0) := by omega
  have htn : ((L : Int) - 1).toNat = L - 1 := by omega
  have hdec : decide (m * 2 ^ j ≥ 2 ^ j * 2 ^ (L - 1)) = true := by
    rw [decide_eq_true_eq, Nat.mul_comm (2 ^ j)]
    exact Nat.mul_le_mul_right _ h1
  have he : max ((L : Int) - 1 - 23) (-149) = (L : Int) - 24 := by omega
  have hq : m * 2 ^ (24 - L) < 16777216 := by
    have : m * 2 ^ (24 - L) < 2 ^ L * 2 ^ (24 - L) :=
      Nat.mul_lt_mul_of_pos_right h2 (Nat.two_pow_pos _)
    rw [← pow_add, show L + (24 - L) = 24 by omega] at this
    exact this
  unfold f32_round
  rw [hb1, hb2, hl]
  simp only [hneg, if_false, htn, hdec, if_true, he]
  by_cases h24 : L = 24
  · subst h24
    simp only [show ¬ (((24 : Nat) : Int) - 24 < 0) by decide, if_false,
      show (((24 : Nat) : Int) - 24).toNat = 0 by decide, pow_zero, Nat.mul_one,
      Nat.mul_div_cancel _ hj, Nat.mul_mod_left, Nat.mul_zero]
    rw [if_neg (by omega), show (((24 : Nat) : Int) - 24 + 149).toNat = 149 by decide]
    simp only [show 24 - 24 = 0 by decide, pow_zero, Nat.mul_one] at hq ⊢
    omega
  · have hlt : (L : Int) - 24 < 0 := by omega
    have hn : (-((L : Int) - 24)).toNat = 24 - L := by omega
    have ht : ((L : Int) - 24 + 149).toNat = L + 125 := by omega
    have e : m * 2 ^ j * 2 ^ (24 - L) = m * 2 ^ (24 - L) * 2 ^ j := by ring
    simp only [hlt, if_true, hn, ht, e, Nat.mul_div_cancel _ hj, Nat.mul_mod_left, Nat.mul_zero]
    rw [if_neg (by omega)]
    generalize m * 2 ^ (24 - L) = q at hq ⊢
    omega

theorem f32_unpack_whole (neg : Bool) (m L : Nat) (hL : 1 ≤ L) (hL24 : L ≤ 24)
    (h1 : 2 ^ (L - 1) ≤ m) (h2 : m < 2 ^ L) :
    f32_unpack (f32_sign neg ((L + 125) * 8388608 + m * 2 ^ (24 - L))) =
      (neg, m * 2 ^ (24 - L), 2 ^ (24 - L)) := by
  have hq2 : m * 2 ^ (24 - L) < 16777216 := by
    have : m * 2 ^ (24 - L) < 2 ^ L * 2 ^ (24 - L) :=
      Nat.mul_lt_mul_of_pos_right h2 (Nat.two_pow_pos _)
    rw [← pow_add, show L + (24 - L) = 24 by omega] at this
    exact this
  have hq1 : 8388608 ≤ m * 2 ^ (24 - L) := by
    have : 2 ^ (L - 1) * 2 ^ (24 - L) ≤ m * 2 ^ (24 - L) := Nat.mul_le_mul_right _ h1
    rw [← pow_add, show L - 1 + (24 - L) = 23 by omega] at this
    exact this
  by_cases h24 : L = 24
  · subst h24
    simp only [show 24 - 24 = 0 by decide, pow_zero, Nat.mul_one] at hq1 hq2 ⊢
    unfold f32_unpack f32_sign
    cases neg
    · have a1 : ((24 + 125) * 8388608 + m) / 2147483648 % 2 = 0 := by omega
      have a2 : ((24 + 125) * 8388608 + m) / 8388608 % 256 = 150 := by omega
      have a3 : ((24 + 125) * 8388608 + m) % 8388608 = m - 8388608 := by omega
      simp only [Bool.false_eq_true, if_false, a1, a2, a3]
      simp only [show 8388608 + (m - 8388608) = m by omega]
      simp
    · have a1 : ((24 + 125) * 8388608 + m + 2147483648) / 2147483648 % 2 = 1 := by omega
      have a2 : ((24 + 125) * 8388608 + m + 2147483648) / 8388608 % 256 = 150 := by omega
      have a3 : ((24 + 125) * 8388608 + m + 2147483648) % 8388608 = m - 8388608 := by omega
      simp only [if_true, a1, a2, a3]
      simp only [show 8388608 + (m - 8388608) = m by omega]
      simp
  · generalize hq : m * 2 ^ (24 - L) = q at hq1 hq2 ⊢
    unfold f32_unpack f32_sign
    cases neg
    · have a1 : ((L + 125) * 8388608 + q) / 2147483648 % 2 = 0 := by omega
      have a2 : ((L + 125) * 8388608 + q) / 8388608 % 256 = L + 126 := by omega
      have a3 : ((L + 125) * 8388608 + q) % 8388608 = q - 8388608 := by omega
      simp only [Bool.false_eq_true, if_false, a1, a2, a3]
      simp only [show 8388608 + (q - 8388608) = q by omega,
        show 150 - (L + 126) = 24 - L by omega]
      rw [if_neg (by omega), if_neg (by omega), if_neg (by omega)]
      simp
    · have a1 : ((L + 125) * 8388608 + q + 2147483648) / 2147483648 % 2 = 1 := by omega
      have a2 : ((L + 125) * 8388608 + q + 2147483648) / 8388608 % 256 = L + 126 := by omega
      have a3 : ((L + 125) * 8388608 + q + 2147483648) % 8388608 = q - 8388608 := by omega
      simp only [if_true, a1, a2, a3]
      simp only [show 8388608 + (q - 8388608) = q by omega,
        show 150 - (L + 126) = 24 - L by omega]
      rw [if_neg (by omega), if_neg (by omega), if_neg (by omega)]
      simp

theorem sign_factor_sq (neg : Bool) : sign_factor neg * sign_factor neg = 1 := by
  cases neg <;> rfl

theorem sign_factor_xor (a b : Bool) :
    sign_factor (xor a b) = sign_factor a * sign_factor b := by
  cases a <;> cases b <;> rfl

theorem sign_factor_abs (i : Int) : sign_factor (decide (i < 0)) * (i.natAbs : Int) = i := by
  by_cases h : i < 0
  · simp only [h, decide_True, sign_factor, if_true]
    omega
  · simp only [h, decide_False, sign_factor, Bool.false_eq_true, if_false]
    omega

/-- The numerator and the sign of a bit pattern with a whole value. -/
theorem whole_num (neg : Bool) (n s : Nat) (i : Int)
    (h : sign_factor neg * (n : Int) = i * (2 : Int) ^ s) :
    n = i.natAbs * 2 ^ s ∧ sign_factor neg * (i.natAbs : Int) = i := by
  have hp : (0 : Int) < (2 : Int) ^ s := by positivity
  have hn : n = i.natAbs * 2 ^ s := by
    have := congrArg Int.natAbs h
    rw [Int.natAbs_mul, Int.natAbs_mul, Int.natAbs_pow] at this
    have e1 : (sign_factor neg).natAbs = 1 := by cases neg <;> rfl
    rw [e1, Nat.one_mul, Int.natAbs_ofNat] at this
    exact this
  refine ⟨hn, ?_⟩
  have h3 : sign_factor neg * (i.natAbs : Int) * (2 : Int) ^ s = i * (2 : Int) ^ s := by
    rw [← h, hn]
    push_cast
    ring
  exact mul_right_cancel₀ (ne_of_gt hp) h3

set_option maxRecDepth 100000 in
theorem f32_whole_zero (neg : Bool) : f32_whole (f32_sign neg 0) 0 := by
  refine ⟨149, ?_, ?_⟩ <;> cases neg <;> decide

theorem f32_whole_sign (neg : Bool) (m j : Nat) (hm : 0 < m) (hm24 : m < 2 ^ 24) :
    f32_whole (f32_sign neg (f32_round (m * 2 ^ j) (2 ^ j))) (sign_factor neg * (m : Int)) := by
  obtain ⟨L, hL, h1, h2⟩ := bit_length_exists m hm
  have hL24 : L ≤ 24 := by
    by_contra hc
    have : 2 ^ 24 ≤ 2 ^ (L - 1) := Nat.pow_le_pow_right (by decide) (by omega)
    omega
  unfold f32_whole
  rw [f32_round_whole m j L hL hL24 h1 h2, f32_unpack_whole neg m L hL hL24 h1 h2]
  refine ⟨24 - L, rfl, ?_⟩
  show sign_factor neg * ((m * 2 ^ (24 - L) : Nat) : Int) = _
  push_cast
  ring

theorem f32_whole_pack (neg : Bool) (m j : Nat) (hm24 : m < 2 ^ 24) :
    f32_whole (f32_pack neg (m * 2 ^ j) (2 ^ j)) (sign_factor neg * (m : Int)) := by
  have hj : 2 ^ j ≠ 0 := Nat.pos_iff_ne_zero.mp (Nat.two_pow_pos j)
  unfold f32_pack
  rw [if_neg hj]
  by_cases h0 : m = 0
  · subst h0
    rw [if_pos (Nat.zero_mul _)]
    have := f32_whole_zero neg
    simpa using this
  · rw [if_neg (Nat.mul_ne_zero h0 hj)]
    exact f32_whole_sign neg m j (Nat.pos_of_ne_zero h0) hm24

theorem f32_whole_of_int (i : Int) (h : i.natAbs < 2 ^ 24) : f32_whole (f32_of_int i) i := by
  have := f32_whole_pack (decide (i < 0)) i.natAbs 0 h
  rw [sign_factor_abs, pow_zero, Nat.mul_one] at this
  exact this

theorem f32_whole_mul (a b : c_float) (i k : Int) (ha : f32_whole a i) (hb : f32_whole b k)
    (h : (i * k).natAbs < 2 ^ 24) : f32_whole (f32_mul a b) (i * k) := by
  obtain ⟨s, ds, vs⟩ := ha
  obtain ⟨t, dt, vt⟩ := hb
  obtain ⟨ns, ss⟩ := whole_num _ _ _ _ vs
  obtain ⟨nt, st⟩ := whole_num _ _ _ _ vt
  unfold f32_mul
  simp only []
  rw [ds, dt, ns, nt]
  have e1 : i.natAbs * 2 ^ s * (k.natAbs * 2 ^ t) = (i * k).natAbs * 2 ^ (s + t) := by
    rw [Int.natAbs_mul, pow_add]
    ring
  have e2 : 2 ^ s * 2 ^ t = 2 ^ (s + t) := (pow_add 2 s t).symm
  rw [e1, e2]
  have := f32_whole_pack (xor (f32_unpack a).1 (f32_unpack b).1) (i * k).natAbs (s + t) h
  rw [sign_factor_xor, Int.natAbs_mul] at this
  have e3 : sign_factor (f32_unpack a).1 * sign_factor (f32_unpack b).1 *
      ((i.natAbs * k.natAbs : Nat) : Int) = i * k := by
    rw [Nat.cast_mul]
    calc sign_factor (f32_unpack a).1 * sign_factor (f32_unpack b).1 *
          ((i.natAbs : Int) * (k.natAbs : Int))
        = (sign_factor (f32_unpack a).1 * (i.natAbs : Int)) *
          (sign_factor (f32_unpack b).1 * (k.natAbs : Int)) := by ring
      _ = i * k := by rw [ss, st]
  rw [e3, ← Int.natAbs_mul] at this
  exact this

theorem f32_whole_add (a b : c_float) (i k : Int) (ha : f32_whole a i) (hb : f32_whole b k)
    (h : (i + k).natAbs < 2 ^ 24) : f32_whole (f32_add a b) (i + k) := by
  obtain ⟨s, ds, vs⟩ := ha
  obtain ⟨t, dt, vt⟩ := hb
  have hs : 2 ^ s ≠ 0 := Nat.pos_iff_ne_zero.mp (Nat.two_pow_pos s)
  have ht : 2 ^ t ≠ 0 := Nat.pos_iff_ne_zero.mp (Nat.two_pow_pos t)
  have hn : sign_factor (f32_unpack a).1 * (((f32_unpack a).2.1 * (f32_unpack b).2.2 : Nat) : Int) +
      sign_factor (f32_unpack b).1 * (((f32_unpack b).2.1 * (f32_unpack a).2.2 : Nat) : Int) =
      (i + k) * (2 : Int) ^ (s + t) := by
    rw [ds, dt]
    push_cast
    calc sign_factor (f32_unpack a).1 * (((f32_unpack a).2.1 : Int) * (2 : Int) ^ t) +
          sign_factor (f32_unpack b).1 * (((f32_unpack b).2.1 : Int) * (2 : Int) ^ s)
        = (sign_factor (f32_unpack a).1 * ((f32_unpack a).2.1 : Int)) * (2 : Int) ^ t +
          (sign_factor (f32_unpack b).1 * ((f32_unpack b).2.1 : Int)) * (2 : Int) ^ s := by ring
      _ = (i + k) * (2 : Int) ^ (s + t) := by
        rw [vs, vt, pow_add]
        ring
  unfold f32_add
  simp only []
  rw [if_neg (by rw [ds, dt]; exact fun h => h.elim hs ht), hn]
  have hp : (0 : Int) < (2 : Int) ^ (s + t) := by positivity
  by_cases h0 : i + k = 0
  · rw [h0, Int.zero_mul, if_pos rfl]
    exact f32_whole_zero _
  · rw [if_neg (mul_ne_zero h0 (ne_of_gt hp)), ds, dt, ← pow_add]
    have e1 : ((i + k) * (2 : Int) ^ (s + t)).natAbs = (i + k).natAbs * 2 ^ (s + t) := by
      rw [Int.natAbs_mul, Int.natAbs_pow]
      rfl
    have e2 : decide ((i + k) * (2 : Int) ^ (s + t) < 0) = decide (i + k < 0) := by
      congr 1
      exact propext ⟨fun hlt => by
          by_contra hc
          exact absurd hlt (not_lt.mpr (mul_nonneg (not_lt.mp hc) (le_of_lt hp))),
        fun hlt => mul_neg_of_neg_of_pos hlt hp⟩
    rw [e1, e2]
    have := f32_whole_pack (decide (i + k < 0)) (i + k).natAbs (s + t) h
    rw [sign_factor_abs] at this
    exact this

theorem f32_whole_to_int (y : c_float) (i : Int) (h : f32_whole y i) : f32_to_int y = i := by
  obtain ⟨s, ds, vs⟩ := h
  obtain ⟨ns, ss⟩ := whole_num _ _ _ _ vs
  unfold f32_to_int
  simp only []
  rw [if_neg (by rw [ds]; exact Nat.pos_iff_ne_zero.mp (Nat.two_pow_pos s)), ds, ns,
    Nat.mul_div_cancel _ (Nat.two_pow_pos s)]
  exact ss

/-- The comparison that finds the binade, in one form. -/
theorem round_ge_iff (num den E m : Nat) (l : Int) (hl : l = (m : Int) - (E : Int)) :
    (if l < 0 then decide (num * 2 ^ (-l).toNat ≥ den) else decide (num ≥ den * 2 ^ l.toNat)) =
      decide (den * 2 ^ m ≤ num * 2 ^ E) := by
  by_cases h : l < 0
  · rw [if_pos h]
    have hk : (-l).toNat = E - m := by omega
    have hE : E = (E - m) + m := by omega
    rw [hk]
    congr 1
    apply propext
    rw [ge_iff_le]
    conv_rhs => rw [hE, pow_add, ← Nat.mul_assoc]
    exact ⟨fun h2 => Nat.mul_le_mul_right _ h2, fun h2 => Nat.le_of_mul_le_mul_right h2 (Nat.two_pow_pos m)⟩
  · rw [if_neg h]
    have hk : l.toNat = m - E := by omega
    have hm : m = (m - E) + E := by omega
    rw [hk]
    congr 1
    apply propext
    rw [ge_iff_le]
    conv_rhs => rw [hm, pow_add, ← Nat.mul_assoc]
    exact ⟨fun h2 => Nat.mul_le_mul_right _ h2, fun h2 => Nat.le_of_mul_le_mul_right h2 (Nat.two_pow_pos E)⟩

theorem round_tail_same (X den Q E : Nat) (hQ2 : Q < 16777216) (hE2 : E ≤ 148)
    (h1 : 4 * (Q * den) < 4 * X + den) (h2 : 4 * X < 4 * (Q * den) + den) :
    min ((149 - E) * 8388608 +
        if 2 * (X % den) > den ∨ 2 * (X % den) = den ∧ X / den % 2 = 1 then X / den + 1
        else X / den) 2139095040 = (149 - E) * 8388608 + Q := by
  have hdm := Nat.div_add_mod X den
  by_cases hc : Q * den ≤ X
  · have hq : X / den = Q :=
      Nat.div_eq_of_lt_le hc (by rw [Nat.add_mul, Nat.one_mul]; omega)
    rw [hq, Nat.mul_comm den Q] at hdm
    rw [hq]
    generalize X % den = r at hdm ⊢
    rw [if_neg (by omega)]
    omega
  · obtain ⟨Q', rfl⟩ : ∃ Q', Q = Q' + 1 := ⟨Q - 1, by
      rcases Nat.eq_zero_or_pos Q with h | h
      · rw [h, Nat.zero_mul] at hc
        exact absurd (Nat.zero_le _) hc
      · omega⟩
    rw [Nat.add_mul, Nat.one_mul] at h1 h2 hc
    have hq : X / den = Q' :=
      Nat.div_eq_of_lt_le (by omega) (by rw [Nat.add_mul, Nat.one_mul]; omega)
    rw [hq, Nat.mul_comm den Q'] at hdm
    rw [hq]
    generalize X % den = r at hdm ⊢
    rw [if_pos (Or.inl (by omega))]
    omega

theorem round_tail_below (X den E : Nat) (hE2 : E ≤ 148)
    (h1 : 4 * (8388608 * den) < 4 * X + den) (hlt : X < 8388608 * den) :
    min ((148 - E) * 8388608 +
        if 2 * (X * 2 % den) > den ∨ 2 * (X * 2 % den) = den ∧ X * 2 / den % 2 = 1
          then X * 2 / den + 1
        else X * 2 / den) 2139095040 = (149 - E) * 8388608 + 8388608 := by
  have hdm2 := Nat.div_add_mod (X * 2) den
  have hq : X * 2 / den = 16777215 :=
    Nat.div_eq_of_lt_le (by omega) (by omega)
  rw [hq] at hdm2 ⊢
  generalize X * 2 % den = r at hdm2 ⊢
  rw [if_pos (Or.inl (by omega))]
  omega

/-- The rounding of a fraction that lies within a quarter of a unit in the
last place of the normal binary32 value `Q * 2^(-E)`. -/
theorem f32_round_near (num den Q E : Nat) (hQ1 : 8388608 ≤ Q) (hQ2 : Q < 16777216)
    (hE1 : 1 ≤ E) (hE2 : E ≤ 148) (hden : 0 < den)
    (h1 : 4 * (Q * den) < 4 * (num * 2 ^ E) + den)
    (h2 : 4 * (num * 2 ^ E) < 4 * (Q * den) + den) :
    f32_round num den = (149 - E) * 8388608 + Q := by
  have hQD1 : 8388608 * den ≤ Q * den := Nat.mul_le_mul_right den hQ1
  have hQD2 : Q * den + den ≤ 16777216 * den := by
    have := Nat.mul_le_mul_right den (show Q + 1 ≤ 16777216 by omega)
    rw [Nat.add_mul, Nat.one_mul] at this
    exact this
  have hnum : 0 < num := by
    rcases Nat.eq_zero_or_pos num with h | h
    · rw [h, Nat.zero_mul] at h1
      omega
    · exact h
  obtain ⟨ha1, ha2, ha3⟩ := bit_length_spec (num + 1) num (Nat.lt_succ_self _) hnum
  obtain ⟨hb1, hb2, hb3⟩ := bit_length_spec (den + 1) den (Nat.lt_succ_self _) hden
  unfold f32_round
  generalize bit_length (num + 1) num = a at ha1 ha2 ha3 ⊢
  generalize bit_length (den + 1) den = b at hb1 hb2 hb3 ⊢
  have hX1 : num * 2 ^ E < 2 ^ (a + E) := by
    rw [pow_add]
    exact Nat.mul_lt_mul_of_pos_right ha2 (Nat.two_pow_pos E)
  have hX2 : 2 ^ (a - 1 + E) ≤ num * 2 ^ E := by
    rw [pow_add]
    exact Nat.mul_le_mul_right _ ha1
  have hlo : b + 22 ≤ a + E := by
    by_contra hc
    have e1 : 2 ^ (a + E) ≤ 2 ^ (b + 21) := Nat.pow_le_pow_right (by decide) (by omega)
    have e2 : 2 ^ (b + 21) = 4194304 * 2 ^ (b - 1) := by
      rw [show b + 21 = 22 + (b - 1) by omega, pow_add]
      norm_num
    have e3 := Nat.mul_le_mul_left 4194304 hb1
    omega
  have hhi : a + E ≤ b + 24 := by
    by_contra hc
    have e1 : 2 ^ (b + 24) ≤ 2 ^ (a - 1 + E) := Nat.pow_le_pow_right (by decide) (by omega)
    have e2 : 2 ^ (b + 24) = 16777216 * 2 ^ b := by
      rw [show b + 24 = 24 + b by omega, pow_add]
      norm_num
    have e3 := Nat.mul_le_mul_left 16777216 (Nat.le_of_lt hb2)
    omega
  have hge := round_ge_iff num den E (a + E - b) ((a : Int) - (b : Int)) (by omega)
  have hp : ∃ p : Int,
      (if decide (den * 2 ^ (a + E - b) ≤ num * 2 ^ E) = true then (a : Int) - (b : Int)
        else (a : Int) - (b : Int) - 1) = p ∧
      (p = 23 - (E : Int) ∨ (p = 22 - (E : Int) ∧ num * 2 ^ E < 8388608 * den)) := by
    have hm : a + E - b = 22 ∨ a + E - b = 23 ∨ a + E - b = 24 := by omega
    rcases hm with hm | hm | hm
    · rw [hm]
      have hG : den * 2 ^ 22 ≤ num * 2 ^ E := by
        norm_num
        omega
      rw [decide_eq_true hG, if_pos rfl]
      refine ⟨_, rfl, Or.inr ⟨by omega, ?_⟩⟩
      have e1 : 2 ^ (a + E) = 8388608 * 2 ^ (b - 1) := by
        rw [show a + E = 23 + (b - 1) by omega, pow_add]
        norm_num
      have e3 := Nat.mul_le_mul_left 8388608 hb1
      omega
    · rw [hm]
      by_cases hG : den * 2 ^ 23 ≤ num * 2 ^ E
      · rw [decide_eq_true hG, if_pos rfl]
        exact ⟨_, rfl, Or.inl (by omega)⟩
      · rw [decide_eq_false hG, if_neg (by decide)]
        refine ⟨_, rfl, Or.inr ⟨by omega, ?_⟩⟩
        norm_num at hG
        omega
    · rw [hm]
      have hG : ¬ den * 2 ^ 24 ≤ num * 2 ^ E := by
        norm_num
        omega
      rw [decide_eq_false hG, if_neg (by decide)]
      exact ⟨_, rfl, Or.inl (by omega)⟩
  obtain ⟨p, hpe, hpc⟩ := hp
  simp only [hge, hpe]
  rcases hpc with hp23 | ⟨hp22, hlt⟩
  · subst hp23
    have he : max ((23 : Int) - (E : Int) - 23) (-149) = -(E : Int) := by omega
    have hneg : -(E : Int) < 0 := by omega
    have ht1 : (-(-(E : Int))).toNat = E := by omega
    have ht2 : (-(E : Int) + 149).toNat = 149 - E := by omega
    simp only [he, hneg, if_true, ht1, ht2]
    exact round_tail_same (num * 2 ^ E) den Q E hQ2 hE2 h1 h2
  · subst hp22
    have hQ : Q = 8388608 := by
      by_contra hne
      have := Nat.mul_le_mul_right den (show 8388609 ≤ Q by omega)
      omega
    subst hQ
    have he : max ((22 : Int) - (E : Int) - 23) (-149) = -(E : Int) - 1 := by omega
    have hneg : -(E : Int) - 1 < 0 := by omega
    have ht1 : (-(-(E : Int) - 1)).toNat = E + 1 := by omega
    have ht2 : (-(E : Int) - 1 + 149).toNat = 148 - E := by omega
    have e2 : num * 2 ^ (E + 1) = num * 2 ^ E * 2 := by rw [pow_succ, Nat.mul_assoc]
    simp only [he, hneg, if_true, ht1, ht2, e2]
    exact round_tail_below (num * 2 ^ E) den E hE2 h1 hlt

/-- The rounding of an integer of more than 24 bits whose low bits are 0. -/
theorem f32_round_int (i L q : Nat) (hL : 25 ≤ L) (hL2 : L ≤ 127)
    (h1 : 2 ^ (L - 1) ≤ i) (h2 : i < 2 ^ L) (hq : i = q * 2 ^ (L - 24)) :
    f32_round i 1 = (L + 125) * 8388608 + q := by
  have hb1 : bit_length (i + 1) i = L := bit_length_eq i L (by omega) h1 h2
  have hb2 : bit_length (1 + 1) 1 = 1 := by decide
  have hl : ((L : Nat) : Int) - ((1 : Nat) : Int) = (L : Int) - 1 := by push_cast; ring
  have hneg : ¬ ((L : Int) - 1 < 0) := by omega
  have htn : ((L : Int) - 1).toNat = L - 1 := by omega
  have hdec : decide (i ≥ 2 ^ (L - 1)) = true := by
    rw [decide_eq_true_eq]
    exact h1
  have he : max ((L : Int) - 1 - 23) (-149) = (L : Int) - 24 := by omega
  have hneg2 : ¬ ((L : Int) - 24 < 0) := by omega
  have ht1 : ((L : Int) - 24).toNat = L - 24 := by omega
  have ht2 : ((L : Int) - 24 + 149).toNat = L + 125 := by omega
  have hpos : 0 < 2 ^ (L - 24) := Nat.two_pow_pos _
  have hq2 : q < 16777216 := by
    by_contra hc
    have e1 : 16777216 * 2 ^ (L - 24) ≤ q * 2 ^ (L - 24) :=
      Nat.mul_le_mul_right _ (by omega)
    have e2 : 2 ^ L = 16777216 * 2 ^ (L - 24) := by
      rw [show L = 24 + (L - 24) by omega, pow_add]
      norm_num
    omega
  unfold f32_round
  rw [hb1, hb2, hl]
  simp only [hneg, if_false, htn, hdec, if_true, he, hneg2, ht1, ht2, Nat.one_mul]
  rw [hq, Nat.mul_div_cancel _ hpos, Nat.mul_mod_left]
  rw [if_neg (by omega)]
  omega

theorem f32_unpack_int (q L : Nat) (hL : 25 ≤ L) (hL2 : L ≤ 127)
    (hq1 : 8388608 ≤ q) (hq2 : q < 16777216) :
    f32_unpack (f32_sign false ((L + 125) * 8388608 + q)) = (false, q * 2 ^ (L - 24), 1) := by
  unfold f32_unpack f32_sign
  have a1 : ((L + 125) * 8388608 + q) / 2147483648 % 2 = 0 := by omega
  have a2 : ((L + 125) * 8388608 + q) / 8388608 % 256 = L + 126 := by omega
  have a3 : ((L + 125) * 8388608 + q) % 8388608 = q - 8388608 := by omega
  simp only [Bool.false_eq_true, if_false, a1, a2, a3]
  simp only [show 8388608 + (q - 8388608) = q by omega,
    show L + 126 - 150 = L - 24 by omega]
  rw [if_neg (by omega), if_neg (by omega), if_pos (by omega)]
  simp

/-- The conversion of `n * 1000000` to `float` is exact for `n` up to 1073
(`n * 15625` is below `2^24`). -/
theorem f32_whole_micros (n : Nat) (hn : n ≤ 1073) :
    f32_whole (f32_of_int ((n * 1000000 : Nat) : Int)) ((n * 1000000 : Nat) : Int) := by
  rcases Nat.eq_zero_or_pos n with h0 | hpos
  · subst h0
    exact f32_whole_of_int _ (by decide)
  · obtain ⟨L, hL, h1, h2⟩ := bit_length_exists (n * 1000000) (by omega)
    by_cases h24 : L ≤ 24
    · apply f32_whole_of_int
      have : 2 ^ L ≤ 2 ^ 24 := Nat.pow_le_pow_right (by decide) h24
      rw [Int.natAbs_ofNat]
      omega
    · have hL30 : L ≤ 30 := by
        by_contra hc
        have : 2 ^ 30 ≤ 2 ^ (L - 1) := Nat.pow_le_pow_right (by decide) (by omega)
        norm_num at this
        omega
      have hq : n * 1000000 = n * 15625 * 2 ^ (30 - L) * 2 ^ (L - 24) := by
        rw [Nat.mul_assoc (n * 15625), ← pow_add, show 30 - L + (L - 24) = 6 by omega]
        norm_num
        ring
      have hr := f32_round_int (n * 1000000) L (n * 15625 * 2 ^ (30 - L)) (by omega) (by omega)
        h1 h2 hq
      have hq1 : 8388608 ≤ n * 15625 * 2 ^ (30 - L) := by
        by_contra hc
        have e1 : n * 15625 * 2 ^ (30 - L) * 2 ^ (L - 24) < 8388608 * 2 ^ (L - 24) :=
          Nat.mul_lt_mul_of_pos_right (by omega) (Nat.two_pow_pos _)
        have e2 : 2 ^ (L - 1) = 8388608 * 2 ^ (L - 24) := by
          rw [show L - 1 = 23 + (L - 24) by omega, pow_add]
          norm_num
        omega
      have hq2 : n * 15625 * 2 ^ (30 - L) < 16777216 := by
        by_contra hc
        have e1 : 16777216 * 2 ^ (L - 24) ≤ n * 15625 * 2 ^ (30 - L) * 2 ^ (L - 24) :=
          Nat.mul_le_mul_right _ (by omega)
        have e2 : 2 ^ L = 16777216 * 2 ^ (L - 24) := by
          rw [show L = 24 + (L - 24) by omega, pow_add]
          norm_num
        omega
      have hne : n * 1000000 ≠ 0 := by omega
      refine ⟨0, ?_, ?_⟩
      · show (f32_unpack (f32_pack (decide (((n * 1000000 : Nat) : Int) < 0))
          ((n * 1000000 : Nat) : Int).natAbs 1)).2.2 = 2 ^ 0
        rw [Int.natAbs_ofNat]
        unfold f32_pack
        rw [if_neg (by decide), if_neg hne, hr,
          show decide (((n * 1000000 : Nat) : Int) < 0) = false from
            decide_eq_false (by omega),
          f32_unpack_int _ L (by omega) (by omega) hq1 hq2]
        rfl
      · show sign_factor (f32_unpack (f32_pack (decide (((n * 1000000 : Nat) : Int) < 0))
          ((n * 1000000 : Nat) : Int).natAbs 1)).1 * ((f32_unpack (f32_pack
          (decide (((n * 1000000 : Nat) : Int) < 0))
          ((n * 1000000 : Nat) : Int).natAbs 1)).2.1 : Int) = _
        rw [Int.natAbs_ofNat]
        unfold f32_pack
        rw [if_neg (by decide), if_neg hne, hr,
          show decide (((n * 1000000 : Nat) : Int) < 0) = false from
            decide_eq_false (by omega),
          f32_unpack_int _ L (by omega) (by omega) hq1 hq2]
        show (1 : Int) * ((n * 15625 * 2 ^ (30 - L) * 2 ^ (L - 24) : Nat) : Int) = _
        rw [← hq]
        simp

set_option maxRecDepth 100000 in
theorem f32_lit_micro : f32_unpack (f32_lit 1 6) = (false, 8796093, 8796093022208) := by
  decide

theorem f32_of_nat_bits (n L : Nat) (hL : 1 ≤ L) (hL24 : L ≤ 24)
    (h1 : 2 ^ (L - 1) ≤ n) (h2 : n < 2 ^ L) :
    f32_of_int (n : Int) = f32_sign false ((L + 125) * 8388608 + n * 2 ^ (24 - L)) := by
  have hn : n ≠ 0 := by
    have := Nat.two_pow_pos (L - 1)
    omega
  have hr := f32_round_whole n 0 L hL hL24 h1 h2
  rw [pow_zero, Nat.mul_one] at hr
  unfold f32_of_int f32_pack
  rw [Int.natAbs_ofNat, if_neg (by decide), if_neg hn, hr,
    show decide ((n : Int) < 0) = false from decide_eq_false (by omega)]

/-- The duration of a window of `n` whole seconds, `1.0e-6 * (n * 1000000)`,
is the binary32 value `n`, for `n` up to 1073: the conversion of
`n * 1000000` is exact and the product with the binary32 value of `1.0e-6`
(`8796093 / 2^43`, which is `(1 - 22208 / 2^43) * 1.0e-6`) rounds to `n`. -/
theorem accum_time_seconds (n : Nat) (hn : n ≤ 1073) :
    accum_time_of ieee_ops (n * 1000000) = f32_of_int (n : Int) := by
  rcases Nat.eq_zero_or_pos n with h0 | hpos
  · subst h0
    decide
  · obtain ⟨s, ds, vs⟩ := f32_whole_micros n hn
    obtain ⟨ns, ss⟩ := whole_num _ _ _ _ vs
    rw [Int.natAbs_ofNat] at ns ss
    have hneg : (f32_unpack (f32_of_int ((n * 1000000 : Nat) : Int))).1 = false := by
      cases hb : (f32_unpack (f32_of_int ((n * 1000000 : Nat) : Int))).1 with
      | false => rfl
      | true =>
        rw [hb] at ss
        simp only [sign_factor, if_true] at ss
        omega
    obtain ⟨L, hL, h1, h2⟩ := bit_length_exists n hpos
    have hL11 : L ≤ 11 := by
      by_contra hc
      have : 2 ^ 11 ≤ 2 ^ (L - 1) := Nat.pow_le_pow_right (by decide) (by omega)
      norm_num at this
      omega
    have hQ1 : 8388608 ≤ n * 2 ^ (24 - L) := by
      have : 2 ^ (L - 1) * 2 ^ (24 - L) ≤ n * 2 ^ (24 - L) := Nat.mul_le_mul_right _ h1
      rw [← pow_add, show L - 1 + (24 - L) = 23 by omega] at this
      exact this
    have hQ2 : n * 2 ^ (24 - L) < 16777216 := by
      have : n * 2 ^ (24 - L) < 2 ^ L * 2 ^ (24 - L) :=
        Nat.mul_lt_mul_of_pos_right h2 (Nat.two_pow_pos _)
      rw [← pow_add, show L + (24 - L) = 24 by omega] at this
      exact this
    have hS : 0 < 2 ^ s := Nat.two_pow_pos s
    have hW : n * 2 ^ (24 - L) * 2 ^ s ≤ 16777215 * 2 ^ s :=
      Nat.mul_le_mul_right _ (by omega)
    have eQD : n * 2 ^ (24 - L) * (8796093022208 * 2 ^ s) =
        8796093022208 * (n * 2 ^ (24 - L) * 2 ^ s) := by ring
    have eN : 8796093 * (n * 1000000 * 2 ^ s) * 2 ^ (24 - L) =
        8796093000000 * (n * 2 ^ (24 - L) * 2 ^ s) := by ring
    have hr := f32_round_near (8796093 * (n * 1000000 * 2 ^ s)) (8796093022208 * 2 ^ s)
      (n * 2 ^ (24 - L)) (24 - L) hQ1 hQ2 (by omega) (by omega) (by omega)
      (by rw [eQD, eN]; omega) (by rw [eQD, eN]; omega)
    rw [show 149 - (24 - L) = L + 125 by omega] at hr
    rw [f32_of_nat_bits n L hL (by omega) h1 h2]
    show f32_mul (f32_lit 1 6) (f32_of_int ((n * 1000000 : Nat) : Int)) = _
    unfold f32_mul
    simp only [f32_lit_micro, ds, ns, hneg]
    unfold f32_pack
    rw [if_neg (by omega), if_neg (by
      have : 0 < n * 1000000 * 2 ^ s := Nat.mul_pos (by omega) hS
      omega), hr]
    rfl

/-! # The energy of a window with a whole number of watt-seconds -/

/-- The addition `energy_fracac += accum_time * pow_ac` in binary32 when the
product is the whole number `k`: the counter becomes `f + k`. -/
theorem energy_add_whole (f k : Int) (t P : c_float) (hy : f32_whole (f32_mul t P) k)
    (hf : fits_int16 f) (hs : fits_int16 (f + k)) : energy_add ieee_ops f t P = f + k := by
  unfold fits_int16 at hf hs
  have h1 := f32_whole_of_int f (by norm_num; omega)
  have h2 := f32_whole_add _ _ f k h1 hy (by norm_num; omega)
  show to_int16 (f32_to_int (f32_add (f32_of_int f) (f32_mul t P))) = f + k
  rw [f32_whole_to_int _ _ h2, to_int16_small _ hs.1 hs.2]

theorem carry_rest_range (x : Int) :
    -3600 ≤ x - 3600 * carry_count x ∧ x - 3600 * carry_count x ≤ 3600 := by
  obtain ⟨a, b, c⟩ := carry_count_rest x
  rcases lt_trichotomy 3600 x with h | h | h
  · have := a h
    omega
  · have := c (by omega) (by omega)
    omega
  · by_cases h2 : x < -3600
    · have := b h2
      omega
    · have := c (by omega) (by omega)
      omega

/-- Two windows against one window when the energies of the windows are
whole numbers of one sign, in binary32. -/
theorem energy_split_core (t1 t2 t P : c_float) (f E k1 k2 : Int)
    (hf : -3600 ≤ f ∧ f ≤ 3600) (hE : fits_int32 E)
    (hsign : (0 ≤ k1 ∧ 0 ≤ k2) ∨ (k1 ≤ 0 ∧ k2 ≤ 0))
    (hk : -29000 ≤ k1 + k2 ∧ k1 + k2 ≤ 29000)
    (w1 : f32_whole (f32_mul t1 P) k1) (w2 : f32_whole (f32_mul t2 P) k2)
    (w : f32_whole (f32_mul t P) (k1 + k2))
    (hw : fits_int32 (E + carry_count (f + (k1 + k2)))) :
    ∃ a b, energy_step ieee_ops t1 P (f, E) = some a ∧
      energy_step ieee_ops t2 P a = some b ∧
      energy_step ieee_ops t P (f, E) = some b ∧
      3600 * b.2 + b.1 = 3600 * E + f + (k1 + k2) := by
  have hr := carry_rest_range (f + k1)
  exact energy_split_whole ieee_ops t1 t2 t P f E k1 k2 hf hE hsign
    (energy_add_whole f k1 t1 P w1 (by unfold fits_int16; omega) (by unfold fits_int16; omega))
    (energy_add_whole _ k2 t2 P w2 (by unfold fits_int16; omega) (by unfold fits_int16; omega))
    (energy_add_whole f (k1 + k2) t P w (by unfold fits_int16; omega)
      (by unfold fits_int16; omega)) hw

theorem whole_watts_bound (n : Nat) (p : Int) (hn : 1 ≤ n)
    (hp : -29000 ≤ (n : Int) * p ∧ (n : Int) * p ≤ 29000) : -29000 ≤ p ∧ p ≤ 29000 := by
  have h1 : (1 : Int) ≤ (n : Int) := by exact_mod_cast hn
  constructor
  · by_contra hc
    have : (n : Int) * p ≤ 1 * p := by
      apply mul_le_mul_of_nonpos_right h1
      omega
    omega
  · by_contra hc
    have : 1 * p ≤ (n : Int) * p := by
      apply mul_le_mul_of_nonneg_right h1
      omega
    omega

/-- The energy of a window of `n` whole seconds at `p` whole watts. -/
theorem window_energy_whole (n : Nat) (p : Int) (hn1 : 1 ≤ n) (hn : n ≤ 1073)
    (hp : -29000 ≤ (n : Int) * p ∧ (n : Int) * p ≤ 29000) :
    f32_whole (f32_mul (accum_time_of ieee_ops (n * 1000000)) (f32_of_int p)) ((n : Int) * p) := by
  have hb := whole_watts_bound n p hn1 hp
  rw [accum_time_seconds n hn]
  exact f32_whole_mul _ _ _ _ (f32_whole_of_int _ (by norm_num; omega))
    (f32_whole_of_int _ (by norm_num; omega)) (by norm_num; omega)

theorem split_products (n1 n2 : Nat) (p : Int) :
    ((n1 + n2 : Nat) : Int) * p = (n1 : Int) * p + (n2 : Int) * p ∧
    ((0 ≤ (n1 : Int) * p ∧ 0 ≤ (n2 : Int) * p) ∨ ((n1 : Int) * p ≤ 0 ∧ (n2 : Int) * p ≤ 0)) := by
  refine ⟨by push_cast; ring, ?_⟩
  by_cases h : 0 ≤ p
  · exact Or.inl ⟨mul_nonneg (Int.ofNat_nonneg _) h, mul_nonneg (Int.ofNat_nonneg _) h⟩
  · exact Or.inr ⟨mul_nonpos_of_nonneg_of_nonpos (Int.ofNat_nonneg _) (by omega),
      mul_nonpos_of_nonneg_of_nonpos (Int.ofNat_nonneg _) (by omega)⟩

/-- Claim C26, amended: in the binary32 arithmetic of the target, a constant
power of `p` whole watts integrated over windows of `n1` and `n2` whole
seconds (each at least 1, together at most 1073, so that the microsecond
count is converted to `float` without rounding, and `|p * (n1 + n2)|` at most
29000, so that the 16-bit fractional counter does not wrap), from a fractional
counter `f` between -3600 and 3600 and without a wrap of the integer counter:
the two windows in sequence and the single window of `n1 + n2` seconds leave
the pair (fractional counter, integer counter) in the same state, and
`3600 * E + f` has changed by exactly `p * (n1 + n2)`, that is P×T.  More
generally, for windows of any durations `dt1`, `dt2` (microseconds) and any
power `P`: if the products `accum_time * P` of the two windows and of the
single window are the whole numbers `k1`, `k2` and `k1 + k2`, with `k1` and
`k2` of one sign, the same holds and the change is the value of
`accum_time * P` of the single window.  For every duration and every power,
a window leaves `3600 * E + f` at `3600 * E` plus the `float` sum of `f` and
`accum_time * P` converted to `int16_t`: when the product has a fraction, the
conversion discards it in every window, and the result depends on the
split. -/
theorem energy_split_exact (n1 n2 : Nat) (p f E : Int)
    (hn1 : 1 ≤ n1) (hn2 : 1 ≤ n2) (hn : n1 + n2 ≤ 1073)
    (hp : -29000 ≤ ((n1 + n2 : Nat) : Int) * p ∧ ((n1 + n2 : Nat) : Int) * p ≤ 29000)
    (hf : -3600 ≤ f ∧ f ≤ 3600) (hE : fits_int32 E)
    (hw : fits_int32 (E + carry_count (f + ((n1 + n2 : Nat) : Int) * p))) :
    (∃ a b,
      energy_step ieee_ops (accum_time_of ieee_ops (n1 * 1000000)) (f32_of_int p) (f, E) =
        some a ∧
      energy_step ieee_ops (accum_time_of ieee_ops (n2 * 1000000)) (f32_of_int p) a =
        some b ∧
      energy_step ieee_ops (accum_time_of ieee_ops ((n1 + n2) * 1000000)) (f32_of_int p)
        (f, E) = some b ∧
      3600 * b.2 + b.1 = 3600 * E + f + ((n1 + n2 : Nat) : Int) * p) ∧
    (∀ (dt1 dt2 : Nat) (P : c_float) (k1 k2 : Int),
      dt1 + dt2 < 4294967296 →
      ((0 ≤ k1 ∧ 0 ≤ k2) ∨ (k1 ≤ 0 ∧ k2 ≤ 0)) →
      (-29000 ≤ k1 + k2 ∧ k1 + k2 ≤ 29000) →
      f32_mul (accum_time_of ieee_ops dt1) P = f32_of_int k1 →
      f32_mul (accum_time_of ieee_ops dt2) P = f32_of_int k2 →
      f32_mul (accum_time_of ieee_ops (dt1 + dt2)) P = f32_of_int (k1 + k2) →
      fits_int32 (E + carry_count (f + (k1 + k2))) →
      ∃ a b,
        energy_step ieee_ops (accum_time_of ieee_ops dt1) P (f, E) = some a ∧
        energy_step ieee_ops (accum_time_of ieee_ops dt2) P a = some b ∧
        energy_step ieee_ops (accum_time_of ieee_ops (dt1 + dt2)) P (f, E) = some b ∧
        3600 * b.2 + b.1 =
          3600 * E + f + f32_to_int (f32_mul (accum_time_of ieee_ops (dt1 + dt2)) P)) ∧
    ∀ (dt : Nat) (P : c_float),
      fits_int32 (E + carry_count (to_int16 (f32_to_int
        (f32_add (f32_of_int f) (f32_mul (accum_time_of ieee_ops dt) P))))) →
      ∃ b, energy_step ieee_ops (accum_time_of ieee_ops dt) P (f, E) = some b ∧
        3600 * b.2 + b.1 = 3600 * E + to_int16 (f32_to_int
          (f32_add (f32_of_int f) (f32_mul (accum_time_of ieee_ops dt) P))) := by
  refine ⟨?_, ?_, ?_⟩
  · obtain ⟨hsum, hsign⟩ := split_products n1 n2 p
    rw [hsum] at hp hw ⊢
    have hk1 : -29000 ≤ (n1 : Int) * p ∧ (n1 : Int) * p ≤ 29000 := by omega
    have hk2 : -29000 ≤ (n2 : Int) * p ∧ (n2 : Int) * p ≤ 29000 := by omega
    have w := window_energy_whole (n1 + n2) p (by omega) hn (by rw [hsum]; exact hp)
    rw [hsum] at w
    exact energy_split_core _ _ _ _ f E _ _ hf hE hsign hp
      (window_energy_whole n1 p hn1 (by omega) hk1)
      (window_energy_whole n2 p hn2 (by omega) hk2) w hw
  · intro dt1 dt2 P k1 k2 _ hsign hk h1 h2 h hw2
    have hb1 : -29000 ≤ k1 ∧ k1 ≤ 29000 := by omega
    have hb2 : -29000 ≤ k2 ∧ k2 ≤ 29000 := by omega
    have w1 : f32_whole (f32_mul (accum_time_of ieee_ops dt1) P) k1 := by
      rw [h1]
      exact f32_whole_of_int _ (by norm_num; omega)
    have w2 : f32_whole (f32_mul (accum_time_of ieee_ops dt2) P) k2 := by
      rw [h2]
      exact f32_whole_of_int _ (by norm_num; omega)
    have w : f32_whole (f32_mul (accum_time_of ieee_ops (dt1 + dt2)) P) (k1 + k2) := by
      rw [h]
      exact f32_whole_of_int _ (by norm_num; omega)
    rw [f32_whole_to_int _ _ w]
    exact energy_split_core _ _ _ _ f E _ _ hf hE hsign hk w1 w2 w hw2
  · intro dt P hw3
    refine ⟨_, energy_step_nowrap ieee_ops (accum_time_of ieee_ops dt) P f E hE hw3, ?_⟩
    show 3600 * (E + carry_count (energy_add ieee_ops f (accum_time_of ieee_ops dt) P)) +
        (energy_add ieee_ops f (accum_time_of ieee_ops dt) P -
          3600 * carry_count (energy_add ieee_ops f (accum_time_of ieee_ops dt) P)) =
      3600 * E + energy_add ieee_ops f (accum_time_of ieee_ops dt) P
    ring

set_option maxRecDepth 100000 in
/-- Claim C26, instance: 1500 W for 1 s and then 2 s, against 1500 W for
3 s, from an empty accumulator: 4500 Ws. -/
theorem energy_split_exact_witness :
    (∃ a b,
      energy_step ieee_ops (accum_time_of ieee_ops (1 * 1000000)) (f32_of_int 1500) (0, 0) =
        some a ∧
      energy_step ieee_ops (accum_time_of ieee_ops (2 * 1000000)) (f32_of_int 1500) a =
        some b ∧
      energy_step ieee_ops (accum_time_of ieee_ops ((1 + 2) * 1000000)) (f32_of_int 1500)
        (0, 0) = some b ∧
      3600 * b.2 + b.1 = 3600 * 0 + 0 + ((1 + 2 : Nat) : Int) * 1500) ∧
    (∀ (dt1 dt2 : Nat) (P : c_float) (k1 k2 : Int),
      dt1 + dt2 < 4294967296 →
      ((0 ≤ k1 ∧ 0 ≤ k2) ∨ (k1 ≤ 0 ∧ k2 ≤ 0)) →
      (-29000 ≤ k1 + k2 ∧ k1 + k2 ≤ 29000) →
      f32_mul (accum_time_of ieee_ops dt1) P = f32_of_int k1 →
      f32_mul (accum_time_of ieee_ops dt2) P = f32_of_int k2 →
      f32_mul (accum_time_of ieee_ops (dt1 + dt2)) P = f32_of_int (k1 + k2) →
      fits_int32 (0 + carry_count (0 + (k1 + k2))) →
      ∃ a b,
        energy_step ieee_ops (accum_time_of ieee_ops dt1) P (0, 0) = some a ∧
        energy_step ieee_ops (accum_time_of ieee_ops dt2) P a = some b ∧
        energy_step ieee_ops (accum_time_of ieee_ops (dt1 + dt2)) P (0, 0) = some b ∧
        3600 * b.2 + b.1 =
          3600 * 0 + 0 + f32_to_int (f32_mul (accum_time_of ieee_ops (dt1 + dt2)) P)) ∧
    ∀ (dt : Nat) (P : c_float),
      fits_int32 (0 + carry_count (to_int16 (f32_to_int
        (f32_add (f32_of_int 0) (f32_mul (accum_time_of ieee_ops dt) P))))) →
      ∃ b, energy_step ieee_ops (accum_time_of ieee_ops dt) P (0, 0) = some b ∧
        3600 * b.2 + b.1 = 3600 * 0 + to_int16 (f32_to_int
          (f32_add (f32_of_int 0) (f32_mul (accum_time_of ieee_ops dt) P))) :=
  energy_split_exact 1 2 1500 0 0 (by decide) (by decide) (by decide)
    ⟨by decide, by decide⟩ ⟨by decide, by decide⟩ ⟨by decide, by decide⟩
    ⟨by decide, by decide⟩

end Emontx
